import Mathlib

/-!
# DMC: merge-edge annotation (`condmerge.cpp`) and the alias-aware taint map (`taint.cpp`)

A shallow embedding of the two passes.  Containers are modelled by lists:

* `std::map<K,V>` is an association list, looked up with `amFind` and written with
  `amUpdate` (which default-constructs a missing entry, as `operator[]` does);
* `std::set<T>` is a duplicate-free list, written with `setInsert`;
* `std::queue<T>` and `std::vector<T>` are lists, pushed at the back.

A terminator instruction is identified by the index of its function in the module and
the index of its basic block in the function, so that two terminators are the same
`Instruction*` exactly when both indices agree.
-/

namespace DMC

/-! ## Containers -/

/-- Lookup `m.find(k)` in a `std::map`; `none` stands for `m.end()`. -/
def amFind {K V : Type} [DecidableEq K] : List (K × V) → K → Option V
  | [], _ => none
  | (k', v) :: m, k => if k' = k then some v else amFind m k

/-- The assignment `m[k] = f(m[k])`, where `m[k]` is first created as `d` when the key is
missing (the behaviour of `std::map::operator[]`). -/
def amUpdate {K V : Type} [DecidableEq K] (d : V) (f : V → V) :
    List (K × V) → K → List (K × V)
  | [], k => [(k, f d)]
  | (k', v) :: m, k => if k' = k then (k', f v) :: m else (k', v) :: amUpdate d f m k

/-- The assignment `m[k] = v`. -/
def amSet {K V : Type} [DecidableEq K] (m : List (K × V)) (k : K) (v : V) : List (K × V) :=
  amUpdate v (fun _ => v) m k

/-- The call `s.insert(x)` on a `std::set`. -/
def setInsert {T : Type} [DecidableEq T] (s : List T) (x : T) : List T :=
  if x ∈ s then s else s ++ [x]

/-! ## `condmerge.cpp`: the IR as the pass sees it -/

/-- A terminator instruction: the terminator of block `bb` of function number `fn`. -/
structure Instr where
  fn : Nat
  bb : Nat
deriving DecidableEq, Repr

/-- The type `Edge = pair<Instruction*, int>`: a terminator and a successor index. -/
abbrev Edge := Instr × Nat

/-- Edge metadata, the tuple `(jump_id, succ_index)` of two 64-bit constants. -/
abbrev EdgeMD := Nat × Nat

/-- A function body as the pass reads it: `succs[b]` lists the successor blocks of the
terminator of block `b` in successor order; `preDom u t` is the answer of
`preDomTree->dominates(terminator of u, block t)` and `postDom u t` the answer of
`postDomTree->dominates(terminator of u, terminator of t)`, both supplied by LLVM. -/
structure Function where
  succs : List (List Nat)
  preDom : Nat → Nat → Bool
  postDom : Nat → Nat → Bool

/-- The call `getNumSuccessors()` on the terminator of block `b`. -/
def numSuccessors (F : Function) (b : Nat) : Nat :=
  (F.succs.getD b []).length

/-- The source's `dest_bb_of_edge`: `e.first->getSuccessor(e.second)`.  The pass only calls
it with `e.second < getNumSuccessors()`. -/
def dest_bb_of_edge (F : Function) (e : Edge) : Nat :=
  (F.succs.getD e.1.bb []).getD e.2 0

/-- The three-way test of `findMergeEdges` on the block `bb` entered by the current edge,
`bbTerm` being its terminator. -/
def is_merge_edge (F : Function) (jump : Instr) (bbTerm : Instr) : Bool :=
  decide (bbTerm = jump) || F.preDom bbTerm.bb jump.bb || F.postDom bbTerm.bb jump.bb

/-- The local variables of one iteration of the `iSucc` loop of `findMergeEdges`, together
with the map `bb_to_cond_paths` it receives by reference. -/
structure BfsState where
  alreadySeen : List Edge
  seenBBs : List Nat
  queue : List Edge
  mergeEdges : List Edge
  bb_to_cond_paths : List (Nat × List Edge)
deriving DecidableEq, Repr

/-- One pass through the body of `while (queue.size() > 0)`, with `curEdge` the popped front
of the queue and `rest` what remains of it. -/
def bfsStep (F : Function) (jump : Instr) (condEdge : Edge) (s : BfsState)
    (curEdge : Edge) (rest : List Edge) : BfsState :=
  if curEdge ∈ s.alreadySeen then
    { s with queue := rest }
  else
    let bb := dest_bb_of_edge F curEdge
    let bbTerm : Instr := ⟨curEdge.1.fn, bb⟩
    if is_merge_edge F jump bbTerm then
      { s with
        alreadySeen := curEdge :: s.alreadySeen
        queue := rest
        mergeEdges := s.mergeEdges ++ [curEdge] }
    else
      { alreadySeen := curEdge :: s.alreadySeen
        seenBBs := if bb ∈ s.seenBBs then s.seenBBs else bb :: s.seenBBs
        queue := rest ++ (List.range (numSuccessors F bb)).map (fun i => (bbTerm, i))
        mergeEdges := s.mergeEdges
        bb_to_cond_paths :=
          if bb ∈ s.seenBBs then s.bb_to_cond_paths
          else amUpdate [] (fun v => v ++ [condEdge]) s.bb_to_cond_paths bb }

/-- The `while (queue.size() > 0)` loop, run for at most `fuel` iterations. -/
def bfsLoop (F : Function) (jump : Instr) (condEdge : Edge) : Nat → BfsState → BfsState
  | 0, s => s
  | fuel + 1, s =>
    match s.queue with
    | [] => s
    | curEdge :: rest => bfsLoop F jump condEdge fuel (bfsStep F jump condEdge s curEdge rest)

/-- Number of control-flow edges of the function. -/
def numEdges (F : Function) : Nat :=
  (F.succs.map List.length).sum

/-- Iterations granted to the exploration loop; `bfsLoop_terminates` shows that the queue
is empty before they are used up, so the bound never cuts the loop short. -/
def bfsFuel (F : Function) : Nat :=
  numEdges F * (numEdges F + 1) + 1

/-- The exploration for one conditional edge `(jump, iSucc)`: lines 127-162 of
`findMergeEdges`. -/
def exploreFrom (F : Function) (jump : Instr) (iSucc : Nat)
    (bb_to_cond_paths : List (Nat × List Edge)) : BfsState :=
  bfsLoop F jump (jump, iSucc) (bfsFuel F)
    { alreadySeen := []
      seenBBs := []
      queue := [(jump, iSucc)]
      mergeEdges := []
      bb_to_cond_paths := bb_to_cond_paths }

/-! ## `condmerge.cpp`: the pass object and the metadata it writes -/

/-- The members of `CondMergePass` that persist between calls, and the three kinds of
metadata the pass attaches to instructions (`setMetadata` under the keys `JumpID`,
`MergeEdges` and `CondPaths`).  The counter `next_jump_id` is a `size_t`; it advances once
per distinct instruction, and fewer than `2^64` instructions exist, so it never wraps. -/
structure CondMergePass where
  id_of_jump : List (Instr × Nat)
  md_of_edge : List (Edge × EdgeMD)
  next_jump_id : Nat
  mdJumpID : List (Instr × Nat)
  mdMergeEdges : List (Instr × List (List EdgeMD))
  mdCondPaths : List (Instr × List EdgeMD)
deriving DecidableEq, Repr

/-- A freshly constructed pass over IR that carries no metadata yet. -/
def CondMergePass.init : CondMergePass :=
  { id_of_jump := [], md_of_edge := [], next_jump_id := 1,
    mdJumpID := [], mdMergeEdges := [], mdCondPaths := [] }

/-- The source's `get_jump_id`. -/
def get_jump_id (p : CondMergePass) (inst : Instr) : Nat × CondMergePass :=
  match amFind p.id_of_jump inst with
  | some id => (id, p)
  | none =>
    let jump_id := p.next_jump_id
    (jump_id,
      { p with
        next_jump_id := jump_id + 1
        id_of_jump := amSet p.id_of_jump inst jump_id
        mdJumpID := amSet p.mdJumpID inst jump_id })

/-- The source's `get_edge_md`. -/
def get_edge_md (p : CondMergePass) (edge : Edge) : EdgeMD × CondMergePass :=
  match amFind p.md_of_edge edge with
  | some md => (md, p)
  | none =>
    let r := get_jump_id p edge.1
    let md : EdgeMD := (r.1, edge.2)
    (md, { r.2 with md_of_edge := amSet r.2.md_of_edge edge md })

/-- The loop `for (Edge& edge : ...) Ops.push_back(get_edge_md(edge))`. -/
def edgesToMD (p : CondMergePass) : List Edge → List EdgeMD × CondMergePass
  | [] => ([], p)
  | e :: es =>
    let r := get_edge_md p e
    let rs := edgesToMD r.2 es
    (r.1 :: rs.1, rs.2)

/-- What the `iSucc` loop of `findMergeEdges` carries from one iteration to the next. -/
structure FmeState where
  pass : CondMergePass
  bb_to_cond_paths : List (Nat × List Edge)
  final_md_vec : List (List EdgeMD)
deriving DecidableEq, Repr

/-- One iteration of `for (int iSucc=0; iSucc < numJumpSucc; iSucc++)`. -/
def fmeIter (F : Function) (jump : Instr) (st : FmeState) (iSucc : Nat) : FmeState :=
  let r := exploreFrom F jump iSucc st.bb_to_cond_paths
  let ops := edgesToMD st.pass r.mergeEdges
  { pass := ops.2
    bb_to_cond_paths := r.bb_to_cond_paths
    final_md_vec := st.final_md_vec ++ [ops.1] }

/-- The source's `findMergeEdges`. -/
def findMergeEdges (p : CondMergePass) (F : Function) (jump : Instr)
    (bb_to_cond_paths : List (Nat × List Edge)) : CondMergePass × List (Nat × List Edge) :=
  let numJumpSucc := numSuccessors F jump.bb
  let p1 := (get_jump_id p jump).2
  let st := (List.range numJumpSucc).foldl (fmeIter F jump)
    { pass := p1, bb_to_cond_paths := bb_to_cond_paths, final_md_vec := [] }
  ({ st.pass with mdMergeEdges := amSet st.pass.mdMergeEdges jump st.final_md_vec },
    st.bb_to_cond_paths)

/-- The first loop of `runOnFunction`: `findMergeEdges` on every terminator with more than
one successor, blocks taken in layout order. -/
def runBlocks (F : Function) (fn : Nat) :
    List Nat → CondMergePass × List (Nat × List Edge) → CondMergePass × List (Nat × List Edge)
  | [], acc => acc
  | b :: bs, acc =>
    if numSuccessors F b > 1 then
      runBlocks F fn bs (findMergeEdges acc.1 F ⟨fn, b⟩ acc.2)
    else
      runBlocks F fn bs acc

/-- The second loop of `runOnFunction`: one `CondPaths` tuple per entry of
`bb_to_cond_paths`.  The source walks the map in key order; the entries concern distinct
terminators, so the order does not change what is attached. -/
def writeCondPaths (fn : Nat) : CondMergePass → List (Nat × List Edge) → CondMergePass
  | p, [] => p
  | p, (bb, cond_paths) :: rest =>
    let ops := edgesToMD p cond_paths
    writeCondPaths fn
      { ops.2 with mdCondPaths := amSet ops.2.mdCondPaths ⟨fn, bb⟩ ops.1 } rest

/-- The source's `runOnFunction`, on the function number `fn` of the module. -/
def runOnFunction (p : CondMergePass) (fn : Nat) (F : Function) : CondMergePass :=
  let r := runBlocks F fn (List.range F.succs.length) (p, [])
  writeCondPaths fn r.1 r.2

/-- The pass manager running the one pass instance over the functions of a module in order,
the first of them being function number `fn`. -/
def runOnModule : CondMergePass → Nat → List Function → CondMergePass
  | p, _, [] => p
  | p, fn, F :: Fs => runOnModule (runOnFunction p fn F) (fn + 1) Fs

/-! ## `taint.cpp`: values, taint tokens and the alias-aware taint map -/

/-- An `llvm::Value` as far as the taint map tells values apart: a global variable, a
`GEPOperator` (a getelementptr instruction or constant expression) with its pointer operand,
or any other value.  The number is the identity of the object. -/
inductive Value where
  | globalVar (id : Nat)
  | gep (id : Nat) (ptr : Value)
  | other (id : Nat)
deriving DecidableEq, Repr

/-- The constant `RETVAL_CODE`. -/
def RETVAL_CODE : Int := -1

/-- The struct `SrcOrSink_t`; `none` is a null pointer, and `wrapped` is the address of
another token. -/
structure SrcOrSink_t where
  func : Option Nat
  ixArg : Int
  callsite : Option Nat
  auxType : Int
  wrapped : Option Nat
  auxConst : Option Value
deriving DecidableEq, Repr

/-- A map from values to sets of taint sources, `map<Value*, SensSrcSet_t>`. -/
abbrev TaintTable := List (Value × List SrcOrSink_t)

/-- An `AliasedTaintMap` object, shown together with the static member `globalSrcTaintSet`
that all objects of the class share: the map of another function is a value with the same
`globalSrcTaintSet` and its own `baseTaintOf` and `aliasesOf`. -/
structure AliasedTaintMap where
  globalSrcTaintSet : TaintTable
  baseTaintOf : TaintTable
  aliasesOf : List (Value × List Value)
deriving DecidableEq, Repr

/-- The source's `passThruGep`. -/
def passThruGep : Value → Value
  | .gep _ ptr => ptr
  | v => v

/-- Whether `dyn_cast<llvm::GlobalVariable>` succeeds. -/
def isGlobalVariable : Value → Bool
  | .globalVar _ => true
  | _ => false

/-- The statement `(*taintMap)[loc].insert(src)`, where `taintMap` points to
`globalSrcTaintSet` when `useGlobal` holds and to `baseTaintOf` otherwise. -/
def insertTaint (useGlobal : Bool) (m : AliasedTaintMap) (loc : Value) (src : SrcOrSink_t) :
    AliasedTaintMap :=
  if useGlobal then
    { m with globalSrcTaintSet := amUpdate [] (fun s => setInsert s src) m.globalSrcTaintSet loc }
  else
    { m with baseTaintOf := amUpdate [] (fun s => setInsert s src) m.baseTaintOf loc }

/-- The source's `AliasedTaintMap::addTaint`. -/
def addTaint (m : AliasedTaintMap) (loc : Value) (src : SrcOrSink_t) : Bool × AliasedTaintMap :=
  let loc := passThruGep loc
  let gvar := isGlobalVariable loc
  let useGlobal := gvar && decide (src.ixArg ≠ RETVAL_CODE)
  if useGlobal && decide (src.callsite = none) then
    (false, m)
  else
    match amFind m.aliasesOf loc with
    | none => (gvar, insertTaint useGlobal m loc src)
    | some aliases =>
      (gvar, aliases.foldl (fun acc baseLoc => insertTaint useGlobal acc baseLoc src) m)

/-- The source's `AliasedTaintMap::addTaintSet`; `srcSet` lists the elements of the set in
the order the `for` loop visits them. -/
def addTaintSet (m : AliasedTaintMap) (loc : Value) (srcSet : List SrcOrSink_t) :
    Bool × AliasedTaintMap :=
  let loc := passThruGep loc
  srcSet.foldl
    (fun acc src =>
      let r := addTaint acc.2 loc src
      (if r.1 then true else acc.1, r.2))
    (false, m)

/-- The source's `extendWith`: insert every element of `source` into `destination`. -/
def extendWith {T : Type} [DecidableEq T] (destination source : List T) : List T :=
  source.foldl setInsert destination

/-- The value of the expression `(*taintMap)[loc]`. -/
def readTaint (useGlobal : Bool) (m : AliasedTaintMap) (loc : Value) : List SrcOrSink_t :=
  (amFind (if useGlobal then m.globalSrcTaintSet else m.baseTaintOf) loc).getD []

/-- The effect of the expression `(*taintMap)[loc]` on the map: a missing entry is created
with an empty set. -/
def touchTaint (useGlobal : Bool) (m : AliasedTaintMap) (loc : Value) : AliasedTaintMap :=
  if useGlobal then
    { m with globalSrcTaintSet := amUpdate [] (fun s => s) m.globalSrcTaintSet loc }
  else
    { m with baseTaintOf := amUpdate [] (fun s => s) m.baseTaintOf loc }

/-- The source's `AliasedTaintMap::getTaintAsSingleSet`: the set returned, and the map
afterwards. -/
def getTaintAsSingleSet (m : AliasedTaintMap) (loc : Value) :
    List SrcOrSink_t × AliasedTaintMap :=
  let loc := passThruGep loc
  let gvar := isGlobalVariable loc
  match amFind m.aliasesOf loc with
  | none => (readTaint gvar m loc, touchTaint gvar m loc)
  | some aliases =>
    aliases.foldl
      (fun acc baseLoc =>
        (extendWith acc.1 (readTaint gvar acc.2 baseLoc), touchTaint gvar acc.2 baseLoc))
      ([], m)

/-- The source's `AliasedTaintMap::addAlias`. -/
def addAlias (m : AliasedTaintMap) (aliasLoc baseLoc : Value) : AliasedTaintMap :=
  { m with
    aliasesOf :=
      amUpdate [] (fun s => setInsert s (passThruGep baseLoc)) m.aliasesOf (passThruGep aliasLoc) }

/-- The source's `AliasedTaintMap::calcSize`. -/
def calcSize (m : AliasedTaintMap) : Nat :=
  (m.baseTaintOf.map (fun e => e.2.length)).sum + (m.aliasesOf.map (fun e => e.2.length)).sum

/-- Every queued edge leaves a terminator of the function of `jump` through one of its
successor slots. -/
def QueueValid (F : Function) (jump : Instr) (s : BfsState) : Prop :=
  ∀ e ∈ s.queue, e.1.fn = jump.fn ∧ e.2 < numSuccessors F e.1.bb

/-- The control-flow edges of consecutive blocks, the first of them being block `b`, whose
successor lists are given. -/
def edgesFrom (fn : Nat) : Nat → List (List Nat) → List Edge
  | _, [] => []
  | b, ss :: rest =>
    (List.range ss.length).map (fun i => ((⟨fn, b⟩ : Instr), i)) ++ edgesFrom fn (b + 1) rest

/-- All control-flow edges of function number `fn`. -/
def allEdges (F : Function) (fn : Nat) : List Edge :=
  edgesFrom fn 0 F.succs

/-- Number of control-flow edges that the exploration has not yet marked as seen. -/
def unseenEdges (F : Function) (jump : Instr) (s : BfsState) : Nat :=
  ((allEdges F jump.fn).filter (fun e => decide (e ∉ s.alreadySeen))).length

/-- A bound on the number of iterations the exploration loop still has to make. -/
def bfsMeasure (F : Function) (jump : Instr) (s : BfsState) : Nat :=
  unseenEdges F jump s * (numEdges F + 1) + s.queue.length

/-- The edge `e2` leaves the terminator of the block that the edge `e1` enters. -/
def EdgeFollows (F : Function) (e1 e2 : Edge) : Prop :=
  e2.1 = ⟨e1.1.fn, dest_bb_of_edge F e1⟩ ∧ e2.2 < numSuccessors F e2.1.bb

/-- The list `path` is a control-flow path that starts with the conditional edge `(T, i)`,
ends with an edge into block `B`, and enters only blocks whose terminator `U` fails the
three merge predicates: `U ≠ T`, `U` does not dominate the block of `T`, and `U` does not
post-dominate `T`. -/
def MergeFreePath (F : Function) (T : Instr) (i : Nat) (B : Nat) (path : List Edge) : Prop :=
  path.head? = some (T, i)
    ∧ List.Chain' (EdgeFollows F) path
    ∧ path.getLast?.map (dest_bb_of_edge F) = some B
    ∧ ∀ e ∈ path,
        ¬ ((⟨e.1.fn, dest_bb_of_edge F e⟩ : Instr) = T
            ∨ F.preDom (dest_bb_of_edge F e) T.bb = true
            ∨ F.postDom (dest_bb_of_edge F e) T.bb = true)

/-- The vector `mergeEdges` at the end of the exploration for the conditional edge
`(jump, iSucc)`. -/
def mergeEdgesFrom (F : Function) (jump : Instr) (iSucc : Nat) : List Edge :=
  (exploreFrom F jump iSucc []).mergeEdges

/-- Consistency of the members of the pass object: the counter is at least 1, identifiers
handed out lie between 1 and the counter, no identifier is handed out twice, a cached edge
tuple holds the identifier of its terminator and its successor index, and the `JumpID`
metadata repeats `id_of_jump`. -/
structure PassInv (p : CondMergePass) : Prop where
  counter_pos : 1 ≤ p.next_jump_id
  ids_range : ∀ inst id, amFind p.id_of_jump inst = some id → 1 ≤ id ∧ id < p.next_jump_id
  ids_inj : ∀ a b id, amFind p.id_of_jump a = some id → amFind p.id_of_jump b = some id → a = b
  md_cache : ∀ e md, amFind p.md_of_edge e = some md →
    amFind p.id_of_jump e.1 = some md.1 ∧ md.2 = e.2
  md_jump : ∀ inst, amFind p.mdJumpID inst = amFind p.id_of_jump inst

/-- Every identifier known to `p` is still the identifier of the same terminator in `q`. -/
def PassExtends (p q : CondMergePass) : Prop :=
  ∀ inst id, amFind p.id_of_jump inst = some id → amFind q.id_of_jump inst = some id

/-- The tuple that encodes the edge `e`: the `JumpID` metadata of its terminator (0 when the
terminator carries none) and its successor index. -/
def edgeMDOf (p : CondMergePass) (e : Edge) : EdgeMD :=
  ((amFind p.mdJumpID e.1).getD 0, e.2)

/-- The map `bb_to_cond_paths` after the first loop of `runOnFunction` has gone through the
blocks `bs`, starting from the map `ps`: the explorations of every conditional edge of every
terminator with more than one successor, one after the other. -/
def condPathsOf (F : Function) (fn : Nat) :
    List Nat → List (Nat × List Edge) → List (Nat × List Edge)
  | [], ps => ps
  | b :: bs, ps =>
    if numSuccessors F b > 1 then
      condPathsOf F fn bs
        ((List.range (numSuccessors F b)).foldl
          (fun acc i => (exploreFrom F ⟨fn, b⟩ i acc).bb_to_cond_paths) ps)
    else
      condPathsOf F fn bs ps

/-- The pass after a sequence of `get_jump_id` calls, one for each instruction of `calls`. -/
def askJumpIds (p : CondMergePass) (calls : List Instr) : CondMergePass :=
  calls.foldl (fun q inst => (get_jump_id q inst).2) p

/-- The CFG of `if (c) { a(); } else { b(); } c2();`: block 0 branches to blocks 1 and 2,
which both jump to block 3, which returns.  The dominance answers are those of LLVM for
this graph. -/
def diamondExample : Function :=
  { succs := [[1, 2], [3], [3], []]
    preDom := fun u t => decide (u = 0 ∧ t ≠ 0)
    postDom := fun u t => decide (u = 3 ∨ u = t) }

/-- The CFG of `while (c) { body; }`: block 0 jumps to the header 1, the header branches to
the body 2 and to the exit 3, and the body jumps back to the header.  The dominance answers
are those of LLVM for this graph. -/
def whileExample : Function :=
  { succs := [[1], [2, 3], [1], []]
    preDom := fun u t => decide ((u = 0 ∧ t ≠ 0) ∨ (u = 1 ∧ 2 ≤ t))
    postDom := fun u t => decide (u = 3 ∨ u = t ∨ (u = 1 ∧ t ≠ 3)) }

/-- The locations at which `addTaint` and `getTaintAsSingleSet` act for `loc`: the alias
bases recorded for the location behind the GEP, or that location itself when it has no
alias set. -/
def taintTargets (m : AliasedTaintMap) (loc : Value) : List Value :=
  match amFind m.aliasesOf (passThruGep loc) with
  | none => [passThruGep loc]
  | some aliases => aliases

/-- Whether `addTaint` works on the global table for `loc` and `src`. -/
def usesGlobalTable (loc : Value) (src : SrcOrSink_t) : Bool :=
  isGlobalVariable (passThruGep loc) && decide (src.ixArg ≠ RETVAL_CODE)

/-- Whether `addTaint` leaves through its early `return false`. -/
def dropsToken (loc : Value) (src : SrcOrSink_t) : Bool :=
  usesGlobalTable loc src && decide (src.callsite = none)

/-! ## `taint.cpp`: the module as the taint pass reads it -/

/-- The number that identifies the object behind a value. -/
def Value.ident : Value → Nat
  | .globalVar id => id
  | .gep id _ => id
  | .other id => id

/-- The instructions `analyzeInst` tells apart.  `cmp` is an `ICmp` or `FCmp`; `call` is a
`CallBase` (`isCallInst` tells a `CallInst` from an `InvokeInst` or `CallBrInst`) with the
result of `getCalledFunction()` and the argument operands; `store` gives the value operand
and the pointer operand; `phi` the incoming values; `ret` the return value of a
`ReturnInst`; `other` the operands of any other instruction. -/
inductive InstKind where
  | cmp
  | call (isCallInst : Bool) (callee : Option Nat) (args : List Value)
  | store (value : Value) (ptr : Value)
  | phi (incoming : List Value)
  | ret (value : Option Value)
  | other (operands : List Value)
deriving DecidableEq, Repr

/-- An `llvm::Instruction`: the instruction as a value, and what kind it is. -/
structure Instruction where
  self : Value
  kind : InstKind
deriving DecidableEq, Repr

/-- The operands `op_begin() .. op_end()` of an instruction handled by the `normal_inst`
code of `analyzeInst`. -/
def Instruction.operands (inst : Instruction) : List Value :=
  match inst.kind with
  | .phi incoming => incoming
  | .ret value => value.toList
  | .other operands => operands
  | _ => []

/-- An `llvm::Function` of the module: its name, whether it is a declaration, whether it is
variadic, its formal parameters and its instructions in the order of
`for (auto &B : F) for (auto &I : B)`. -/
structure IRFunction where
  name : List Char
  isDeclaration : Bool
  isVarArg : Bool
  args : List Value
  insts : List Instruction
deriving DecidableEq, Repr

instance : Inhabited IRFunction := ⟨⟨[], true, false, [], []⟩⟩

/-- An `llvm::Module`.  A function is identified by its position in `funcs`, which is also
the order of `for (Function &F : M)`.  `constantExprs` lists the values that are
`ConstantExpr`s, `cstrings` gives the text of every global variable whose initializer is a
`ConstantDataArray` that is a C string (a `char` is given as the `int` it promotes to),
`constGlobals` lists the global variables for which `isConstant()` holds, and `funcAddrs`
gives, for a value that is a function used as an operand, that function. -/
structure Module where
  funcs : List IRFunction
  constantExprs : List Value
  cstrings : List (Nat × List Int)
  constGlobals : List Nat
  funcAddrs : List (Value × Nat)
deriving DecidableEq, Repr

/-- The function number `f` of the module. -/
def Module.func (M : Module) (f : Nat) : IRFunction :=
  M.funcs.getD f default

/-- The call `callsite->getArgOperand(ix)`.  The source does not check the index; `none`
stands for an index outside the argument list, where the model makes no step. -/
def getArgOperand (args : List Value) (ix : Int) : Option Value :=
  if ix < 0 then none else args.get? ix.toNat

/-! ## `taint.cpp`: strings and the filename heuristic -/

/-- The conversion of a 64-bit `size_t` value to `int`. -/
def sizeToInt (n : Nat) : Int :=
  let r : Nat := n % 2 ^ 32
  if r < 2 ^ 31 then (r : Int) else (r : Int) - 2 ^ 32

/-- The loop of `looks_like_filename` over the characters from position `i` on; each `char`
is given as the `int` it promotes to, and `'-'`, `'~'` and `' '` are 45, 126 and 32. -/
def filenameChars : List Int → Bool
  | [] => true
  | c :: rest =>
    if (!decide ((45 : Int) ≤ c)) && decide (c ≤ 126) then false
    else if c = 32 then false
    else filenameChars rest

/-- The source's `looks_like_filename`. -/
def looks_like_filename (str : List Int) : Bool :=
  let size : Int := str.length
  if ¬ (3 < size ∧ size < 100) then false
  else filenameChars str

/-- The call `s.find(pat)` of `std::string`, searching from a position that has index `i`;
`none` is `npos`. -/
def strFindFrom (pat : List Char) : List Char → Nat → Option Nat
  | [], i => if pat = [] then some i else none
  | c :: s, i => if pat.isPrefixOf (c :: s) then some i else strFindFrom pat s (i + 1)

/-- The call `s.find(pat)`. -/
def strFind (s pat : List Char) : Option Nat :=
  strFindFrom pat s 0

/-- The call `s.substr(pos, n)` for `pos <= s.size()`. -/
def substr (s : List Char) (pos n : Nat) : List Char :=
  (s.drop pos).take n

/-- The loop `while ((pos = flow.find(" , ")) != npos)` of `parse_arg_string` together with
the final `argv.push_back(flow)`, run for at most `fuel` iterations; every iteration erases
at least three characters of `flow`, so the fuel `flow.length` given by the caller is never
used up (`splitFlow_fuel`). -/
def splitFlow : Nat → List Char → List (List Char) → List (List Char)
  | 0, flow, argv => argv ++ [flow]
  | fuel + 1, flow, argv =>
    match strFind flow " , ".toList with
    | none => argv ++ [flow]
    | some pos => splitFlow fuel (flow.drop (pos + 3)) (argv ++ [substr flow 0 pos])

/-- The source's `parse_arg_string`. -/
def parse_arg_string (s : List Char) : List Char × List (List Char) :=
  match strFind s " -> ".toList with
  | none => ([], [])
  | some pos =>
    let argname := substr s 0 pos
    let base := pos + 4
    let flow := substr s base s.length
    if strFind flow "[ ".toList = none ∨ strFind flow " ]".toList = none then ([], [])
    else
      let argv := [argname]
      if flow.length > 3 then
        let flow := substr flow 2 (flow.length - 4)
        (argname, splitFlow flow.length flow argv)
      else (argname, argv)

/-- The loop `while ((pos = args.find(" ]")) != npos)` of `parse_taint_cp_file`, run for at
most `fuel` iterations; every iteration erases at least two characters of `args`, so the
fuel `args.length` given by the caller is never used up (`parseArgList_fuel`). -/
def parseArgList : Nat → List Char → List (List Char × List (List Char)) →
    List (List Char × List (List Char))
  | 0, _, acc => acc
  | fuel + 1, args, acc =>
    match strFind args " ]".toList with
    | none => acc
    | some pos =>
      let s := substr args 0 (pos + 2)
      let s := if s.head? = some ',' then s.drop 2 else s
      parseArgList fuel (args.drop (pos + 2)) (acc ++ [parse_arg_string s])

/-- What the body of the `getline` loop of `parse_taint_cp_file` makes of one line:
`malformed` when the line lacks a blank or a parenthesis (the source then returns the map
built so far), `outOfRange` when `substr` throws because the opening parenthesis is the last
character, otherwise the function name and its argument list. -/
inductive CopierLine where
  | malformed
  | outOfRange
  | entry (fnname : List Char) (args : List (List Char × List (List Char)))
deriving DecidableEq, Repr

/-- The body of the `getline` loop of `parse_taint_cp_file` for one line.  The length passed
to `substr` is computed in `size_t`. -/
def parseCopierLine (line : List Char) : CopierLine :=
  match strFind line " ".toList, strFind line "(".toList, strFind line ")".toList with
  | some pos, some lpos, some rpos =>
    if lpos + 2 > line.length then .outOfRange
    else
      let fnname := substr line 0 pos
      let args := substr line (lpos + 2) ((rpos + 2 ^ 64 - lpos - 3) % 2 ^ 64)
      .entry fnname (parseArgList args.length args [])
  | _, _, _ => .malformed

/-! ## `taint.cpp`: the pass object -/

/-- The constant `AUX_TYPE_NULL`. -/
def AUX_TYPE_NULL : Int := 0

/-- The constant `AUX_TYPE_MAIN`. -/
def AUX_TYPE_MAIN : Int := 1

/-- The constant `AUX_TYPE_FILE`. -/
def AUX_TYPE_FILE : Int := 2

/-- The source's `SrcOrSink_t::isSummaryScrink`. -/
def isSummaryScrink (t : SrcOrSink_t) : Bool :=
  decide (t.callsite = none) && decide (t.auxConst = none)

/-- The aggregate `{&F, ix, nullptr}`: the summary token of parameter `ix` of `F`, or of its
return value when `ix` is `RETVAL_CODE`. -/
def sumToken (F : Nat) (ix : Int) : SrcOrSink_t :=
  ⟨some F, ix, none, 0, none, none⟩

/-- The class `WorkList<Function*>`; the item `none` is the null pointer that `run` uses as
a round marker. -/
structure WorkList where
  workList : List (Option Nat)
  workSet : List (Option Nat)
deriving DecidableEq, Repr

/-- The source's `WorkList::empty`. -/
def WorkList.empty (w : WorkList) : Bool :=
  w.workList.isEmpty

/-- The source's `WorkList::add`. -/
def WorkList.add (w : WorkList) (item : Option Nat) : WorkList :=
  if item ∈ w.workSet then w
  else { workList := w.workList ++ [item], workSet := setInsert w.workSet item }

/-- The source's `WorkList::pop`, which `run` calls on a non-empty list only; `none` stands
for the empty list. -/
def WorkList.pop (w : WorkList) : Option (Option Nat × WorkList) :=
  match w.workList with
  | [] => none
  | item :: rest => some (item, { workList := rest, workSet := w.workSet.erase item })

/-- A function summary, `map<Sink_t, SensSrcSet_t>`. -/
abbrev Summary := List (SrcOrSink_t × List SrcOrSink_t)

/-- The members of `TaintPass`, the file-level map `fnsReferencingGvar`, and the static
`AliasedTaintMap::globalSrcTaintSet` as it stands between two calls of `analyzeFunc`.
`scrinkHeap` holds the tokens allocated by `storeScrink` with `new`; the address of a token
is its position, so `scrinksInUse` maps a token to the position of its copy. -/
structure TaintPass where
  funcWorkList : WorkList
  callersOfFunc : List (Nat × List Nat)
  funcFlowsBySink : List (Nat × Summary)
  taintCopiers : List Nat
  scrinksInUse : List (SrcOrSink_t × Nat)
  scrinkHeap : List SrcOrSink_t
  wrapperFuncs : List Nat
  funcArgSrcCat : List (Nat × List Int)
  funcArgSinkCat : List (Nat × List Int)
  funcRetCat : List (Nat × Int)
  knownExtFuncs : List Nat
  unknownExtFuncs : List Nat
  fnsReferencingGvar : List (Value × List Nat)
  globalSrcTaintSet : TaintTable
deriving DecidableEq, Repr

/-- A freshly constructed pass object. -/
def TaintPass.fresh : TaintPass :=
  { funcWorkList := ⟨[], []⟩, callersOfFunc := [], funcFlowsBySink := [], taintCopiers := [],
    scrinksInUse := [], scrinkHeap := [], wrapperFuncs := [], funcArgSrcCat := [],
    funcArgSinkCat := [], funcRetCat := [], knownExtFuncs := [], unknownExtFuncs := [],
    fnsReferencingGvar := [], globalSrcTaintSet := [] }

/-- The value of `funcFlowsBySink[f][key]`. -/
def flowsOf (p : TaintPass) (f : Nat) (key : SrcOrSink_t) : List SrcOrSink_t :=
  (amFind ((amFind p.funcFlowsBySink f).getD []) key).getD []

/-- The assignment `funcFlowsBySink[f][key] = g(funcFlowsBySink[f][key])`. -/
def updFlow (p : TaintPass) (f : Nat) (key : SrcOrSink_t)
    (g : List SrcOrSink_t → List SrcOrSink_t) : TaintPass :=
  { p with
    funcFlowsBySink :=
      amUpdate [] (fun summ => amUpdate [] g summ key) p.funcFlowsBySink f }

/-- The source's `storeScrink`: the address of the interned copy of `src`, and the pass
object afterwards. -/
def storeScrink (p : TaintPass) (src : SrcOrSink_t) : Nat × TaintPass :=
  match amFind p.scrinksInUse src with
  | some pSrc => (pSrc, p)
  | none =>
    let pSrc := p.scrinkHeap.length
    (pSrc,
      { p with
        scrinkHeap := p.scrinkHeap ++ [src]
        scrinksInUse := amSet p.scrinksInUse src pSrc })

/-! ## `taint.cpp`: loading the taint-copier summaries -/

/-- The parsed argument list of one line: for every declared argument its name and the
vector `parse_arg_string` returns with it. -/
abbrev ArgDecls := List (List Char × List (List Char))

/-- The call `M.getFunction(name)`. -/
def getFunction (M : Module) (name : List Char) : Option Nat :=
  M.funcs.findIdx? (fun fn => decide (fn.name = name))

/-- The function a taint-copier name resolves to in `parse_taint_copiers`: the function of
that name, otherwise the first function whose name starts with `llvm.` followed by the
name. -/
def resolveCopier (M : Module) (libcfn : List Char) : Option Nat :=
  match getFunction M libcfn with
  | some fn => some fn
  | none => M.funcs.findIdx? (fun fn => ("llvm.".toList ++ libcfn).isPrefixOf fn.name)

/-- The first loop of `parse_taint_copiers` over the declared arguments:
`argidx_map[get<0>(p)] = idx++`. -/
def indexArgs : ArgDecls → Int → List (List Char × Int) → List (List Char × Int)
  | [], _, argidx_map => argidx_map
  | p :: rest, idx, argidx_map => indexArgs rest (idx + 1) (amSet argidx_map p.1 idx)

/-- The loop over the names listed with one declared argument, whose token is `arg_sink`:
`funcFlowsBySink[libc_fnptr][{libc_fnptr, argidx_map[flowname], nullptr}].insert(arg_sink)`.
The lookup `argidx_map[flowname]` creates the entry 0 for a name not seen before. -/
def copierFlows (F : Nat) (arg_sink : SrcOrSink_t) :
    List (List Char) → List (List Char × Int) × TaintPass → List (List Char × Int) × TaintPass
  | [], acc => acc
  | flowname :: rest, acc =>
    let ix := (amFind acc.1 flowname).getD 0
    let arg_src := sumToken F ix
    copierFlows F arg_sink rest
      (amUpdate 0 (fun v => v) acc.1 flowname,
        updFlow acc.2 F arg_src (fun s => setInsert s arg_sink))

/-- The second loop of `parse_taint_copiers` over the declared arguments. -/
def copierArgs (F : Nat) :
    ArgDecls → Int → List (List Char × Int) × TaintPass → List (List Char × Int) × TaintPass
  | [], _, acc => acc
  | p :: rest, idx, acc =>
    copierArgs F rest (idx + 1) (copierFlows F (sumToken F idx) p.2 acc)

/-- The body of the loop of `parse_taint_copiers` for the entry `(libcfn, val)` of the
parsed file. -/
def loadCopier (M : Module) (p : TaintPass) (libcfn : List Char) (val : ArgDecls) : TaintPass :=
  match resolveCopier M libcfn with
  | none => p
  | some F =>
    let p1 :=
      { p with
        knownExtFuncs := setInsert p.knownExtFuncs F
        taintCopiers := setInsert p.taintCopiers F }
    let argidx_map := indexArgs val 0 [("return".toList, RETVAL_CODE)]
    (copierArgs F val 0 (argidx_map, p1)).2

/-- The value `argidx_map[s]` that the second loop of `parse_taint_copiers` reads for the
name `s` when the declared arguments are `val`. -/
def argIndex (val : ArgDecls) (s : List Char) : Int :=
  (amFind (indexArgs val 0 [("return".toList, RETVAL_CODE)]) s).getD 0

/-- A module that declares `memcpy` with three parameters and nothing else. -/
def copierExampleModule : Module :=
  { funcs := [⟨"memcpy".toList, true, false, [.other 1, .other 2, .other 3], []⟩],
    constantExprs := [], cstrings := [], constGlobals := [], funcAddrs := [] }

/-! ## `taint.cpp`: the transfer functions -/

/-- The variables `analyzeInst` and `plugInSummary` work on while one function is analysed:
the pass object, the taint map `taintOfVal` of the function (which shows the shared global
table) and the set `gvarSet`. -/
structure AnState where
  pass : TaintPass
  taintOfVal : AliasedTaintMap
  gvarSet : List Value
deriving DecidableEq, Repr

/-- Where `plugInSummary` puts the taint of one summary entry: into the taint map at
`valToTaint` when `pTaintDest` is null, otherwise into the set
`funcFlowsBySink[caller][key]` that `pTaintDest` points to. -/
inductive TaintDest where
  | value (valToTaint : Value)
  | flow (key : SrcOrSink_t)
deriving DecidableEq, Repr

/-- The token `{callee, wrapperArgIx, callsite, inner.auxType, pInner}` that a call site of
a wrapper puts around the interned token at address `pInner`; `wrapperArgIx` is 0. -/
def wrapToken (callee : Nat) (callsite : Value) (inner : SrcOrSink_t) (pInner : Nat) :
    SrcOrSink_t :=
  ⟨some callee, 0, some callsite.ident, inner.auxType, some pInner, none⟩

/-- The token `plugInSummary` uses for the summary token `tok` at a call site: `tok` itself,
or for a wrapper callee the wrapping token around the interned `tok`. -/
def wrapIfWrapper (p : TaintPass) (callee : Nat) (callsite : Value) (tok : SrcOrSink_t) :
    SrcOrSink_t × TaintPass :=
  if callee ∈ p.wrapperFuncs then
    let s := storeScrink p tok
    (wrapToken callee callsite tok s.1, s.2)
  else (tok, p)

/-- The body of the loop of `plugInSummary` over the sources `sumSrc` of one summary entry.
The two `assert`s on a summary source are not modelled. -/
def plugSource (caller : Nat) (callsite : Value) (callee : Nat) (args : List Value)
    (sumSink : SrcOrSink_t) (dest : TaintDest) (st : AnState) (sumSrc : SrcOrSink_t) :
    AnState :=
  if !isSummaryScrink sumSrc then
    if sumSink.callsite ≠ none then st
    else
      let r := wrapIfWrapper st.pass callee callsite sumSrc
      match dest with
      | .flow key => { st with pass := updFlow r.2 caller key (fun s => setInsert s r.1) }
      | .value valToTaint =>
        { st with pass := r.2, taintOfVal := (addTaint st.taintOfVal valToTaint r.1).2 }
  else
    match getArgOperand args sumSrc.ixArg with
    | none => st
    | some actArg =>
      let t := getTaintAsSingleSet st.taintOfVal actArg
      match dest with
      | .flow key =>
        { st with
          pass := updFlow st.pass caller key (fun s => extendWith s t.1)
          taintOfVal := t.2 }
      | .value valToTaint => { st with taintOfVal := (addTaintSet t.2 valToTaint t.1).2 }

/-- The body of the loop of `plugInSummary` over the entries `(sumSink, sumSources)` of the
callee's summary.  The `assert` on a summary sink is not modelled. -/
def plugEntry (caller : Nat) (callsite : Value) (callee : Nat) (args : List Value)
    (st : AnState) (e : SrcOrSink_t × List SrcOrSink_t) : AnState :=
  if e.1.callsite = none then
    match (if e.1.ixArg = RETVAL_CODE then some callsite else getArgOperand args e.1.ixArg) with
    | none => st
    | some valToTaint =>
      e.2.foldl (plugSource caller callsite callee args e.1 (.value valToTaint)) st
  else
    let r := wrapIfWrapper st.pass callee callsite e.1
    e.2.foldl (plugSource caller callsite callee args e.1 (.flow r.1))
      { st with pass := updFlow r.2 caller r.1 (fun s => s) }

/-- The source's `plugInSummary` for the call `callsite` in `caller` to `callee` with the
argument operands `args`.  The entries of the callee's summary are visited as they stand on
entry; the source walks the map in key order, the model in the order of the list. -/
def plugInSummary (caller : Nat) (callsite : Value) (callee : Nat) (args : List Value)
    (st : AnState) : AnState :=
  let st0 : AnState :=
    { st with
      pass :=
        { st.pass with
          funcFlowsBySink := amUpdate [] (fun summ => summ) st.pass.funcFlowsBySink callee } }
  ((amFind st0.pass.funcFlowsBySink callee).getD []).foldl
    (plugEntry caller callsite callee args) st0

/-- The source's `getStringFromConstantExpr`. -/
def getStringFromConstantExpr (M : Module) (val : Value) : List Int :=
  if val ∈ M.constantExprs then
    match val with
    | .gep _ (.globalVar g) => (amFind M.cstrings g).getD []
    | _ => []
  else []

/-- The token `{.auxType=AUX_TYPE_MAIN, .auxConst=arg}` of a filename constant. -/
def auxToken (arg : Value) : SrcOrSink_t :=
  ⟨none, 0, none, AUX_TYPE_MAIN, none, some arg⟩

/-- The first loop of `analyzeInst` on a call: string literals that look like filenames
become taint sources. -/
def promoteFilenames (M : Module) (st : AnState) (args : List Value) : AnState :=
  args.foldl
    (fun st arg =>
      if arg ∈ M.constantExprs then
        if looks_like_filename (getStringFromConstantExpr M arg) then
          { st with taintOfVal := (addTaint st.taintOfVal arg (auxToken arg)).2 }
        else st
      else st)
    st

/-- Whether `gv->isConstant()` holds for the global variable `gv`. -/
def isConstantGlobal (M : Module) (gv : Value) : Bool :=
  match gv with
  | .globalVar g => decide (g ∈ M.constGlobals)
  | _ => false

/-- The statements `fnsReferencingGvar[gv].insert(caller); gvarSet.insert(gv);`. -/
def noteGvar (caller : Nat) (gv : Value) (st : AnState) : AnState :=
  { st with
    pass :=
      { st.pass with
        fnsReferencingGvar :=
          amUpdate [] (fun s => setInsert s caller) st.pass.fnsReferencingGvar gv }
    gvarSet := setInsert st.gvarSet gv }

/-- The value of `sink_arg` in the sink loop of `analyzeInst`: `arg`, or for an argument
past the end of the category table its size minus one, computed in `size_t` and converted
to `int`. -/
def sinkArgIndex (arg size : Nat) : Int :=
  if arg ≥ size then sizeToInt ((size + 2 ^ 64 - 1) % 2 ^ 64) else arg

/-- The concrete sink token `{callee, arg, callsite, auxType}`, which is also the form of a
concrete source token. -/
def siteToken (callee : Nat) (arg : Int) (callsite : Value) (auxType : Int) : SrcOrSink_t :=
  ⟨some callee, arg, some callsite.ident, auxType, none, none⟩

/-- The statements of the sink loop of `analyzeInst` for an argument `v` with number `arg`
whose sink category `auxType` is not null: the summary entry of the concrete sink is set to
the taint of the argument, and a non-constant global variable behind the argument is
noted. -/
def recordSink (M : Module) (caller : Nat) (callsite : Value) (callee : Nat) (arg : Nat)
    (v : Value) (auxType : Int) (st : AnState) : AnState :=
  let t := getTaintAsSingleSet st.taintOfVal v
  let st1 : AnState :=
    { st with
      pass := updFlow st.pass caller (siteToken callee arg callsite auxType) (fun _ => t.1)
      taintOfVal := t.2 }
  let gv := passThruGep v
  if isGlobalVariable gv && !isConstantGlobal M gv then noteGvar caller gv st1 else st1

/-- The effect of the expression `funcArgSinkCat[callee]` on the pass object: a missing
entry is created with an empty table. -/
def touchSinkCat (callee : Nat) (st : AnState) : AnState :=
  { st with
    pass :=
      { st.pass with
        funcArgSinkCat := amUpdate [] (fun c => c) st.pass.funcArgSinkCat callee } }

/-- The sink loop of `analyzeInst` for a call to a declared function, from argument number
`arg` on; `rest` holds the argument operands from that number on. -/
def recordSinks (M : Module) (caller : Nat) (callsite : Value) (callee : Nat) :
    Nat → List Value → AnState → AnState
  | _, [], st => st
  | arg, v :: rest, st =>
    let tbl := (amFind st.pass.funcArgSinkCat callee).getD []
    let sink_arg := sinkArgIndex arg tbl.length
    if sink_arg = -1 then touchSinkCat callee st
    else
      let auxType := tbl.getD sink_arg.toNat 0
      if auxType = AUX_TYPE_NULL then
        recordSinks M caller callsite callee (arg + 1) rest (touchSinkCat callee st)
      else
        recordSinks M caller callsite callee (arg + 1) rest
          (recordSink M caller callsite callee arg v auxType (touchSinkCat callee st))

/-- The statements of `analyzeInst` between the sink loop and the source loop: a declared
function that is neither an intrinsic nor known is recorded as unknown. -/
def noteUnknownExt (M : Module) (callee : Nat) (st : AnState) : AnState :=
  if "llvm.".toList.isPrefixOf (M.func callee).name then st
  else if callee ∈ st.pass.knownExtFuncs then st
  else { st with pass := { st.pass with unknownExtFuncs := setInsert st.pass.unknownExtFuncs callee } }

/-- The source category the source loop of `analyzeInst` reads for argument number `arg` of
`callee`: `funcRetCat[callee]` for `RETVAL_CODE`, otherwise `funcArgSrcCat[callee][arg]`. -/
def srcCat (p : TaintPass) (callee : Nat) (arg : Int) : Int :=
  if arg = RETVAL_CODE then (amFind p.funcRetCat callee).getD 0
  else ((amFind p.funcArgSrcCat callee).getD []).getD arg.toNat 0

/-- The effect on the pass object of the expressions `funcArgSrcCat[callee]` and, for the
return value, `funcRetCat[callee]`: a missing entry is created. -/
def touchSrcCat (callee : Nat) (arg : Int) (st : AnState) : AnState :=
  { st with
    pass :=
      { st.pass with
        funcArgSrcCat := amUpdate [] (fun c => c) st.pass.funcArgSrcCat callee
        funcRetCat :=
          if arg = RETVAL_CODE then amUpdate 0 (fun c => c) st.pass.funcRetCat callee
          else st.pass.funcRetCat } }

/-- The statements of the source loop of `analyzeInst` for an argument operand `v`: the
source is added, and when `addTaint` returns true a non-constant global variable behind the
argument is noted. -/
def addSourceAt (M : Module) (caller : Nat) (v : Value) (src : SrcOrSink_t) (st : AnState) :
    AnState :=
  let r := addTaint st.taintOfVal v src
  let st1 : AnState := { st with taintOfVal := r.2 }
  if r.1 then
    if !isConstantGlobal M (passThruGep v) then noteGvar caller (passThruGep v) st1 else st1
  else st1

/-- One pass through the body of the source loop of `analyzeInst`, for the argument number
`arg` (`RETVAL_CODE` for the return value). -/
def injectSource (M : Module) (caller : Nat) (callsite : Value) (callee : Nat)
    (args : List Value) (st : AnState) (arg : Int) : AnState :=
  let auxType := srcCat st.pass callee arg
  let st0 := touchSrcCat callee arg st
  if auxType = AUX_TYPE_NULL then st0
  else
    let src := siteToken callee arg callsite auxType
    if arg = RETVAL_CODE then
      { st0 with taintOfVal := (addTaint st0.taintOfVal callsite src).2 }
    else
      match getArgOperand args arg with
      | none => st0
      | some v => addSourceAt M caller v src st0

/-- The argument numbers the source loop of `analyzeInst` visits for a category table of
size `n`: `-1, 0, .., n - 1`. -/
def sourceArgs (n : Nat) : List Int :=
  (List.range (n + 1)).map (fun (i : Nat) => (i : Int) - 1)

/-- The source loop of `analyzeInst` for a call to a declared function. -/
def injectSources (M : Module) (caller : Nat) (callsite : Value) (callee : Nat)
    (args : List Value) (st : AnState) : AnState :=
  (sourceArgs ((amFind st.pass.funcArgSrcCat callee).getD []).length).foldl
    (injectSource M caller callsite callee args) st

/-- The statement `taintOfVal.addTaintSet(dest, taintOfVal.getTaintAsSingleSet(operand))`. -/
def takeTaint (dest : Value) (st : AnState) (operand : Value) : AnState :=
  let t := getTaintAsSingleSet st.taintOfVal operand
  { st with taintOfVal := (addTaintSet t.2 dest t.1).2 }

/-- The code of `analyzeInst` after the label `normal_inst`: the instruction takes the
taint of each operand. -/
def normalInst (inst : Instruction) (st : AnState) : AnState :=
  inst.operands.foldl (takeTaint inst.self) st

/-- The source's `analyzeInst` for an instruction of the function `func`. -/
def analyzeInst (M : Module) (func : Nat) (st : AnState) (inst : Instruction) : AnState :=
  match inst.kind with
  | .cmp => st
  | .call _ none _ => st
  | .call _ (some callee) args =>
    let st1 := promoteFilenames M st args
    if (M.func callee).isDeclaration then
      let st2 :=
        if callee ∈ st1.pass.taintCopiers then plugInSummary func inst.self callee args st1
        else st1
      let st3 := recordSinks M func inst.self callee 0 args st2
      let st4 := noteUnknownExt M callee st3
      injectSources M func inst.self callee args st4
    else plugInSummary func inst.self callee args st1
  | .store value ptr => takeTaint ptr st value
  | .phi incoming =>
    normalInst inst
      { st with
        taintOfVal := incoming.foldl (fun m v => addAlias m inst.self v) st.taintOfVal }
  | .ret _ => normalInst inst st
  | .other _ => normalInst inst st

/-! ## `taint.cpp`: `analyzeFunc` -/

/-- The seeding loop of `analyzeFunc`: each formal parameter is tainted with its own
summary token; `ixArg` is the number of the first parameter of the list. -/
def seedArgs (F : Nat) : Int → List Value → AliasedTaintMap → AliasedTaintMap
  | _, [], m => m
  | ixArg, a :: rest, m => seedArgs F (ixArg + 1) rest (addTaint m a (sumToken F ixArg)).2

/-- One pass of `analyzeInst` over all instructions of the function `F`. -/
def onePass (M : Module) (F : Nat) (st : AnState) : AnState :=
  (M.func F).insts.foldl (analyzeInst M F) st

/-- The loop `while (true)` of `analyzeFunc`, run for at most `fuel` passes: it is left
after a pass that did not change `calcSize()`. -/
def fixLoop (M : Module) (F : Nat) : Nat → AnState → AnState
  | 0, st => st
  | fuel + 1, st =>
    let st1 := onePass M F st
    if calcSize st.taintOfVal = calcSize st1.taintOfVal then st1 else fixLoop M F fuel st1

/-- The state in which `analyzeFunc` leaves its fixpoint loop when the loop is granted
`fuel` passes: the summary entry of `F` exists, the taint map starts empty apart from the
shared global table, and the parameters are seeded. -/
def analyzeBody (fuel : Nat) (M : Module) (p : TaintPass) (F : Nat) : AnState :=
  fixLoop M F fuel
    { pass := { p with funcFlowsBySink := amUpdate [] (fun summ => summ) p.funcFlowsBySink F }
      taintOfVal :=
        seedArgs F 0 (M.func F).args
          { globalSrcTaintSet := p.globalSrcTaintSet, baseTaintOf := [], aliasesOf := [] }
      gvarSet := [] }

/-- The loop of `analyzeFunc` over the return instructions: the union `retTaint` of the
taint of the returned values, and the taint map afterwards. -/
def returnTaint : List Instruction → List SrcOrSink_t × AliasedTaintMap →
    List SrcOrSink_t × AliasedTaintMap
  | [], acc => acc
  | inst :: rest, acc =>
    match inst.kind with
    | .ret (some retVal) =>
      let t := getTaintAsSingleSet acc.2 retVal
      returnTaint rest (extendWith acc.1 t.1, t.2)
    | _ => returnTaint rest acc

/-- The loop of `analyzeFunc` over the formal parameters:
`funcFlowsBySink[&F][{&F, ixArg, nullptr}] = getTaintAsSingleSet(F.getArg(ixArg))`. -/
def argSinks (F : Nat) : Nat → List Value → TaintPass × AliasedTaintMap →
    TaintPass × AliasedTaintMap
  | _, [], acc => acc
  | ixArg, a :: rest, acc =>
    let t := getTaintAsSingleSet acc.2 a
    argSinks F (ixArg + 1) rest (updFlow acc.1 F (sumToken F ixArg) (fun _ => t.1), t.2)

/-- The part of `analyzeFunc` that writes the summary entries of the return value and of
the parameters from the taint map `m`. -/
def summarize (M : Module) (F : Nat) (p : TaintPass) (m : AliasedTaintMap) :
    TaintPass × AliasedTaintMap :=
  let rt := returnTaint (M.func F).insts ([], m)
  argSinks F 0 (M.func F).args (updFlow p F (sumToken F RETVAL_CODE) (fun _ => rt.1), rt.2)

/-- Equality of two `std::set`s given as lists. -/
def setEq (a b : List SrcOrSink_t) : Bool :=
  a.all (fun x => decide (x ∈ b)) && b.all (fun x => decide (x ∈ a))

/-- Equality of two summaries as `std::map`s: the same keys, with equal sets. -/
def summaryEq (a b : Summary) : Bool :=
  a.all (fun e => match amFind b e.1 with
    | some s => setEq e.2 s
    | none => false)
  && b.all (fun e => match amFind a e.1 with
    | some s => setEq e.2 s
    | none => false)

/-- The last part of `analyzeFunc`, taken when the summary of `F` changed: the callers of
`F` are put on the worklist, and so is every function that references a global variable of
`gvarSet`, unless it is a caller of `F` or `F` itself. -/
def requeue (F : Nat) (gvarSet : List Value) (p : TaintPass) : TaintPass :=
  let callers := (amFind p.callersOfFunc F).getD []
  let w1 := callers.foldl (fun w caller => w.add (some caller)) p.funcWorkList
  let w2 :=
    gvarSet.foldl
      (fun w gv =>
        ((amFind p.fnsReferencingGvar gv).getD []).foldl
          (fun w fn => if fn ∉ callers ∧ fn ≠ F then w.add (some fn) else w) w)
      w1
  { p with
    funcWorkList := w2
    callersOfFunc := amUpdate [] (fun c => c) p.callersOfFunc F
    fnsReferencingGvar :=
      gvarSet.foldl (fun t gv => amUpdate [] (fun s => s) t gv) p.fnsReferencingGvar }

/-- The source's `analyzeFunc`, its fixpoint loop granted `fuel` passes. -/
def analyzeFuncWith (fuel : Nat) (M : Module) (p : TaintPass) (F : Nat) : TaintPass :=
  let oldSummary := (amFind p.funcFlowsBySink F).getD []
  let st := analyzeBody fuel M p F
  let r := summarize M F st.pass st.taintOfVal
  let p2 : TaintPass := { r.1 with globalSrcTaintSet := r.2.globalSrcTaintSet }
  if summaryEq oldSummary ((amFind p2.funcFlowsBySink F).getD []) then p2
  else requeue F st.gvarSet p2

/-! ## `taint.cpp`: the driver -/

/-- Whether the instruction is a `CallInst` that uses the function `callee`, as called
function or as an argument. -/
def usesFunction (M : Module) (callee : Nat) (inst : Instruction) : Bool :=
  match inst.kind with
  | .call true c args =>
    decide (c = some callee) || args.any (fun a => decide (amFind M.funcAddrs a = some callee))
  | _ => false

/-- The source's `findCallers`: the functions that contain a `CallInst` using `callee`. -/
def findCallers (M : Module) (callee : Nat) : List Nat :=
  (List.range M.funcs.length).filter (fun g => (M.func g).insts.any (usesFunction M callee))

/-- The pass object together with the local map `calleesOfFunc` of `run`. -/
structure SchedState where
  pass : TaintPass
  calleesOfFunc : List (Nat × List Nat)
deriving DecidableEq, Repr

/-- The body of the second loop of `run` for the function `F`: its callers are recorded,
and `F` is entered as a callee of each caller other than itself. -/
def linkCallers (M : Module) (st : SchedState) (F : Nat) : SchedState :=
  if (M.func F).isDeclaration then st
  else
    let callers := findCallers M F
    { pass := { st.pass with callersOfFunc := amSet st.pass.callersOfFunc F callers }
      calleesOfFunc :=
        callers.foldl
          (fun c caller => if caller ≠ F then amUpdate [] (fun s => setInsert s F) c caller else c)
          st.calleesOfFunc }

/-- The body of the loop over `calleesOfFunc` in one scheduling round, for the entry of
`func`; the boolean is `isStuck`. -/
def scheduleFunc (st : SchedState × Bool) (func : Nat) : SchedState × Bool :=
  if some func ∈ st.1.pass.funcWorkList.workSet then st
  else if ((amFind st.1.calleesOfFunc func).getD []).length = 0 then
    let callers := (amFind st.1.pass.callersOfFunc func).getD []
    ({ pass :=
          { st.1.pass with
            funcWorkList := st.1.pass.funcWorkList.add (some func)
            callersOfFunc := amUpdate [] (fun c => c) st.1.pass.callersOfFunc func }
       calleesOfFunc :=
          callers.foldl (fun c caller => amUpdate [] (fun s => s.erase func) c caller)
            st.1.calleesOfFunc },
      false)
  else st

/-- One scheduling round: the loop over the entries of `calleesOfFunc`. -/
def scheduleRound (st : SchedState) : SchedState × Bool :=
  (st.calleesOfFunc.map Prod.fst).foldl scheduleFunc (st, true)

/-- The scheduling rounds of `run`: repeated until a round schedules nothing, at most
`rounds` times (20 in the source). -/
def scheduleRounds : Nat → SchedState → SchedState
  | 0, st => st
  | rounds + 1, st =>
    let r := scheduleRound st
    if r.2 then r.1 else scheduleRounds rounds r.1

/-- The part of `run` between the loaders and the worklist loop: the round marker is put
on the worklist, the call graph is built, functions are scheduled callees first, and every
defined function not yet scheduled is appended. -/
def startWorkList (M : Module) (p : TaintPass) : TaintPass :=
  let fs := List.range M.funcs.length
  let p0 : TaintPass := { p with funcWorkList := p.funcWorkList.add none }
  let st0 : SchedState := { pass := p0, calleesOfFunc := fs.map (fun f => (f, [])) }
  let st1 := fs.foldl (linkCallers M) st0
  let st2 := scheduleRounds 20 st1
  fs.foldl
    (fun q F =>
      if (M.func F).isDeclaration then q
      else { q with funcWorkList := q.funcWorkList.add (some F) })
    st2.pass

/-- A value and the values reached from it by stripping one GEP after the other. -/
def gepChain : Value → List Value
  | .gep id ptr => .gep id ptr :: gepChain ptr
  | .globalVar id => [.globalVar id]
  | .other id => [.other id]

/-- The values an instruction mentions: itself and its operands. -/
def instValues (inst : Instruction) : List Value :=
  inst.self ::
    (match inst.kind with
    | .cmp => []
    | .call _ _ args => args
    | .store value ptr => [value, ptr]
    | .phi incoming => incoming
    | .ret value => value.toList
    | .other operands => operands)

/-- The values the analysis of a function can use as locations: its parameters and what its
instructions mention, with everything behind their GEPs. -/
def valuesOf (fn : IRFunction) : List Value :=
  (fn.args ++ fn.insts.flatMap instValues).flatMap gepChain

/-- The concrete sources found under the summary sinks of the summary of `callee`: the
tokens `plugInSummary` can add to the taint map at a call of `callee`. -/
def summarySources (p : TaintPass) (callee : Nat) : List SrcOrSink_t :=
  (((amFind p.funcFlowsBySink callee).getD []).filter
      (fun e => decide (e.1.callsite = none))).flatMap
    (fun e => e.2.filter (fun t => !isSummaryScrink t))

/-- The tokens the analysis of one instruction can create without wrapping. -/
def callTokens (p : TaintPass) (inst : Instruction) : List SrcOrSink_t :=
  match inst.kind with
  | .call _ (some callee) args =>
    args.map auxToken
      ++ (sourceArgs ((amFind p.funcArgSrcCat callee).getD []).length).map
          (fun arg => siteToken callee arg inst.self (srcCat p callee arg))
      ++ summarySources p callee
  | _ => []

/-- The wrapping tokens the analysis of one instruction can create: one for each concrete
source of the callee's summary, once that source is interned. -/
def wrapSites (p : TaintPass) (inst : Instruction) : List (Nat × Value × SrcOrSink_t) :=
  match inst.kind with
  | .call _ (some callee) _ => (summarySources p callee).map (fun t => (callee, inst.self, t))
  | _ => []

/-- The tokens that can occur in the taint map of `F` without wrapping: the seeds of the
parameters, what the global table holds on entry, and what the instructions create. -/
def plainTokens (M : Module) (p : TaintPass) (F : Nat) : List SrcOrSink_t :=
  (List.range (M.func F).args.length).map (fun (i : Nat) => sumToken F (i : Int))
    ++ p.globalSrcTaintSet.flatMap (fun e => e.2)
    ++ (M.func F).insts.flatMap (callTokens p)

/-- A bound on the number of different tokens in the taint map of `F`. -/
def tokenBound (M : Module) (p : TaintPass) (F : Nat) : Nat :=
  (plainTokens M p F).length + ((M.func F).insts.flatMap (wrapSites p)).length

/-- Passes granted to the fixpoint loop of `analyzeFunc`; `fixLoop_terminates` shows that
the loop is left through its size test before they are used up, so the bound never cuts the
loop short. -/
def analyzeFuel (M : Module) (p : TaintPass) (F : Nat) : Nat :=
  (valuesOf (M.func F)).length * (tokenBound M p F + (valuesOf (M.func F)).length) + 1

/-- The source's `analyzeFunc`. -/
def analyzeFunc (M : Module) (p : TaintPass) (F : Nat) : TaintPass :=
  analyzeFuncWith (analyzeFuel M p F) M p F

/-- One pass through the body of the worklist loop of `run`; `none` when the worklist is
empty and the loop is left. -/
def driverStep (M : Module) (p : TaintPass) : Option TaintPass :=
  match p.funcWorkList.pop with
  | none => none
  | some (func, w) =>
    match func with
    | none =>
      some { p with funcWorkList := if !w.empty then w.add none else w }
    | some F => some (analyzeFunc M { p with funcWorkList := w } F)

/-- The worklist loop of `run` after at most `n` passes through its body. -/
def driverLoop (M : Module) : Nat → TaintPass → TaintPass
  | 0, p => p
  | n + 1, p =>
    match driverStep M p with
    | none => p
    | some q => driverLoop M n q

/-- A module in which the defined function `main` (number 1) calls the declared function
`fopen` (number 0) with the constant GEP expression over the global string `config.ini`
(global variable 5) and with another constant string. -/
def filenameExampleModule : Module :=
  { funcs :=
      [ ⟨"fopen".toList, true, false, [.other 1, .other 2], []⟩,
        ⟨"main".toList, false, false, [],
          [ ⟨.other 10, .call true (some 0) [.gep 11 (.globalVar 5), .gep 12 (.globalVar 6)]⟩,
            ⟨.other 13, .ret none⟩ ]⟩ ],
    constantExprs := [.gep 11 (.globalVar 5), .gep 12 (.globalVar 6)],
    cstrings := [(5, [99, 111, 110, 102, 105, 103, 46, 105, 110, 105]), (6, [114])],
    constGlobals := [5, 6], funcAddrs := [] }

/-- The summary `funcFlowsBySink[f]` as a map; an absent entry reads as the empty map. -/
def summaryOf (p : TaintPass) (f : Nat) : Summary :=
  (amFind p.funcFlowsBySink f).getD []

/-- Two taint maps answer every lookup alike: the same alias sets, and the same set of
tokens at every location of either table. -/
def SameReads (m m2 : AliasedTaintMap) : Prop :=
  m2.aliasesOf = m.aliasesOf ∧ ∀ g x, readTaint g m2 x = readTaint g m x

/-- The taint map `m2` holds everything `m` holds: every token found at a location is still
found there, every alias set has kept its bases, and `calcSize()` has not gone down. -/
structure TaintGrows (m m2 : AliasedTaintMap) : Prop where
  reads : ∀ g x t, t ∈ readTaint g m x → t ∈ readTaint g m2 x
  aliases : ∀ k l, amFind m.aliasesOf k = some l →
    ∃ l2, amFind m2.aliasesOf k = some l2 ∧ ∀ b ∈ l, b ∈ l2
  size : calcSize m ≤ calcSize m2

/-- The entries of a summary under summary sinks (keys without a call site). -/
def summarySinkPart (s : Summary) : Summary :=
  s.filter (fun e => decide (e.1.callsite = none))

/-- What the transfer functions keep of the pass object while a function is analysed: the
specification tables read the same, the worklist and the call graph are untouched, the
entries under summary sinks are untouched, no summary entry disappears, and no interned
token moves. -/
structure PassKeeps (p q : TaintPass) : Prop where
  wrappers : q.wrapperFuncs = p.wrapperFuncs
  copiers : q.taintCopiers = p.taintCopiers
  known : q.knownExtFuncs = p.knownExtFuncs
  callers : q.callersOfFunc = p.callersOfFunc
  worklist : q.funcWorkList = p.funcWorkList
  global : q.globalSrcTaintSet = p.globalSrcTaintSet
  srcCats : ∀ f, (amFind q.funcArgSrcCat f).getD [] = (amFind p.funcArgSrcCat f).getD []
  sinkCats : ∀ f, (amFind q.funcArgSinkCat f).getD [] = (amFind p.funcArgSinkCat f).getD []
  retCats : ∀ f, (amFind q.funcRetCat f).getD 0 = (amFind p.funcRetCat f).getD 0
  summaryPart : ∀ f, summarySinkPart (summaryOf q f) = summarySinkPart (summaryOf p f)
  entries : ∀ f k, (amFind (summaryOf p f) k).isSome → (amFind (summaryOf q f) k).isSome
  scrinks : ∀ t a, amFind p.scrinksInUse t = some a → amFind q.scrinksInUse t = some a
  heap : ∀ (a : Nat) (t : SrcOrSink_t), p.scrinkHeap[a]? = some t → q.scrinkHeap[a]? = some t

/-- The intern table is well formed: the address stored for a token is the address of a
copy of that token. -/
def ScrinkInv (p : TaintPass) : Prop :=
  ∀ (t : SrcOrSink_t) (a : Nat), amFind p.scrinksInUse t = some a → p.scrinkHeap[a]? = some t

/-- One or more steps of the analysis of a function lead from `st` to `st2`: the pass object
is kept as `PassKeeps` says, the taint map has grown, and `gvarSet` has lost nothing. -/
structure AnGrows (st st2 : AnState) : Prop where
  pass : PassKeeps st.pass st2.pass
  taint : TaintGrows st.taintOfVal st2.taintOfVal
  gvars : ∀ g ∈ st.gvarSet, g ∈ st2.gvarSet

/-- A state in which function 1 is a wrapper whose summary holds one concrete sink, the
argument 0 of a call (call site 7) to function 5, reached by parameter 0 of the wrapper. -/
def wrapperExampleState : AnState :=
  { pass :=
      { TaintPass.fresh with
        wrapperFuncs := [1]
        funcFlowsBySink := [(1, [(⟨some 5, 0, some 7, 1, none, none⟩, [sumToken 1 0])])] }
    taintOfVal := { globalSrcTaintSet := [], baseTaintOf := [], aliasesOf := [] }
    gvarSet := [] }

/-- A state of the analysis of function 9 in which the summary of function 0 says that
parameter 1 flows into parameter 0, and the value 2 carries the summary token of parameter 0
of function 9. -/
def plugExampleState : AnState :=
  { pass := { TaintPass.fresh with funcFlowsBySink := [(0, [(sumToken 0 0, [sumToken 0 1])])] }
    taintOfVal :=
      { globalSrcTaintSet := [], baseTaintOf := [(.other 2, [sumToken 9 0])], aliasesOf := [] }
    gvarSet := [] }

/-- The sink category the sink loop of `analyzeInst` uses for argument number `a` when the
category table of the callee is `tbl`: the entry at `a`, or the last entry when `a` is past
the end of the table. -/
def sinkCat (tbl : List Int) (a : Nat) : Int :=
  tbl.getD (min a (tbl.length - 1)) 0

/-- The state in which `analyzeInst` enters the sink loop for the call `callsite` to the
declared function `callee`: after the filename loop and, for a taint copier, after
`plugInSummary`. -/
def atSinkLoop (M : Module) (func : Nat) (st : AnState) (callsite : Value) (callee : Nat)
    (args : List Value) : AnState :=
  if callee ∈ (promoteFilenames M st args).pass.taintCopiers then
    plugInSummary func callsite callee args (promoteFilenames M st args)
  else promoteFilenames M st args

/-- The module of scenario S3: the declared functions `getsecret` (number 0), whose return
value is a source, and `sendout` (number 1), whose argument is a sink, and the defined
function `f` (number 2), in which `x` (value 3) is a phi over the local buffers `p` and `q`
(values 1 and 2), `s` (value 4) is the call of `getsecret`, followed by `store s, x`,
`y = load p` (value 6) and the call `sendout(y)` (value 7). -/
def s3Module : Module :=
  { funcs :=
      [ ⟨"getsecret".toList, true, false, [], []⟩,
        ⟨"sendout".toList, true, false, [.other 100], []⟩,
        ⟨"f".toList, false, false, [],
          [ ⟨.other 1, .other []⟩,
            ⟨.other 2, .other []⟩,
            ⟨.other 3, .phi [.other 1, .other 2]⟩,
            ⟨.other 4, .call true (some 0) []⟩,
            ⟨.other 5, .store (.other 4) (.other 3)⟩,
            ⟨.other 6, .other [.other 1]⟩,
            ⟨.other 7, .call true (some 1) [.other 6]⟩,
            ⟨.other 8, .ret none⟩ ]⟩ ],
    constantExprs := [], cstrings := [], constGlobals := [], funcAddrs := [] }

/-- The pass object after the loaders have read the specification of scenario S3: the
return value of `getsecret` is a source and argument 0 of `sendout` is a sink, both of
category main. -/
def s3Pass : TaintPass :=
  { TaintPass.fresh with
    funcRetCat := [(0, 1)]
    funcArgSrcCat := [(0, []), (1, [0])]
    funcArgSinkCat := [(0, []), (1, [1])]
    knownExtFuncs := [0, 1] }

/-- A module in which the defined function `main` (number 1) calls the declared function
`memcpy` (number 0) on two local buffers. -/
def copierDriverModule : Module :=
  { funcs :=
      [ ⟨"memcpy".toList, true, false, [.other 1, .other 2, .other 3], []⟩,
        ⟨"main".toList, false, false, [],
          [ ⟨.other 10, .other []⟩,
            ⟨.other 11, .other []⟩,
            ⟨.other 12, .call true (some 0) [.other 10, .other 11, .other 13]⟩,
            ⟨.other 14, .ret none⟩ ]⟩ ],
    constantExprs := [], cstrings := [], constGlobals := [], funcAddrs := [] }

/-- The pass object after `parse_taint_copiers` has loaded the line
`memcpy ( dst -> [ ], src -> [ dst ], n -> [ ] )` into a fresh pass object. -/
def copierDriverPass : TaintPass :=
  loadCopier copierDriverModule TaintPass.fresh "memcpy".toList
    [("dst".toList, ["dst".toList]), ("src".toList, ["src".toList, "dst".toList]),
      ("n".toList, ["n".toList])]

/-- The taint map is well formed with respect to a set `U` of tokens, a set `V` of
locations and a set `K` of alias keys: the keys of the base table and of the alias map are
pairwise different, the base table has entries for locations of `V` only, all sets are
duplicate free, every token of either table belongs to `U`, alias sets are recorded for keys
of `K` only and hold locations of `V`. -/
structure TaintInv (U : SrcOrSink_t → Prop) (V K : Value → Prop) (m : AliasedTaintMap) :
    Prop where
  base_nodup : (m.baseTaintOf.map Prod.fst).Nodup
  base_keys : ∀ e ∈ m.baseTaintOf, V e.1
  base_sets : ∀ e ∈ m.baseTaintOf, e.2.Nodup ∧ ∀ t ∈ e.2, U t
  glob_sets : ∀ e ∈ m.globalSrcTaintSet, ∀ t ∈ e.2, U t
  alias_nodup : (m.aliasesOf.map Prod.fst).Nodup
  alias_keys : ∀ e ∈ m.aliasesOf, K e.1
  alias_sets : ∀ e ∈ m.aliasesOf, e.2.Nodup ∧ ∀ b ∈ e.2, V b

/-- The tokens that can occur in the taint map while `F` is analysed from the pass object
`p`, when the intern table is `scr`: the tokens of `plainTokens`, and for each wrap site
whose inner token is interned the wrapping token around its address. -/
def TokenOK (M : Module) (p : TaintPass) (F : Nat) (scr : List (SrcOrSink_t × Nat))
    (t : SrcOrSink_t) : Prop :=
  t ∈ plainTokens M p F
    ∨ ∃ s ∈ (M.func F).insts.flatMap (wrapSites p), ∃ a : Nat,
        amFind scr s.2.2 = some a ∧ t = wrapToken s.1 s.2.1 s.2.2 a

/-- The tokens of `TokenOK` as a list. -/
def universeList (M : Module) (p : TaintPass) (F : Nat) (scr : List (SrcOrSink_t × Nat)) :
    List SrcOrSink_t :=
  plainTokens M p F
    ++ ((M.func F).insts.flatMap (wrapSites p)).filterMap
        (fun s => (amFind scr s.2.2).map (wrapToken s.1 s.2.1 s.2.2))

/-- The invariant of the fixpoint loop of `analyzeFunc` for the function `F`, entered with
the pass object `p`: the pass object is kept as `PassKeeps` says, and the taint map is well
formed with respect to the tokens of `TokenOK` and the values of `F`. -/
structure LoopInv (M : Module) (p : TaintPass) (F : Nat) (st : AnState) : Prop where
  pass : PassKeeps p st.pass
  taint : TaintInv (TokenOK M p F st.pass.scrinksInUse) (fun v => v ∈ valuesOf (M.func F))
    (fun v => v ∈ valuesOf (M.func F)) st.taintOfVal

/-- The value `v` is the location, behind its GEP, of a phi instruction of the function. -/
def isPhiKey (fn : IRFunction) (v : Value) : Bool :=
  fn.insts.any (fun inst =>
    match inst.kind with
    | .phi _ => decide (v = passThruGep inst.self)
    | _ => false)

/-- Alias sets are recorded for phi instructions of the function only. -/
def AliasKeysOK (fn : IRFunction) (m : AliasedTaintMap) : Prop :=
  ∀ key l, amFind m.aliasesOf key = some l → isPhiKey fn key = true

/-- Every token found in a summary entry of `p` is found in the same entry of `q`. -/
def FlowsGrow (p q : TaintPass) : Prop :=
  ∀ f key t, t ∈ flowsOf p f key → t ∈ flowsOf q f key

/-- The shape of scenario S3 in the function `F` of the module `M`, analysed with the pass
object `p`: `x` is a phi with the incoming value `p1`; `s` is a call to the declared function
`E`, whose return value is a source; both come before the instruction `w`, which is
`store s, x`; later come `y = load p1` and the call `k` to the declared function `G`, which
passes `y` as argument `a`, a sink of `G`. The lists `L1`, `D`, `E2` and `R` are the
instructions before, between and after these. -/
structure AliasScenario (M : Module) (p : TaintPass) (F : Nat) (x p1 s y k w : Value)
    (incoming : List Value) (E G : Nat) (argsS argsK : List Value) (ics ick : Bool) (a : Nat)
    (L1 D E2 R : List Instruction) : Prop where
  /-- Program order: the store, then the load, then the call of the sink. -/
  order : (M.func F).insts
    = L1 ++ ⟨w, .store s x⟩ :: (D ++ ⟨y, .other [p1]⟩
        :: (E2 ++ ⟨k, .call ick (some G) argsK⟩ :: R))
  /-- The phi `x` comes before the store. -/
  phiBefore : ⟨x, .phi incoming⟩ ∈ L1
  /-- The location `p1` is an incoming value of the phi. -/
  incomingP : p1 ∈ incoming
  /-- The call `s` comes before the store. -/
  sourceBefore : ⟨s, .call ics (some E) argsS⟩ ∈ L1
  /-- The function `E` is external. -/
  sourceDeclared : (M.func E).isDeclaration = true
  /-- The return value of `E` is a declared source. -/
  sourceCat : srcCat p E RETVAL_CODE ≠ AUX_TYPE_NULL
  /-- The function `G` is external. -/
  sinkDeclared : (M.func G).isDeclaration = true
  /-- The value `y` is argument `a` of the call `k`. -/
  sinkArg : argsK[a]? = some y
  /-- The function `G` has a table of sink categories. -/
  sinkTable : (amFind p.funcArgSinkCat G).getD [] ≠ []
  /-- Argument `a` of `G` is a declared sink. -/
  sinkDeclaredAt : sinkCat ((amFind p.funcArgSinkCat G).getD []) a ≠ AUX_TYPE_NULL
  /-- The tables of sink categories fit the `int` the sink loop casts their size to. -/
  tables : ∀ f, ((amFind p.funcArgSinkCat f).getD []).length ≤ 2 ^ 31
  /-- The phi `x` is neither a GEP nor a global variable. -/
  xPlain : passThruGep x = x ∧ isGlobalVariable x = false
  /-- The location `p1`, behind its GEP, is neither a global variable nor a phi. -/
  pLocal : isGlobalVariable (passThruGep p1) = false
    ∧ isPhiKey (M.func F) (passThruGep p1) = false
  /-- The call `s` is neither a GEP, nor a global variable, nor a phi. -/
  sPlain : passThruGep s = s ∧ isGlobalVariable s = false ∧ isPhiKey (M.func F) s = false
  /-- The load `y` is neither a GEP, nor a global variable, nor a phi. -/
  yPlain : passThruGep y = y ∧ isGlobalVariable y = false ∧ isPhiKey (M.func F) y = false
  /-- No other instruction of `F` has the identity of the call `k`. -/
  unique : ∀ inst ∈ (M.func F).insts, inst.self.ident = k.ident →
    inst = ⟨k, .call ick (some G) argsK⟩

/-- The `getline` loop of `parse_taint_cp_file` over the lines of the file, with the table
`fnprototype_map` built so far: a malformed line ends the loop through
`return fnprototype_map`, and `none` stands for the exception that `substr` throws.  The
table lists the names in the order of their first line; the source keeps it sorted. -/
def parseCopierLines :
    List (List Char) → List (List Char × ArgDecls) → Option (List (List Char × ArgDecls))
  | [], tbl => some tbl
  | line :: rest, tbl =>
    match parseCopierLine line with
    | .malformed => some tbl
    | .outOfRange => none
    | .entry fnname args => parseCopierLines rest (amSet tbl fnname args)

/-- The source's `parse_taint_cp_file` for a file that could be opened and has the given
lines. -/
def parse_taint_cp_file (lines : List (List Char)) : Option (List (List Char × ArgDecls)) :=
  parseCopierLines lines []

/-! ## `taint.cpp`: loading the sources and sinks -/

/-- Whether `isspace` holds for the character, in the "C" locale. -/
def isSpaceChar (c : Char) : Bool :=
  c = ' ' || c = '\t' || c = '\n' || c = '\x0b' || c = '\x0c' || c = '\r'

/-- The tokens that repeated `iss >> tok` reads from the rest of a line; `cur` holds the
characters of the token being read and `acc` the tokens read so far. -/
def wordsFrom : List Char → List Char → List (List Char) → List (List Char)
  | [], cur, acc => if cur = [] then acc else acc ++ [cur]
  | c :: rest, cur, acc =>
    if isSpaceChar c then wordsFrom rest [] (if cur = [] then acc else acc ++ [cur])
    else wordsFrom rest (cur ++ [c]) acc

/-- The tokens that repeated `iss >> tok` reads from a line. -/
def words (line : List Char) : List (List Char) :=
  wordsFrom line [] []

/-- The call `v.resize(n)` on a `vector<int>`. -/
def resize (v : List Int) (n : Nat) : List Int :=
  v.take n ++ List.replicate (n - v.length) 0

/-- The assignment `v[i] = x` on a `vector<int>`; `none` stands for the undefined behaviour
of an index outside the vector. -/
def vecSet (v : List Int) (i : Nat) (x : Int) : Option (List Int) :=
  if i < v.length then some (v.set i x) else none

/-- What `populate_sources_and_sinks_2` reads off a category token: the category `taint_cat`
and the flags `isSrc` and `isSink`. -/
structure CatCode where
  taint_cat : Int
  isSrc : Bool
  isSink : Bool
deriving DecidableEq, Repr

/-- The statements of `populate_sources_and_sinks_2` that decode the token `curcat`: the
prefix `File` selects the file category, and the rest is compared with `Src`, `Sink`,
`SrcAndSink` and `none`; anything else is reported and sets no flag. -/
def decodeCat (curcat : List Char) : CatCode :=
  let isFile := "File".toList.isPrefixOf curcat
  let cat := if isFile then curcat.drop 4 else curcat
  let taint_cat := if isFile then AUX_TYPE_FILE else AUX_TYPE_MAIN
  if cat = "Src".toList then ⟨taint_cat, true, false⟩
  else if cat = "Sink".toList then ⟨taint_cat, false, true⟩
  else if cat = "SrcAndSink".toList then ⟨taint_cat, true, true⟩
  else ⟨taint_cat, false, false⟩

/-- The branch `if (isRet)` for the token `curcat` read after `->`: a source category is
stored in `funcRetCat[func]`, a sink is reported only. -/
def applyRetCat (func : Nat) (curcat : List Char) (p : TaintPass) : TaintPass :=
  if (decodeCat curcat).isSrc then
    { p with funcRetCat := amSet p.funcRetCat func (decodeCat curcat).taint_cat }
  else p

/-- The statement `funcArgSrcCat[func][ixArg] = taint_cat`. -/
def setArgSrcCat (func : Nat) (ixArg : Nat) (cat : Int) (p : TaintPass) : Option TaintPass :=
  match vecSet ((amFind p.funcArgSrcCat func).getD []) ixArg cat with
  | none => none
  | some v => some { p with funcArgSrcCat := amSet p.funcArgSrcCat func v }

/-- The statement `funcArgSinkCat[func][ixArg] = taint_cat`. -/
def setArgSinkCat (func : Nat) (ixArg : Nat) (cat : Int) (p : TaintPass) : Option TaintPass :=
  match vecSet ((amFind p.funcArgSinkCat func).getD []) ixArg cat with
  | none => none
  | some v => some { p with funcArgSinkCat := amSet p.funcArgSinkCat func v }

/-- The branch `else` of `if (isRet)` for the token `curcat` of argument number `ixArg`. -/
def applyArgCat (func : Nat) (curcat : List Char) (ixArg : Nat) (p : TaintPass) :
    Option TaintPass :=
  let c := decodeCat curcat
  match (if c.isSrc then setArgSrcCat func ixArg c.taint_cat p else some p) with
  | none => none
  | some p1 => if c.isSink then setArgSinkCat func ixArg c.taint_cat p1 else some p1

/-- The loop `while (iss >> curcat)` of `populate_sources_and_sinks_2` over the tokens that
follow the function name.  `ixArg` is the value the counter takes for the next token read
by the loop condition; `afterArrow` tells that the token before was `->`, so that the next
token is read by the `iss >> curcat` of that branch and belongs to the return value. -/
def loadCats (M : Module) (func : Nat) :
    List (List Char) → Nat → Bool → TaintPass → Option TaintPass
  | [], _, _, p => some p
  | curcat :: rest, ixArg, true, p => loadCats M func rest ixArg false (applyRetCat func curcat p)
  | curcat :: rest, ixArg, false, p =>
    if curcat = "-".toList then loadCats M func rest (ixArg + 1) false p
    else if curcat = "->".toList then loadCats M func rest (ixArg + 1) true p
    else if ixArg ≥ (M.func func).args.length ∧ (M.func func).isVarArg = false then
      loadCats M func rest (ixArg + 1) false p
    else
      match applyArgCat func curcat ixArg p with
      | none => none
      | some p1 => loadCats M func rest (ixArg + 1) false p1

/-- The body of the `getline` loop of `populate_sources_and_sinks_2` for a line with the
given tokens: the first is the function name, the others are category tokens. -/
def loadSrcSinkTokens (M : Module) (p : TaintPass) (tokens : List (List Char)) :
    Option TaintPass :=
  match getFunction M (tokens.headD []) with
  | none => some p
  | some func =>
    let n := (M.func func).args.length
    loadCats M func tokens.tail 0 false
      { p with
        knownExtFuncs := setInsert p.knownExtFuncs func
        funcArgSrcCat := amUpdate [] (fun v => resize v n) p.funcArgSrcCat func
        funcArgSinkCat :=
          amUpdate [] (fun v => resize v (n + if (M.func func).isVarArg then 1 else 0))
            p.funcArgSinkCat func }

/-- The source's `populate_sources_and_sinks_2` for a file that could be opened and has the
given lines. -/
def populate_sources_and_sinks_2 (M : Module) : List (List Char) → TaintPass → Option TaintPass
  | [], p => some p
  | line :: rest, p =>
    match loadSrcSinkTokens M p (words line) with
    | none => none
    | some p1 => populate_sources_and_sinks_2 M rest p1

/-- A module that declares `recv` with two parameters. -/
def srcSinkExampleModule : Module :=
  { funcs := [⟨"recv".toList, true, false, [.other 1, .other 2], []⟩],
    constantExprs := [], cstrings := [], constGlobals := [], funcAddrs := [] }

/-- A module in which `main` (number 2) passes the address of `handler` (number 0, value
50) to the declared function `signal` (number 1), and `run` (number 3) reaches `handler`
through an `invoke`. -/
def callbackModule : Module :=
  { funcs :=
      [ ⟨"handler".toList, false, false, [], [⟨.other 1, .ret none⟩]⟩,
        ⟨"signal".toList, true, false, [.other 2, .other 3], []⟩,
        ⟨"main".toList, false, false, [],
          [ ⟨.other 10, .call true (some 1) [.other 11, .other 50]⟩,
            ⟨.other 12, .ret none⟩ ]⟩,
        ⟨"run".toList, false, false, [],
          [ ⟨.other 20, .call false (some 0) []⟩,
            ⟨.other 21, .ret none⟩ ]⟩ ],
    constantExprs := [], cstrings := [], constGlobals := [], funcAddrs := [(.other 50, 0)] }

/-- A module with the declared functions `sendout` (number 0) and `recv` (number 1) and the
defined function `f` (number 2), which passes the global variable `g` (global 5, not
constant) to `sendout` and then to `recv`. -/
def globalLoopModule : Module :=
  { funcs :=
      [ ⟨"sendout".toList, true, false, [.other 100], []⟩,
        ⟨"recv".toList, true, false, [.other 101], []⟩,
        ⟨"f".toList, false, false, [],
          [ ⟨.other 1, .call true (some 0) [.globalVar 5]⟩,
            ⟨.other 2, .call true (some 1) [.globalVar 5]⟩,
            ⟨.other 3, .ret none⟩ ]⟩ ],
    constantExprs := [], cstrings := [], constGlobals := [], funcAddrs := [] }

/-- The pass object after the loaders have read `sendout Sink` and `recv Src`: argument 0 of
`sendout` is a sink and argument 0 of `recv` is a source, both of category main. -/
def globalLoopPass : TaintPass :=
  { TaintPass.fresh with
    funcArgSrcCat := [(0, [0]), (1, [1])]
    funcArgSinkCat := [(0, [1]), (1, [0])]
    knownExtFuncs := [0, 1] }

/-- The function `G` is a callee of `F` in the call graph that `run` builds: `G` has a body,
is not `F` itself, and `F` is in `findCallers(G)`. -/
def calleeOf (M : Module) (F G : Nat) : Prop :=
  G < M.funcs.length ∧ (M.func G).isDeclaration = false ∧ G ≠ F ∧ F ∈ findCallers M G

/-- In the list `l` the item `a` stands before the item `b`. -/
def Before (l : List (Option Nat)) (a b : Option Nat) : Prop :=
  ∃ l1 l2, l = l1 ++ b :: l2 ∧ a ∈ l1

/-- The state of `run` after the scheduling rounds, before the remaining functions are
appended to the worklist. -/
def priorityPass (M : Module) (p : TaintPass) : SchedState :=
  scheduleRounds 20
    ((List.range M.funcs.length).foldl (linkCallers M)
      { pass := { p with funcWorkList := p.funcWorkList.add none },
        calleesOfFunc := (List.range M.funcs.length).map (fun f => (f, [])) })

/-- The invariant of the scheduling rounds of `run`: `callersOfFunc` holds the result of
`findCallers` for the functions with a body and nothing for the others, `calleesOfFunc` has
an entry for every function of the module, holding its callees that are not yet on the
worklist, `workSet` has the items of the worklist, and on the worklist every function
stands behind its callees. -/
structure SchedInv (M : Module) (st : SchedState) : Prop where
  callers : ∀ G, (amFind st.pass.callersOfFunc G).getD []
    = if G < M.funcs.length ∧ (M.func G).isDeclaration = false then findCallers M G else []
  keys : st.calleesOfFunc.map Prod.fst = List.range M.funcs.length
  nodup : ∀ F, ((amFind st.calleesOfFunc F).getD []).Nodup
  callees : ∀ F G, G ∈ (amFind st.calleesOfFunc F).getD []
    ↔ calleeOf M F G ∧ some G ∉ st.pass.funcWorkList.workList
  workSet : ∀ x, x ∈ st.pass.funcWorkList.workSet ↔ x ∈ st.pass.funcWorkList.workList
  order : ∀ F G, some F ∈ st.pass.funcWorkList.workList → calleeOf M F G →
    Before st.pass.funcWorkList.workList (some G) (some F)

/-- A module in which `worker` (number 0) calls `setup` (number 1), and `setup` passes the
address of `worker` (value 50) to the declared function `signal` (number 2). -/
def pointerCycleModule : Module :=
  { funcs :=
      [ ⟨"worker".toList, false, false, [],
          [⟨.other 1, .call true (some 1) []⟩, ⟨.other 2, .ret none⟩]⟩,
        ⟨"setup".toList, false, false, [],
          [⟨.other 10, .call true (some 2) [.other 11, .other 50]⟩, ⟨.other 12, .ret none⟩]⟩,
        ⟨"signal".toList, true, false, [.other 20, .other 21], []⟩ ],
    constantExprs := [], cstrings := [], constGlobals := [], funcAddrs := [(.other 50, 0)] }

/-- The shape of a wrapper that calls itself: the function `W` has a body in which the call
`k` passes `y` as argument `a` to the declared function `G`, where `a` is a sink of `G`
according to the category table `tbl`, and later the call instruction `c` calls `W`
itself.  The lists `L1`, `L2` and `L3` are the instructions before, between and after the
two calls. -/
structure WrapperLoop (M : Module) (W G : Nat) (k c y : Value) (a : Nat)
    (argsK argsC : List Value) (ick : Bool) (tbl : List Int)
    (L1 L2 L3 : List Instruction) : Prop where
  /-- The function `W` belongs to the module. -/
  inModule : W < M.funcs.length
  /-- The function `W` has a body. -/
  body : (M.func W).isDeclaration = false
  /-- Program order: the call of the sink, then the call of `W` itself. -/
  order : (M.func W).insts
    = L1 ++ ⟨k, .call ick (some G) argsK⟩ :: (L2 ++ ⟨c, .call true (some W) argsC⟩ :: L3)
  /-- The function `G` is external. -/
  sinkDeclared : (M.func G).isDeclaration = true
  /-- The value `y` is argument `a` of the call `k`. -/
  sinkArg : argsK[a]? = some y
  /-- The category table of `G` is not empty and fits the `int` its size is cast to. -/
  sinkTable : tbl ≠ [] ∧ tbl.length ≤ 2 ^ 31
  /-- Argument `a` of `G` is a declared sink. -/
  sinkDeclaredAt : sinkCat tbl a ≠ AUX_TYPE_NULL

/-- The state of the driver in which the wrapper `W` of a `WrapperLoop` is waiting on the
worklist: `W` is a wrapper and one of its own callers, the category table of `G` is `tbl`,
the intern table is well formed, `workSet` is a set whose items are on the worklist, and
`W` is on the worklist. -/
structure WrapperPending (W G : Nat) (tbl : List Int) (p : TaintPass) : Prop where
  wrapper : W ∈ p.wrapperFuncs
  table : (amFind p.funcArgSinkCat G).getD [] = tbl
  selfCaller : W ∈ (amFind p.callersOfFunc W).getD []
  scrinks : ScrinkInv p
  setNodup : p.funcWorkList.workSet.Nodup
  setList : ∀ x ∈ p.funcWorkList.workSet, x ∈ p.funcWorkList.workList
  pending : some W ∈ p.funcWorkList.workList

/-- A module with the declared function `sendout` (number 0) and the defined function
`relay` (number 1), which passes its parameter to `sendout` and then calls itself. -/
def wrapLoopModule : Module :=
  { funcs :=
      [ ⟨"sendout".toList, true, false, [.other 100], []⟩,
        ⟨"relay".toList, false, false, [.other 1],
          [ ⟨.other 10, .call true (some 0) [.other 1]⟩,
            ⟨.other 11, .call true (some 1) [.other 1]⟩,
            ⟨.other 12, .ret none⟩ ]⟩ ],
    constantExprs := [], cstrings := [], constGlobals := [], funcAddrs := [] }

/-- The pass object after the loaders have read `sendout Sink` from the sources-and-sinks
file and `relay` from the wrappers file. -/
def wrapLoopPass : TaintPass :=
  { TaintPass.fresh with
    funcArgSrcCat := [(0, [0])]
    funcArgSinkCat := [(0, [1])]
    knownExtFuncs := [0]
    wrapperFuncs := [1] }

/-- What the analysis of the function `F` keeps of the pass object besides what `PassKeeps`
says: the summaries of the other functions, the functions recorded for a global variable,
and the well-formedness of the intern table. -/
structure StepKeeps (F : Nat) (p q : TaintPass) : Prop where
  others : ∀ G, G ≠ F → summaryOf q G = summaryOf p G
  fnsRef : ∀ gv f, f ∈ (amFind p.fnsReferencingGvar gv).getD [] →
    f ∈ (amFind q.fnsReferencingGvar gv).getD []
  scrinkInv : ScrinkInv p → ScrinkInv q

/-- A module that declares the variadic function `printf` with one named parameter. -/
def variadicExampleModule : Module :=
  { funcs := [⟨"printf".toList, true, true, [.other 1], []⟩],
    constantExprs := [], cstrings := [], constGlobals := [], funcAddrs := [] }

/-- The `int` that the `char` holding the byte `b` promotes to, `char` being signed: the
byte itself up to 127, and the byte minus 256 above. -/
def charOfByte (b : Nat) : Int :=
  if b < 128 then (b : Int) else (b : Int) - 256

/-- The invariant of the exploration loop of `findMergeEdges` for the conditional edge
`(jump, iSucc)`, entered with the map `ps0`: the edges seen are distinct edges of the
function, each reached from the conditional edge through blocks that fail the merge
predicates; the conditional edge and the edges that leave a block entered by a seen edge
that is no merge edge are seen or queued; `seenBBs` holds the blocks entered by a seen edge
that is no merge edge, `mergeEdges` the seen edges that are merge edges, each once; and the
conditional edge has been appended once to the entry of every block of `seenBBs`. -/
structure ExploreInv (F : Function) (jump : Instr) (iSucc : Nat)
    (ps0 : List (Nat × List Edge)) (t : BfsState) : Prop where
  valid : QueueValid F jump t
  seenValid : ∀ e ∈ t.alreadySeen, e.1.fn = jump.fn ∧ e.2 < numSuccessors F e.1.bb
  seenNodup : t.alreadySeen.Nodup
  start : (jump, iSucc) ∈ t.alreadySeen ∨ (jump, iSucc) ∈ t.queue
  reach : ∀ e, e ∈ t.alreadySeen ∨ e ∈ t.queue → ∃ pre : List Edge,
    (pre ++ [e]).head? = some (jump, iSucc)
      ∧ List.Chain' (EdgeFollows F) (pre ++ [e])
      ∧ ∀ x ∈ pre, is_merge_edge F jump ⟨x.1.fn, dest_bb_of_edge F x⟩ = false
  closed : ∀ e ∈ t.alreadySeen,
    is_merge_edge F jump ⟨e.1.fn, dest_bb_of_edge F e⟩ = false →
    ∀ j < numSuccessors F (dest_bb_of_edge F e),
      ((⟨e.1.fn, dest_bb_of_edge F e⟩ : Instr), j) ∈ t.alreadySeen
        ∨ ((⟨e.1.fn, dest_bb_of_edge F e⟩ : Instr), j) ∈ t.queue
  blocks : ∀ B, B ∈ t.seenBBs ↔ ∃ e ∈ t.alreadySeen,
    is_merge_edge F jump ⟨e.1.fn, dest_bb_of_edge F e⟩ = false ∧ dest_bb_of_edge F e = B
  merges : ∀ e, e ∈ t.mergeEdges ↔ e ∈ t.alreadySeen
    ∧ is_merge_edge F jump ⟨e.1.fn, dest_bb_of_edge F e⟩ = true
  mergeNodup : t.mergeEdges.Nodup
  counts : ∀ B c, ((amFind t.bb_to_cond_paths B).getD []).count c
    = ((amFind ps0 B).getD []).count c
      + (if c = (jump, iSucc) ∧ B ∈ t.seenBBs then 1 else 0)

/-- What the `assert`s of `plugInSummary` demand of a summary source of the callee `F`: a
token that is a summary token names `F` and an argument number other than `RETVAL_CODE`. -/
def seedLike (F : Nat) (t : SrcOrSink_t) : Prop :=
  isSummaryScrink t = true → t.func = some F ∧ t.ixArg ≠ RETVAL_CODE

/-- The `assert`s of `plugInSummary` on the entry `e` of the summary of `callee`:
`assert(sumSink.func == callee)` for a sink without call site, and
`assert(sumSrc.func == callee); assert(sumSrc.ixArg != RETVAL_CODE)` for every source that
is a summary token. -/
def plugAsserts (callee : Nat) (e : SrcOrSink_t × List SrcOrSink_t) : Prop :=
  (e.1.callsite = none → e.1.func = some callee) ∧ ∀ sumSrc ∈ e.2, seedLike callee sumSrc

/-- No `assert` of `plugInSummary` can fail on the summaries of the pass object, whichever
function is the callee. -/
def AssertsHold (p : TaintPass) : Prop :=
  ∀ F, ∀ e ∈ summaryOf p F, plugAsserts F e

/-- Every token of the global table of the pass object has a call site. -/
def GlobalOK (p : TaintPass) : Prop :=
  ∀ x t, t ∈ (amFind p.globalSrcTaintSet x).getD [] → t.callsite ≠ none

/-- The taint map of the function `F` holds no summary tokens but those of the parameters
of `F`, and its global table holds tokens with a call site only. -/
structure SeedsOnly (F : Nat) (m : AliasedTaintMap) : Prop where
  base : ∀ x t, t ∈ readTaint false m x → seedLike F t
  global : ∀ x t, t ∈ readTaint true m x → t.callsite ≠ none

/-- The invariant of the analysis of the function `F` for the `assert`s of
`plugInSummary`. -/
structure AssertInv (F : Nat) (st : AnState) : Prop where
  flows : AssertsHold st.pass
  taint : SeedsOnly F st.taintOfVal

/-- The two members of a `WorkList` agree: `workSet` is a set, and its items are on the
list. -/
def WorkListOK (w : WorkList) : Prop :=
  w.workSet.Nodup ∧ ∀ x ∈ w.workSet, x ∈ w.workList

/-- What one call `analyzeFunc(F)` keeps of the pass object: the specification tables, the
call graph, the items on the worklist, what the global table holds, the summaries of the
other functions, the keys of the summary of `F`, the functions recorded for the global
variables, and the well-formedness of the worklist and of the intern table. -/
structure RunKeeps (F : Nat) (p q : TaintPass) : Prop where
  wrappers : q.wrapperFuncs = p.wrapperFuncs
  copiers : q.taintCopiers = p.taintCopiers
  srcCats : ∀ f, (amFind q.funcArgSrcCat f).getD [] = (amFind p.funcArgSrcCat f).getD []
  sinkCats : ∀ f, (amFind q.funcArgSinkCat f).getD [] = (amFind p.funcArgSinkCat f).getD []
  retCats : ∀ f, (amFind q.funcRetCat f).getD 0 = (amFind p.funcRetCat f).getD 0
  callers : ∀ f, (amFind q.callersOfFunc f).getD [] = (amFind p.callersOfFunc f).getD []
  workMem : ∀ x, x ∈ p.funcWorkList.workList → x ∈ q.funcWorkList.workList
  workOK : WorkListOK p.funcWorkList → WorkListOK q.funcWorkList
  global : ∀ x t, t ∈ (amFind p.globalSrcTaintSet x).getD [] →
    t ∈ (amFind q.globalSrcTaintSet x).getD []
  entries : ∀ k, (amFind (summaryOf p F) k).isSome → (amFind (summaryOf q F) k).isSome
  step : StepKeeps F p q

theorem amFind_amUpdate_self {K V : Type} [DecidableEq K] (d : V) (f : V → V)
    (m : List (K × V)) (k : K) :
    amFind (amUpdate d f m k) k = some (f ((amFind m k).getD d)) := by
  induction m with
  | nil => simp [amUpdate, amFind]
  | cons e m ih =>
    obtain ⟨k', v⟩ := e
    by_cases h : k' = k
    · simp [amUpdate, amFind, h]
    · simp [amUpdate, amFind, h, ih]

theorem amFind_amUpdate_other {K V : Type} [DecidableEq K] (d : V) (f : V → V)
    (m : List (K × V)) (k k2 : K) (hne : k ≠ k2) :
    amFind (amUpdate d f m k) k2 = amFind m k2 := by
  induction m with
  | nil => simp [amUpdate, amFind, hne]
  | cons e m ih =>
    obtain ⟨k', v⟩ := e
    by_cases h : k' = k
    · subst h
      simp [amUpdate, amFind, hne]
    · by_cases h2 : k' = k2
      · subst h2
        simp [amUpdate, amFind, h]
      · simp [amUpdate, amFind, h, h2, ih]

theorem mem_setInsert_self {T : Type} [DecidableEq T] (s : List T) (x : T) :
    x ∈ setInsert s x := by
  unfold setInsert
  split
  · assumption
  · simp

theorem mem_setInsert_of_mem {T : Type} [DecidableEq T] (s : List T) (x y : T) (h : y ∈ s) :
    y ∈ setInsert s x := by
  unfold setInsert
  split
  · assumption
  · simp [h]

/-! ## The taint map -/

theorem passThruGep_gep (id : Nat) (b : Value) : passThruGep (.gep id b) = b := rfl

theorem passThruGep_of_not_gep (b : Value) (hb : ∀ i p, b ≠ .gep i p) : passThruGep b = b := by
  cases b with
  | gep i p => exact absurd rfl (hb i p)
  | globalVar _ => rfl
  | other _ => rfl

theorem getTaint_passThruGep (m : AliasedTaintMap) (v : Value)
    (h : passThruGep (passThruGep v) = passThruGep v) :
    getTaintAsSingleSet m (passThruGep v) = getTaintAsSingleSet m v := by
  simp only [getTaintAsSingleSet, h]

/-- Counterexample to claim C7 as stated: for the GEP `g` whose base `b` is itself a GEP over
the value `c`, `get_taint(g)` misses the token that `get_taint(b)` finds at `c`, and
`add_taint(g, t)` writes at `b` where `add_taint(b, t)` writes at `c`. -/
theorem C7_nested_gep_counterexample :
    (getTaintAsSingleSet
        { globalSrcTaintSet := [],
          baseTaintOf := [(Value.other 0, [⟨some 1, 0, some 5, 1, none, none⟩])],
          aliasesOf := [] }
        (Value.gep 2 (Value.gep 1 (Value.other 0)))).1
      ≠ (getTaintAsSingleSet
        { globalSrcTaintSet := [],
          baseTaintOf := [(Value.other 0, [⟨some 1, 0, some 5, 1, none, none⟩])],
          aliasesOf := [] }
        (Value.gep 1 (Value.other 0))).1
    ∧ (addTaint { globalSrcTaintSet := [], baseTaintOf := [], aliasesOf := [] }
        (Value.gep 2 (Value.gep 1 (Value.other 0))) ⟨some 1, 0, some 5, 1, none, none⟩).2
      ≠ (addTaint { globalSrcTaintSet := [], baseTaintOf := [], aliasesOf := [] }
        (Value.gep 1 (Value.other 0)) ⟨some 1, 0, some 5, 1, none, none⟩).2 := by
  decide

/-- Claim C7 (amended): for every taint-map state, every GEP `g` whose pointer base operand
`b` is not itself a GEP (`b` may be a global or any other value), and every token `t`:
`get_taint(g)` and `get_taint(b)` return the same set and leave the same state, and
`add_taint(g, t)` and `add_taint(b, t)` return the same boolean and leave the same state
(base table, global table and alias table). -/
theorem C7_gep_equivalence (m : AliasedTaintMap) (id : Nat) (b : Value) (t : SrcOrSink_t)
    (hb : ∀ i p, b ≠ Value.gep i p) :
    getTaintAsSingleSet m (Value.gep id b) = getTaintAsSingleSet m b
      ∧ addTaint m (Value.gep id b) t = addTaint m b t := by
  have h := passThruGep_of_not_gep b hb
  constructor
  · simp only [getTaintAsSingleSet, passThruGep_gep, h]
  · simp only [addTaint, passThruGep_gep, h]

/-- Witness for claim C7: a GEP over a tainted global. -/
theorem C7_gep_equivalence_witness :
    (∀ i p, Value.globalVar 7 ≠ Value.gep i p)
      ∧ getTaintAsSingleSet
          { globalSrcTaintSet := [(Value.globalVar 7, [⟨some 1, 0, some 5, 1, none, none⟩])],
            baseTaintOf := [], aliasesOf := [] }
          (Value.gep 2 (Value.globalVar 7))
        = getTaintAsSingleSet
          { globalSrcTaintSet := [(Value.globalVar 7, [⟨some 1, 0, some 5, 1, none, none⟩])],
            baseTaintOf := [], aliasesOf := [] }
          (Value.globalVar 7)
      ∧ addTaint
          { globalSrcTaintSet := [(Value.globalVar 7, [⟨some 1, 0, some 5, 1, none, none⟩])],
            baseTaintOf := [], aliasesOf := [] }
          (Value.gep 2 (Value.globalVar 7)) ⟨some 3, 1, some 9, 1, none, none⟩
        = addTaint
          { globalSrcTaintSet := [(Value.globalVar 7, [⟨some 1, 0, some 5, 1, none, none⟩])],
            baseTaintOf := [], aliasesOf := [] }
          (Value.globalVar 7) ⟨some 3, 1, some 9, 1, none, none⟩ :=
  ⟨fun _ _ h => Value.noConfusion h,
    C7_gep_equivalence _ 2 (Value.globalVar 7) _ (fun _ _ h => Value.noConfusion h)⟩

/-- Counterexample to claim C8 as stated: a summary token (no call site) added to a global
is not in the set read back for that global. -/
theorem C8_summary_token_counterexample :
    (⟨some 1, 0, none, 0, none, none⟩ : SrcOrSink_t) ∉
      (getTaintAsSingleSet
        (addTaint { globalSrcTaintSet := [], baseTaintOf := [], aliasesOf := [] }
          (Value.globalVar 7) ⟨some 1, 0, none, 0, none, none⟩).2
        (Value.globalVar 7)).1 := by
  decide

/-- Claim C8 (amended): for every global variable `v` and every token `t` with
`t.arg_index ≠ -1` and `t.call_site ≠ null`, after `add_taint(v, t)` on a taint map in which
`v` has no alias set, `get_taint(v)` contains `t` when performed on any taint map in which
`v` has no alias set and that shares the global table (another function's map), and when
performed on the same map. -/
theorem C8_global_write_visible (m m2 : AliasedTaintMap) (id : Nat) (t : SrcOrSink_t)
    (hix : t.ixArg ≠ -1) (hcs : t.callsite ≠ none)
    (hal : amFind m.aliasesOf (Value.globalVar id) = none)
    (hal2 : amFind m2.aliasesOf (Value.globalVar id) = none)
    (hshare : m2.globalSrcTaintSet = (addTaint m (Value.globalVar id) t).2.globalSrcTaintSet) :
    t ∈ (getTaintAsSingleSet m2 (Value.globalVar id)).1
      ∧ t ∈ (getTaintAsSingleSet (addTaint m (Value.globalVar id) t).2 (Value.globalVar id)).1 := by
  have hw : (addTaint m (Value.globalVar id) t).2
      = insertTaint true m (Value.globalVar id) t := by
    simp [addTaint, passThruGep, isGlobalVariable, RETVAL_CODE, hix, hcs, hal]
  have hg : amFind (insertTaint true m (Value.globalVar id) t).globalSrcTaintSet
      (Value.globalVar id) = some (setInsert ((amFind m.globalSrcTaintSet (Value.globalVar id)).getD []) t) := by
    simp [insertTaint, amFind_amUpdate_self]
  have hal' : amFind (insertTaint true m (Value.globalVar id) t).aliasesOf (Value.globalVar id)
      = none := by
    simpa [insertTaint] using hal
  rw [hw] at hshare ⊢
  constructor
  · simp only [getTaintAsSingleSet, passThruGep, isGlobalVariable, hal2, readTaint, if_true,
      hshare, hg, Option.getD_some]
    exact mem_setInsert_self _ _
  · simp only [getTaintAsSingleSet, passThruGep, isGlobalVariable, hal', readTaint, if_true,
      hg, Option.getD_some]
    exact mem_setInsert_self _ _

/-- Witness for claim C8: a source written through an empty map and read
through the map of another function. -/
theorem C8_global_write_visible_witness :
    (⟨some 1, 0, some 5, 1, none, none⟩ : SrcOrSink_t) ∈
        (getTaintAsSingleSet
          { globalSrcTaintSet :=
              (addTaint { globalSrcTaintSet := [], baseTaintOf := [], aliasesOf := [] }
                (Value.globalVar 7) ⟨some 1, 0, some 5, 1, none, none⟩).2.globalSrcTaintSet,
            baseTaintOf := [(Value.other 3, [])],
            aliasesOf := [(Value.other 4, [Value.other 3])] }
          (Value.globalVar 7)).1
      ∧ (⟨some 1, 0, some 5, 1, none, none⟩ : SrcOrSink_t) ∈
        (getTaintAsSingleSet
          (addTaint { globalSrcTaintSet := [], baseTaintOf := [], aliasesOf := [] }
            (Value.globalVar 7) ⟨some 1, 0, some 5, 1, none, none⟩).2
          (Value.globalVar 7)).1 :=
  C8_global_write_visible { globalSrcTaintSet := [], baseTaintOf := [], aliasesOf := [] }
    _ 7 ⟨some 1, 0, some 5, 1, none, none⟩ (by decide) (by decide) (by decide) (by decide) rfl

/-- Counterexample to claim C9 as stated: for a global and a token with `arg_index = -1`,
`add_taint` returns true although the claimed condition fails. -/
theorem C9_return_value_token_counterexample :
    ¬ ((addTaint { globalSrcTaintSet := [], baseTaintOf := [], aliasesOf := [] }
          (Value.globalVar 7) ⟨some 1, -1, some 5, 1, none, none⟩).1 = true
        ↔ (isGlobalVariable (passThruGep (Value.globalVar 7)) = true
            ∧ (⟨some 1, -1, some 5, 1, none, none⟩ : SrcOrSink_t).ixArg ≠ -1
            ∧ (⟨some 1, -1, some 5, 1, none, none⟩ : SrcOrSink_t).callsite ≠ none)) := by
  decide

/-- Claim C9 (amended): `add_taint(v, t)` returns true exactly when `v`, after GEP
pass-through, is a global variable and `t.arg_index = -1` or `t.call_site ≠ null`; in every
other case it returns false. -/
theorem C9_addTaint_returns (m : AliasedTaintMap) (v : Value) (t : SrcOrSink_t) :
    (addTaint m v t).1 = true
      ↔ (isGlobalVariable (passThruGep v) = true ∧ (t.ixArg = -1 ∨ t.callsite ≠ none)) := by
  unfold addTaint
  by_cases hg : isGlobalVariable (passThruGep v) = true
  · by_cases hix : t.ixArg = -1
    · cases hal : amFind m.aliasesOf (passThruGep v) <;>
        simp [hg, hix, RETVAL_CODE, hal]
    · by_cases hcs : t.callsite = none
      · simp [hg, hix, RETVAL_CODE, hcs]
      · cases hal : amFind m.aliasesOf (passThruGep v) <;>
          simp [hg, hix, RETVAL_CODE, hcs, hal]
  · have hg' : isGlobalVariable (passThruGep v) = false := by simpa using hg
    cases hal : amFind m.aliasesOf (passThruGep v) <;>
      simp [hg', hal]

theorem bfsLoop_invariant (F : Function) (jump : Instr) (ce : Edge) (P : BfsState → Prop)
    (hstep : ∀ s cur rest, s.queue = cur :: rest → P s → P (bfsStep F jump ce s cur rest)) :
    ∀ fuel s, P s → P (bfsLoop F jump ce fuel s) := by
  intro fuel
  induction fuel with
  | zero => intro s hs; simpa [bfsLoop] using hs
  | succ n ih =>
    intro s hs
    rw [bfsLoop]
    split
    · exact hs
    · next cur rest heq => exact ih _ (hstep s cur rest heq hs)

theorem bfsStep_cases (F : Function) (jump : Instr) (ce : Edge) (s : BfsState)
    (cur : Edge) (rest : List Edge) (P : BfsState → Prop)
    (hseen : cur ∈ s.alreadySeen → P { s with queue := rest })
    (hmerge : cur ∉ s.alreadySeen →
      is_merge_edge F jump ⟨cur.1.fn, dest_bb_of_edge F cur⟩ = true →
      P { s with
          alreadySeen := cur :: s.alreadySeen
          queue := rest
          mergeEdges := s.mergeEdges ++ [cur] })
    (hinner : cur ∉ s.alreadySeen →
      is_merge_edge F jump ⟨cur.1.fn, dest_bb_of_edge F cur⟩ = false →
      P { alreadySeen := cur :: s.alreadySeen
          seenBBs := if dest_bb_of_edge F cur ∈ s.seenBBs then s.seenBBs
            else dest_bb_of_edge F cur :: s.seenBBs
          queue := rest ++ (List.range (numSuccessors F (dest_bb_of_edge F cur))).map
            (fun i => ((⟨cur.1.fn, dest_bb_of_edge F cur⟩ : Instr), i))
          mergeEdges := s.mergeEdges
          bb_to_cond_paths :=
            if dest_bb_of_edge F cur ∈ s.seenBBs then s.bb_to_cond_paths
            else amUpdate [] (fun v => v ++ [ce]) s.bb_to_cond_paths (dest_bb_of_edge F cur) }) :
    P (bfsStep F jump ce s cur rest) := by
  unfold bfsStep
  dsimp only
  by_cases h1 : cur ∈ s.alreadySeen
  · rw [if_pos h1]
    exact hseen h1
  · rw [if_neg h1]
    by_cases h2 : is_merge_edge F jump ⟨cur.1.fn, dest_bb_of_edge F cur⟩ = true
    · rw [if_pos h2]
      exact hmerge h1 h2
    · rw [if_neg h2]
      exact hinner h1 (by simpa using h2)

theorem bfsStep_queueValid (F : Function) (jump : Instr) (ce : Edge) (s : BfsState)
    (cur : Edge) (rest : List Edge) (hq : s.queue = cur :: rest) (h : QueueValid F jump s) :
    QueueValid F jump (bfsStep F jump ce s cur rest) := by
  have hcur : cur.1.fn = jump.fn ∧ cur.2 < numSuccessors F cur.1.bb := h cur (by simp [hq])
  have hrest : ∀ e ∈ rest, e.1.fn = jump.fn ∧ e.2 < numSuccessors F e.1.bb :=
    fun e he => h e (by simp [hq, he])
  apply bfsStep_cases
  · intro _; exact hrest
  · intro _ _; exact hrest
  · intro _ _ e he
    simp only [List.mem_append, List.mem_map, List.mem_range] at he
    rcases he with he | ⟨i, hi, rfl⟩
    · exact hrest e he
    · exact ⟨hcur.1, hi⟩

/-! ## Termination of the exploration loop -/

theorem length_edgesFrom (fn : Nat) (b : Nat) (ss : List (List Nat)) :
    (edgesFrom fn b ss).length = (ss.map List.length).sum := by
  induction ss generalizing b with
  | nil => rfl
  | cons x rest ih => simp [edgesFrom, ih]

theorem mem_edgesFrom (fn : Nat) (ss : List (List Nat)) (b : Nat) (e : Edge)
    (hfn : e.1.fn = fn) (hb : b ≤ e.1.bb) (hi : e.2 < (ss.getD (e.1.bb - b) []).length) :
    e ∈ edgesFrom fn b ss := by
  induction ss generalizing b with
  | nil => simp at hi
  | cons x rest ih =>
    simp only [edgesFrom, List.mem_append, List.mem_map, List.mem_range]
    by_cases hbe : e.1.bb = b
    · left
      refine ⟨e.2, ?_, ?_⟩
      · simpa [hbe] using hi
      · obtain ⟨⟨f, bb⟩, i⟩ := e
        simp only at hfn hbe
        subst hfn hbe
        rfl
    · right
      apply ih (b + 1) (by omega)
      have h1 : e.1.bb - b = (e.1.bb - (b + 1)) + 1 := by omega
      rw [h1] at hi
      simpa using hi

theorem mem_allEdges (F : Function) (fn : Nat) (e : Edge)
    (hfn : e.1.fn = fn) (hi : e.2 < numSuccessors F e.1.bb) : e ∈ allEdges F fn :=
  mem_edgesFrom fn F.succs 0 e hfn (Nat.zero_le _) (by simpa [numSuccessors] using hi)

theorem length_allEdges (F : Function) (fn : Nat) : (allEdges F fn).length = numEdges F :=
  length_edgesFrom fn 0 F.succs

theorem getD_length_le_sum (ss : List (List Nat)) (b : Nat) :
    (ss.getD b []).length ≤ (ss.map List.length).sum := by
  induction ss generalizing b with
  | nil => simp
  | cons x rest ih =>
    cases b with
    | zero => simp
    | succ b =>
      have := ih b
      simp only [List.getD_cons_succ, List.map_cons, List.sum_cons]
      omega

theorem numSuccessors_le_numEdges (F : Function) (b : Nat) : numSuccessors F b ≤ numEdges F :=
  getD_length_le_sum F.succs b

theorem filter_length_lt {α : Type} (p q : α → Bool) (l : List α) (a : α) (ha : a ∈ l)
    (hpq : ∀ x, p x = true → q x = true) (hqa : q a = true) (hpa : p a = false) :
    (l.filter p).length < (l.filter q).length := by
  induction l with
  | nil => simp at ha
  | cons x l ih =>
    have hle : (l.filter p).length ≤ (l.filter q).length :=
      (List.monotone_filter_right l hpq).length_le
    rcases List.mem_cons.mp ha with h | h
    · subst h
      simp only [List.filter_cons, hpa, hqa, if_true, List.length_cons]
      simp only [Bool.false_eq_true, if_false]
      omega
    · have hlt := ih h
      cases hp : p x
      · cases hq : q x
        · simpa [List.filter_cons, hp, hq] using hlt
        · simp only [List.filter_cons, hp, hq, if_true, List.length_cons]
          simp only [Bool.false_eq_true, if_false]
          omega
      · have hq := hpq x hp
        simpa [List.filter_cons, hp, hq] using hlt

theorem filter_unseen_lt (l : List Edge) (seen : List Edge) (a : Edge)
    (ha : a ∈ l) (hs : a ∉ seen) :
    (l.filter (fun e => decide (e ∉ a :: seen))).length
      < (l.filter (fun e => decide (e ∉ seen))).length := by
  apply filter_length_lt _ _ l a ha
  · intro x hx
    simp only [List.mem_cons, not_or, decide_eq_true_eq] at hx ⊢
    exact hx.2
  · simpa using hs
  · simp

theorem unseenEdges_le (F : Function) (jump : Instr) (s : BfsState) :
    unseenEdges F jump s ≤ numEdges F := by
  unfold unseenEdges
  rw [← length_allEdges F jump.fn]
  exact List.length_filter_le _ _

theorem bfsStep_measure_lt (F : Function) (jump : Instr) (ce : Edge) (s : BfsState)
    (cur : Edge) (rest : List Edge) (hq : s.queue = cur :: rest) (h : QueueValid F jump s) :
    bfsMeasure F jump (bfsStep F jump ce s cur rest) < bfsMeasure F jump s := by
  have hcur : cur.1.fn = jump.fn ∧ cur.2 < numSuccessors F cur.1.bb := h cur (by simp [hq])
  have hmem : cur ∈ allEdges F jump.fn := mem_allEdges F jump.fn cur hcur.1 hcur.2
  refine bfsStep_cases F jump ce s cur rest
    (fun t => bfsMeasure F jump t < bfsMeasure F jump s) ?_ ?_ ?_
  · intro _
    simp [bfsMeasure, unseenEdges, hq]
  · intro hns _
    have hlt := filter_unseen_lt (allEdges F jump.fn) s.alreadySeen cur hmem hns
    have hmul := Nat.mul_le_mul_right (numEdges F + 1) (Nat.succ_le_of_lt hlt)
    simp only [bfsMeasure, unseenEdges, hq, List.length_cons]
    rw [Nat.succ_mul] at hmul
    omega
  · intro hns _
    have hlt := filter_unseen_lt (allEdges F jump.fn) s.alreadySeen cur hmem hns
    have hmul := Nat.mul_le_mul_right (numEdges F + 1) (Nat.succ_le_of_lt hlt)
    have hdeg := numSuccessors_le_numEdges F (dest_bb_of_edge F cur)
    simp only [bfsMeasure, unseenEdges, hq, List.length_cons, List.length_append,
      List.length_map, List.length_range]
    rw [Nat.succ_mul] at hmul
    omega

theorem bfsLoop_terminates (F : Function) (jump : Instr) (ce : Edge) :
    ∀ (fuel : Nat) (s : BfsState), QueueValid F jump s → bfsMeasure F jump s ≤ fuel →
      (bfsLoop F jump ce fuel s).queue = [] := by
  intro fuel
  induction fuel with
  | zero =>
    intro s _ hm
    have : s.queue.length = 0 := by
      unfold bfsMeasure at hm
      omega
    simpa [bfsLoop] using this
  | succ n ih =>
    intro s hv hm
    rw [bfsLoop]
    split
    · next heq => exact heq
    · next cur rest heq =>
      apply ih
      · exact bfsStep_queueValid F jump ce s cur rest heq hv
      · have := bfsStep_measure_lt F jump ce s cur rest heq hv
        omega

theorem exploreFrom_terminates (F : Function) (jump : Instr) (iSucc : Nat)
    (paths : List (Nat × List Edge)) (hi : iSucc < numSuccessors F jump.bb) :
    (exploreFrom F jump iSucc paths).queue = [] := by
  unfold exploreFrom
  apply bfsLoop_terminates
  · intro e he
    simp only [List.mem_singleton] at he
    subst he
    exact ⟨rfl, hi⟩
  · have := unseenEdges_le F jump
      { alreadySeen := [], seenBBs := [], queue := [(jump, iSucc)], mergeEdges := [],
        bb_to_cond_paths := paths }
    have hmul := Nat.mul_le_mul_right (numEdges F + 1) this
    simp only [bfsMeasure, bfsFuel, List.length_singleton]
    omega

theorem bfsLoop_fuel_add (F : Function) (jump : Instr) (ce : Edge) :
    ∀ (n k : Nat) (s : BfsState), (bfsLoop F jump ce n s).queue = [] →
      bfsLoop F jump ce (n + k) s = bfsLoop F jump ce n s := by
  intro n
  induction n with
  | zero =>
    intro k s h
    simp only [bfsLoop] at h
    cases k with
    | zero => rfl
    | succ k => simp [bfsLoop, h]
  | succ n ih =>
    intro k s h
    rw [Nat.add_right_comm, bfsLoop, bfsLoop]
    rw [bfsLoop] at h
    split
    · rfl
    · next cur rest heq =>
      simp only [heq] at h
      exact ih k _ h

/-! ## What the exploration loop records -/

theorem is_merge_edge_eq_true_iff (F : Function) (T U : Instr) :
    is_merge_edge F T U = true
      ↔ (U = T ∨ F.preDom U.bb T.bb = true ∨ F.postDom U.bb T.bb = true) := by
  simp [is_merge_edge, or_assoc]

theorem is_merge_edge_eq_false_iff (F : Function) (T U : Instr) :
    is_merge_edge F T U = false
      ↔ ¬ (U = T ∨ F.preDom U.bb T.bb = true ∨ F.postDom U.bb T.bb = true) := by
  rw [← is_merge_edge_eq_true_iff]
  simp

theorem mem_amUpdate {K V : Type} [DecidableEq K] (d : V) (f : V → V) (m : List (K × V))
    (k : K) (x : K × V) (hx : x ∈ amUpdate d f m k) :
    x ∈ m ∨ (∃ v, (k, v) ∈ m ∧ x = (k, f v)) ∨ x = (k, f d) := by
  induction m with
  | nil =>
    simp only [amUpdate, List.mem_singleton] at hx
    exact Or.inr (Or.inr hx)
  | cons e m ih =>
    obtain ⟨k', v⟩ := e
    by_cases h : k' = k
    · subst h
      simp only [amUpdate, if_true, List.mem_cons] at hx
      rcases hx with hx | hx
      · exact Or.inr (Or.inl ⟨v, by simp, hx⟩)
      · exact Or.inl (by simp [hx])
    · simp only [amUpdate, if_neg h, List.mem_cons] at hx
      rcases hx with hx | hx
      · exact Or.inl (by simp [hx])
      · rcases ih hx with h1 | ⟨w, hw, h2⟩ | h3
        · exact Or.inl (by simp [h1])
        · exact Or.inr (Or.inl ⟨w, by simp [hw], h2⟩)
        · exact Or.inr (Or.inr h3)

/-- The edges recorded in `mergeEdges` enter a block that satisfies the merge test, and they
are edges of the function. -/
theorem bfsLoop_mergeEdges (F : Function) (jump : Instr) (ce : Edge) (fuel : Nat)
    (s : BfsState) (hq : QueueValid F jump s)
    (hm : ∀ e ∈ s.mergeEdges, (e.1.fn = jump.fn ∧ e.2 < numSuccessors F e.1.bb)
      ∧ is_merge_edge F jump ⟨e.1.fn, dest_bb_of_edge F e⟩ = true) :
    ∀ e ∈ (bfsLoop F jump ce fuel s).mergeEdges,
      (e.1.fn = jump.fn ∧ e.2 < numSuccessors F e.1.bb)
        ∧ is_merge_edge F jump ⟨e.1.fn, dest_bb_of_edge F e⟩ = true := by
  have key := bfsLoop_invariant F jump ce
    (fun t => QueueValid F jump t ∧ ∀ e ∈ t.mergeEdges,
      (e.1.fn = jump.fn ∧ e.2 < numSuccessors F e.1.bb)
        ∧ is_merge_edge F jump ⟨e.1.fn, dest_bb_of_edge F e⟩ = true)
    (by
      intro t cur rest heq ht
      refine ⟨bfsStep_queueValid F jump ce t cur rest heq ht.1, ?_⟩
      have hcur := ht.1 cur (by simp [heq])
      refine bfsStep_cases F jump ce t cur rest
        (fun u => ∀ e ∈ u.mergeEdges, (e.1.fn = jump.fn ∧ e.2 < numSuccessors F e.1.bb)
          ∧ is_merge_edge F jump ⟨e.1.fn, dest_bb_of_edge F e⟩ = true) ?_ ?_ ?_
      · intro _; exact ht.2
      · intro _ hmg e he
        simp only [List.mem_append, List.mem_singleton] at he
        rcases he with he | rfl
        · exact ht.2 e he
        · exact ⟨hcur, hmg⟩
      · intro _ _; exact ht.2)
    fuel s ⟨hq, hm⟩
  exact key.2

theorem mergeEdgesFrom_spec (F : Function) (jump : Instr) (iSucc : Nat)
    (paths : List (Nat × List Edge)) (hi : iSucc < numSuccessors F jump.bb) :
    ∀ e ∈ (exploreFrom F jump iSucc paths).mergeEdges,
      (e.1.fn = jump.fn ∧ e.2 < numSuccessors F e.1.bb)
        ∧ is_merge_edge F jump ⟨e.1.fn, dest_bb_of_edge F e⟩ = true := by
  unfold exploreFrom
  apply bfsLoop_mergeEdges
  · intro e he
    simp only [List.mem_singleton] at he
    subst he
    exact ⟨rfl, hi⟩
  · intro e he
    simp at he

/-- The map `bb_to_cond_paths` has no influence on the other variables of the exploration. -/
theorem bfsLoop_paths_irrelevant (F : Function) (jump : Instr) (ce : Edge) :
    ∀ (fuel : Nat) (s t : BfsState), s.alreadySeen = t.alreadySeen → s.seenBBs = t.seenBBs →
      s.queue = t.queue → s.mergeEdges = t.mergeEdges →
      (bfsLoop F jump ce fuel s).alreadySeen = (bfsLoop F jump ce fuel t).alreadySeen
        ∧ (bfsLoop F jump ce fuel s).seenBBs = (bfsLoop F jump ce fuel t).seenBBs
        ∧ (bfsLoop F jump ce fuel s).queue = (bfsLoop F jump ce fuel t).queue
        ∧ (bfsLoop F jump ce fuel s).mergeEdges = (bfsLoop F jump ce fuel t).mergeEdges := by
  intro fuel
  induction fuel with
  | zero => intro s t h1 h2 h3 h4; exact ⟨h1, h2, h3, h4⟩
  | succ n ih =>
    intro s t h1 h2 h3 h4
    rw [bfsLoop, bfsLoop]
    cases hs : s.queue with
    | nil =>
      have ht : t.queue = [] := by rw [← h3, hs]
      simp only [ht]
      exact ⟨h1, h2, by simp [hs, ht], h4⟩
    | cons cur rest =>
      have ht : t.queue = cur :: rest := by rw [← h3, hs]
      simp only [ht]
      apply ih
      · unfold bfsStep; dsimp only; rw [h1]; split_ifs <;> simp [h1]
      · unfold bfsStep; dsimp only; rw [h1, h2]; split_ifs <;> simp [h2]
      · unfold bfsStep; dsimp only; rw [h1]; split_ifs <;> rfl
      · unfold bfsStep; dsimp only; rw [h1, h4]; split_ifs <;> simp [h4]

theorem exploreFrom_mergeEdges (F : Function) (jump : Instr) (iSucc : Nat)
    (paths : List (Nat × List Edge)) :
    (exploreFrom F jump iSucc paths).mergeEdges = mergeEdgesFrom F jump iSucc := by
  unfold mergeEdgesFrom exploreFrom
  exact (bfsLoop_paths_irrelevant F jump (jump, iSucc) (bfsFuel F)
    { alreadySeen := [], seenBBs := [], queue := [(jump, iSucc)], mergeEdges := [],
      bb_to_cond_paths := paths }
    { alreadySeen := [], seenBBs := [], queue := [(jump, iSucc)], mergeEdges := [],
      bb_to_cond_paths := [] } rfl rfl rfl rfl).2.2.2

/-! ## Blocks recorded on a conditional path -/

/-- Extending a merge-free initial segment by one edge: if `pre ++ [cur]` is a chain from the
conditional edge and `nxt` leaves the block that `cur` enters, then `pre ++ [cur] ++ [nxt]`
is a chain from the conditional edge as well. -/
theorem chain_snoc (F : Function) (ce : Edge) (pre : List Edge) (cur nxt : Edge)
    (hhead : (pre ++ [cur]).head? = some ce)
    (hchain : List.Chain' (EdgeFollows F) (pre ++ [cur]))
    (hf : EdgeFollows F cur nxt) :
    ((pre ++ [cur]) ++ [nxt]).head? = some ce
      ∧ List.Chain' (EdgeFollows F) ((pre ++ [cur]) ++ [nxt]) := by
  constructor
  · rw [List.head?_append, hhead]
    rfl
  · apply List.Chain'.append hchain (List.chain'_singleton _)
    intro x hx y hy
    rw [List.getLast?_concat] at hx
    simp only [Option.mem_def, Option.some.injEq, List.head?_cons] at hx hy
    subst hx hy
    exact hf

theorem bfsLoop_condPaths (F : Function) (jump : Instr) (iSucc : Nat) (fuel : Nat)
    (s : BfsState)
    (hq : ∀ e ∈ s.queue, ∃ pre : List Edge,
      (pre ++ [e]).head? = some (jump, iSucc)
        ∧ List.Chain' (EdgeFollows F) (pre ++ [e])
        ∧ ∀ x ∈ pre, is_merge_edge F jump ⟨x.1.fn, dest_bb_of_edge F x⟩ = false)
    (hp : ∀ entry ∈ s.bb_to_cond_paths, ∀ c ∈ entry.2,
      ∃ path, MergeFreePath F c.1 c.2 entry.1 path) :
    ∀ entry ∈ (bfsLoop F jump (jump, iSucc) fuel s).bb_to_cond_paths, ∀ c ∈ entry.2,
      ∃ path, MergeFreePath F c.1 c.2 entry.1 path := by
  have key := bfsLoop_invariant F jump (jump, iSucc)
    (fun t =>
      (∀ e ∈ t.queue, ∃ pre : List Edge,
        (pre ++ [e]).head? = some (jump, iSucc)
          ∧ List.Chain' (EdgeFollows F) (pre ++ [e])
          ∧ ∀ x ∈ pre, is_merge_edge F jump ⟨x.1.fn, dest_bb_of_edge F x⟩ = false)
      ∧ ∀ entry ∈ t.bb_to_cond_paths, ∀ c ∈ entry.2,
        ∃ path, MergeFreePath F c.1 c.2 entry.1 path)
    (by
      intro t cur rest heq ht
      obtain ⟨pre, hhead, hchain, hpre⟩ := ht.1 cur (by simp [heq])
      have hrest : ∀ e ∈ rest, ∃ pre : List Edge,
          (pre ++ [e]).head? = some (jump, iSucc)
            ∧ List.Chain' (EdgeFollows F) (pre ++ [e])
            ∧ ∀ x ∈ pre, is_merge_edge F jump ⟨x.1.fn, dest_bb_of_edge F x⟩ = false :=
        fun e he => ht.1 e (by simp [heq, he])
      refine bfsStep_cases F jump (jump, iSucc) t cur rest
        (fun u =>
          (∀ e ∈ u.queue, ∃ pre : List Edge,
            (pre ++ [e]).head? = some (jump, iSucc)
              ∧ List.Chain' (EdgeFollows F) (pre ++ [e])
              ∧ ∀ x ∈ pre, is_merge_edge F jump ⟨x.1.fn, dest_bb_of_edge F x⟩ = false)
          ∧ ∀ entry ∈ u.bb_to_cond_paths, ∀ c ∈ entry.2,
            ∃ path, MergeFreePath F c.1 c.2 entry.1 path) ?_ ?_ ?_
      · intro _; exact ⟨hrest, ht.2⟩
      · intro _ _; exact ⟨hrest, ht.2⟩
      · intro _ hnm
        have hall : ∀ x ∈ pre ++ [cur],
            is_merge_edge F jump ⟨x.1.fn, dest_bb_of_edge F x⟩ = false := by
          intro x hx
          simp only [List.mem_append, List.mem_singleton] at hx
          rcases hx with hx | rfl
          · exact hpre x hx
          · exact hnm
        have hpath : MergeFreePath F jump iSucc (dest_bb_of_edge F cur) (pre ++ [cur]) := by
          refine ⟨hhead, hchain, ?_, ?_⟩
          · rw [List.getLast?_concat]; rfl
          · intro e he
            exact (is_merge_edge_eq_false_iff F jump _).mp (hall e he)
        constructor
        · intro e he
          simp only [List.mem_append, List.mem_map, List.mem_range] at he
          rcases he with he | ⟨j, hj, rfl⟩
          · exact hrest e he
          · have hf : EdgeFollows F cur
                ((⟨cur.1.fn, dest_bb_of_edge F cur⟩ : Instr), j) := ⟨rfl, hj⟩
            obtain ⟨h1, h2⟩ := chain_snoc F (jump, iSucc) pre cur _ hhead hchain hf
            exact ⟨pre ++ [cur], h1, h2, hall⟩
        · intro entry he c hc
          dsimp only at he
          split_ifs at he with hseen
          · exact ht.2 entry he c hc
          · rcases mem_amUpdate _ _ _ _ _ he with h1 | ⟨v, hv, h2⟩ | h3
            · exact ht.2 entry h1 c hc
            · subst h2
              simp only [List.mem_append, List.mem_singleton] at hc
              rcases hc with hc | rfl
              · exact ht.2 _ hv c hc
              · exact ⟨_, hpath⟩
            · subst h3
              simp only [List.nil_append, List.mem_singleton] at hc
              subst hc
              exact ⟨_, hpath⟩)
    fuel s ⟨hq, hp⟩
  exact key.2

theorem exploreFrom_condPaths (F : Function) (jump : Instr) (iSucc : Nat)
    (paths : List (Nat × List Edge))
    (hp : ∀ entry ∈ paths, ∀ c ∈ entry.2, ∃ path, MergeFreePath F c.1 c.2 entry.1 path) :
    ∀ entry ∈ (exploreFrom F jump iSucc paths).bb_to_cond_paths, ∀ c ∈ entry.2,
      ∃ path, MergeFreePath F c.1 c.2 entry.1 path := by
  unfold exploreFrom
  apply bfsLoop_condPaths
  · intro e he
    simp only [List.mem_singleton] at he
    subst he
    exact ⟨[], rfl, List.chain'_singleton _, by simp⟩
  · exact hp

/-! ## Jump identifiers and edge tuples -/

theorem amFind_amSet_self {K V : Type} [DecidableEq K] (m : List (K × V)) (k : K) (v : V) :
    amFind (amSet m k v) k = some v := by
  simp [amSet, amFind_amUpdate_self]

theorem amFind_amSet_other {K V : Type} [DecidableEq K] (m : List (K × V)) (k k2 : K) (v : V)
    (hne : k ≠ k2) : amFind (amSet m k v) k2 = amFind m k2 := by
  simp [amSet, amFind_amUpdate_other _ _ _ _ _ hne]

theorem PassInv_init : PassInv CondMergePass.init := by
  refine ⟨by simp [CondMergePass.init], ?_, ?_, ?_, ?_⟩ <;>
    simp [CondMergePass.init, amFind]

theorem PassExtends.refl (p : CondMergePass) : PassExtends p p := fun _ _ h => h

theorem PassExtends.trans {p q r : CondMergePass} (h1 : PassExtends p q) (h2 : PassExtends q r) :
    PassExtends p r := fun a id h => h2 a id (h1 a id h)

theorem edgeMDOf_of_id {p : CondMergePass} (hp : PassInv p) {e : Edge} {id : Nat}
    (h : amFind p.id_of_jump e.1 = some id) : edgeMDOf p e = (id, e.2) := by
  simp [edgeMDOf, hp.md_jump, h]

theorem get_jump_id_known (p : CondMergePass) (inst : Instr) (id : Nat)
    (h : amFind p.id_of_jump inst = some id) : get_jump_id p inst = (id, p) := by
  simp [get_jump_id, h]

theorem get_jump_id_spec (p : CondMergePass) (hp : PassInv p) (inst : Instr) :
    PassInv (get_jump_id p inst).2
      ∧ PassExtends p (get_jump_id p inst).2
      ∧ amFind (get_jump_id p inst).2.id_of_jump inst = some (get_jump_id p inst).1
      ∧ (get_jump_id p inst).2.mdMergeEdges = p.mdMergeEdges
      ∧ (get_jump_id p inst).2.mdCondPaths = p.mdCondPaths := by
  cases h : amFind p.id_of_jump inst with
  | some id =>
    rw [get_jump_id_known p inst id h]
    exact ⟨hp, PassExtends.refl p, h, rfl, rfl⟩
  | none =>
    have hr : get_jump_id p inst = (p.next_jump_id,
        { p with
          next_jump_id := p.next_jump_id + 1
          id_of_jump := amSet p.id_of_jump inst p.next_jump_id
          mdJumpID := amSet p.mdJumpID inst p.next_jump_id }) := by
      simp [get_jump_id, h]
    rw [hr]
    have hfind : ∀ x id, amFind (amSet p.id_of_jump inst p.next_jump_id) x = some id →
        (x = inst ∧ id = p.next_jump_id) ∨ (x ≠ inst ∧ amFind p.id_of_jump x = some id) := by
      intro x id hx
      by_cases hxi : x = inst
      · subst hxi
        rw [amFind_amSet_self] at hx
        exact Or.inl ⟨rfl, (Option.some.inj hx).symm⟩
      · rw [amFind_amSet_other _ _ _ _ (Ne.symm hxi)] at hx
        exact Or.inr ⟨hxi, hx⟩
    have hext : PassExtends p
        { p with
          next_jump_id := p.next_jump_id + 1
          id_of_jump := amSet p.id_of_jump inst p.next_jump_id
          mdJumpID := amSet p.mdJumpID inst p.next_jump_id } := by
      intro x id hx
      have hxi : inst ≠ x := by
        rintro rfl
        rw [h] at hx
        cases hx
      show amFind (amSet p.id_of_jump inst p.next_jump_id) x = some id
      rw [amFind_amSet_other _ _ _ _ hxi]
      exact hx
    refine ⟨⟨?_, ?_, ?_, ?_, ?_⟩, hext, amFind_amSet_self _ _ _, rfl, rfl⟩
    · show 1 ≤ p.next_jump_id + 1
      omega
    · intro x id hx
      show 1 ≤ id ∧ id < p.next_jump_id + 1
      rcases hfind x id hx with ⟨_, rfl⟩ | ⟨_, hold⟩
      · exact ⟨hp.counter_pos, Nat.lt_succ_self _⟩
      · have := hp.ids_range x id hold
        omega
    · intro a b id ha hb
      rcases hfind a id ha with ⟨ha1, ha2⟩ | ⟨_, ha2⟩ <;>
        rcases hfind b id hb with ⟨hb1, hb2⟩ | ⟨_, hb2⟩
      · rw [ha1, hb1]
      · have := hp.ids_range b id hb2
        omega
      · have := hp.ids_range a id ha2
        omega
      · exact hp.ids_inj a b id ha2 hb2
    · intro e md he
      have := hp.md_cache e md he
      exact ⟨hext _ _ this.1, this.2⟩
    · intro x
      show amFind (amSet p.mdJumpID inst p.next_jump_id) x
        = amFind (amSet p.id_of_jump inst p.next_jump_id) x
      by_cases hxi : inst = x
      · subst hxi
        rw [amFind_amSet_self, amFind_amSet_self]
      · rw [amFind_amSet_other _ _ _ _ hxi, amFind_amSet_other _ _ _ _ hxi]
        exact hp.md_jump x

theorem get_edge_md_spec (p : CondMergePass) (hp : PassInv p) (e : Edge) :
    PassInv (get_edge_md p e).2
      ∧ PassExtends p (get_edge_md p e).2
      ∧ amFind (get_edge_md p e).2.id_of_jump e.1 = some (get_edge_md p e).1.1
      ∧ (get_edge_md p e).1.2 = e.2
      ∧ (get_edge_md p e).2.mdMergeEdges = p.mdMergeEdges
      ∧ (get_edge_md p e).2.mdCondPaths = p.mdCondPaths := by
  cases h : amFind p.md_of_edge e with
  | some md =>
    have hr : get_edge_md p e = (md, p) := by simp [get_edge_md, h]
    rw [hr]
    have := hp.md_cache e md h
    exact ⟨hp, PassExtends.refl p, this.1, this.2, rfl, rfl⟩
  | none =>
    obtain ⟨h1, h2, h3, h4, h5⟩ := get_jump_id_spec p hp e.1
    have hr : get_edge_md p e = (((get_jump_id p e.1).1, e.2),
        { (get_jump_id p e.1).2 with
          md_of_edge := amSet (get_jump_id p e.1).2.md_of_edge e ((get_jump_id p e.1).1, e.2) }) := by
      simp [get_edge_md, h]
    rw [hr]
    refine ⟨⟨h1.counter_pos, h1.ids_range, h1.ids_inj, ?_, h1.md_jump⟩, h2, h3, rfl, h4, h5⟩
    intro e2 md he2
    change amFind (amSet (get_jump_id p e.1).2.md_of_edge e ((get_jump_id p e.1).1, e.2)) e2
      = some md at he2
    by_cases hee : e = e2
    · subst hee
      rw [amFind_amSet_self] at he2
      cases he2
      exact ⟨h3, rfl⟩
    · rw [amFind_amSet_other _ _ _ _ hee] at he2
      exact h1.md_cache e2 md he2

theorem edgesToMD_spec (es : List Edge) : ∀ (p : CondMergePass), PassInv p →
    PassInv (edgesToMD p es).2
      ∧ PassExtends p (edgesToMD p es).2
      ∧ (edgesToMD p es).1 = es.map (edgeMDOf (edgesToMD p es).2)
      ∧ (∀ e ∈ es, ∃ id, amFind (edgesToMD p es).2.id_of_jump e.1 = some id)
      ∧ (edgesToMD p es).2.mdMergeEdges = p.mdMergeEdges
      ∧ (edgesToMD p es).2.mdCondPaths = p.mdCondPaths := by
  induction es with
  | nil =>
    intro p hp
    exact ⟨hp, PassExtends.refl p, rfl, by simp, rfl, rfl⟩
  | cons e es ih =>
    intro p hp
    obtain ⟨g1, g2, g3, g4, g5, g6⟩ := get_edge_md_spec p hp e
    obtain ⟨i1, i2, i3, i4, i5, i6⟩ := ih (get_edge_md p e).2 g1
    have hr : edgesToMD p (e :: es)
        = ((get_edge_md p e).1 :: (edgesToMD (get_edge_md p e).2 es).1,
            (edgesToMD (get_edge_md p e).2 es).2) := rfl
    rw [hr]
    refine ⟨i1, g2.trans i2, ?_, ?_, i5.trans g5, i6.trans g6⟩
    · have he : edgeMDOf (edgesToMD (get_edge_md p e).2 es).2 e = (get_edge_md p e).1 := by
        rw [edgeMDOf_of_id i1 (i2 _ _ g3), ← g4]
      simp only [List.map_cons, he]
      rw [← i3]
    · intro x hx
      rcases List.mem_cons.mp hx with rfl | hx
      · exact ⟨_, i2 _ _ g3⟩
      · exact i4 x hx

/-! ## `findMergeEdges` -/

theorem map_edgeMDOf_congr {p q : CondMergePass} (hp : PassInv p) (hq : PassInv q)
    (hext : PassExtends p q) (es : List Edge)
    (hid : ∀ e ∈ es, ∃ id, amFind p.id_of_jump e.1 = some id) :
    es.map (edgeMDOf q) = es.map (edgeMDOf p) := by
  apply List.map_congr_left
  intro e he
  obtain ⟨id, h⟩ := hid e he
  rw [edgeMDOf_of_id hp h, edgeMDOf_of_id hq (hext _ _ h)]

theorem fmeIter_paths (F : Function) (jump : Instr) (st : FmeState) (i : Nat) :
    (fmeIter F jump st i).bb_to_cond_paths
      = (exploreFrom F jump i st.bb_to_cond_paths).bb_to_cond_paths := rfl

theorem fmeFold_spec (F : Function) (jump : Instr) (p1 : CondMergePass) (hp : PassInv p1)
    (paths : List (Nat × List Edge)) (k : Nat) :
    PassInv ((List.range k).foldl (fmeIter F jump) ⟨p1, paths, []⟩).pass
      ∧ PassExtends p1 ((List.range k).foldl (fmeIter F jump) ⟨p1, paths, []⟩).pass
      ∧ ((List.range k).foldl (fmeIter F jump) ⟨p1, paths, []⟩).final_md_vec
          = (List.range k).map (fun i => (mergeEdgesFrom F jump i).map
              (edgeMDOf ((List.range k).foldl (fmeIter F jump) ⟨p1, paths, []⟩).pass))
      ∧ (∀ i < k, ∀ e ∈ mergeEdgesFrom F jump i,
          ∃ id, amFind ((List.range k).foldl (fmeIter F jump) ⟨p1, paths, []⟩).pass.id_of_jump e.1
            = some id)
      ∧ ((List.range k).foldl (fmeIter F jump) ⟨p1, paths, []⟩).pass.mdMergeEdges
          = p1.mdMergeEdges
      ∧ ((List.range k).foldl (fmeIter F jump) ⟨p1, paths, []⟩).pass.mdCondPaths
          = p1.mdCondPaths := by
  induction k with
  | zero => exact ⟨hp, PassExtends.refl _, rfl, by simp, rfl, rfl⟩
  | succ k ih =>
    rw [List.range_succ, List.foldl_append, List.foldl_cons, List.foldl_nil]
    generalize (List.range k).foldl (fmeIter F jump) ⟨p1, paths, []⟩ = st at ih ⊢
    obtain ⟨i1, i2, i3, i4, i5, i6⟩ := ih
    have hme := exploreFrom_mergeEdges F jump k st.bb_to_cond_paths
    obtain ⟨e1, e2, e3, e4, e5, e6⟩ :=
      edgesToMD_spec (exploreFrom F jump k st.bb_to_cond_paths).mergeEdges st.pass i1
    rw [hme] at e1 e2 e3 e4 e5 e6
    have hpass : (fmeIter F jump st k).pass
        = (edgesToMD st.pass (mergeEdgesFrom F jump k)).2 := by
      simp only [fmeIter, hme]
    have hvec : (fmeIter F jump st k).final_md_vec
        = st.final_md_vec ++ [(edgesToMD st.pass (mergeEdgesFrom F jump k)).1] := by
      simp only [fmeIter, hme]
    rw [hpass, hvec]
    refine ⟨e1, i2.trans e2, ?_, ?_, e5.trans i5, e6.trans i6⟩
    · rw [List.map_append, List.map_singleton, ← e3, i3]
      congr 1
      apply List.map_congr_left
      intro i hi
      exact (map_edgeMDOf_congr i1 e1 e2 _ (i4 i (List.mem_range.mp hi))).symm
    · intro i hi e he
      rcases Nat.lt_succ_iff_lt_or_eq.mp hi with h | h
      · obtain ⟨id, hid⟩ := i4 i h e he
        exact ⟨id, e2 _ _ hid⟩
      · subst h
        exact e4 e he

theorem foldl_fmeIter_paths (F : Function) (jump : Instr)
    (Q : List (Nat × List Edge) → Prop) :
    ∀ (l : List Nat), (∀ i ∈ l, ∀ ps, Q ps → Q (exploreFrom F jump i ps).bb_to_cond_paths) →
      ∀ (st : FmeState), Q st.bb_to_cond_paths →
      Q (l.foldl (fmeIter F jump) st).bb_to_cond_paths := by
  intro l
  induction l with
  | nil => intro _ st h; exact h
  | cons i l ih =>
    intro hQ st h
    rw [List.foldl_cons]
    apply ih (fun j hj => hQ j (List.mem_cons_of_mem _ hj))
    rw [fmeIter_paths]
    exact hQ i (List.mem_cons_self _ _) _ h

theorem findMergeEdges_paths (F : Function) (jump : Instr)
    (Q : List (Nat × List Edge) → Prop)
    (hQ : ∀ i < numSuccessors F jump.bb, ∀ ps, Q ps →
      Q (exploreFrom F jump i ps).bb_to_cond_paths)
    (p : CondMergePass) (paths : List (Nat × List Edge)) (h : Q paths) :
    Q (findMergeEdges p F jump paths).2 := by
  unfold findMergeEdges
  exact foldl_fmeIter_paths F jump Q _ (fun i hi => hQ i (List.mem_range.mp hi)) _ h

theorem findMergeEdges_spec (F : Function) (jump : Instr) (p : CondMergePass) (hp : PassInv p)
    (paths : List (Nat × List Edge)) :
    PassInv (findMergeEdges p F jump paths).1
      ∧ PassExtends p (findMergeEdges p F jump paths).1
      ∧ (∃ id, amFind (findMergeEdges p F jump paths).1.id_of_jump jump = some id)
      ∧ amFind (findMergeEdges p F jump paths).1.mdMergeEdges jump
          = some ((List.range (numSuccessors F jump.bb)).map (fun i =>
              (mergeEdgesFrom F jump i).map (edgeMDOf (findMergeEdges p F jump paths).1)))
      ∧ (∀ i < numSuccessors F jump.bb, ∀ e ∈ mergeEdgesFrom F jump i,
          ∃ id, amFind (findMergeEdges p F jump paths).1.id_of_jump e.1 = some id)
      ∧ (∀ x, x ≠ jump → amFind (findMergeEdges p F jump paths).1.mdMergeEdges x
          = amFind p.mdMergeEdges x)
      ∧ (findMergeEdges p F jump paths).1.mdCondPaths = p.mdCondPaths := by
  obtain ⟨j1, j2, j3, j4, j5⟩ := get_jump_id_spec p hp jump
  obtain ⟨f1, f2, f3, f4, f5, f6⟩ :=
    fmeFold_spec F jump (get_jump_id p jump).2 j1 paths (numSuccessors F jump.bb)
  unfold findMergeEdges
  dsimp only
  generalize (List.range (numSuccessors F jump.bb)).foldl (fmeIter F jump)
    ⟨(get_jump_id p jump).2, paths, []⟩ = st at f1 f2 f3 f4 f5 f6 ⊢
  refine ⟨⟨f1.counter_pos, f1.ids_range, f1.ids_inj, f1.md_cache, f1.md_jump⟩,
    j2.trans f2, ⟨_, f2 _ _ j3⟩, ?_, f4, ?_, f6.trans j5⟩
  · rw [amFind_amSet_self, f3]
    rfl
  · intro x hx
    rw [amFind_amSet_other _ _ _ _ (Ne.symm hx), f5, j4]

/-! ## `runOnFunction` -/

theorem runBlocks_paths (F : Function) (fn : Nat) (Q : List (Nat × List Edge) → Prop)
    (hQ : ∀ (jump : Instr) i ps, jump.fn = fn → i < numSuccessors F jump.bb → Q ps →
      Q (exploreFrom F jump i ps).bb_to_cond_paths) :
    ∀ (bs : List Nat) (acc : CondMergePass × List (Nat × List Edge)), Q acc.2 →
      Q (runBlocks F fn bs acc).2 := by
  intro bs
  induction bs with
  | nil => intro acc h; exact h
  | cons b bs ih =>
    intro acc h
    rw [runBlocks]
    split_ifs
    · apply ih
      exact findMergeEdges_paths F ⟨fn, b⟩ Q (fun i hi ps => hQ ⟨fn, b⟩ i ps rfl hi) _ _ h
    · exact ih acc h

theorem runBlocks_spec (F : Function) (fn : Nat) :
    ∀ (bs : List Nat), bs.Nodup → ∀ (p : CondMergePass) (paths : List (Nat × List Edge)),
      PassInv p →
      PassInv (runBlocks F fn bs (p, paths)).1
        ∧ PassExtends p (runBlocks F fn bs (p, paths)).1
        ∧ (runBlocks F fn bs (p, paths)).1.mdCondPaths = p.mdCondPaths
        ∧ (∀ b ∈ bs, 1 < numSuccessors F b →
            (∃ id, amFind (runBlocks F fn bs (p, paths)).1.id_of_jump ⟨fn, b⟩ = some id)
              ∧ amFind (runBlocks F fn bs (p, paths)).1.mdMergeEdges ⟨fn, b⟩
                  = some ((List.range (numSuccessors F b)).map (fun i =>
                      (mergeEdgesFrom F ⟨fn, b⟩ i).map
                        (edgeMDOf (runBlocks F fn bs (p, paths)).1)))
              ∧ (∀ i < numSuccessors F b, ∀ e ∈ mergeEdgesFrom F ⟨fn, b⟩ i,
                  ∃ id, amFind (runBlocks F fn bs (p, paths)).1.id_of_jump e.1 = some id))
        ∧ (∀ x : Instr, ¬ (x.fn = fn ∧ x.bb ∈ bs ∧ 1 < numSuccessors F x.bb) →
            amFind (runBlocks F fn bs (p, paths)).1.mdMergeEdges x = amFind p.mdMergeEdges x) := by
  intro bs
  induction bs with
  | nil =>
    intro _ p paths hp
    exact ⟨hp, PassExtends.refl _, rfl, by simp, fun _ _ => rfl⟩
  | cons b bs ih =>
    intro hnd p paths hp
    have hb : b ∉ bs := (List.nodup_cons.mp hnd).1
    have hnd' : bs.Nodup := (List.nodup_cons.mp hnd).2
    by_cases hdeg : 1 < numSuccessors F b
    · have hr : runBlocks F fn (b :: bs) (p, paths)
          = runBlocks F fn bs (findMergeEdges p F ⟨fn, b⟩ paths) := by
        rw [runBlocks]
        exact if_pos hdeg
      rw [hr]
      obtain ⟨m1, m2, m3, m4, m5, m6, m7⟩ := findMergeEdges_spec F ⟨fn, b⟩ p hp paths
      generalize findMergeEdges p F ⟨fn, b⟩ paths = q at m1 m2 m3 m4 m5 m6 m7 ⊢
      obtain ⟨q1, q2⟩ := q
      obtain ⟨r1, r2, r3, r4, r5⟩ := ih hnd' q1 q2 m1
      refine ⟨r1, m2.trans r2, r3.trans m7, ?_, ?_⟩
      · intro b' hb' hdeg'
        rcases List.mem_cons.mp hb' with rfl | hb'
        · refine ⟨?_, ?_, ?_⟩
          · obtain ⟨id, hid⟩ := m3
            exact ⟨id, r2 _ _ hid⟩
          · rw [r5 ⟨fn, b'⟩ (fun h => hb h.2.1), m4]
            congr 1
            apply List.map_congr_left
            intro i hi
            exact (map_edgeMDOf_congr m1 r1 r2 _ (m5 i (List.mem_range.mp hi))).symm
          · intro i hi e he
            obtain ⟨id, hid⟩ := m5 i hi e he
            exact ⟨id, r2 _ _ hid⟩
        · exact r4 b' hb' hdeg'
      · intro x hx
        have hx1 : ¬ (x.fn = fn ∧ x.bb ∈ bs ∧ 1 < numSuccessors F x.bb) :=
          fun h => hx ⟨h.1, List.mem_cons_of_mem _ h.2.1, h.2.2⟩
        have hx2 : x ≠ ⟨fn, b⟩ := by
          rintro rfl
          exact hx ⟨rfl, List.mem_cons_self _ _, hdeg⟩
        rw [r5 x hx1, m6 x hx2]
    · have hr : runBlocks F fn (b :: bs) (p, paths) = runBlocks F fn bs (p, paths) := by
        rw [runBlocks]
        exact if_neg hdeg
      rw [hr]
      obtain ⟨r1, r2, r3, r4, r5⟩ := ih hnd' p paths hp
      refine ⟨r1, r2, r3, ?_, ?_⟩
      · intro b' hb' hdeg'
        rcases List.mem_cons.mp hb' with rfl | hb'
        · exact absurd hdeg' hdeg
        · exact r4 b' hb' hdeg'
      · intro x hx
        exact r5 x (fun h => hx ⟨h.1, List.mem_cons_of_mem _ h.2.1, h.2.2⟩)

theorem writeCondPaths_spec (fn : Nat) :
    ∀ (paths : List (Nat × List Edge)), (paths.map Prod.fst).Nodup →
      ∀ (p : CondMergePass), PassInv p →
      PassInv (writeCondPaths fn p paths)
        ∧ PassExtends p (writeCondPaths fn p paths)
        ∧ (writeCondPaths fn p paths).mdMergeEdges = p.mdMergeEdges
        ∧ (∀ entry ∈ paths,
            amFind (writeCondPaths fn p paths).mdCondPaths ⟨fn, entry.1⟩
                = some (entry.2.map (edgeMDOf (writeCondPaths fn p paths)))
              ∧ ∀ c ∈ entry.2, ∃ id, amFind (writeCondPaths fn p paths).id_of_jump c.1 = some id)
        ∧ (∀ x : Instr, (∀ entry ∈ paths, x ≠ ⟨fn, entry.1⟩) →
            amFind (writeCondPaths fn p paths).mdCondPaths x = amFind p.mdCondPaths x) := by
  intro paths
  induction paths with
  | nil =>
    intro _ p hp
    exact ⟨hp, PassExtends.refl _, rfl, by simp, fun _ _ => rfl⟩
  | cons entry rest ih =>
    intro hnd p hp
    obtain ⟨bb, es⟩ := entry
    have hbb : bb ∉ rest.map Prod.fst := (List.nodup_cons.mp hnd).1
    have hnd' : (rest.map Prod.fst).Nodup := (List.nodup_cons.mp hnd).2
    obtain ⟨e1, e2, e3, e4, e5, e6⟩ := edgesToMD_spec es p hp
    have hr : writeCondPaths fn p ((bb, es) :: rest)
        = writeCondPaths fn
            { (edgesToMD p es).2 with
              mdCondPaths := amSet (edgesToMD p es).2.mdCondPaths ⟨fn, bb⟩ (edgesToMD p es).1 }
            rest := rfl
    rw [hr]
    have hq : PassInv
        { (edgesToMD p es).2 with
          mdCondPaths := amSet (edgesToMD p es).2.mdCondPaths ⟨fn, bb⟩ (edgesToMD p es).1 } :=
      ⟨e1.counter_pos, e1.ids_range, e1.ids_inj, e1.md_cache, e1.md_jump⟩
    have hqext : PassExtends (edgesToMD p es).2
        { (edgesToMD p es).2 with
          mdCondPaths := amSet (edgesToMD p es).2.mdCondPaths ⟨fn, bb⟩ (edgesToMD p es).1 } :=
      fun _ _ h => h
    obtain ⟨r1, r2, r3, r4, r5⟩ := ih hnd' _ hq
    refine ⟨r1, (e2.trans hqext).trans r2, r3.trans e5, ?_, ?_⟩
    · intro entry hentry
      rcases List.mem_cons.mp hentry with rfl | hentry
      · refine ⟨?_, ?_⟩
        · have hne : ∀ en ∈ rest, (⟨fn, bb⟩ : Instr) ≠ ⟨fn, en.1⟩ := by
            intro en hen h
            apply hbb
            have : bb = en.1 := by
              injection h
            rw [this]
            exact List.mem_map_of_mem _ hen
          rw [r5 ⟨fn, bb⟩ hne]
          show amFind (amSet (edgesToMD p es).2.mdCondPaths ⟨fn, bb⟩ (edgesToMD p es).1) ⟨fn, bb⟩
            = _
          rw [amFind_amSet_self]
          exact congrArg some
            (e3.trans (map_edgeMDOf_congr e1 r1 (hqext.trans r2) es e4).symm)
        · intro c hc
          obtain ⟨id, hid⟩ := e4 c hc
          exact ⟨id, r2 _ _ (hqext _ _ hid)⟩
      · exact r4 entry hentry
    · intro x hx
      rw [r5 x (fun en hen => hx en (List.mem_cons_of_mem _ hen))]
      show amFind (amSet (edgesToMD p es).2.mdCondPaths ⟨fn, bb⟩ (edgesToMD p es).1) x = _
      rw [amFind_amSet_other _ _ _ _ (Ne.symm (hx (bb, es) (List.mem_cons_self _ _))), e6]

theorem keys_amUpdate {K V : Type} [DecidableEq K] (d : V) (f : V → V) (m : List (K × V))
    (k : K) :
    (amUpdate d f m k).map Prod.fst
      = if k ∈ m.map Prod.fst then m.map Prod.fst else m.map Prod.fst ++ [k] := by
  induction m with
  | nil => simp [amUpdate]
  | cons e m ih =>
    obtain ⟨k', v⟩ := e
    by_cases h : k' = k
    · subst h
      simp [amUpdate]
    · have h' : ¬ k = k' := fun h2 => h h2.symm
      simp only [amUpdate, if_neg h, List.map_cons, ih, List.mem_cons, h', false_or]
      split_ifs <;> simp

theorem nodup_keys_amUpdate {K V : Type} [DecidableEq K] (d : V) (f : V → V)
    (m : List (K × V)) (k : K) (h : (m.map Prod.fst).Nodup) :
    ((amUpdate d f m k).map Prod.fst).Nodup := by
  rw [keys_amUpdate]
  split_ifs with hk
  · exact h
  · exact List.Nodup.append h (List.nodup_singleton k) (by simpa using hk)

theorem mem_of_amFind {K V : Type} [DecidableEq K] (m : List (K × V)) (k : K) (v : V)
    (h : amFind m k = some v) : (k, v) ∈ m := by
  induction m with
  | nil => simp [amFind] at h
  | cons e m ih =>
    obtain ⟨k', v'⟩ := e
    by_cases hk : k' = k
    · subst hk
      simp only [amFind, if_true, Option.some.injEq] at h
      subst h
      exact List.mem_cons_self _ _
    · simp only [amFind, if_neg hk] at h
      exact List.mem_cons_of_mem _ (ih h)

theorem amFind_of_mem {K V : Type} [DecidableEq K] (m : List (K × V)) (k : K) (v : V)
    (hnd : (m.map Prod.fst).Nodup) (h : (k, v) ∈ m) : amFind m k = some v := by
  induction m with
  | nil => simp at h
  | cons e m ih =>
    obtain ⟨k', v'⟩ := e
    have hk' : k' ∉ m.map Prod.fst := (List.nodup_cons.mp hnd).1
    rcases List.mem_cons.mp h with h | h
    · cases h
      simp [amFind]
    · have hne : k' ≠ k := by
        rintro rfl
        exact hk' (List.mem_map_of_mem Prod.fst h)
      simp only [amFind, if_neg hne]
      exact ih (List.nodup_cons.mp hnd).2 h

/-- A property of `bb_to_cond_paths` that every recording step keeps is kept by the loop. -/
theorem bfsLoop_paths_invariant (F : Function) (jump : Instr) (ce : Edge)
    (Q : List (Nat × List Edge) → Prop)
    (hQ : ∀ ps bb, Q ps → Q (amUpdate [] (fun v => v ++ [ce]) ps bb))
    (fuel : Nat) (s : BfsState) (h : Q s.bb_to_cond_paths) :
    Q (bfsLoop F jump ce fuel s).bb_to_cond_paths := by
  refine bfsLoop_invariant F jump ce (fun t => Q t.bb_to_cond_paths) ?_ fuel s h
  intro t cur rest _ ht
  refine bfsStep_cases F jump ce t cur rest (fun u => Q u.bb_to_cond_paths) ?_ ?_ ?_
  · intro _; exact ht
  · intro _ _; exact ht
  · intro _ _
    dsimp only
    split_ifs
    · exact ht
    · exact hQ _ _ ht

theorem exploreFrom_nodup_keys (F : Function) (jump : Instr) (i : Nat)
    (ps : List (Nat × List Edge)) (h : (ps.map Prod.fst).Nodup) :
    ((exploreFrom F jump i ps).bb_to_cond_paths.map Prod.fst).Nodup := by
  unfold exploreFrom
  exact bfsLoop_paths_invariant F jump (jump, i) (fun ps => (ps.map Prod.fst).Nodup)
    (fun ps bb hps => nodup_keys_amUpdate _ _ ps bb hps) _ _ h

theorem exploreFrom_condEdges_valid (F : Function) (jump : Instr) (i : Nat)
    (hi : i < numSuccessors F jump.bb) (ps : List (Nat × List Edge))
    (h : ∀ entry ∈ ps, ∀ c ∈ entry.2, c.1.fn = jump.fn ∧ c.2 < numSuccessors F c.1.bb) :
    ∀ entry ∈ (exploreFrom F jump i ps).bb_to_cond_paths, ∀ c ∈ entry.2,
      c.1.fn = jump.fn ∧ c.2 < numSuccessors F c.1.bb := by
  unfold exploreFrom
  refine bfsLoop_paths_invariant F jump (jump, i)
    (fun ps => ∀ entry ∈ ps, ∀ c ∈ entry.2, c.1.fn = jump.fn ∧ c.2 < numSuccessors F c.1.bb)
    ?_ _ _ h
  intro ps bb hps entry he c hc
  rcases mem_amUpdate _ _ _ _ _ he with h1 | ⟨v, hv, h2⟩ | h3
  · exact hps entry h1 c hc
  · subst h2
    simp only [List.mem_append, List.mem_singleton] at hc
    rcases hc with hc | rfl
    · exact hps _ hv c hc
    · exact ⟨rfl, hi⟩
  · subst h3
    simp only [List.nil_append, List.mem_singleton] at hc
    subst hc
    exact ⟨rfl, hi⟩

/-- What `runOnFunction` leaves in `bb_to_cond_paths` before it writes the `CondPaths`
metadata: keys are distinct, and every conditional edge listed under a block is an edge of
the function from which a merge-free path leads into the block. -/
theorem runBlocks_condPaths (F : Function) (fn : Nat) (bs : List Nat) (p : CondMergePass) :
    ((runBlocks F fn bs (p, [])).2.map Prod.fst).Nodup
      ∧ ∀ entry ∈ (runBlocks F fn bs (p, [])).2, ∀ c ∈ entry.2,
          (c.1.fn = fn ∧ c.2 < numSuccessors F c.1.bb)
            ∧ ∃ path, MergeFreePath F c.1 c.2 entry.1 path := by
  refine ⟨?_, ?_⟩
  · exact runBlocks_paths F fn (fun ps => (ps.map Prod.fst).Nodup)
      (fun jump i ps _ _ h => exploreFrom_nodup_keys F jump i ps h) bs (p, []) (by simp)
  · have h1 := runBlocks_paths F fn
      (fun ps => ∀ entry ∈ ps, ∀ c ∈ entry.2, c.1.fn = fn ∧ c.2 < numSuccessors F c.1.bb)
      (fun jump i ps hfn hi h => by
        subst hfn
        exact exploreFrom_condEdges_valid F jump i hi ps h) bs (p, []) (by simp)
    have h2 := runBlocks_paths F fn
      (fun ps => ∀ entry ∈ ps, ∀ c ∈ entry.2, ∃ path, MergeFreePath F c.1 c.2 entry.1 path)
      (fun jump i ps _ _ h => exploreFrom_condPaths F jump i ps h) bs (p, []) (by simp)
    exact fun entry he c hc => ⟨h1 entry he c hc, h2 entry he c hc⟩

theorem numSuccessors_pos_lt (F : Function) (b : Nat) (h : 0 < numSuccessors F b) :
    b < F.succs.length := by
  by_contra hb
  have : F.succs.getD b [] = [] := by
    simp [List.getD_eq_getElem?_getD, List.getElem?_eq_none (Nat.le_of_not_lt hb)]
  unfold numSuccessors at h
  rw [this] at h
  exact Nat.lt_irrefl 0 h

theorem runOnFunction_spec (p : CondMergePass) (hp : PassInv p) (fn : Nat) (F : Function) :
    PassInv (runOnFunction p fn F)
      ∧ PassExtends p (runOnFunction p fn F)
      ∧ (∀ b, 1 < numSuccessors F b →
          (∃ id, amFind (runOnFunction p fn F).id_of_jump ⟨fn, b⟩ = some id)
            ∧ amFind (runOnFunction p fn F).mdMergeEdges ⟨fn, b⟩
                = some ((List.range (numSuccessors F b)).map (fun i =>
                    (mergeEdgesFrom F ⟨fn, b⟩ i).map (edgeMDOf (runOnFunction p fn F))))
            ∧ (∀ i < numSuccessors F b, ∀ e ∈ mergeEdgesFrom F ⟨fn, b⟩ i,
                ∃ id, amFind (runOnFunction p fn F).id_of_jump e.1 = some id))
      ∧ (∀ x : Instr, ¬ (x.fn = fn ∧ 1 < numSuccessors F x.bb) →
          amFind (runOnFunction p fn F).mdMergeEdges x = amFind p.mdMergeEdges x)
      ∧ (∀ entry ∈ (runBlocks F fn (List.range F.succs.length) (p, [])).2,
          amFind (runOnFunction p fn F).mdCondPaths ⟨fn, entry.1⟩
              = some (entry.2.map (edgeMDOf (runOnFunction p fn F)))
            ∧ ∀ c ∈ entry.2, ∃ id, amFind (runOnFunction p fn F).id_of_jump c.1 = some id)
      ∧ (∀ x : Instr,
          (∀ entry ∈ (runBlocks F fn (List.range F.succs.length) (p, [])).2,
            x ≠ ⟨fn, entry.1⟩) →
          amFind (runOnFunction p fn F).mdCondPaths x = amFind p.mdCondPaths x) := by
  obtain ⟨b1, b2, _, b4, b5⟩ :=
    runBlocks_spec F fn (List.range F.succs.length) (List.nodup_range _) p [] hp
  obtain ⟨hnd, _⟩ := runBlocks_condPaths F fn (List.range F.succs.length) p
  have hr : runOnFunction p fn F
      = writeCondPaths fn (runBlocks F fn (List.range F.succs.length) (p, [])).1
          (runBlocks F fn (List.range F.succs.length) (p, [])).2 := rfl
  obtain ⟨w1, w2, w3, w4, w5⟩ := writeCondPaths_spec fn _ hnd _ b1
  rw [← hr] at w1 w2 w3 w4 w5
  refine ⟨w1, b2.trans w2, ?_, ?_, w4, ?_⟩
  · intro b hdeg
    have hb : b ∈ List.range F.succs.length :=
      List.mem_range.mpr (numSuccessors_pos_lt F b (by omega))
    obtain ⟨c1, c2, c3⟩ := b4 b hb hdeg
    refine ⟨?_, ?_, ?_⟩
    · obtain ⟨id, hid⟩ := c1
      exact ⟨id, w2 _ _ hid⟩
    · rw [w3, c2]
      congr 1
      apply List.map_congr_left
      intro i hi
      exact (map_edgeMDOf_congr b1 w1 w2 _ (c3 i (List.mem_range.mp hi))).symm
    · intro i hi e he
      obtain ⟨id, hid⟩ := c3 i hi e he
      exact ⟨id, w2 _ _ hid⟩
  · intro x hx
    rw [w3]
    exact b5 x (fun h => hx ⟨h.1, h.2.2⟩)
  · intro x hx
    rw [w5 x hx]
    exact congrArg (fun m => amFind m x)
      (runBlocks_spec F fn (List.range F.succs.length) (List.nodup_range _) p [] hp).2.2.1

/-! ## The annotator: merge edges, conditional paths, shape of the metadata -/

theorem getD_map_range {β : Type} (f : Nat → β) (n i : Nat) (d : β) (hi : i < n) :
    ((List.range n).map f).getD i d = f i := by
  simp [List.getD_eq_getElem?_getD, List.getElem?_range hi]

theorem mdJumpID_of_id {p : CondMergePass} (hp : PassInv p) {inst : Instr} {id : Nat}
    (h : amFind p.id_of_jump inst = some id) : amFind p.mdJumpID inst = some id := by
  rw [hp.md_jump, h]

/-- Claim C1: after `runOnFunction`, for a terminator `T` (block `b`) with more than one
successor and a successor index `i`, every tuple in element `i` of the `MergeEdges` list of
`T` encodes an edge `e` that the exploration from `(T, i)` recorded, and the terminator `U`
of the block that `e` enters satisfies a merge predicate: `U = T`, or `U` dominates the
block of `T`, or `U` post-dominates `T`. -/
theorem C1_merge_edge_correctness (p : CondMergePass) (hp : PassInv p) (fn : Nat) (F : Function)
    (b i : Nat) (hdeg : 1 < numSuccessors F b) (hi : i < numSuccessors F b) :
    ∃ L, amFind (runOnFunction p fn F).mdMergeEdges ⟨fn, b⟩ = some L
      ∧ ∀ md ∈ L.getD i [], ∃ e : Edge,
          e ∈ mergeEdgesFrom F ⟨fn, b⟩ i
            ∧ amFind (runOnFunction p fn F).mdJumpID e.1 = some md.1 ∧ md.2 = e.2
            ∧ e.1.fn = fn ∧ e.2 < numSuccessors F e.1.bb
            ∧ ((⟨fn, dest_bb_of_edge F e⟩ : Instr) = ⟨fn, b⟩
                ∨ F.preDom (dest_bb_of_edge F e) b = true
                ∨ F.postDom (dest_bb_of_edge F e) b = true) := by
  obtain ⟨s1, _, s3, _, _, _⟩ := runOnFunction_spec p hp fn F
  obtain ⟨_, hL, hids⟩ := s3 b hdeg
  refine ⟨_, hL, ?_⟩
  intro md hmd
  rw [getD_map_range _ _ _ _ hi] at hmd
  obtain ⟨e, he, rfl⟩ := List.mem_map.mp hmd
  obtain ⟨id, hid⟩ := hids i hi e he
  have hspec := mergeEdgesFrom_spec F ⟨fn, b⟩ i [] hi e
    (by rw [exploreFrom_mergeEdges]; exact he)
  obtain ⟨⟨hfn, hidx⟩, hm⟩ := hspec
  have hfn' : e.1.fn = fn := hfn
  refine ⟨e, he, ?_, ?_, hfn', hidx, ?_⟩
  · rw [edgeMDOf_of_id s1 hid]
    exact mdJumpID_of_id s1 hid
  · rw [edgeMDOf_of_id s1 hid]
  · have := (is_merge_edge_eq_true_iff F ⟨fn, b⟩ ⟨e.1.fn, dest_bb_of_edge F e⟩).mp hm
    rw [hfn'] at this
    exact this

/-- Witness for claim C1: the branch of the diamond, successor 0. -/
theorem C1_merge_edge_correctness_witness :
    (PassInv CondMergePass.init ∧ 1 < numSuccessors diamondExample 0
        ∧ 0 < numSuccessors diamondExample 0)
      ∧ ∃ L, amFind (runOnFunction CondMergePass.init 0 diamondExample).mdMergeEdges ⟨0, 0⟩
            = some L
          ∧ ∀ md ∈ L.getD 0 [], ∃ e : Edge,
              e ∈ mergeEdgesFrom diamondExample ⟨0, 0⟩ 0
                ∧ amFind (runOnFunction CondMergePass.init 0 diamondExample).mdJumpID e.1
                    = some md.1
                ∧ md.2 = e.2
                ∧ e.1.fn = 0 ∧ e.2 < numSuccessors diamondExample e.1.bb
                ∧ ((⟨0, dest_bb_of_edge diamondExample e⟩ : Instr) = ⟨0, 0⟩
                    ∨ diamondExample.preDom (dest_bb_of_edge diamondExample e) 0 = true
                    ∨ diamondExample.postDom (dest_bb_of_edge diamondExample e) 0 = true) :=
  ⟨⟨PassInv_init, by decide, by decide⟩,
    C1_merge_edge_correctness CondMergePass.init PassInv_init 0 diamondExample 0 0
      (by decide) (by decide)⟩

/-- Claim C2: if `runOnFunction`, run on a function that carries no `CondPaths` metadata
yet, leaves the tuple `md` in the `CondPaths` list of the terminator of block `B`, then `md`
encodes a conditional edge `(T, i)` of the function (`md = (JumpID of T, i)`), and there is
a control-flow path that starts with the edge `(T, i)`, ends with an edge into `B`, and
enters only blocks (`B` included) that fail all three merge predicates with respect to
`T`. -/
theorem C2_condPaths_coverage (p : CondMergePass) (hp : PassInv p) (fn : Nat) (F : Function)
    (hfresh : ∀ b, amFind p.mdCondPaths ⟨fn, b⟩ = none)
    (B : Nat) (L : List EdgeMD)
    (hL : amFind (runOnFunction p fn F).mdCondPaths ⟨fn, B⟩ = some L)
    (md : EdgeMD) (hmd : md ∈ L) :
    ∃ (T : Instr) (i : Nat),
      amFind (runOnFunction p fn F).mdJumpID T = some md.1 ∧ md.2 = i
        ∧ T.fn = fn ∧ i < numSuccessors F T.bb
        ∧ ∃ path, MergeFreePath F T i B path := by
  obtain ⟨s1, _, _, _, s5, s6⟩ := runOnFunction_spec p hp fn F
  obtain ⟨_, hgood⟩ := runBlocks_condPaths F fn (List.range F.succs.length) p
  by_cases hB : ∃ entry ∈ (runBlocks F fn (List.range F.succs.length) (p, [])).2, entry.1 = B
  · obtain ⟨entry, hentry, rfl⟩ := hB
    obtain ⟨h1, h2⟩ := s5 entry hentry
    rw [h1] at hL
    cases hL
    obtain ⟨c, hc, rfl⟩ := List.mem_map.mp hmd
    obtain ⟨id, hid⟩ := h2 c hc
    obtain ⟨⟨hfn, hidx⟩, hpath⟩ := hgood entry hentry c hc
    refine ⟨c.1, c.2, ?_, ?_, hfn, hidx, hpath⟩
    · rw [edgeMDOf_of_id s1 hid]
      exact mdJumpID_of_id s1 hid
    · rw [edgeMDOf_of_id s1 hid]
  · have hne : ∀ entry ∈ (runBlocks F fn (List.range F.succs.length) (p, [])).2,
        (⟨fn, B⟩ : Instr) ≠ ⟨fn, entry.1⟩ := by
      intro entry hentry h
      apply hB
      refine ⟨entry, hentry, ?_⟩
      injection h with _ h2
      exact h2.symm
    rw [s6 ⟨fn, B⟩ hne, hfresh B] at hL
    cases hL

/-- Witness for claim C2: the tuple recorded on block 2 of the diamond. -/
theorem C2_condPaths_coverage_witness :
    (PassInv CondMergePass.init
        ∧ (∀ b, amFind CondMergePass.init.mdCondPaths ⟨0, b⟩ = none)
        ∧ amFind (runOnFunction CondMergePass.init 0 diamondExample).mdCondPaths ⟨0, 2⟩
            = some [(1, 1)]
        ∧ ((1, 1) : EdgeMD) ∈ [((1, 1) : EdgeMD)])
      ∧ ∃ (T : Instr) (i : Nat),
          amFind (runOnFunction CondMergePass.init 0 diamondExample).mdJumpID T
              = some ((1, 1) : EdgeMD).1
            ∧ ((1, 1) : EdgeMD).2 = i
            ∧ T.fn = 0 ∧ i < numSuccessors diamondExample T.bb
            ∧ ∃ path, MergeFreePath diamondExample T i 2 path :=
  ⟨⟨PassInv_init, fun _ => rfl, by decide, by decide⟩,
    C2_condPaths_coverage CondMergePass.init PassInv_init 0 diamondExample (fun _ => rfl)
      2 [(1, 1)] (by decide) (1, 1) (by decide)⟩

/-- Claim C3: after `runOnFunction`, a terminator `T` (block `b`) with `n > 1` successors
carries a `MergeEdges` list of exactly `n` elements; for every `i < n` the exploration from
successor `i` runs to completion (its queue ends empty), element `i` is the list of merge
edges it found, each encoded as `(JumpID of the edge's terminator, successor index)`, and
each of these terminators has a `JumpID`.  For a terminator with at most one successor the
pass attaches no `MergeEdges` list: the entry is what it was before the run. -/
theorem C3_mergeEdges_shape (p : CondMergePass) (hp : PassInv p) (fn : Nat) (F : Function)
    (b : Nat) :
    (1 < numSuccessors F b →
        ∃ L, amFind (runOnFunction p fn F).mdMergeEdges ⟨fn, b⟩ = some L
          ∧ L.length = numSuccessors F b
          ∧ ∀ i < numSuccessors F b,
              (∀ paths, (exploreFrom F ⟨fn, b⟩ i paths).queue = [])
                ∧ (∀ paths, (exploreFrom F ⟨fn, b⟩ i paths).mergeEdges
                    = mergeEdgesFrom F ⟨fn, b⟩ i)
                ∧ L.getD i [] = (mergeEdgesFrom F ⟨fn, b⟩ i).map
                    (edgeMDOf (runOnFunction p fn F))
                ∧ ∀ e ∈ mergeEdgesFrom F ⟨fn, b⟩ i,
                    ∃ id, amFind (runOnFunction p fn F).mdJumpID e.1 = some id)
      ∧ (numSuccessors F b ≤ 1 →
          amFind (runOnFunction p fn F).mdMergeEdges ⟨fn, b⟩ = amFind p.mdMergeEdges ⟨fn, b⟩) := by
  obtain ⟨s1, _, s3, s4, _, _⟩ := runOnFunction_spec p hp fn F
  constructor
  · intro hdeg
    obtain ⟨_, hL, hids⟩ := s3 b hdeg
    refine ⟨_, hL, by simp, ?_⟩
    intro i hi
    refine ⟨fun paths => exploreFrom_terminates F ⟨fn, b⟩ i paths hi,
      fun paths => exploreFrom_mergeEdges F ⟨fn, b⟩ i paths,
      getD_map_range _ _ _ _ hi, ?_⟩
    intro e he
    obtain ⟨id, hid⟩ := hids i hi e he
    exact ⟨id, mdJumpID_of_id s1 hid⟩
  · intro hdeg
    exact s4 ⟨fn, b⟩ (fun h => absurd h.2 (Nat.not_lt.mpr hdeg))

/-- Witness for claim C3: the branch of the diamond in a fresh pass. -/
theorem C3_mergeEdges_shape_witness :
    PassInv CondMergePass.init
      ∧ (1 < numSuccessors diamondExample 0 →
          ∃ L, amFind (runOnFunction CondMergePass.init 0 diamondExample).mdMergeEdges ⟨0, 0⟩
              = some L
            ∧ L.length = numSuccessors diamondExample 0
            ∧ ∀ i < numSuccessors diamondExample 0,
                (∀ paths, (exploreFrom diamondExample ⟨0, 0⟩ i paths).queue = [])
                  ∧ (∀ paths, (exploreFrom diamondExample ⟨0, 0⟩ i paths).mergeEdges
                      = mergeEdgesFrom diamondExample ⟨0, 0⟩ i)
                  ∧ L.getD i [] = (mergeEdgesFrom diamondExample ⟨0, 0⟩ i).map
                      (edgeMDOf (runOnFunction CondMergePass.init 0 diamondExample))
                  ∧ ∀ e ∈ mergeEdgesFrom diamondExample ⟨0, 0⟩ i,
                      ∃ id, amFind (runOnFunction CondMergePass.init 0 diamondExample).mdJumpID
                        e.1 = some id)
      ∧ (numSuccessors diamondExample 0 ≤ 1 →
          amFind (runOnFunction CondMergePass.init 0 diamondExample).mdMergeEdges ⟨0, 0⟩
            = amFind CondMergePass.init.mdMergeEdges ⟨0, 0⟩) :=
  ⟨PassInv_init, C3_mergeEdges_shape CondMergePass.init PassInv_init 0 diamondExample 0⟩

/-! ## Jump identifiers over a whole run -/

theorem askJumpIds_spec (calls : List Instr) : ∀ (p : CondMergePass), PassInv p →
    PassInv (askJumpIds p calls)
      ∧ PassExtends p (askJumpIds p calls)
      ∧ ∀ t ∈ calls, ∃ id, amFind (askJumpIds p calls).id_of_jump t = some id := by
  induction calls with
  | nil =>
    intro p hp
    exact ⟨hp, PassExtends.refl p, by simp⟩
  | cons t calls ih =>
    intro p hp
    obtain ⟨j1, j2, j3, _, _⟩ := get_jump_id_spec p hp t
    obtain ⟨i1, i2, i3⟩ := ih (get_jump_id p t).2 j1
    have hr : askJumpIds p (t :: calls) = askJumpIds (get_jump_id p t).2 calls := rfl
    rw [hr]
    refine ⟨i1, j2.trans i2, ?_⟩
    intro x hx
    rcases List.mem_cons.mp hx with rfl | hx
    · exact ⟨_, i2 _ _ j3⟩
    · exact i3 x hx

theorem runOnModule_spec (M : List Function) : ∀ (p : CondMergePass) (fn : Nat), PassInv p →
    PassInv (runOnModule p fn M)
      ∧ PassExtends p (runOnModule p fn M)
      ∧ ∀ (k : Nat) (F : Function) (b : Nat), M[k]? = some F → 1 < numSuccessors F b →
          ∃ id, amFind (runOnModule p fn M).id_of_jump ⟨fn + k, b⟩ = some id := by
  induction M with
  | nil =>
    intro p fn hp
    exact ⟨hp, PassExtends.refl p, by simp⟩
  | cons F Fs ih =>
    intro p fn hp
    obtain ⟨s1, s2, s3, _, _, _⟩ := runOnFunction_spec p hp fn F
    obtain ⟨i1, i2, i3⟩ := ih (runOnFunction p fn F) (fn + 1) s1
    have hr : runOnModule p fn (F :: Fs) = runOnModule (runOnFunction p fn F) (fn + 1) Fs := rfl
    rw [hr]
    refine ⟨i1, s2.trans i2, ?_⟩
    intro k G b hk hdeg
    cases k with
    | zero =>
      simp only [List.getElem?_cons_zero, Option.some.injEq] at hk
      subst hk
      obtain ⟨⟨id, hid⟩, _, _⟩ := s3 b hdeg
      exact ⟨id, i2 _ _ hid⟩
    | succ k =>
      simp only [List.getElem?_cons_succ] at hk
      obtain ⟨id, hid⟩ := i3 k G b hk hdeg
      refine ⟨id, ?_⟩
      have : fn + (k + 1) = fn + 1 + k := by omega
      rw [this]
      exact hid

/-- Claim C4: after any sequence `calls` of `get_jump_id` calls made by one pass instance,
distinct terminators have distinct `JumpID`s, every `JumpID` is at least 1, every terminator
asked about has one, a repeated `get_jump_id` on a terminator returns the `JumpID` it has
and leaves the pass (its counter included) unchanged, and further calls never change a
`JumpID` once given.  Likewise after annotating any list `M` of functions: `JumpID`s are
distinct and at least 1, and every terminator with more than one successor has one. -/
theorem C4_jump_ids (calls : List Instr) (M : List Function) :
    ((∀ t1 t2 id, amFind (askJumpIds CondMergePass.init calls).mdJumpID t1 = some id →
          amFind (askJumpIds CondMergePass.init calls).mdJumpID t2 = some id → t1 = t2)
        ∧ (∀ t id, amFind (askJumpIds CondMergePass.init calls).mdJumpID t = some id → 1 ≤ id)
        ∧ (∀ t ∈ calls, ∃ id, amFind (askJumpIds CondMergePass.init calls).mdJumpID t = some id)
        ∧ (∀ t id, amFind (askJumpIds CondMergePass.init calls).mdJumpID t = some id →
            get_jump_id (askJumpIds CondMergePass.init calls) t
              = (id, askJumpIds CondMergePass.init calls))
        ∧ (∀ t id (more : List Instr),
            amFind (askJumpIds CondMergePass.init calls).mdJumpID t = some id →
            amFind (askJumpIds (askJumpIds CondMergePass.init calls) more).mdJumpID t = some id))
      ∧ ((∀ t1 t2 id, amFind (runOnModule CondMergePass.init 0 M).mdJumpID t1 = some id →
            amFind (runOnModule CondMergePass.init 0 M).mdJumpID t2 = some id → t1 = t2)
          ∧ (∀ t id, amFind (runOnModule CondMergePass.init 0 M).mdJumpID t = some id → 1 ≤ id)
          ∧ (∀ (k : Nat) (F : Function) (b : Nat), M[k]? = some F → 1 < numSuccessors F b →
              ∃ id, amFind (runOnModule CondMergePass.init 0 M).mdJumpID ⟨k, b⟩ = some id)) := by
  obtain ⟨a1, _, a3⟩ := askJumpIds_spec calls CondMergePass.init PassInv_init
  obtain ⟨m1, _, m3⟩ := runOnModule_spec M CondMergePass.init 0 PassInv_init
  refine ⟨⟨?_, ?_, ?_, ?_, ?_⟩, ?_, ?_, ?_⟩
  · intro t1 t2 id h1 h2
    rw [a1.md_jump] at h1 h2
    exact a1.ids_inj t1 t2 id h1 h2
  · intro t id h
    rw [a1.md_jump] at h
    exact (a1.ids_range t id h).1
  · intro t ht
    obtain ⟨id, hid⟩ := a3 t ht
    exact ⟨id, mdJumpID_of_id a1 hid⟩
  · intro t id h
    rw [a1.md_jump] at h
    exact get_jump_id_known _ t id h
  · intro t id more h
    rw [a1.md_jump] at h
    obtain ⟨b1, b2, _⟩ := askJumpIds_spec more _ a1
    exact mdJumpID_of_id b1 (b2 _ _ h)
  · intro t1 t2 id h1 h2
    rw [m1.md_jump] at h1 h2
    exact m1.ids_inj t1 t2 id h1 h2
  · intro t id h
    rw [m1.md_jump] at h
    exact (m1.ids_range t id h).1
  · intro k F b hk hdeg
    obtain ⟨id, hid⟩ := m3 k F b hk hdeg
    refine ⟨id, mdJumpID_of_id m1 ?_⟩
    simpa using hid

/-! ## The conditional-path map does not depend on the pass object -/

theorem foldl_fmeIter_snd (F : Function) (jump : Instr) :
    ∀ (l : List Nat) (st : FmeState),
      (l.foldl (fmeIter F jump) st).bb_to_cond_paths
        = l.foldl (fun acc i => (exploreFrom F jump i acc).bb_to_cond_paths)
            st.bb_to_cond_paths := by
  intro l
  induction l with
  | nil => intro st; rfl
  | cons i l ih =>
    intro st
    rw [List.foldl_cons, List.foldl_cons, ih, fmeIter_paths]

theorem findMergeEdges_snd (p : CondMergePass) (F : Function) (jump : Instr)
    (paths : List (Nat × List Edge)) :
    (findMergeEdges p F jump paths).2
      = (List.range (numSuccessors F jump.bb)).foldl
          (fun acc i => (exploreFrom F jump i acc).bb_to_cond_paths) paths := by
  unfold findMergeEdges
  exact foldl_fmeIter_snd F jump _ _

theorem runBlocks_snd (F : Function) (fn : Nat) :
    ∀ (bs : List Nat) (acc : CondMergePass × List (Nat × List Edge)),
      (runBlocks F fn bs acc).2 = condPathsOf F fn bs acc.2 := by
  intro bs
  induction bs with
  | nil => intro acc; rfl
  | cons b bs ih =>
    intro acc
    rw [runBlocks, condPathsOf]
    split_ifs
    · rw [ih, findMergeEdges_snd]
    · exact ih acc

/-! ## Scenario S1: the diamond -/

/-- Claim C5 (scenario S1): in the diamond CFG where block 0 ends in the two-way branch `T`
to `A` = block 1 and `B` = block 2, both of which jump to `C` = block 3, which ends the
function, where the terminator of `C` post-dominates `T` and the terminators of `A` and `B`
neither dominate the block of `T` nor post-dominate `T`: `MergeEdges(T)` is the two-element
list `[[eA], [eB]]`, with `eA` the edge from the terminator of `A` into `C` and `eB` the edge
from the terminator of `B` into `C`; `CondPaths` of the terminator of `A` is exactly
`[(T, 0)]` and that of the terminator of `B` exactly `[(T, 1)]`; the terminator of `C` gets
no `CondPaths`; and `T` and the terminators of `A` and `B` have `JumpID`s. -/
theorem C5_diamond_scenario (p : CondMergePass) (hp : PassInv p) (fn : Nat) (F : Function)
    (hfresh : ∀ b, amFind p.mdCondPaths ⟨fn, b⟩ = none)
    (hs : F.succs = [[1, 2], [3], [3], []])
    (hA1 : F.preDom 1 0 = false) (hA2 : F.postDom 1 0 = false)
    (hB1 : F.preDom 2 0 = false) (hB2 : F.postDom 2 0 = false)
    (hC : F.postDom 3 0 = true) :
    amFind (runOnFunction p fn F).mdMergeEdges ⟨fn, 0⟩
        = some [[edgeMDOf (runOnFunction p fn F) (⟨fn, 1⟩, 0)],
                [edgeMDOf (runOnFunction p fn F) (⟨fn, 2⟩, 0)]]
      ∧ dest_bb_of_edge F (⟨fn, 1⟩, 0) = 3 ∧ dest_bb_of_edge F (⟨fn, 2⟩, 0) = 3
      ∧ amFind (runOnFunction p fn F).mdCondPaths ⟨fn, 1⟩
          = some [edgeMDOf (runOnFunction p fn F) (⟨fn, 0⟩, 0)]
      ∧ amFind (runOnFunction p fn F).mdCondPaths ⟨fn, 2⟩
          = some [edgeMDOf (runOnFunction p fn F) (⟨fn, 0⟩, 1)]
      ∧ amFind (runOnFunction p fn F).mdCondPaths ⟨fn, 3⟩ = none
      ∧ (∃ idT idA idB,
          amFind (runOnFunction p fn F).mdJumpID ⟨fn, 0⟩ = some idT
            ∧ amFind (runOnFunction p fn F).mdJumpID ⟨fn, 1⟩ = some idA
            ∧ amFind (runOnFunction p fn F).mdJumpID ⟨fn, 2⟩ = some idB) := by
  obtain ⟨succs, pre, post⟩ := F
  simp only at hs hA1 hA2 hB1 hB2 hC
  subst hs
  have hm0 : mergeEdgesFrom ⟨[[1, 2], [3], [3], []], pre, post⟩ ⟨fn, 0⟩ 0
      = [(⟨fn, 1⟩, 0)] := by
    simp [mergeEdgesFrom, exploreFrom, bfsFuel, numEdges, bfsLoop, bfsStep, is_merge_edge,
      dest_bb_of_edge, numSuccessors, List.range, List.range.loop, hA1, hA2, hC]
  have hm1 : mergeEdgesFrom ⟨[[1, 2], [3], [3], []], pre, post⟩ ⟨fn, 0⟩ 1
      = [(⟨fn, 2⟩, 0)] := by
    simp [mergeEdgesFrom, exploreFrom, bfsFuel, numEdges, bfsLoop, bfsStep, is_merge_edge,
      dest_bb_of_edge, numSuccessors, List.range, List.range.loop, hB1, hB2, hC]
  have hx0 : ∀ ps, (exploreFrom ⟨[[1, 2], [3], [3], []], pre, post⟩ ⟨fn, 0⟩ 0 ps).bb_to_cond_paths
      = amUpdate [] (fun v => v ++ [(⟨fn, 0⟩, 0)]) ps 1 := by
    intro ps
    simp [exploreFrom, bfsFuel, numEdges, bfsLoop, bfsStep, is_merge_edge,
      dest_bb_of_edge, numSuccessors, List.range, List.range.loop, hA1, hA2, hC]
  have hx1 : ∀ ps, (exploreFrom ⟨[[1, 2], [3], [3], []], pre, post⟩ ⟨fn, 0⟩ 1 ps).bb_to_cond_paths
      = amUpdate [] (fun v => v ++ [(⟨fn, 0⟩, 1)]) ps 2 := by
    intro ps
    simp [exploreFrom, bfsFuel, numEdges, bfsLoop, bfsStep, is_merge_edge,
      dest_bb_of_edge, numSuccessors, List.range, List.range.loop, hB1, hB2, hC]
  have hpaths : (runBlocks ⟨[[1, 2], [3], [3], []], pre, post⟩ fn
        (List.range (Function.succs ⟨[[1, 2], [3], [3], []], pre, post⟩).length) (p, [])).2
      = [(1, [(⟨fn, 0⟩, 0)]), (2, [(⟨fn, 0⟩, 1)])] := by
    rw [runBlocks_snd]
    simp [condPathsOf, numSuccessors, List.range, List.range.loop, hx0, hx1, amUpdate]
  obtain ⟨s1, _, s3, _, s5, s6⟩ :=
    runOnFunction_spec p hp fn ⟨[[1, 2], [3], [3], []], pre, post⟩
  rw [hpaths] at s5 s6
  have hdeg : 1 < numSuccessors ⟨[[1, 2], [3], [3], []], pre, post⟩ 0 := by
    simp [numSuccessors]
  obtain ⟨⟨idT, hT⟩, hL, hids⟩ := s3 0 hdeg
  obtain ⟨idA, hidA⟩ := hids 0 (by simp [numSuccessors]) (⟨fn, 1⟩, 0) (by rw [hm0]; simp)
  obtain ⟨idB, hidB⟩ := hids 1 (by simp [numSuccessors]) (⟨fn, 2⟩, 0) (by rw [hm1]; simp)
  refine ⟨?_, ?_, ?_, ?_, ?_, ?_, ?_⟩
  · rw [hL]
    have h2 : numSuccessors ⟨[[1, 2], [3], [3], []], pre, post⟩ 0 = 2 := by
      simp [numSuccessors]
    simp only [Instr.mk.injEq] at h2 ⊢
    rw [h2]
    simp [List.range, List.range.loop, hm0, hm1]
  · simp [dest_bb_of_edge]
  · simp [dest_bb_of_edge]
  · exact (s5 (1, [(⟨fn, 0⟩, 0)]) (by simp)).1
  · exact (s5 (2, [(⟨fn, 0⟩, 1)]) (by simp)).1
  · rw [s6 ⟨fn, 3⟩ (by simp)]
    exact hfresh 3
  · exact ⟨idT, idA, idB, mdJumpID_of_id s1 hT, mdJumpID_of_id s1 hidA,
      mdJumpID_of_id s1 hidB⟩

/-- Witness for claim C5: the diamond with the dominance answers of LLVM. -/
theorem C5_diamond_scenario_witness :
    (PassInv CondMergePass.init
        ∧ (∀ b, amFind CondMergePass.init.mdCondPaths ⟨0, b⟩ = none)
        ∧ diamondExample.succs = [[1, 2], [3], [3], []]
        ∧ diamondExample.preDom 1 0 = false ∧ diamondExample.postDom 1 0 = false
        ∧ diamondExample.preDom 2 0 = false ∧ diamondExample.postDom 2 0 = false
        ∧ diamondExample.postDom 3 0 = true)
      ∧ (amFind (runOnFunction CondMergePass.init 0 diamondExample).mdMergeEdges ⟨0, 0⟩
          = some [[edgeMDOf (runOnFunction CondMergePass.init 0 diamondExample) (⟨0, 1⟩, 0)],
                  [edgeMDOf (runOnFunction CondMergePass.init 0 diamondExample) (⟨0, 2⟩, 0)]]
        ∧ dest_bb_of_edge diamondExample (⟨0, 1⟩, 0) = 3
        ∧ dest_bb_of_edge diamondExample (⟨0, 2⟩, 0) = 3
        ∧ amFind (runOnFunction CondMergePass.init 0 diamondExample).mdCondPaths ⟨0, 1⟩
            = some [edgeMDOf (runOnFunction CondMergePass.init 0 diamondExample) (⟨0, 0⟩, 0)]
        ∧ amFind (runOnFunction CondMergePass.init 0 diamondExample).mdCondPaths ⟨0, 2⟩
            = some [edgeMDOf (runOnFunction CondMergePass.init 0 diamondExample) (⟨0, 0⟩, 1)]
        ∧ amFind (runOnFunction CondMergePass.init 0 diamondExample).mdCondPaths ⟨0, 3⟩ = none
        ∧ (∃ idT idA idB,
            amFind (runOnFunction CondMergePass.init 0 diamondExample).mdJumpID ⟨0, 0⟩ = some idT
              ∧ amFind (runOnFunction CondMergePass.init 0 diamondExample).mdJumpID ⟨0, 1⟩
                  = some idA
              ∧ amFind (runOnFunction CondMergePass.init 0 diamondExample).mdJumpID ⟨0, 2⟩
                  = some idB)) :=
  ⟨⟨PassInv_init, fun _ => rfl, rfl, by decide, by decide, by decide, by decide, by decide⟩,
    C5_diamond_scenario CondMergePass.init PassInv_init 0 diamondExample (fun _ => rfl) rfl
      (by decide) (by decide) (by decide) (by decide) (by decide)⟩

/-! ## Scenario S2: the loop back-edge -/

theorem getD_of_getElem? {α : Type} (l : List α) (i : Nat) (d v : α) (h : l[i]? = some v) :
    l.getD i d = v := by
  simp [List.getD_eq_getElem?_getD, h]

theorem loop_explore (F : Function) (fn h b x : Nat)
    (hh : F.succs[h]? = some [b, x]) (hb : F.succs[b]? = some [h])
    (hpre : F.preDom b h = false) (hpost : F.postDom b h = false)
    (ps : List (Nat × List Edge)) :
    exploreFrom F ⟨fn, h⟩ 0 ps
      = { alreadySeen := [(⟨fn, b⟩, 0), (⟨fn, h⟩, 0)]
          seenBBs := [b]
          queue := []
          mergeEdges := [(⟨fn, b⟩, 0)]
          bb_to_cond_paths := amUpdate [] (fun v => v ++ [(⟨fn, h⟩, 0)]) ps b } := by
  have gh : F.succs.getD h [] = [b, x] := getD_of_getElem? _ _ _ _ hh
  have gb : F.succs.getD b [] = [h] := getD_of_getElem? _ _ _ _ hb
  have hne : b ≠ h := by
    rintro rfl
    rw [hh] at hb
    simp at hb
  have hne' : h ≠ b := fun e => hne e.symm
  have h2 : bfsLoop F ⟨fn, h⟩ (⟨fn, h⟩, 0) 2
      { alreadySeen := [], seenBBs := [], queue := [(⟨fn, h⟩, 0)], mergeEdges := [],
        bb_to_cond_paths := ps }
      = { alreadySeen := [(⟨fn, b⟩, 0), (⟨fn, h⟩, 0)]
          seenBBs := [b]
          queue := []
          mergeEdges := [(⟨fn, b⟩, 0)]
          bb_to_cond_paths := amUpdate [] (fun v => v ++ [(⟨fn, h⟩, 0)]) ps b } := by
    simp [bfsLoop, bfsStep, is_merge_edge, dest_bb_of_edge, numSuccessors, hh, hb, hne, hne',
      hpre, hpost, List.range, List.range.loop]
  have hE : 2 ≤ numEdges F := by
    have := numSuccessors_le_numEdges F h
    unfold numSuccessors at this
    rw [gh] at this
    exact this
  have hfuel : bfsFuel F = 2 + (bfsFuel F - 2) := by
    have hmul : 2 * 1 ≤ numEdges F * (numEdges F + 1) :=
      Nat.mul_le_mul hE (Nat.succ_le_succ (Nat.zero_le (numEdges F)))
    have hge : 2 ≤ bfsFuel F := by
      unfold bfsFuel
      omega
    omega
  unfold exploreFrom
  rw [hfuel, bfsLoop_fuel_add F ⟨fn, h⟩ (⟨fn, h⟩, 0) 2 _ _ (by rw [h2]), h2]

theorem condEdge_kept (ce c : Edge) (B : Nat) (ps : List (Nat × List Edge)) (bb : Nat)
    (h : ∃ es, amFind ps B = some es ∧ c ∈ es) :
    ∃ es, amFind (amUpdate [] (fun v => v ++ [ce]) ps bb) B = some es ∧ c ∈ es := by
  obtain ⟨es, h1, h2⟩ := h
  by_cases hb : bb = B
  · subst hb
    refine ⟨es ++ [ce], ?_, List.mem_append_left _ h2⟩
    rw [amFind_amUpdate_self, h1]
    rfl
  · exact ⟨es, by rw [amFind_amUpdate_other _ _ _ _ _ hb]; exact h1, h2⟩

theorem exploreFrom_condEdge_kept (F : Function) (jump : Instr) (i : Nat) (c : Edge) (B : Nat)
    (ps : List (Nat × List Edge)) (h : ∃ es, amFind ps B = some es ∧ c ∈ es) :
    ∃ es, amFind (exploreFrom F jump i ps).bb_to_cond_paths B = some es ∧ c ∈ es := by
  unfold exploreFrom
  exact bfsLoop_paths_invariant F jump (jump, i)
    (fun ps => ∃ es, amFind ps B = some es ∧ c ∈ es)
    (fun ps bb hps => condEdge_kept (jump, i) c B ps bb hps) _ _ h

theorem loop_condPaths (F : Function) (fn h b x : Nat)
    (hh : F.succs[h]? = some [b, x]) (hb : F.succs[b]? = some [h])
    (hpre : F.preDom b h = false) (hpost : F.postDom b h = false) :
    ∀ (bs : List Nat) (acc : CondMergePass × List (Nat × List Edge)),
      ((∃ es, amFind acc.2 b = some es ∧ ((⟨fn, h⟩ : Instr), 0) ∈ es) ∨ h ∈ bs) →
      ∃ es, amFind (runBlocks F fn bs acc).2 b = some es ∧ ((⟨fn, h⟩ : Instr), 0) ∈ es := by
  have hdegh : numSuccessors F h = 2 := by
    simp [numSuccessors, hh]
  intro bs
  induction bs with
  | nil =>
    intro acc hacc
    rcases hacc with hacc | hacc
    · exact hacc
    · simp at hacc
  | cons b0 bs ih =>
    intro acc hacc
    rw [runBlocks]
    split_ifs with hdeg
    · apply ih
      rcases hacc with hacc | hacc
      · left
        exact findMergeEdges_paths F ⟨fn, b0⟩
          (fun ps => ∃ es, amFind ps b = some es ∧ ((⟨fn, h⟩ : Instr), 0) ∈ es)
          (fun i _ ps hps => exploreFrom_condEdge_kept F ⟨fn, b0⟩ i _ b ps hps) _ _ hacc
      · rcases List.mem_cons.mp hacc with rfl | hacc
        · left
          rw [findMergeEdges_snd]
          simp only [hdegh]
          have hr : List.range 2 = [0, 1] := by decide
          rw [hr, List.foldl_cons, List.foldl_cons, List.foldl_nil]
          apply exploreFrom_condEdge_kept
          rw [loop_explore F fn h b x hh hb hpre hpost]
          refine ⟨_, amFind_amUpdate_self _ _ _ _, ?_⟩
          simp
        · right
          exact hacc
    · apply ih
      rcases hacc with hacc | hacc
      · left
        exact hacc
      · rcases List.mem_cons.mp hacc with rfl | hacc
        · exact absurd (by rw [hdegh]; decide) hdeg
        · right
          exact hacc

/-- Claim C6 (scenario S2): in a `while` loop whose header (block `h`) ends in the two-way
branch `T` with successor 0 the body (block `b`) and successor 1 the exit, whose body ends
in an unconditional branch back to the header, and where the terminator of the body neither
dominates the header nor post-dominates `T`: the back-edge (from the terminator of the body,
successor 0) enters the block whose terminator is `T` itself (predicate 1), it is the merge
edge found when exploring from `(T, 0)`, its tuple is in element 0 of `MergeEdges(T)`, and
the tuple of `(T, 0)` is in the `CondPaths` list of the terminator of the body. -/
theorem C6_loop_back_edge (p : CondMergePass) (hp : PassInv p) (fn : Nat) (F : Function)
    (h b x : Nat) (hh : F.succs[h]? = some [b, x]) (hb : F.succs[b]? = some [h])
    (hpre : F.preDom b h = false) (hpost : F.postDom b h = false) :
    (⟨fn, dest_bb_of_edge F (⟨fn, b⟩, 0)⟩ : Instr) = ⟨fn, h⟩
      ∧ mergeEdgesFrom F ⟨fn, h⟩ 0 = [(⟨fn, b⟩, 0)]
      ∧ (∃ L, amFind (runOnFunction p fn F).mdMergeEdges ⟨fn, h⟩ = some L
          ∧ edgeMDOf (runOnFunction p fn F) (⟨fn, b⟩, 0) ∈ L.getD 0 [])
      ∧ (∃ L2, amFind (runOnFunction p fn F).mdCondPaths ⟨fn, b⟩ = some L2
          ∧ edgeMDOf (runOnFunction p fn F) (⟨fn, h⟩, 0) ∈ L2)
      ∧ (∃ idT idb, amFind (runOnFunction p fn F).mdJumpID ⟨fn, h⟩ = some idT
          ∧ amFind (runOnFunction p fn F).mdJumpID ⟨fn, b⟩ = some idb) := by
  have hdegh : numSuccessors F h = 2 := by
    simp [numSuccessors, hh]
  have hm : mergeEdgesFrom F ⟨fn, h⟩ 0 = [(⟨fn, b⟩, 0)] := by
    unfold mergeEdgesFrom
    rw [loop_explore F fn h b x hh hb hpre hpost]
  obtain ⟨s1, _, s3, _, s5, _⟩ := runOnFunction_spec p hp fn F
  obtain ⟨⟨idT, hT⟩, hL, hids⟩ := s3 h (by rw [hdegh]; decide)
  obtain ⟨idb, hidb⟩ := hids 0 (by rw [hdegh]; decide) (⟨fn, b⟩, 0) (by rw [hm]; simp)
  have hhlt : h < F.succs.length := numSuccessors_pos_lt F h (by rw [hdegh]; decide)
  obtain ⟨es, hes, hmem⟩ := loop_condPaths F fn h b x hh hb hpre hpost
    (List.range F.succs.length) (p, []) (Or.inr (List.mem_range.mpr hhlt))
  obtain ⟨c1, _⟩ := s5 (b, es) (mem_of_amFind _ _ _ hes)
  refine ⟨?_, hm, ⟨_, hL, ?_⟩, ⟨_, c1, List.mem_map_of_mem _ hmem⟩,
    ⟨idT, idb, mdJumpID_of_id s1 hT, mdJumpID_of_id s1 hidb⟩⟩
  · simp [dest_bb_of_edge, hb]
  · rw [getD_map_range _ _ _ _ (by rw [hdegh]; decide), hm]
    simp

/-- Witness for claim C6: the `while` loop with header 1 and body 2. -/
theorem C6_loop_back_edge_witness :
    (PassInv CondMergePass.init
        ∧ whileExample.succs[1]? = some [2, 3] ∧ whileExample.succs[2]? = some [1]
        ∧ whileExample.preDom 2 1 = false ∧ whileExample.postDom 2 1 = false)
      ∧ ((⟨0, dest_bb_of_edge whileExample (⟨0, 2⟩, 0)⟩ : Instr) = ⟨0, 1⟩
        ∧ mergeEdgesFrom whileExample ⟨0, 1⟩ 0 = [(⟨0, 2⟩, 0)]
        ∧ (∃ L, amFind (runOnFunction CondMergePass.init 0 whileExample).mdMergeEdges ⟨0, 1⟩
              = some L
            ∧ edgeMDOf (runOnFunction CondMergePass.init 0 whileExample) (⟨0, 2⟩, 0)
                ∈ L.getD 0 [])
        ∧ (∃ L2, amFind (runOnFunction CondMergePass.init 0 whileExample).mdCondPaths ⟨0, 2⟩
              = some L2
            ∧ edgeMDOf (runOnFunction CondMergePass.init 0 whileExample) (⟨0, 1⟩, 0) ∈ L2)
        ∧ (∃ idT idb,
            amFind (runOnFunction CondMergePass.init 0 whileExample).mdJumpID ⟨0, 1⟩ = some idT
              ∧ amFind (runOnFunction CondMergePass.init 0 whileExample).mdJumpID ⟨0, 2⟩
                  = some idb)) :=
  ⟨⟨PassInv_init, by decide, by decide, by decide, by decide⟩,
    C6_loop_back_edge CondMergePass.init PassInv_init 0 whileExample 1 2 3
      (by decide) (by decide) (by decide) (by decide)⟩

/-! ## Reads and writes of the taint map -/

theorem mem_setInsert_iff {T : Type} [DecidableEq T] (s : List T) (x y : T) :
    y ∈ setInsert s x ↔ y ∈ s ∨ y = x := by
  unfold setInsert
  split
  · constructor
    · exact Or.inl
    · rintro (h | rfl)
      · exact h
      · assumption
  · simp

theorem mem_extendWith_iff {T : Type} [DecidableEq T] (s : List T) (d : List T) (y : T) :
    y ∈ extendWith d s ↔ y ∈ d ∨ y ∈ s := by
  unfold extendWith
  induction s generalizing d with
  | nil => simp
  | cons x s ih =>
    simp only [List.foldl_cons, ih, mem_setInsert_iff, List.mem_cons]
    tauto

theorem insertTaint_aliasesOf (u : Bool) (m : AliasedTaintMap) (loc : Value) (t : SrcOrSink_t) :
    (insertTaint u m loc t).aliasesOf = m.aliasesOf := by
  unfold insertTaint; split <;> rfl

theorem mem_readTaint_insertTaint (u g : Bool) (m : AliasedTaintMap) (loc x : Value)
    (t y : SrcOrSink_t) :
    y ∈ readTaint g (insertTaint u m loc t) x
      ↔ y ∈ readTaint g m x ∨ (g = u ∧ x = loc ∧ y = t) := by
  by_cases hx : loc = x
  · subst hx
    cases u <;> cases g <;>
      simp [readTaint, insertTaint, amFind_amUpdate_self, mem_setInsert_iff]
  · have hx2 : ¬ x = loc := fun h => hx h.symm
    cases u <;> cases g <;>
      simp [readTaint, insertTaint, amFind_amUpdate_other _ _ _ _ _ hx, hx2]

theorem touchTaint_aliasesOf (u : Bool) (m : AliasedTaintMap) (loc : Value) :
    (touchTaint u m loc).aliasesOf = m.aliasesOf := by
  unfold touchTaint; split <;> rfl

theorem readTaint_touchTaint (u g : Bool) (m : AliasedTaintMap) (loc x : Value) :
    readTaint g (touchTaint u m loc) x = readTaint g m x := by
  by_cases hx : loc = x
  · subst hx
    cases u <;> cases g <;> simp [readTaint, touchTaint, amFind_amUpdate_self]
  · cases u <;> cases g <;>
      simp [readTaint, touchTaint, amFind_amUpdate_other _ _ _ _ _ hx]

theorem foldl_insertTaint_aliasesOf (u : Bool) (t : SrcOrSink_t) (l : List Value)
    (m : AliasedTaintMap) :
    (l.foldl (fun acc b => insertTaint u acc b t) m).aliasesOf = m.aliasesOf := by
  induction l generalizing m with
  | nil => rfl
  | cons b l ih => simp only [List.foldl_cons, ih, insertTaint_aliasesOf]

theorem mem_readTaint_foldl_insertTaint (u g : Bool) (t y : SrcOrSink_t) (l : List Value)
    (m : AliasedTaintMap) (x : Value) :
    y ∈ readTaint g (l.foldl (fun acc b => insertTaint u acc b t) m) x
      ↔ y ∈ readTaint g m x ∨ (g = u ∧ x ∈ l ∧ y = t) := by
  induction l generalizing m with
  | nil => simp
  | cons b l ih =>
    simp only [List.foldl_cons, ih, mem_readTaint_insertTaint, List.mem_cons]
    tauto

/-- What `addTaint` does, read back location by location: a token is found afterwards where
it was found before, and the added token is found in the table chosen by the routing rule at
every target location, unless the call left through the early return. -/
theorem mem_readTaint_addTaint (m : AliasedTaintMap) (loc : Value) (t y : SrcOrSink_t)
    (g : Bool) (x : Value) :
    y ∈ readTaint g (addTaint m loc t).2 x
      ↔ y ∈ readTaint g m x
        ∨ (dropsToken loc t = false ∧ g = usesGlobalTable loc t ∧ x ∈ taintTargets m loc
            ∧ y = t) := by
  unfold addTaint dropsToken usesGlobalTable taintTargets
  dsimp only
  by_cases hd : (isGlobalVariable (passThruGep loc) && decide (t.ixArg ≠ RETVAL_CODE)
      && decide (t.callsite = none)) = true
  · rw [if_pos hd]
    constructor
    · exact Or.inl
    · rintro (h | ⟨h1, _⟩)
      · exact h
      · exact absurd (hd.symm.trans h1) (by simp)
  · rw [if_neg hd]
    have hd2 : (isGlobalVariable (passThruGep loc) && decide (t.ixArg ≠ RETVAL_CODE)
      && decide (t.callsite = none)) = false := by simpa using hd
    cases hal : amFind m.aliasesOf (passThruGep loc) with
    | none =>
      simp only [mem_readTaint_insertTaint, hd2, List.mem_singleton, true_and]
    | some al =>
      simp only [mem_readTaint_foldl_insertTaint, hd2, true_and]

theorem addTaint_aliasesOf (m : AliasedTaintMap) (loc : Value) (t : SrcOrSink_t) :
    (addTaint m loc t).2.aliasesOf = m.aliasesOf := by
  unfold addTaint
  dsimp only
  split
  · rfl
  · split
    · exact insertTaint_aliasesOf _ _ _ _
    · exact foldl_insertTaint_aliasesOf _ _ _ _

theorem getTaint_fold_spec (g : Bool) (al : List Value) (acc : List SrcOrSink_t × AliasedTaintMap) :
    let r := al.foldl
      (fun acc baseLoc =>
        (extendWith acc.1 (readTaint g acc.2 baseLoc), touchTaint g acc.2 baseLoc)) acc
    r.2.aliasesOf = acc.2.aliasesOf
      ∧ (∀ u x, readTaint u r.2 x = readTaint u acc.2 x)
      ∧ ∀ y, y ∈ r.1 ↔ y ∈ acc.1 ∨ ∃ b ∈ al, y ∈ readTaint g acc.2 b := by
  induction al generalizing acc with
  | nil => simp
  | cons b al ih =>
    have h := ih (extendWith acc.1 (readTaint g acc.2 b), touchTaint g acc.2 b)
    simp only [List.foldl_cons]
    refine ⟨h.1.trans (touchTaint_aliasesOf _ _ _), fun u x => ?_, fun y => ?_⟩
    · rw [h.2.1, readTaint_touchTaint]
    · rw [h.2.2 y]
      simp only [mem_extendWith_iff, readTaint_touchTaint, List.mem_cons, exists_eq_or_imp]
      tauto

/-- What `getTaintAsSingleSet` returns: the tokens found at the target locations, in the
global table when the location behind the GEP is a global variable and in the base table
otherwise. -/
theorem mem_getTaint (m : AliasedTaintMap) (loc : Value) (y : SrcOrSink_t) :
    y ∈ (getTaintAsSingleSet m loc).1
      ↔ ∃ b ∈ taintTargets m loc, y ∈ readTaint (isGlobalVariable (passThruGep loc)) m b := by
  unfold getTaintAsSingleSet taintTargets
  dsimp only
  cases hal : amFind m.aliasesOf (passThruGep loc) with
  | none => simp
  | some al =>
    have h := (getTaint_fold_spec (isGlobalVariable (passThruGep loc)) al ([], m)).2.2 y
    simpa using h

theorem getTaint_aliasesOf (m : AliasedTaintMap) (loc : Value) :
    (getTaintAsSingleSet m loc).2.aliasesOf = m.aliasesOf := by
  unfold getTaintAsSingleSet
  dsimp only
  split
  · exact touchTaint_aliasesOf _ _ _
  · exact (getTaint_fold_spec _ _ ([], m)).1

theorem readTaint_getTaint (m : AliasedTaintMap) (loc : Value) (u : Bool) (x : Value) :
    readTaint u (getTaintAsSingleSet m loc).2 x = readTaint u m x := by
  unfold getTaintAsSingleSet
  dsimp only
  split
  · exact readTaint_touchTaint _ _ _ _ _
  · exact (getTaint_fold_spec _ _ ([], m)).2.1 u x

theorem taintTargets_congr (m m2 : AliasedTaintMap) (h : m2.aliasesOf = m.aliasesOf)
    (loc : Value) : taintTargets m2 loc = taintTargets m loc := by
  unfold taintTargets; rw [h]

/-! ## Alias bases (claim C11) -/

/-- Counterexample to claim C11 as stated: the phi `x` has the bases `g` (a global variable)
and `y` (another phi, with base `z`); after `add_taint(x, t)` the token is neither in
`get_taint(g)`, which reads the global table, nor in `get_taint(y)`, which reads the bases
of `y`. -/
theorem C11_global_and_phi_base_counterexample :
    amFind
        (addAlias (addAlias (addAlias
          { globalSrcTaintSet := [], baseTaintOf := [], aliasesOf := [] }
          (Value.other 2) (Value.other 3)) (Value.other 1) (Value.globalVar 5))
          (Value.other 1) (Value.other 2)).aliasesOf (Value.other 1)
        = some [Value.globalVar 5, Value.other 2]
      ∧ (⟨some 9, -1, some 7, 1, none, none⟩ : SrcOrSink_t) ∉
        (getTaintAsSingleSet
          (addTaint
            (addAlias (addAlias (addAlias
              { globalSrcTaintSet := [], baseTaintOf := [], aliasesOf := [] }
              (Value.other 2) (Value.other 3)) (Value.other 1) (Value.globalVar 5))
              (Value.other 1) (Value.other 2))
            (Value.other 1) ⟨some 9, -1, some 7, 1, none, none⟩).2
          (Value.globalVar 5)).1
      ∧ (⟨some 9, -1, some 7, 1, none, none⟩ : SrcOrSink_t) ∉
        (getTaintAsSingleSet
          (addTaint
            (addAlias (addAlias (addAlias
              { globalSrcTaintSet := [], baseTaintOf := [], aliasesOf := [] }
              (Value.other 2) (Value.other 3)) (Value.other 1) (Value.globalVar 5))
              (Value.other 1) (Value.other 2))
            (Value.other 1) ⟨some 9, -1, some 7, 1, none, none⟩).2
          (Value.other 2)).1 := by
  decide

/-- Claim C11 (amended): if `v`, which behind its GEP is not a global variable, has the
recorded alias bases `aliases`, then after `add_taint(v, t)` the token `t` is in
`get_taint(b)` for every base `b` in `aliases` that is an ordinary value: not a global
variable, not a GEP, and without an alias set of its own. -/
theorem C11_alias_bases_tainted (m : AliasedTaintMap) (v b : Value) (t : SrcOrSink_t)
    (aliases : List Value)
    (hal : amFind m.aliasesOf (passThruGep v) = some aliases)
    (hv : isGlobalVariable (passThruGep v) = false)
    (hb : b ∈ aliases)
    (hbg : isGlobalVariable b = false)
    (hbgep : passThruGep b = b)
    (hbal : amFind m.aliasesOf b = none) :
    t ∈ (getTaintAsSingleSet (addTaint m v t).2 b).1 := by
  rw [mem_getTaint]
  refine ⟨b, ?_, ?_⟩
  · simp [taintTargets, addTaint_aliasesOf, hbgep, hbal]
  · rw [hbgep, hbg, mem_readTaint_addTaint]
    right
    refine ⟨?_, ?_, ?_, rfl⟩
    · simp [dropsToken, usesGlobalTable, hv]
    · simp [usesGlobalTable, hv]
    · simp [taintTargets, hal, hb]

/-- Witness for claim C11: a phi over two local buffers. -/
theorem C11_alias_bases_tainted_witness :
    (⟨some 9, -1, some 7, 1, none, none⟩ : SrcOrSink_t) ∈
      (getTaintAsSingleSet
        (addTaint
          (addAlias (addAlias
            { globalSrcTaintSet := [], baseTaintOf := [], aliasesOf := [] }
            (Value.other 1) (Value.other 2)) (Value.other 1) (Value.other 3))
          (Value.other 1) ⟨some 9, -1, some 7, 1, none, none⟩).2
        (Value.other 3)).1 :=
  C11_alias_bases_tainted _ (Value.other 1) (Value.other 3) _ [Value.other 2, Value.other 3]
    (by decide) (by decide) (by decide) (by decide) (by decide) (by decide)

/-! ## The filename heuristic (claim C14) -/

theorem filenameChars_iff (s : List Int) :
    filenameChars s = true ↔ ∀ c ∈ s, (45 : Int) ≤ c := by
  induction s with
  | nil => simp [filenameChars]
  | cons c s ih =>
    unfold filenameChars
    by_cases h1 : (45 : Int) ≤ c
    · have h2 : ¬ c = 32 := by omega
      simp [h1, h2, ih]
    · have h3 : c ≤ 126 := by omega
      simp [h1, h3]

theorem looks_like_filename_iff (s : List Int) :
    looks_like_filename s = true ↔ (4 ≤ s.length ∧ s.length ≤ 99 ∧ ∀ c ∈ s, (45 : Int) ≤ c) := by
  unfold looks_like_filename
  dsimp only
  by_cases h : (3 : Int) < (s.length : Int) ∧ (s.length : Int) < 100
  · rw [if_neg (not_not.mpr h), filenameChars_iff]
    constructor
    · intro hc
      exact ⟨by omega, by omega, hc⟩
    · exact fun hc => hc.2.2
  · rw [if_pos h]
    constructor
    · intro hc
      exact absurd hc (by simp)
    · intro hc
      exact absurd ⟨by omega, by omega⟩ h

/-- Counterexample to claim C14 as stated: the seven characters of `a+b.txt` are all
printable and none is a space, yet `looks_like_filename` returns false, because `+` (43)
lies below `-` (45). -/
theorem C14_plus_sign_counterexample :
    ¬ (looks_like_filename [97, 43, 98, 46, 116, 120, 116] = true
        ↔ (4 ≤ [97, 43, 98, 46, 116, 120, 116].length
            ∧ [97, 43, 98, 46, 116, 120, 116].length ≤ 99
            ∧ ∀ c ∈ ([97, 43, 98, 46, 116, 120, 116] : List Int), (33 : Int) ≤ c ∧ c ≤ 126)) := by
  decide

/-- Claim C14 (amended): `looks_like_filename(s)` returns true when the length of `s` is
between 4 and 99 inclusive and every character lies in `-` .. `~` (codes 45 .. 126), and
whenever it returns true the length is between 4 and 99 and no character is below `-`
(code 45), so that a space or any other character below `-` makes it return false. -/
theorem C14_filename_bounds (s : List Int) :
    ((4 ≤ s.length ∧ s.length ≤ 99 ∧ ∀ c ∈ s, (45 : Int) ≤ c ∧ c ≤ 126)
        → looks_like_filename s = true)
      ∧ (looks_like_filename s = true
        → (4 ≤ s.length ∧ s.length ≤ 99 ∧ ∀ c ∈ s, (45 : Int) ≤ c ∧ c ≠ 32)) := by
  rw [looks_like_filename_iff]
  constructor
  · rintro ⟨h1, h2, h3⟩
    exact ⟨h1, h2, fun c hc => (h3 c hc).1⟩
  · rintro ⟨h1, h2, h3⟩
    exact ⟨h1, h2, fun c hc => ⟨h3 c hc, by have := h3 c hc; omega⟩⟩

/-! ## Loading the taint-copier summaries (claim C19) -/

theorem flowsOf_updFlow (p : TaintPass) (f : Nat) (key : SrcOrSink_t)
    (g : List SrcOrSink_t → List SrcOrSink_t) (f2 : Nat) (key2 : SrcOrSink_t) :
    flowsOf (updFlow p f key g) f2 key2
      = if f2 = f ∧ key2 = key then g (flowsOf p f key) else flowsOf p f2 key2 := by
  unfold flowsOf updFlow
  dsimp only
  by_cases hf : f = f2
  · subst hf
    rw [amFind_amUpdate_self]
    by_cases hk : key = key2
    · subst hk
      simp [amFind_amUpdate_self]
    · have hk2 : ¬ key2 = key := fun h => hk h.symm
      simp [amFind_amUpdate_other _ _ _ _ _ hk, hk2]
  · have hf2 : ¬ f2 = f := fun h => hf h.symm
    simp [amFind_amUpdate_other _ _ _ _ _ hf, hf2]

theorem getD_amFind_touch {K V : Type} [DecidableEq K] (d : V) (m : List (K × V)) (k k2 : K) :
    (amFind (amUpdate d (fun v => v) m k) k2).getD d = (amFind m k2).getD d := by
  by_cases h : k = k2
  · subst h
    rw [amFind_amUpdate_self]
    rfl
  · rw [amFind_amUpdate_other _ _ _ _ _ h]

theorem copierFlows_spec (F : Nat) (arg_sink : SrcOrSink_t) (names : List (List Char))
    (acc : List (List Char × Int) × TaintPass) :
    (∀ s, (amFind (copierFlows F arg_sink names acc).1 s).getD 0 = (amFind acc.1 s).getD 0)
      ∧ ∀ f key tok, tok ∈ flowsOf (copierFlows F arg_sink names acc).2 f key
          ↔ tok ∈ flowsOf acc.2 f key
            ∨ (f = F ∧ tok = arg_sink
                ∧ ∃ s ∈ names, key = sumToken F ((amFind acc.1 s).getD 0)) := by
  induction names generalizing acc with
  | nil => simp [copierFlows]
  | cons n names ih =>
    unfold copierFlows
    dsimp only
    have h := ih (amUpdate 0 (fun v => v) acc.1 n,
      updFlow acc.2 F (sumToken F ((amFind acc.1 n).getD 0)) (fun s => setInsert s arg_sink))
    refine ⟨fun s => ?_, fun f key tok => ?_⟩
    · rw [h.1 s]
      exact getD_amFind_touch _ _ _ _
    · rw [h.2 f key tok]
      dsimp only
      simp only [getD_amFind_touch, flowsOf_updFlow, List.mem_cons, exists_eq_or_imp]
      by_cases hc : f = F ∧ key = sumToken F ((amFind acc.1 n).getD 0)
      · rw [if_pos hc, mem_setInsert_iff]
        obtain ⟨hf, hk⟩ := hc
        subst hf
        rw [← hk]
        tauto
      · rw [if_neg hc]
        constructor
        · rintro (h1 | ⟨h1, h2, h3⟩)
          · exact Or.inl h1
          · exact Or.inr ⟨h1, h2, Or.inr h3⟩
        · rintro (h1 | ⟨h1, h2, h3 | h3⟩)
          · exact Or.inl h1
          · exact absurd ⟨h1, h3⟩ hc
          · exact Or.inr ⟨h1, h2, h3⟩

theorem copierArgs_spec (F : Nat) (val : ArgDecls) (idx : Int)
    (acc : List (List Char × Int) × TaintPass) :
    (∀ s, (amFind (copierArgs F val idx acc).1 s).getD 0 = (amFind acc.1 s).getD 0)
      ∧ ∀ f key tok, tok ∈ flowsOf (copierArgs F val idx acc).2 f key
          ↔ tok ∈ flowsOf acc.2 f key
            ∨ (f = F ∧ ∃ (i : Nat) (d : List Char × List (List Char)) (s : List Char),
                val[i]? = some d ∧ s ∈ d.2
                  ∧ key = sumToken F ((amFind acc.1 s).getD 0)
                  ∧ tok = sumToken F (idx + i)) := by
  induction val generalizing idx acc with
  | nil => simp [copierArgs]
  | cons p val ih =>
    unfold copierArgs
    have h := ih (idx + 1) (copierFlows F (sumToken F idx) p.2 acc)
    have hc := copierFlows_spec F (sumToken F idx) p.2 acc
    refine ⟨fun s => ?_, fun f key tok => ?_⟩
    · rw [h.1 s, hc.1 s]
    · rw [h.2 f key tok, hc.2 f key tok]
      simp only [hc.1]
      constructor
      · rintro ((h1 | ⟨h1, h2, s, hs, hk⟩) | ⟨h1, i, d, s, hi, hs, hk, ht⟩)
        · exact Or.inl h1
        · exact Or.inr ⟨h1, 0, p, s, by simp, hs, hk, by simpa using h2⟩
        · refine Or.inr ⟨h1, i + 1, d, s, by simpa using hi, hs, hk, ?_⟩
          rw [ht]
          push_cast
          ring_nf
      · rintro (h1 | ⟨h1, i, d, s, hi, hs, hk, ht⟩)
        · exact Or.inl (Or.inl h1)
        · cases i with
          | zero =>
            simp only [List.getElem?_cons_zero, Option.some.injEq] at hi
            subst hi
            exact Or.inl (Or.inr ⟨h1, by simpa using ht, s, hs, hk⟩)
          | succ i =>
            refine Or.inr ⟨h1, i, d, s, by simpa using hi, hs, hk, ?_⟩
            rw [ht]
            push_cast
            ring_nf

theorem copierFlows_fields (F : Nat) (arg_sink : SrcOrSink_t) (names : List (List Char))
    (acc : List (List Char × Int) × TaintPass) :
    (copierFlows F arg_sink names acc).2
      = { acc.2 with funcFlowsBySink := (copierFlows F arg_sink names acc).2.funcFlowsBySink } := by
  induction names generalizing acc with
  | nil => rfl
  | cons n names ih =>
    unfold copierFlows
    dsimp only
    rw [ih]
    simp [updFlow]

theorem copierArgs_fields (F : Nat) (val : ArgDecls) (idx : Int)
    (acc : List (List Char × Int) × TaintPass) :
    (copierArgs F val idx acc).2
      = { acc.2 with funcFlowsBySink := (copierArgs F val idx acc).2.funcFlowsBySink } := by
  induction val generalizing idx acc with
  | nil => rfl
  | cons p val ih =>
    unfold copierArgs
    rw [ih, copierFlows_fields]

/-- Counterexample to claim C19 as stated: for the line
`memcpy ( dst -> [ ], src -> [ dst ], n -> [ ] )` the declared argument `src` (index 1) lists
the name `dst` (index 0), but the token of `dst` is not stored under the key of `src`; the
loader stores the token of `src` under the key of `dst`. -/
theorem C19_reversed_flow_counterexample :
    parseCopierLine "memcpy ( dst -> [ ], src -> [ dst ], n -> [ ] )".toList
        = .entry "memcpy".toList
            [("dst".toList, ["dst".toList]), ("src".toList, ["src".toList, "dst".toList]),
              ("n".toList, ["n".toList])]
      ∧ resolveCopier copierExampleModule "memcpy".toList = some 0
      ∧ sumToken 0 0 ∉
          flowsOf
            (loadCopier copierExampleModule TaintPass.fresh "memcpy".toList
              [("dst".toList, ["dst".toList]), ("src".toList, ["src".toList, "dst".toList]),
                ("n".toList, ["n".toList])])
            0 (sumToken 0 1)
      ∧ sumToken 0 1 ∈
          flowsOf
            (loadCopier copierExampleModule TaintPass.fresh "memcpy".toList
              [("dst".toList, ["dst".toList]), ("src".toList, ["src".toList, "dst".toList]),
                ("n".toList, ["n".toList])])
            0 (sumToken 0 0) := by
  decide

/-- Claim C19 (amended): when the name of a taint-copiers line resolves to the function `F`,
the summary of `F` after loading holds, besides what it held before, exactly the flows from
each declared argument into the names of its vector: the token `(F, i, null)` of the `i`-th
declared argument is a member of the set stored under the key `(F, index(s), null)` for
every name `s` in the vector `parse_arg_string` returns with that argument, which is the
argument's own name followed by the names in its bracket list; `index` is the code's
`argidx_map`. -/
theorem C19_copier_flows (M : Module) (p : TaintPass) (libcfn : List Char) (val : ArgDecls)
    (F : Nat) (hres : resolveCopier M libcfn = some F) (key tok : SrcOrSink_t) :
    tok ∈ flowsOf (loadCopier M p libcfn val) F key
      ↔ tok ∈ flowsOf p F key
        ∨ ∃ (i : Nat) (d : List Char × List (List Char)) (s : List Char),
            val[i]? = some d ∧ s ∈ d.2
              ∧ key = sumToken F (argIndex val s) ∧ tok = sumToken F i := by
  unfold loadCopier
  rw [hres]
  dsimp only
  rw [(copierArgs_spec F val 0 _).2 F key tok]
  simp only [true_and, zero_add, argIndex]
  rfl

/-- Witness for claim C19: the `memcpy` line, where the token of `src` is found under the
key of `dst`. -/
theorem C19_copier_flows_witness :
    sumToken 0 1 ∈
      flowsOf
        (loadCopier copierExampleModule TaintPass.fresh "memcpy".toList
          [("dst".toList, ["dst".toList]), ("src".toList, ["src".toList, "dst".toList]),
            ("n".toList, ["n".toList])])
        0 (sumToken 0 0) :=
  (C19_copier_flows copierExampleModule TaintPass.fresh "memcpy".toList
    [("dst".toList, ["dst".toList]), ("src".toList, ["src".toList, "dst".toList]),
      ("n".toList, ["n".toList])] 0 (by decide) (sumToken 0 0) (sumToken 0 1)).mpr
    (Or.inr ⟨1, ("src".toList, ["src".toList, "dst".toList]), "dst".toList,
      by decide, by decide, by decide, by decide⟩)

theorem amFind_indexArgs_of_not_mem (val : ArgDecls) (idx : Int) (mp : List (List Char × Int))
    (s : List Char) (h : ∀ d ∈ val, d.1 ≠ s) :
    amFind (indexArgs val idx mp) s = amFind mp s := by
  induction val generalizing idx mp with
  | nil => rfl
  | cons p val ih =>
    unfold indexArgs
    rw [ih _ _ (fun d hd => h d (List.mem_cons_of_mem _ hd))]
    exact amFind_amSet_other _ _ _ _ (h p (List.mem_cons_self _ _))

theorem amFind_indexArgs_last (val : ArgDecls) (idx : Int) (mp : List (List Char × Int))
    (s : List Char) (i : Nat) (d : List Char × List (List Char))
    (hi : val[i]? = some d) (hd : d.1 = s)
    (hlast : ∀ j e, val[j]? = some e → e.1 = s → j ≤ i) :
    amFind (indexArgs val idx mp) s = some (idx + i) := by
  induction val generalizing idx mp i with
  | nil => simp at hi
  | cons p val ih =>
    unfold indexArgs
    cases i with
    | zero =>
      simp only [List.getElem?_cons_zero, Option.some.injEq] at hi
      subst hi
      rw [amFind_indexArgs_of_not_mem]
      · rw [← hd]
        simp [amFind_amSet_self]
      · intro e he hes
        obtain ⟨j, hj⟩ := List.getElem?_of_mem he
        have := hlast (j + 1) e (by simpa using hj) hes
        omega
    | succ i =>
      rw [ih (idx + 1) _ i (by simpa using hi)]
      · congr 1
        push_cast
        ring
      · intro j e hj hes
        have := hlast (j + 1) e (by simpa using hj) hes
        omega

/-- The index `argidx_map` holds for a declared name: its position in the line, the last
one if the name is declared more than once. -/
theorem argIndex_declared (val : ArgDecls) (i : Nat) (d : List Char × List (List Char))
    (hi : val[i]? = some d) (hlast : ∀ j e, val[j]? = some e → e.1 = d.1 → j ≤ i) :
    argIndex val d.1 = i := by
  unfold argIndex
  rw [amFind_indexArgs_last val 0 _ d.1 i d hi rfl hlast]
  simp

/-- The index `argidx_map` holds for `return` when the line does not declare that name. -/
theorem argIndex_return (val : ArgDecls) (h : ∀ d ∈ val, d.1 ≠ "return".toList) :
    argIndex val "return".toList = -1 := by
  unfold argIndex
  rw [amFind_indexArgs_of_not_mem val 0 _ _ h]
  rfl

/-- The index `argidx_map` yields for a name that the line does not declare. -/
theorem argIndex_undeclared (val : ArgDecls) (s : List Char) (h : ∀ d ∈ val, d.1 ≠ s)
    (hs : s ≠ "return".toList) : argIndex val s = 0 := by
  unfold argIndex
  rw [amFind_indexArgs_of_not_mem val 0 _ _ h]
  have hs2 : ¬ "return".toList = s := fun e => hs e.symm
  simp only [amFind, if_neg hs2]
  rfl

theorem splitFlow_append (fuel : Nat) (flow : List Char) (argv : List (List Char)) :
    ∃ listed, splitFlow fuel flow argv = argv ++ listed := by
  induction fuel generalizing flow argv with
  | zero => exact ⟨[flow], rfl⟩
  | succ n ih =>
    unfold splitFlow
    split
    · exact ⟨[flow], rfl⟩
    · rename_i pos _
      obtain ⟨l, hl⟩ := ih (flow.drop (pos + 3)) (argv ++ [substr flow 0 pos])
      exact ⟨substr flow 0 pos :: l, by rw [hl]; simp⟩

/-- The vector `parse_arg_string` returns starts with the argument's own name; the names of
the bracket list follow. -/
theorem parse_arg_string_shape (s : List Char) :
    parse_arg_string s = ([], [])
      ∨ ∃ listed, (parse_arg_string s).2 = (parse_arg_string s).1 :: listed := by
  unfold parse_arg_string
  split
  · exact Or.inl rfl
  · dsimp only
    split
    · exact Or.inl rfl
    · split
      · right
        obtain ⟨l, hl⟩ := splitFlow_append
          (substr (substr s (_ + 4) s.length) 2 ((substr s (_ + 4) s.length).length - 4)).length
          (substr (substr s (_ + 4) s.length) 2 ((substr s (_ + 4) s.length).length - 4))
          [substr s 0 _]
        exact ⟨l, by rw [hl]; rfl⟩
      · exact Or.inr ⟨[], rfl⟩

/-! ## Filename constants (claim C13) -/

theorem getString_nonempty (M : Module) (arg : Value)
    (h : getStringFromConstantExpr M arg ≠ []) : ∃ id g, arg = .gep id (.globalVar g) := by
  unfold getStringFromConstantExpr at h
  split at h
  · split at h
    · exact ⟨_, _, rfl⟩
    · exact absurd rfl h
  · exact absurd rfl h

theorem addTaint_auxToken_gep_global (m : AliasedTaintMap) (id g : Nat) (c : Value) :
    addTaint m (.gep id (.globalVar g)) (auxToken c) = (false, m) := by
  simp [addTaint, passThruGep, isGlobalVariable, auxToken, RETVAL_CODE]

/-- The filename loop of `analyzeInst` never changes anything: the only arguments that pass
its tests are constant GEP expressions over a global variable, and for those `addTaint`
leaves through its early return, the token having no call site and the argument number 0. -/
theorem promoteFilenames_eq (M : Module) (st : AnState) (args : List Value) :
    promoteFilenames M st args = st := by
  unfold promoteFilenames
  induction args generalizing st with
  | nil => rfl
  | cons a args ih =>
    rw [List.foldl_cons]
    have h : (if a ∈ M.constantExprs then
        if looks_like_filename (getStringFromConstantExpr M a) = true then
          { st with taintOfVal := (addTaint st.taintOfVal a (auxToken a)).2 }
        else st
      else st) = st := by
      split
      · split
        · rename_i hf
          have hne : getStringFromConstantExpr M a ≠ [] := by
            intro he
            rw [he] at hf
            exact absurd hf (by decide)
          obtain ⟨id, g, rfl⟩ := getString_nonempty M a hne
          rw [addTaint_auxToken_gep_global]
        · rfl
      · rfl
    rw [h]
    exact ih st

/-- Claim C13, the code at a failing input: `main` calls `fopen` with the constant GEP
expression over the global string `config.ini`, whose text passes the filename heuristic;
after `analyzeInst` has processed the call, `get_taint` of that argument does not contain
the aux token with category main and that constant. -/
theorem C13_filename_token_dropped :
    looks_like_filename
        (getStringFromConstantExpr filenameExampleModule (.gep 11 (.globalVar 5))) = true
      ∧ Value.gep 11 (.globalVar 5) ∈ filenameExampleModule.constantExprs
      ∧ auxToken (.gep 11 (.globalVar 5)) ∉
          (getTaintAsSingleSet
            (analyzeInst filenameExampleModule 1
              { pass := TaintPass.fresh,
                taintOfVal := { globalSrcTaintSet := [], baseTaintOf := [], aliasesOf := [] },
                gvarSet := [] }
              ⟨.other 10, .call true (some 0) [.gep 11 (.globalVar 5), .gep 12 (.globalVar 6)]⟩
            ).taintOfVal
            (.gep 11 (.globalVar 5))).1 := by
  decide

/-! ## Growth of the taint map -/

theorem length_le_setInsert {T : Type} [DecidableEq T] (s : List T) (x : T) :
    s.length ≤ (setInsert s x).length := by
  unfold setInsert
  split <;> simp

theorem nodup_setInsert {T : Type} [DecidableEq T] (s : List T) (x : T) (h : s.Nodup) :
    (setInsert s x).Nodup := by
  unfold setInsert
  split
  · exact h
  · rename_i hx
    exact List.Nodup.append h (List.nodup_singleton x) (by simpa using hx)

theorem length_le_extendWith {T : Type} [DecidableEq T] (d s : List T) :
    d.length ≤ (extendWith d s).length := by
  unfold extendWith
  induction s generalizing d with
  | nil => simp
  | cons x s ih => exact le_trans (length_le_setInsert d x) (ih _)

theorem nodup_extendWith {T : Type} [DecidableEq T] (d s : List T) (h : d.Nodup) :
    (extendWith d s).Nodup := by
  unfold extendWith
  induction s generalizing d with
  | nil => exact h
  | cons x s ih => exact ih _ (nodup_setInsert d x h)

theorem sum_length_amUpdate_le {K T : Type} [DecidableEq K] (f : List T → List T)
    (hf : ∀ v, v.length ≤ (f v).length) (m : List (K × List T)) (k : K) :
    (m.map (fun e => e.2.length)).sum ≤ ((amUpdate [] f m k).map (fun e => e.2.length)).sum := by
  induction m with
  | nil => simp [amUpdate]
  | cons e m ih =>
    obtain ⟨k2, v⟩ := e
    unfold amUpdate
    split
    · simp only [List.map_cons, List.sum_cons]
      exact Nat.add_le_add_right (hf v) _
    · simp only [List.map_cons, List.sum_cons]
      exact Nat.add_le_add_left ih _

theorem TaintGrows.tgRefl (m : AliasedTaintMap) : TaintGrows m m :=
  ⟨fun _ _ _ h => h, fun _ l h => ⟨l, h, fun _ hb => hb⟩, le_refl _⟩

theorem TaintGrows.tgTrans {m m2 m3 : AliasedTaintMap} (h1 : TaintGrows m m2)
    (h2 : TaintGrows m2 m3) : TaintGrows m m3 := by
  refine ⟨fun g x t h => h2.reads g x t (h1.reads g x t h), fun k l h => ?_,
    le_trans h1.size h2.size⟩
  obtain ⟨l2, hl2, hs2⟩ := h1.aliases k l h
  obtain ⟨l3, hl3, hs3⟩ := h2.aliases k l2 hl2
  exact ⟨l3, hl3, fun b hb => hs3 b (hs2 b hb)⟩

theorem SameReads.srRefl (m : AliasedTaintMap) : SameReads m m := ⟨rfl, fun _ _ => rfl⟩

theorem SameReads.srTrans {m m2 m3 : AliasedTaintMap} (h1 : SameReads m m2)
    (h2 : SameReads m2 m3) : SameReads m m3 :=
  ⟨h2.1.trans h1.1, fun g x => (h2.2 g x).trans (h1.2 g x)⟩

theorem calcSize_insertTaint (u : Bool) (m : AliasedTaintMap) (loc : Value) (t : SrcOrSink_t) :
    calcSize m ≤ calcSize (insertTaint u m loc t) := by
  unfold insertTaint calcSize
  split
  · exact le_refl _
  · exact Nat.add_le_add_right
      (sum_length_amUpdate_le _ (fun v => length_le_setInsert v t) _ _) _

theorem calcSize_touchTaint (u : Bool) (m : AliasedTaintMap) (loc : Value) :
    calcSize m ≤ calcSize (touchTaint u m loc) := by
  unfold touchTaint calcSize
  split
  · exact le_refl _
  · exact Nat.add_le_add_right (sum_length_amUpdate_le _ (fun v => le_refl _) _ _) _

theorem TaintGrows_of_aliasesOf_eq {m m2 : AliasedTaintMap} (ha : m2.aliasesOf = m.aliasesOf)
    (hr : ∀ g x t, t ∈ readTaint g m x → t ∈ readTaint g m2 x)
    (hs : calcSize m ≤ calcSize m2) : TaintGrows m m2 :=
  ⟨hr, fun k l h => ⟨l, by rw [ha]; exact h, fun _ hb => hb⟩, hs⟩

theorem insertTaint_grows (u : Bool) (m : AliasedTaintMap) (loc : Value) (t : SrcOrSink_t) :
    TaintGrows m (insertTaint u m loc t) :=
  TaintGrows_of_aliasesOf_eq (insertTaint_aliasesOf u m loc t)
    (fun g x y h => (mem_readTaint_insertTaint u g m loc x t y).mpr (Or.inl h))
    (calcSize_insertTaint u m loc t)

theorem foldl_insertTaint_grows (u : Bool) (t : SrcOrSink_t) (l : List Value)
    (m : AliasedTaintMap) :
    TaintGrows m (l.foldl (fun acc b => insertTaint u acc b t) m) := by
  induction l generalizing m with
  | nil => exact TaintGrows.tgRefl m
  | cons b l ih => exact (insertTaint_grows u m b t).tgTrans (ih _)

theorem addTaint_grows (m : AliasedTaintMap) (loc : Value) (t : SrcOrSink_t) :
    TaintGrows m (addTaint m loc t).2 := by
  unfold addTaint
  dsimp only
  split
  · exact TaintGrows.tgRefl m
  · split
    · exact insertTaint_grows _ _ _ _
    · exact foldl_insertTaint_grows _ _ _ _

theorem addTaintSet_fold_grows (loc : Value) (srcSet : List SrcOrSink_t)
    (acc : Bool × AliasedTaintMap) :
    TaintGrows acc.2
      (srcSet.foldl
        (fun acc src =>
          let r := addTaint acc.2 loc src
          (if r.1 then true else acc.1, r.2))
        acc).2 := by
  induction srcSet generalizing acc with
  | nil => exact TaintGrows.tgRefl _
  | cons s srcSet ih =>
    rw [List.foldl_cons]
    exact (addTaint_grows acc.2 loc s).tgTrans
      (ih (if (addTaint acc.2 loc s).1 then true else acc.1, (addTaint acc.2 loc s).2))

theorem addTaintSet_grows (m : AliasedTaintMap) (loc : Value) (srcSet : List SrcOrSink_t) :
    TaintGrows m (addTaintSet m loc srcSet).2 :=
  addTaintSet_fold_grows (passThruGep loc) srcSet (false, m)

theorem addTaintSet_fold_aliasesOf (loc : Value) (srcSet : List SrcOrSink_t)
    (acc : Bool × AliasedTaintMap) :
    (srcSet.foldl
        (fun acc src =>
          let r := addTaint acc.2 loc src
          (if r.1 then true else acc.1, r.2))
        acc).2.aliasesOf = acc.2.aliasesOf := by
  induction srcSet generalizing acc with
  | nil => rfl
  | cons s srcSet ih =>
    rw [List.foldl_cons, ih]
    exact addTaint_aliasesOf _ _ _

theorem addTaintSet_aliasesOf (m : AliasedTaintMap) (loc : Value) (srcSet : List SrcOrSink_t) :
    (addTaintSet m loc srcSet).2.aliasesOf = m.aliasesOf :=
  addTaintSet_fold_aliasesOf (passThruGep loc) srcSet (false, m)

theorem getTaint_sameReads (m : AliasedTaintMap) (loc : Value) :
    SameReads m (getTaintAsSingleSet m loc).2 :=
  ⟨getTaint_aliasesOf m loc, fun g x => readTaint_getTaint m loc g x⟩

theorem getTaint_fold_size (g : Bool) (al : List Value)
    (acc : List SrcOrSink_t × AliasedTaintMap) :
    calcSize acc.2 ≤ calcSize (al.foldl
      (fun acc baseLoc =>
        (extendWith acc.1 (readTaint g acc.2 baseLoc), touchTaint g acc.2 baseLoc)) acc).2 := by
  induction al generalizing acc with
  | nil => exact le_refl _
  | cons b al ih =>
    rw [List.foldl_cons]
    exact le_trans (calcSize_touchTaint g acc.2 b)
      (ih (extendWith acc.1 (readTaint g acc.2 b), touchTaint g acc.2 b))

theorem getTaint_grows (m : AliasedTaintMap) (loc : Value) :
    TaintGrows m (getTaintAsSingleSet m loc).2 := by
  refine TaintGrows_of_aliasesOf_eq (getTaint_aliasesOf m loc)
    (fun g x t h => by rw [readTaint_getTaint]; exact h) ?_
  unfold getTaintAsSingleSet
  dsimp only
  split
  · exact calcSize_touchTaint _ _ _
  · exact getTaint_fold_size _ _ ([], m)

theorem getTaint_fold_fst (g : Bool) (m : AliasedTaintMap) (al : List Value)
    (acc : List SrcOrSink_t × AliasedTaintMap) (h : ∀ x, readTaint g acc.2 x = readTaint g m x) :
    (al.foldl
      (fun acc baseLoc =>
        (extendWith acc.1 (readTaint g acc.2 baseLoc), touchTaint g acc.2 baseLoc)) acc).1
      = al.foldl (fun s b => extendWith s (readTaint g m b)) acc.1 := by
  induction al generalizing acc with
  | nil => rfl
  | cons b al ih =>
    rw [List.foldl_cons, List.foldl_cons, ih]
    · rw [h b]
    · intro x
      rw [readTaint_touchTaint]
      exact h x

/-- Maps that answer every lookup alike return the same set from `getTaintAsSingleSet`. -/
theorem getTaint_fst_congr {m m2 : AliasedTaintMap} (h : SameReads m m2) (loc : Value) :
    (getTaintAsSingleSet m2 loc).1 = (getTaintAsSingleSet m loc).1 := by
  unfold getTaintAsSingleSet
  dsimp only
  rw [h.1]
  cases amFind m.aliasesOf (passThruGep loc) with
  | none => exact h.2 _ _
  | some al =>
    dsimp only
    rw [getTaint_fold_fst _ m al ([], m2) (fun x => h.2 _ x),
      getTaint_fold_fst _ m al ([], m) (fun x => rfl)]

theorem calcSize_addAlias (m : AliasedTaintMap) (a b : Value) :
    calcSize m ≤ calcSize (addAlias m a b) := by
  unfold addAlias calcSize
  exact Nat.add_le_add_left
    (sum_length_amUpdate_le _ (fun v => length_le_setInsert v _) _ _) _

theorem addAlias_grows (m : AliasedTaintMap) (a b : Value) : TaintGrows m (addAlias m a b) := by
  refine ⟨fun g x t h => ?_, fun k l h => ?_, calcSize_addAlias m a b⟩
  · cases g <;> exact h
  · unfold addAlias
    dsimp only
    by_cases hk : passThruGep a = k
    · subst hk
      rw [amFind_amUpdate_self, h]
      exact ⟨_, rfl, fun x hx => mem_setInsert_of_mem _ _ _ hx⟩
    · rw [amFind_amUpdate_other _ _ _ _ _ hk]
      exact ⟨l, h, fun _ hb => hb⟩

/-! ## What the transfer functions keep of the pass object -/

theorem PassKeeps.pkRefl (p : TaintPass) : PassKeeps p p :=
  ⟨rfl, rfl, rfl, rfl, rfl, rfl, fun _ => rfl, fun _ => rfl, fun _ => rfl, fun _ => rfl,
    fun _ _ h => h, fun _ _ h => h, fun _ _ h => h⟩

theorem PassKeeps.pkTrans {p q r : TaintPass} (h1 : PassKeeps p q) (h2 : PassKeeps q r) :
    PassKeeps p r :=
  ⟨h2.wrappers.trans h1.wrappers, h2.copiers.trans h1.copiers, h2.known.trans h1.known,
    h2.callers.trans h1.callers, h2.worklist.trans h1.worklist, h2.global.trans h1.global,
    fun f => (h2.srcCats f).trans (h1.srcCats f),
    fun f => (h2.sinkCats f).trans (h1.sinkCats f),
    fun f => (h2.retCats f).trans (h1.retCats f),
    fun f => (h2.summaryPart f).trans (h1.summaryPart f),
    fun f k h => h2.entries f k (h1.entries f k h),
    fun t a h => h2.scrinks t a (h1.scrinks t a h),
    fun a t h => h2.heap a t (h1.heap a t h)⟩

theorem AnGrows.anRefl (st : AnState) : AnGrows st st :=
  ⟨PassKeeps.pkRefl _, TaintGrows.tgRefl _, fun _ h => h⟩

theorem AnGrows.anTrans {a b c : AnState} (h1 : AnGrows a b) (h2 : AnGrows b c) : AnGrows a c :=
  ⟨h1.pass.pkTrans h2.pass, h1.taint.tgTrans h2.taint, fun g h => h2.gvars g (h1.gvars g h)⟩

theorem foldl_AnGrows {α : Type} (f : AnState → α → AnState)
    (hf : ∀ st x, AnGrows st (f st x)) (l : List α) (st : AnState) :
    AnGrows st (l.foldl f st) := by
  induction l generalizing st with
  | nil => exact AnGrows.anRefl st
  | cons x l ih => exact (hf st x).anTrans (ih _)

theorem filter_amUpdate_of_not {K V : Type} [DecidableEq K] (q : K × V → Bool) (d : V)
    (f : V → V) (m : List (K × V)) (k : K) (hq : ∀ v, q (k, v) = false) :
    (amUpdate d f m k).filter q = m.filter q := by
  induction m with
  | nil => simp [amUpdate, hq]
  | cons e m ih =>
    obtain ⟨k2, v⟩ := e
    unfold amUpdate
    split
    · rename_i h
      subst h
      simp [List.filter_cons, hq]
    · simp [List.filter_cons, ih]

theorem isSome_amFind_amUpdate {K V : Type} [DecidableEq K] (d : V) (f : V → V)
    (m : List (K × V)) (k k2 : K) (h : (amFind m k2).isSome) :
    (amFind (amUpdate d f m k) k2).isSome := by
  by_cases hk : k = k2
  · subst hk
    rw [amFind_amUpdate_self]
    rfl
  · rw [amFind_amUpdate_other _ _ _ _ _ hk]
    exact h

theorem summaryOf_updFlow (p : TaintPass) (f : Nat) (key : SrcOrSink_t)
    (g : List SrcOrSink_t → List SrcOrSink_t) (f2 : Nat) :
    summaryOf (updFlow p f key g) f2
      = if f2 = f then amUpdate [] g (summaryOf p f) key else summaryOf p f2 := by
  unfold summaryOf updFlow
  dsimp only
  by_cases hf : f = f2
  · subst hf
    rw [amFind_amUpdate_self]
    simp
  · have hf2 : ¬ f2 = f := fun h => hf h.symm
    rw [amFind_amUpdate_other _ _ _ _ _ hf, if_neg hf2]

/-- Writing a summary entry under a key with a call site keeps the pass object as
`PassKeeps` says. -/
theorem updFlow_keeps (p : TaintPass) (f : Nat) (key : SrcOrSink_t)
    (g : List SrcOrSink_t → List SrcOrSink_t) (hk : key.callsite ≠ none) :
    PassKeeps p (updFlow p f key g) := by
  refine ⟨rfl, rfl, rfl, rfl, rfl, rfl, fun _ => rfl, fun _ => rfl, fun _ => rfl, fun f2 => ?_,
    fun f2 k h => ?_, fun _ _ h => h, fun _ _ h => h⟩
  · rw [summaryOf_updFlow]
    split
    · rename_i h
      subst h
      unfold summarySinkPart
      exact filter_amUpdate_of_not _ _ _ _ _ (fun v => by simpa using hk)
    · rfl
  · rw [summaryOf_updFlow]
    split
    · rename_i h2
      subst h2
      exact isSome_amFind_amUpdate _ _ _ _ _ h
    · exact h

theorem storeScrink_keeps (p : TaintPass) (tok : SrcOrSink_t) :
    PassKeeps p (storeScrink p tok).2 := by
  unfold storeScrink
  split
  · exact PassKeeps.pkRefl p
  · rename_i hnone
    refine ⟨rfl, rfl, rfl, rfl, rfl, rfl, fun _ => rfl, fun _ => rfl, fun _ => rfl, fun _ => rfl,
      fun _ _ h => h, fun t a h => ?_, fun a t h => ?_⟩
    · dsimp only
      have hne : tok ≠ t := by
        intro e
        subst e
        rw [hnone] at h
        exact Option.noConfusion h
      rw [amFind_amSet_other _ _ _ _ hne]
      exact h
    · dsimp only
      have hlt : a < p.scrinkHeap.length := by
        by_contra hc
        rw [List.getElem?_eq_none (Nat.le_of_not_lt hc)] at h
        exact Option.noConfusion h
      rw [List.getElem?_append_left hlt]
      exact h

theorem storeScrink_find (p : TaintPass) (tok : SrcOrSink_t) :
    amFind (storeScrink p tok).2.scrinksInUse tok = some (storeScrink p tok).1 := by
  unfold storeScrink
  split
  · assumption
  · exact amFind_amSet_self _ _ _

theorem storeScrink_inv (p : TaintPass) (tok : SrcOrSink_t) (h : ScrinkInv p) :
    ScrinkInv (storeScrink p tok).2 := by
  unfold storeScrink
  split
  · exact h
  · rename_i hnone
    intro t a ha
    dsimp only at ha ⊢
    by_cases hne : tok = t
    · subst hne
      rw [amFind_amSet_self] at ha
      cases ha
      simp
    · rw [amFind_amSet_other _ _ _ _ hne] at ha
      have h1 := h t a ha
      have hlt : a < p.scrinkHeap.length := by
        by_contra hc
        rw [List.getElem?_eq_none (Nat.le_of_not_lt hc)] at h1
        exact Option.noConfusion h1
      rw [List.getElem?_append_left hlt]
      exact h1

theorem wrapIfWrapper_keeps (p : TaintPass) (callee : Nat) (callsite : Value)
    (tok : SrcOrSink_t) : PassKeeps p (wrapIfWrapper p callee callsite tok).2 := by
  unfold wrapIfWrapper
  split
  · exact storeScrink_keeps p tok
  · exact PassKeeps.pkRefl p

theorem wrapIfWrapper_inv (p : TaintPass) (callee : Nat) (callsite : Value)
    (tok : SrcOrSink_t) (h : ScrinkInv p) :
    ScrinkInv (wrapIfWrapper p callee callsite tok).2 := by
  unfold wrapIfWrapper
  split
  · exact storeScrink_inv p tok h
  · exact h

theorem updFlow_inv (p : TaintPass) (f : Nat) (key : SrcOrSink_t)
    (g : List SrcOrSink_t → List SrcOrSink_t) (h : ScrinkInv p) :
    ScrinkInv (updFlow p f key g) := h

/-! ## `plugInSummary`: what it keeps -/

theorem AnGrows.of_parts (st : AnState) (p : TaintPass) (m : AliasedTaintMap)
    (hp : PassKeeps st.pass p) (hm : TaintGrows st.taintOfVal m) :
    AnGrows st { st with pass := p, taintOfVal := m } :=
  ⟨hp, hm, fun _ h => h⟩

theorem wrapIfWrapper_callsite (p : TaintPass) (callee : Nat) (callsite : Value)
    (tok : SrcOrSink_t) (h : tok.callsite ≠ none) :
    (wrapIfWrapper p callee callsite tok).1.callsite ≠ none := by
  unfold wrapIfWrapper
  split
  · simp [wrapToken]
  · exact h

theorem plugSource_grows (caller : Nat) (callsite : Value) (callee : Nat) (args : List Value)
    (sumSink : SrcOrSink_t) (dest : TaintDest)
    (hdest : ∀ key, dest = .flow key → key.callsite ≠ none) (st : AnState)
    (sumSrc : SrcOrSink_t) :
    AnGrows st (plugSource caller callsite callee args sumSink dest st sumSrc) := by
  unfold plugSource
  split
  · split
    · exact AnGrows.anRefl st
    · cases dest with
      | flow key =>
        exact AnGrows.of_parts st _ _
          ((wrapIfWrapper_keeps _ _ _ _).pkTrans (updFlow_keeps _ _ _ _ (hdest key rfl)))
          (TaintGrows.tgRefl _)
      | value v =>
        exact AnGrows.of_parts st _ _ (wrapIfWrapper_keeps _ _ _ _) (addTaint_grows _ _ _)
  · split
    · exact AnGrows.anRefl st
    · cases dest with
      | flow key =>
        exact AnGrows.of_parts st _ _ (updFlow_keeps _ _ _ _ (hdest key rfl))
          (getTaint_grows _ _)
      | value v =>
        exact AnGrows.of_parts st _ _ (PassKeeps.pkRefl _)
          ((getTaint_grows _ _).tgTrans (addTaintSet_grows _ _ _))

theorem plugEntry_grows (caller : Nat) (callsite : Value) (callee : Nat) (args : List Value)
    (st : AnState) (e : SrcOrSink_t × List SrcOrSink_t) :
    AnGrows st (plugEntry caller callsite callee args st e) := by
  unfold plugEntry
  split
  · split
    · exact AnGrows.anRefl st
    · exact foldl_AnGrows _
        (fun s x => plugSource_grows _ _ _ _ _ _ (fun _ h => TaintDest.noConfusion h) s x) _ _
  · rename_i hcs
    have hk := wrapIfWrapper_callsite st.pass callee callsite e.1 hcs
    refine AnGrows.anTrans ?_
      (foldl_AnGrows _ (fun s x => plugSource_grows _ _ _ _ _ _ (fun key h => ?_) s x) _ _)
    · exact AnGrows.of_parts st _ st.taintOfVal
        ((wrapIfWrapper_keeps _ _ _ _).pkTrans (updFlow_keeps _ _ _ _ hk)) (TaintGrows.tgRefl _)
    · cases h
      exact hk

theorem touchSummary_keeps (p : TaintPass) (f : Nat) :
    PassKeeps p
      { p with funcFlowsBySink := amUpdate [] (fun summ => summ) p.funcFlowsBySink f } := by
  have hs : ∀ f2, summaryOf
      { p with funcFlowsBySink := amUpdate [] (fun summ => summ) p.funcFlowsBySink f } f2
      = summaryOf p f2 := fun f2 => getD_amFind_touch _ _ _ _
  exact ⟨rfl, rfl, rfl, rfl, rfl, rfl, fun _ => rfl, fun _ => rfl, fun _ => rfl,
    fun f2 => by rw [hs], fun f2 k h => by rw [hs]; exact h, fun _ _ h => h, fun _ _ h => h⟩

theorem plugInSummary_grows (caller : Nat) (callsite : Value) (callee : Nat)
    (args : List Value) (st : AnState) :
    AnGrows st (plugInSummary caller callsite callee args st) := by
  unfold plugInSummary
  dsimp only
  refine AnGrows.anTrans ?_ (foldl_AnGrows _ (fun s e => plugEntry_grows _ _ _ _ s e) _ _)
  exact ⟨touchSummary_keeps _ _, TaintGrows.tgRefl _, fun _ h => h⟩

/-- A property of the state that every step of a fold keeps holds at its end. -/
theorem foldl_keeps {σ α : Type} (P : σ → Prop) (f : σ → α → σ)
    (hf : ∀ s x, P s → P (f s x)) (l : List α) (s : σ) (h : P s) : P (l.foldl f s) := by
  induction l generalizing s with
  | nil => exact h
  | cons x l ih => exact ih _ (hf s x h)

theorem plugSource_aliasesOf (caller : Nat) (callsite : Value) (callee : Nat)
    (args : List Value) (sumSink : SrcOrSink_t) (dest : TaintDest) (st : AnState)
    (sumSrc : SrcOrSink_t) :
    (plugSource caller callsite callee args sumSink dest st sumSrc).taintOfVal.aliasesOf
      = st.taintOfVal.aliasesOf := by
  unfold plugSource
  split
  · split
    · rfl
    · cases dest with
      | flow key => rfl
      | value v => exact addTaint_aliasesOf _ _ _
  · split
    · rfl
    · cases dest with
      | flow key => exact getTaint_aliasesOf _ _
      | value v => exact (addTaintSet_aliasesOf _ _ _).trans (getTaint_aliasesOf _ _)

theorem plugEntry_aliasesOf (caller : Nat) (callsite : Value) (callee : Nat)
    (args : List Value) (st : AnState) (e : SrcOrSink_t × List SrcOrSink_t) :
    (plugEntry caller callsite callee args st e).taintOfVal.aliasesOf
      = st.taintOfVal.aliasesOf := by
  unfold plugEntry
  split
  · split
    · rfl
    · refine foldl_keeps (fun s => s.taintOfVal.aliasesOf = st.taintOfVal.aliasesOf) _
        (fun s x h => (plugSource_aliasesOf _ _ _ _ _ _ s x).trans h) _ _ ?_
      rfl
  · dsimp only
    refine foldl_keeps (fun s => s.taintOfVal.aliasesOf = st.taintOfVal.aliasesOf) _
      (fun s x h => (plugSource_aliasesOf _ _ _ _ _ _ s x).trans h) _ _ ?_
    rfl

theorem plugInSummary_aliasesOf (caller : Nat) (callsite : Value) (callee : Nat)
    (args : List Value) (st : AnState) :
    (plugInSummary caller callsite callee args st).taintOfVal.aliasesOf
      = st.taintOfVal.aliasesOf := by
  unfold plugInSummary
  dsimp only
  refine foldl_keeps (fun s => s.taintOfVal.aliasesOf = st.taintOfVal.aliasesOf) _
    (fun s x h => (plugEntry_aliasesOf _ _ _ _ s x).trans h) _ _ ?_
  rfl

theorem plugSource_inv (caller : Nat) (callsite : Value) (callee : Nat) (args : List Value)
    (sumSink : SrcOrSink_t) (dest : TaintDest) (st : AnState) (sumSrc : SrcOrSink_t)
    (h : ScrinkInv st.pass) :
    ScrinkInv (plugSource caller callsite callee args sumSink dest st sumSrc).pass := by
  unfold plugSource
  split
  · split
    · exact h
    · cases dest with
      | flow key => exact wrapIfWrapper_inv _ _ _ _ h
      | value v => exact wrapIfWrapper_inv _ _ _ _ h
  · split
    · exact h
    · cases dest with
      | flow key => exact h
      | value v => exact h

theorem plugEntry_inv (caller : Nat) (callsite : Value) (callee : Nat) (args : List Value)
    (st : AnState) (e : SrcOrSink_t × List SrcOrSink_t) (h : ScrinkInv st.pass) :
    ScrinkInv (plugEntry caller callsite callee args st e).pass := by
  unfold plugEntry
  split
  · split
    · exact h
    · exact foldl_keeps (fun s => ScrinkInv s.pass) _
        (fun s x hs => plugSource_inv _ _ _ _ _ _ s x hs) _ _ h
  · dsimp only
    refine foldl_keeps (fun s => ScrinkInv s.pass) _
      (fun s x hs => plugSource_inv _ _ _ _ _ _ s x hs) _ _ ?_
    exact wrapIfWrapper_inv _ _ _ _ h

theorem plugInSummary_inv (caller : Nat) (callsite : Value) (callee : Nat)
    (args : List Value) (st : AnState) (h : ScrinkInv st.pass) :
    ScrinkInv (plugInSummary caller callsite callee args st).pass := by
  unfold plugInSummary
  dsimp only
  refine foldl_keeps (fun s => ScrinkInv s.pass) _
    (fun s x hs => plugEntry_inv _ _ _ _ s x hs) _ _ ?_
  exact h

/-! ## Wrapper call sites (claim C18) -/

theorem storeScrink_of_find (p : TaintPass) (tok : SrcOrSink_t) (a : Nat)
    (h : amFind p.scrinksInUse tok = some a) : (storeScrink p tok).1 = a := by
  unfold storeScrink
  rw [h]

theorem foldl_storeScrink_keeps (toks : List SrcOrSink_t) (p : TaintPass) :
    PassKeeps p (toks.foldl (fun q t => (storeScrink q t).2) p) := by
  induction toks generalizing p with
  | nil => exact PassKeeps.pkRefl p
  | cons t toks ih => exact (storeScrink_keeps p t).pkTrans (ih _)

theorem plugEntry_wrapper_entry (caller : Nat) (callsite : Value) (callee : Nat)
    (args : List Value) (st : AnState) (e : SrcOrSink_t × List SrcOrSink_t)
    (hw : callee ∈ st.pass.wrapperFuncs) (hk : e.1.callsite ≠ none) (hinv : ScrinkInv st.pass) :
    ∃ a : Nat,
      amFind (plugEntry caller callsite callee args st e).pass.scrinksInUse e.1 = some a
        ∧ (plugEntry caller callsite callee args st e).pass.scrinkHeap[a]? = some e.1
        ∧ (amFind (summaryOf (plugEntry caller callsite callee args st e).pass caller)
            (wrapToken callee callsite e.1 a)).isSome := by
  have hr : wrapIfWrapper st.pass callee callsite e.1
      = (wrapToken callee callsite e.1 (storeScrink st.pass e.1).1, (storeScrink st.pass e.1).2) := by
    unfold wrapIfWrapper
    rw [if_pos hw]
  have hg : AnGrows
      { st with pass := (updFlow (storeScrink st.pass e.1).2 caller
          (wrapToken callee callsite e.1 (storeScrink st.pass e.1).1) (fun s => s)) }
      (plugEntry caller callsite callee args st e) := by
    unfold plugEntry
    rw [if_neg hk]
    dsimp only
    rw [hr]
    exact foldl_AnGrows _
      (fun s x => plugSource_grows _ _ _ _ _ _
        (fun key h => by cases h; simp [wrapToken]) s x) _ _
  refine ⟨(storeScrink st.pass e.1).1, ?_, ?_, ?_⟩
  · exact hg.pass.scrinks _ _ (storeScrink_find st.pass e.1)
  · exact hg.pass.heap _ _ (storeScrink_inv st.pass e.1 hinv _ _ (storeScrink_find st.pass e.1))
  · refine hg.pass.entries _ _ ?_
    rw [summaryOf_updFlow, if_pos rfl, amFind_amUpdate_self]
    rfl

/-- Claim C18: when `plugInSummary` processes a call site `C` of a wrapper `W`, then for
every concrete sink `k` (call site not null) of the summary of `W` the token `k` is interned
afterwards at an address `a` that holds a copy of `k`, the caller's summary has an entry
under the sink with function `W`, call site `C`, the category of `k` and `wrapped = a`, and
every later wrap of a token equal to `k` gets the same address `a`, whatever tokens are
interned in between. -/
theorem C18_wrapper_rewrap (caller : Nat) (C : Value) (W : Nat) (args : List Value)
    (st : AnState) (k : SrcOrSink_t) (S : List SrcOrSink_t)
    (hw : W ∈ st.pass.wrapperFuncs) (hentry : (k, S) ∈ summaryOf st.pass W)
    (hk : k.callsite ≠ none) (hinv : ScrinkInv st.pass) :
    ∃ a : Nat,
      amFind (plugInSummary caller C W args st).pass.scrinksInUse k = some a
        ∧ (plugInSummary caller C W args st).pass.scrinkHeap[a]? = some k
        ∧ (amFind (summaryOf (plugInSummary caller C W args st).pass caller)
            ⟨some W, 0, some C.ident, k.auxType, some a, none⟩).isSome
        ∧ ∀ toks : List SrcOrSink_t,
            (storeScrink
              (toks.foldl (fun q t => (storeScrink q t).2) (plugInSummary caller C W args st).pass)
              k).1 = a := by
  unfold plugInSummary
  dsimp only
  have hl : (k, S) ∈ (amFind (amUpdate [] (fun summ => summ) st.pass.funcFlowsBySink W) W).getD [] := by
    rw [getD_amFind_touch]
    exact hentry
  obtain ⟨l1, l2, hsplit⟩ := List.append_of_mem hl
  rw [hsplit, List.foldl_append, List.foldl_cons]
  generalize hs1 : List.foldl (plugEntry caller C W args)
    ({ st with pass := { st.pass with
        funcFlowsBySink := amUpdate [] (fun summ => summ) st.pass.funcFlowsBySink W } } : AnState)
    l1 = s1
  have hg1 : AnGrows
      ({ st with pass := { st.pass with
        funcFlowsBySink := amUpdate [] (fun summ => summ) st.pass.funcFlowsBySink W } } : AnState)
      s1 := by
    rw [← hs1]
    exact foldl_AnGrows _ (fun s e => plugEntry_grows _ _ _ _ s e) _ _
  have hinv1 : ScrinkInv s1.pass := by
    rw [← hs1]
    refine foldl_keeps (fun s => ScrinkInv s.pass) _
      (fun s x hs => plugEntry_inv _ _ _ _ s x hs) _ _ ?_
    exact hinv
  have hw1 : W ∈ s1.pass.wrapperFuncs := by
    rw [hg1.pass.wrappers]
    exact hw
  obtain ⟨a, ha1, ha2, ha3⟩ :=
    plugEntry_wrapper_entry caller C W args s1 (k, S) hw1 hk hinv1
  have hg2 : AnGrows (plugEntry caller C W args s1 (k, S))
      (List.foldl (plugEntry caller C W args) (plugEntry caller C W args s1 (k, S)) l2) :=
    foldl_AnGrows _ (fun s e => plugEntry_grows _ _ _ _ s e) _ _
  refine ⟨a, hg2.pass.scrinks _ _ ha1, hg2.pass.heap _ _ ha2, hg2.pass.entries _ _ ha3,
    fun toks => ?_⟩
  exact storeScrink_of_find _ _ _
    ((foldl_storeScrink_keeps toks _).scrinks _ _ (hg2.pass.scrinks _ _ ha1))

/-- Witness for claim C18: a call (value 20) in function 0 of the wrapper 1 with one
argument. -/
theorem C18_wrapper_rewrap_witness :
    ∃ a : Nat,
      amFind (plugInSummary 0 (.other 20) 1 [.other 21] wrapperExampleState).pass.scrinksInUse
          ⟨some 5, 0, some 7, 1, none, none⟩ = some a
        ∧ (plugInSummary 0 (.other 20) 1 [.other 21] wrapperExampleState).pass.scrinkHeap[a]?
            = some ⟨some 5, 0, some 7, 1, none, none⟩
        ∧ (amFind (summaryOf (plugInSummary 0 (.other 20) 1 [.other 21] wrapperExampleState).pass 0)
            ⟨some 1, 0, some (Value.other 20).ident,
              (⟨some 5, 0, some 7, 1, none, none⟩ : SrcOrSink_t).auxType, some a, none⟩).isSome
        ∧ ∀ toks : List SrcOrSink_t,
            (storeScrink
              (toks.foldl (fun q t => (storeScrink q t).2)
                (plugInSummary 0 (.other 20) 1 [.other 21] wrapperExampleState).pass)
              ⟨some 5, 0, some 7, 1, none, none⟩).1 = a :=
  C18_wrapper_rewrap 0 (.other 20) 1 [.other 21] wrapperExampleState
    ⟨some 5, 0, some 7, 1, none, none⟩ [sumToken 1 0] (by decide) (by decide) (by decide)
    (fun _ _ h => Option.noConfusion h)

/-! ## Summary plug-in of parameter-to-result flows (claim C17) -/

theorem mem_getTaint_mono {m m2 : AliasedTaintMap} (ha : m2.aliasesOf = m.aliasesOf)
    (hr : ∀ g x t, t ∈ readTaint g m x → t ∈ readTaint g m2 x) (v : Value) (t : SrcOrSink_t)
    (h : t ∈ (getTaintAsSingleSet m v).1) : t ∈ (getTaintAsSingleSet m2 v).1 := by
  rw [mem_getTaint] at h ⊢
  obtain ⟨b, hb, ht⟩ := h
  exact ⟨b, by rw [taintTargets_congr m m2 ha]; exact hb, hr _ _ _ ht⟩

theorem taintTargets_ne_nil (m : AliasedTaintMap) (v : Value)
    (h : amFind m.aliasesOf (passThruGep v) ≠ some []) : ∃ b, b ∈ taintTargets m v := by
  unfold taintTargets
  cases hal : amFind m.aliasesOf (passThruGep v) with
  | none => exact ⟨_, List.mem_singleton_self _⟩
  | some al =>
    cases al with
    | nil => exact absurd hal h
    | cons b al => exact ⟨b, List.mem_cons_self _ _⟩

theorem addTaintSet_fold_mem (loc : Value) (hg : isGlobalVariable (passThruGep loc) = false)
    (srcSet : List SrcOrSink_t) (acc : Bool × AliasedTaintMap) (tok : SrcOrSink_t)
    (htok : tok ∈ srcSet) (b : Value) (hb : b ∈ taintTargets acc.2 loc) :
    tok ∈ readTaint false
      (srcSet.foldl
        (fun acc src =>
          let r := addTaint acc.2 loc src
          (if r.1 then true else acc.1, r.2))
        acc).2 b := by
  induction srcSet generalizing acc with
  | nil => simp at htok
  | cons s srcSet ih =>
    rw [List.foldl_cons]
    rcases List.mem_cons.mp htok with rfl | hmem
    · refine (addTaintSet_fold_grows loc srcSet _).reads false b tok ?_
      dsimp only
      rw [mem_readTaint_addTaint]
      refine Or.inr ⟨?_, ?_, hb, rfl⟩
      · simp [dropsToken, usesGlobalTable, hg]
      · simp [usesGlobalTable, hg]
    · refine ih _ hmem ?_
      dsimp only
      rw [taintTargets_congr acc.2 _ (addTaint_aliasesOf _ _ _)]
      exact hb

/-- After `addTaintSet(v, S)` every token of `S` is read back by `getTaintAsSingleSet(v)`,
when `v` behind its GEP is neither a global variable nor a GEP and its alias set, if it has
one, is not empty. -/
theorem addTaintSet_mem_getTaint (m : AliasedTaintMap) (v : Value) (S : List SrcOrSink_t)
    (hglob : isGlobalVariable (passThruGep v) = false)
    (hgep : passThruGep (passThruGep v) = passThruGep v)
    (hal : amFind m.aliasesOf (passThruGep v) ≠ some []) (tok : SrcOrSink_t) (htok : tok ∈ S) :
    tok ∈ (getTaintAsSingleSet (addTaintSet m v S).2 v).1 := by
  obtain ⟨b, hb⟩ := taintTargets_ne_nil m v hal
  have hb2 : b ∈ taintTargets m (passThruGep v) := by
    unfold taintTargets at hb ⊢
    rw [hgep]
    exact hb
  rw [mem_getTaint, hglob]
  refine ⟨b, ?_, ?_⟩
  · rw [taintTargets_congr m _ (addTaintSet_aliasesOf m v S)]
    exact hb
  · exact addTaintSet_fold_mem (passThruGep v) (by rw [hgep]; exact hglob) S (false, m) tok htok
      b hb2

theorem plugEntry_param_flow (caller : Nat) (C : Value) (F : Nat) (args : List Value)
    (st : AnState) (d s : Int) (S : List SrcOrSink_t) (tv actArg : Value)
    (hsrc : sumToken F s ∈ S)
    (htv : (if d = RETVAL_CODE then some C else getArgOperand args d) = some tv)
    (harg : getArgOperand args s = some actArg)
    (hglob : isGlobalVariable (passThruGep tv) = false)
    (hgep : passThruGep (passThruGep tv) = passThruGep tv)
    (hal : amFind st.taintOfVal.aliasesOf (passThruGep tv) ≠ some [])
    (t : SrcOrSink_t) (ht : t ∈ (getTaintAsSingleSet st.taintOfVal actArg).1) :
    t ∈ (getTaintAsSingleSet
      (plugEntry caller C F args st (sumToken F d, S)).taintOfVal tv).1 := by
  unfold plugEntry
  have hcs : (sumToken F d).callsite = none := rfl
  have hix : (sumToken F d).ixArg = d := rfl
  dsimp only
  rw [if_pos hcs, hix, htv]
  dsimp only
  obtain ⟨S1, S2, hsplit⟩ := List.append_of_mem hsrc
  rw [hsplit, List.foldl_append, List.foldl_cons]
  generalize hs1 : List.foldl (plugSource caller C F args (sumToken F d) (.value tv)) st S1 = s1
  have hg1 : AnGrows st s1 := by
    rw [← hs1]
    exact foldl_AnGrows _
      (fun s x => plugSource_grows _ _ _ _ _ _ (fun _ h => TaintDest.noConfusion h) s x) _ _
  have ha1 : s1.taintOfVal.aliasesOf = st.taintOfVal.aliasesOf := by
    rw [← hs1]
    refine foldl_keeps (fun s => s.taintOfVal.aliasesOf = st.taintOfVal.aliasesOf) _
      (fun s x h => (plugSource_aliasesOf _ _ _ _ _ _ s x).trans h) _ _ ?_
    rfl
  have ht1 : t ∈ (getTaintAsSingleSet s1.taintOfVal actArg).1 :=
    mem_getTaint_mono ha1 hg1.taint.reads actArg t ht
  have hstep : t ∈ (getTaintAsSingleSet
      (plugSource caller C F args (sumToken F d) (.value tv) s1 (sumToken F s)).taintOfVal tv).1 := by
    unfold plugSource
    have hsum : isSummaryScrink (sumToken F s) = true := rfl
    have hixs : (sumToken F s).ixArg = s := rfl
    rw [hsum]
    simp only [Bool.not_true, Bool.false_eq_true, if_false, hixs, harg]
    refine addTaintSet_mem_getTaint _ tv _ hglob hgep ?_ t ht1
    rw [getTaint_aliasesOf, ha1]
    exact hal
  generalize hs2 : plugSource caller C F args (sumToken F d) (.value tv) s1 (sumToken F s) = s2
    at hstep
  have hg2 : AnGrows s2
      (List.foldl (plugSource caller C F args (sumToken F d) (.value tv)) s2 S2) :=
    foldl_AnGrows _
      (fun s x => plugSource_grows _ _ _ _ _ _ (fun _ h => TaintDest.noConfusion h) s x) _ _
  have ha2 : (List.foldl (plugSource caller C F args (sumToken F d) (.value tv)) s2
      S2).taintOfVal.aliasesOf = s2.taintOfVal.aliasesOf := by
    refine foldl_keeps (fun s => s.taintOfVal.aliasesOf = s2.taintOfVal.aliasesOf) _
      (fun s x h => (plugSource_aliasesOf _ _ _ _ _ _ s x).trans h) _ _ ?_
    rfl
  exact mem_getTaint_mono ha2 hg2.taint.reads tv t hstep

/-- Claim C17 (amended): if the summary of the callee `F` maps the summary sink
`(F, d, null)` to a set that contains the summary source `(F, s, null)`, then after
`plugInSummary` at the call site `C` the taint of the target value (the call itself when
`d = -1`, otherwise the actual argument `d`) contains every token that was in the taint of
the actual argument `s` before, provided the target behind its GEP is neither a global
variable nor a GEP (and its alias set, if it has one, is not empty, as is every alias set
the analysis records). -/
theorem C17_param_to_result (caller : Nat) (C : Value) (F : Nat) (args : List Value)
    (st : AnState) (d s : Int) (S : List SrcOrSink_t) (tv actArg : Value)
    (hentry : amFind (summaryOf st.pass F) (sumToken F d) = some S)
    (hsrc : sumToken F s ∈ S)
    (htv : (if d = RETVAL_CODE then some C else getArgOperand args d) = some tv)
    (harg : getArgOperand args s = some actArg)
    (hglob : isGlobalVariable (passThruGep tv) = false)
    (hgep : passThruGep (passThruGep tv) = passThruGep tv)
    (hal : amFind st.taintOfVal.aliasesOf (passThruGep tv) ≠ some [])
    (t : SrcOrSink_t) (ht : t ∈ (getTaintAsSingleSet st.taintOfVal actArg).1) :
    t ∈ (getTaintAsSingleSet (plugInSummary caller C F args st).taintOfVal tv).1 := by
  unfold plugInSummary
  dsimp only
  have hl : (sumToken F d, S)
      ∈ (amFind (amUpdate [] (fun summ => summ) st.pass.funcFlowsBySink F) F).getD [] := by
    rw [getD_amFind_touch]
    exact mem_of_amFind _ _ _ hentry
  obtain ⟨l1, l2, hsplit⟩ := List.append_of_mem hl
  rw [hsplit, List.foldl_append, List.foldl_cons]
  generalize hs1 : List.foldl (plugEntry caller C F args)
    ({ st with pass := { st.pass with
        funcFlowsBySink := amUpdate [] (fun summ => summ) st.pass.funcFlowsBySink F } } : AnState)
    l1 = s1
  have hg1 : AnGrows
      ({ st with pass := { st.pass with
        funcFlowsBySink := amUpdate [] (fun summ => summ) st.pass.funcFlowsBySink F } } : AnState)
      s1 := by
    rw [← hs1]
    exact foldl_AnGrows _ (fun s e => plugEntry_grows _ _ _ _ s e) _ _
  have ha1 : s1.taintOfVal.aliasesOf = st.taintOfVal.aliasesOf := by
    rw [← hs1]
    refine foldl_keeps (fun s => s.taintOfVal.aliasesOf = st.taintOfVal.aliasesOf) _
      (fun s x h => (plugEntry_aliasesOf _ _ _ _ s x).trans h) _ _ ?_
    rfl
  have hstep := plugEntry_param_flow caller C F args s1 d s S tv actArg hsrc htv harg hglob hgep
    (by rw [ha1]; exact hal) t (mem_getTaint_mono ha1 hg1.taint.reads actArg t ht)
  generalize hs2 : plugEntry caller C F args s1 (sumToken F d, S) = s2 at hstep
  have hg2 : AnGrows s2 (List.foldl (plugEntry caller C F args) s2 l2) :=
    foldl_AnGrows _ (fun s e => plugEntry_grows _ _ _ _ s e) _ _
  have ha2 : (List.foldl (plugEntry caller C F args) s2 l2).taintOfVal.aliasesOf
      = s2.taintOfVal.aliasesOf := by
    refine foldl_keeps (fun s => s.taintOfVal.aliasesOf = s2.taintOfVal.aliasesOf) _
      (fun s x h => (plugEntry_aliasesOf _ _ _ _ s x).trans h) _ _ ?_
    rfl
  exact mem_getTaint_mono ha2 hg2.taint.reads tv t hstep

/-- Counterexample to claim C17 as stated: the summary of function 0 maps the sink
`(0, 0, null)` to a set containing the source `(0, 1, null)`, and the actual argument 1
carries a token; after `plugInSummary` that token is not in the taint of the actual argument
0, neither when that argument is a GEP over a global variable nor when it is a GEP of a GEP
over a local value, although in both cases the target is not a global variable. -/
theorem C17_gep_target_counterexample :
    amFind (summaryOf plugExampleState.pass 0) (sumToken 0 0) = some [sumToken 0 1]
      ∧ sumToken 9 0 ∈ (getTaintAsSingleSet plugExampleState.taintOfVal (.other 2)).1
      ∧ sumToken 9 0 ∉
          (getTaintAsSingleSet
            (plugInSummary 9 (.other 20) 0 [.gep 1 (.globalVar 5), .other 2]
              plugExampleState).taintOfVal
            (.gep 1 (.globalVar 5))).1
      ∧ sumToken 9 0 ∉
          (getTaintAsSingleSet
            (plugInSummary 9 (.other 20) 0 [.gep 1 (.gep 3 (.other 4)), .other 2]
              plugExampleState).taintOfVal
            (.gep 1 (.gep 3 (.other 4)))).1 := by
  decide

/-- Witness for claim C17: the same summary at a call whose first argument is a GEP over a
local value. -/
theorem C17_param_to_result_witness :
    sumToken 9 0 ∈
      (getTaintAsSingleSet
        (plugInSummary 9 (.other 20) 0 [.gep 1 (.other 4), .other 2]
          plugExampleState).taintOfVal
        (.gep 1 (.other 4))).1 :=
  C17_param_to_result 9 (.other 20) 0 [.gep 1 (.other 4), .other 2] plugExampleState 0 1
    [sumToken 0 1] (.gep 1 (.other 4)) (.other 2) (by decide) (by decide) (by decide)
    (by decide) (by decide) (by decide) (by decide) (sumToken 9 0) (by decide)

/-! ## External sinks (claim C15) -/

theorem sinkArgIndex_zero (a : Nat) : sinkArgIndex a 0 = -1 := by
  unfold sinkArgIndex sizeToInt
  simp

theorem sizeToInt_of_lt (r : Nat) (h : r < 2147483648) : sizeToInt r = (r : Int) := by
  unfold sizeToInt
  rw [show (2 : Nat) ^ 32 = 4294967296 by norm_num, show (2 : Nat) ^ 31 = 2147483648 by norm_num]
  have h2 : r % 4294967296 = r := by omega
  simp only [h2]
  split
  · rfl
  · omega

theorem sinkArgIndex_pos (a n : Nat) (h0 : 0 < n) (hn : n ≤ 2 ^ 31) :
    sinkArgIndex a n = ((min a (n - 1) : Nat) : Int) := by
  rw [show (2 : Nat) ^ 31 = 2147483648 by norm_num] at hn
  unfold sinkArgIndex
  rw [show (2 : Nat) ^ 64 = 18446744073709551616 by norm_num]
  split
  · rename_i hge
    have h1 : (n + 18446744073709551616 - 1) % 18446744073709551616 = n - 1 := by omega
    rw [h1, sizeToInt_of_lt (n - 1) (by omega)]
    have : min a (n - 1) = n - 1 := by omega
    rw [this]
  · rename_i hlt
    have : min a (n - 1) = a := by omega
    rw [this]

theorem touchSinkCat_table (callee : Nat) (st : AnState) (f : Nat) :
    (amFind (touchSinkCat callee st).pass.funcArgSinkCat f).getD []
      = (amFind st.pass.funcArgSinkCat f).getD [] :=
  getD_amFind_touch _ _ _ _

theorem recordSink_summaryOf (M : Module) (G : Nat) (C : Value) (F : Nat) (arg : Nat)
    (v : Value) (auxType : Int) (st : AnState) (f : Nat) :
    summaryOf (recordSink M G C F arg v auxType st).pass f
      = if f = G then
          amUpdate [] (fun _ => (getTaintAsSingleSet st.taintOfVal v).1) (summaryOf st.pass G)
            (siteToken F arg C auxType)
        else summaryOf st.pass f := by
  unfold recordSink
  dsimp only
  split <;> exact summaryOf_updFlow _ _ _ _ _

theorem recordSink_taintOfVal (M : Module) (G : Nat) (C : Value) (F : Nat) (arg : Nat)
    (v : Value) (auxType : Int) (st : AnState) :
    (recordSink M G C F arg v auxType st).taintOfVal = (getTaintAsSingleSet st.taintOfVal v).2 := by
  unfold recordSink
  dsimp only
  split <;> rfl

theorem recordSink_table (M : Module) (G : Nat) (C : Value) (F : Nat) (arg : Nat)
    (v : Value) (auxType : Int) (st : AnState) :
    (recordSink M G C F arg v auxType st).pass.funcArgSinkCat = st.pass.funcArgSinkCat := by
  unfold recordSink
  dsimp only
  split <;> rfl

theorem recordSinks_spec (M : Module) (G : Nat) (C : Value) (F : Nat) (tbl : List Int)
    (hsize : tbl.length ≤ 2 ^ 31) (rest : List Value) (arg : Nat) (st : AnState)
    (htbl : (amFind st.pass.funcArgSinkCat F).getD [] = tbl) :
    (∀ (j : Nat) (v : Value), rest[j]? = some v → tbl ≠ [] → sinkCat tbl (arg + j) ≠ 0 →
        amFind (summaryOf (recordSinks M G C F arg rest st).pass G)
            (siteToken F ((arg + j : Nat) : Int) C (sinkCat tbl (arg + j)))
          = some (getTaintAsSingleSet st.taintOfVal v).1)
      ∧ (∀ k : SrcOrSink_t,
          (∀ j : Nat, j < rest.length → tbl ≠ [] → sinkCat tbl (arg + j) ≠ 0 →
            k ≠ siteToken F ((arg + j : Nat) : Int) C (sinkCat tbl (arg + j))) →
          amFind (summaryOf (recordSinks M G C F arg rest st).pass G) k
            = amFind (summaryOf st.pass G) k)
      ∧ (∀ f, f ≠ G → summaryOf (recordSinks M G C F arg rest st).pass f = summaryOf st.pass f)
      ∧ SameReads st.taintOfVal (recordSinks M G C F arg rest st).taintOfVal := by
  induction rest generalizing arg st with
  | nil =>
    unfold recordSinks
    exact ⟨fun j v h => by simp at h, fun _ _ => rfl, fun _ _ => rfl, SameReads.srRefl _⟩
  | cons v rest ih =>
    unfold recordSinks
    dsimp only
    rw [htbl]
    by_cases hnil : tbl = []
    · have hlen : tbl.length = 0 := by rw [hnil]; rfl
      rw [hlen, if_pos (sinkArgIndex_zero arg)]
      exact ⟨fun j v _ h => absurd hnil h, fun _ _ => rfl, fun _ _ => rfl, SameReads.srRefl _⟩
    · have hpos : 0 < tbl.length := List.length_pos.mpr hnil
      have hix := sinkArgIndex_pos arg tbl.length hpos hsize
      have hne : ¬ sinkArgIndex arg tbl.length = -1 := by
        rw [hix]
        omega
      rw [if_neg hne]
      have hcat : tbl.getD (sinkArgIndex arg tbl.length).toNat 0 = sinkCat tbl arg := by
        rw [hix]
        rfl
      rw [hcat]
      have shift : ∀ j : Nat, arg + 1 + j = arg + (j + 1) := fun j => by omega
      by_cases hz : sinkCat tbl arg = AUX_TYPE_NULL
      · rw [if_pos hz]
        have h := ih (arg + 1) (touchSinkCat F st)
          (by rw [touchSinkCat_table]; exact htbl)
        refine ⟨fun j w hj ht hc => ?_, fun k hk => ?_, h.2.2.1, h.2.2.2⟩
        · cases j with
          | zero => exact absurd hz hc
          | succ j =>
            have := h.1 j w (by simpa using hj) ht (by rw [shift]; exact hc)
            rw [shift] at this
            exact this
        · refine h.2.1 k (fun j hj ht hc => ?_)
          rw [shift] at hc ⊢
          exact hk (j + 1) (by simp; omega) ht hc
      · rw [if_neg hz]
        generalize hst1 : recordSink M G C F arg v (sinkCat tbl arg) (touchSinkCat F st) = st1
        have hsum : ∀ f, summaryOf st1.pass f
            = if f = G then
                amUpdate [] (fun _ => (getTaintAsSingleSet st.taintOfVal v).1) (summaryOf st.pass G)
                  (siteToken F (arg : Int) C (sinkCat tbl arg))
              else summaryOf st.pass f := by
          intro f
          rw [← hst1]
          exact recordSink_summaryOf _ _ _ _ _ _ _ _ _
        have htaint : st1.taintOfVal = (getTaintAsSingleSet st.taintOfVal v).2 := by
          rw [← hst1]
          exact recordSink_taintOfVal _ _ _ _ _ _ _ _
        have htbl1 : (amFind st1.pass.funcArgSinkCat F).getD [] = tbl := by
          rw [← hst1, recordSink_table, touchSinkCat_table]
          exact htbl
        have hsr : SameReads st.taintOfVal st1.taintOfVal := by
          rw [htaint]
          exact getTaint_sameReads _ _
        have h := ih (arg + 1) st1 htbl1
        refine ⟨fun j w hj ht hc => ?_, fun k hk => ?_, fun f hf => ?_, hsr.srTrans h.2.2.2⟩
        · cases j with
          | zero =>
            simp only [List.getElem?_cons_zero, Option.some.injEq] at hj
            subst hj
            simp only [Nat.add_zero] at hc ⊢
            rw [h.2.1 _ (fun j hj ht hc heq => ?_), hsum, if_pos rfl, amFind_amUpdate_self]
            have := congrArg SrcOrSink_t.ixArg heq
            simp only [siteToken] at this
            omega
          | succ j =>
            have := h.1 j w (by simpa using hj) ht (by rw [shift]; exact hc)
            rw [shift, getTaint_fst_congr hsr] at this
            exact this
        · rw [h.2.1 k (fun j hj ht hc => ?_), hsum, if_pos rfl]
          · exact amFind_amUpdate_other _ _ _ _ _ (Ne.symm (hk 0 (by simp) hnil hz))
          · rw [shift] at hc ⊢
            exact hk (j + 1) (by simp; omega) ht hc
        · rw [h.2.2.1 f hf, hsum, if_neg hf]

theorem noteUnknownExt_flows (M : Module) (callee : Nat) (st : AnState) :
    (noteUnknownExt M callee st).pass.funcFlowsBySink = st.pass.funcFlowsBySink := by
  unfold noteUnknownExt
  split
  · rfl
  · split <;> rfl

theorem addSourceAt_flows (M : Module) (caller : Nat) (v : Value) (src : SrcOrSink_t)
    (st : AnState) :
    (addSourceAt M caller v src st).pass.funcFlowsBySink = st.pass.funcFlowsBySink := by
  unfold addSourceAt
  dsimp only
  split
  · split <;> rfl
  · rfl

theorem injectSource_flows (M : Module) (caller : Nat) (callsite : Value) (callee : Nat)
    (args : List Value) (st : AnState) (arg : Int) :
    (injectSource M caller callsite callee args st arg).pass.funcFlowsBySink
      = st.pass.funcFlowsBySink := by
  unfold injectSource
  dsimp only
  split
  · rfl
  · split
    · rfl
    · split
      · rfl
      · exact addSourceAt_flows _ _ _ _ _

theorem injectSources_flows (M : Module) (caller : Nat) (callsite : Value) (callee : Nat)
    (args : List Value) (st : AnState) :
    (injectSources M caller callsite callee args st).pass.funcFlowsBySink
      = st.pass.funcFlowsBySink := by
  unfold injectSources
  refine foldl_keeps (fun s => s.pass.funcFlowsBySink = st.pass.funcFlowsBySink) _
    (fun s x h => (injectSource_flows _ _ _ _ _ s x).trans h) _ _ ?_
  rfl

theorem analyzeInst_declared (M : Module) (G : Nat) (st : AnState) (C : Value) (ic : Bool)
    (F : Nat) (args : List Value) (hdecl : (M.func F).isDeclaration = true) :
    analyzeInst M G st ⟨C, .call ic (some F) args⟩
      = injectSources M G C F args
          (noteUnknownExt M F (recordSinks M G C F 0 args (atSinkLoop M G st C F args))) := by
  unfold analyzeInst atSinkLoop
  simp only [hdecl, if_true]

/-- Claim C15: when `analyzeInst` processes a call `C` in the function `G` to a declared
function `F` whose sink-category table is `tbl`, then for every argument number `a` whose
category (the table entry at `a`, or the last entry when `a` is past the end) is not null
the summary of `G` afterwards maps the concrete sink `(F, a, C, category)` to exactly the
taint the argument had when the sink loop was entered; every other key of the summary of
`G` is as it was at that moment, so arguments of null category and a function with an empty
table produce no entry. -/
theorem C15_external_sinks (M : Module) (G : Nat) (st : AnState) (C : Value) (ic : Bool)
    (F : Nat) (args : List Value) (hdecl : (M.func F).isDeclaration = true)
    (hsize : ((amFind st.pass.funcArgSinkCat F).getD []).length ≤ 2 ^ 31) :
    (∀ (a : Nat) (v : Value), args[a]? = some v →
        (amFind st.pass.funcArgSinkCat F).getD [] ≠ [] →
        sinkCat ((amFind st.pass.funcArgSinkCat F).getD []) a ≠ 0 →
        amFind (summaryOf (analyzeInst M G st ⟨C, .call ic (some F) args⟩).pass G)
            (siteToken F (a : Int) C (sinkCat ((amFind st.pass.funcArgSinkCat F).getD []) a))
          = some (getTaintAsSingleSet (atSinkLoop M G st C F args).taintOfVal v).1)
      ∧ ∀ k : SrcOrSink_t,
          (∀ a : Nat, a < args.length →
            (amFind st.pass.funcArgSinkCat F).getD [] ≠ [] →
            sinkCat ((amFind st.pass.funcArgSinkCat F).getD []) a ≠ 0 →
            k ≠ siteToken F (a : Int) C (sinkCat ((amFind st.pass.funcArgSinkCat F).getD []) a)) →
          amFind (summaryOf (analyzeInst M G st ⟨C, .call ic (some F) args⟩).pass G) k
            = amFind (summaryOf (atSinkLoop M G st C F args).pass G) k := by
  have htbl : (amFind (atSinkLoop M G st C F args).pass.funcArgSinkCat F).getD []
      = (amFind st.pass.funcArgSinkCat F).getD [] := by
    unfold atSinkLoop
    rw [promoteFilenames_eq]
    split
    · exact (plugInSummary_grows G C F args st).pass.sinkCats F
    · rfl
  have hspec := recordSinks_spec M G C F ((amFind st.pass.funcArgSinkCat F).getD []) hsize args 0
    (atSinkLoop M G st C F args) htbl
  have hsum : summaryOf (analyzeInst M G st ⟨C, .call ic (some F) args⟩).pass G
      = summaryOf (recordSinks M G C F 0 args (atSinkLoop M G st C F args)).pass G := by
    rw [analyzeInst_declared M G st C ic F args hdecl]
    unfold summaryOf
    rw [injectSources_flows, noteUnknownExt_flows]
  rw [hsum]
  refine ⟨fun a v ha ht hc => ?_, fun k hk => ?_⟩
  · have := hspec.1 a v ha ht (by rw [Nat.zero_add]; exact hc)
    rw [Nat.zero_add] at this
    exact this
  · refine hspec.2.1 k (fun j hj ht hc => ?_)
    rw [Nat.zero_add] at hc ⊢
    exact hk j hj ht hc

/-- Witness for claim C15: the call `sendout(y)` of scenario S3, processed in a state in
which `y` carries the source token of the call of `getsecret`. -/
theorem C15_external_sinks_witness :
    amFind
        (summaryOf
          (analyzeInst s3Module 2
            { pass := s3Pass,
              taintOfVal :=
                { globalSrcTaintSet := [],
                  baseTaintOf := [(.other 6, [siteToken 0 (-1) (.other 4) 1])],
                  aliasesOf := [] },
              gvarSet := [] }
            ⟨.other 7, .call true (some 1) [.other 6]⟩).pass 2)
        (siteToken 1 0 (.other 7) 1)
      = some [siteToken 0 (-1) (.other 4) 1] :=
  (C15_external_sinks s3Module 2
    { pass := s3Pass,
      taintOfVal :=
        { globalSrcTaintSet := [],
          baseTaintOf := [(.other 6, [siteToken 0 (-1) (.other 4) 1])],
          aliasesOf := [] },
      gvarSet := [] }
    (.other 7) true 1 [.other 6] (by decide) (by decide)).1 0 (.other 6) (by decide)
    (by decide) (by decide)

/-! ## Taint-copier summaries under the driver (claim C20) -/

/-- Claim C20, the code at a failing input: `memcpy` is declared, called by `main`, and put
in the taint-copier set by the loader with a summary in which `src` flows into `dst`.  The
scheduling rounds of `run` put `memcpy` on the worklist (a declaration has no callees), the
second pass through the worklist loop runs `analyzeFunc` on it, and from then on, also when
the worklist has drained, the summary of `memcpy` no longer holds that flow and has a new
entry for the return value. -/
theorem C20_copier_summary_overwritten :
    0 ∈ copierDriverPass.taintCopiers
      ∧ sumToken 0 1 ∈ flowsOf copierDriverPass 0 (sumToken 0 0)
      ∧ (startWorkList copierDriverModule copierDriverPass).funcWorkList.workList
          = [none, some 0, some 1]
      ∧ sumToken 0 1 ∉
          flowsOf (driverLoop copierDriverModule 2
            (startWorkList copierDriverModule copierDriverPass)) 0 (sumToken 0 0)
      ∧ (amFind (summaryOf (driverLoop copierDriverModule 2
            (startWorkList copierDriverModule copierDriverPass)) 0)
          (sumToken 0 RETVAL_CODE)).isSome
      ∧ (amFind (summaryOf copierDriverPass 0) (sumToken 0 RETVAL_CODE)).isNone
      ∧ (driverLoop copierDriverModule 4
            (startWorkList copierDriverModule copierDriverPass)).funcWorkList.workList = []
      ∧ sumToken 0 1 ∉
          flowsOf (driverLoop copierDriverModule 4
            (startWorkList copierDriverModule copierDriverPass)) 0 (sumToken 0 0) := by
  decide

/-! ## Every transfer function lets the state grow -/

theorem noteGvar_grows (caller : Nat) (gv : Value) (st : AnState) :
    AnGrows st (noteGvar caller gv st) :=
  ⟨⟨rfl, rfl, rfl, rfl, rfl, rfl, fun _ => rfl, fun _ => rfl, fun _ => rfl, fun _ => rfl,
      fun _ _ h => h, fun _ _ h => h, fun _ _ h => h⟩,
    TaintGrows.tgRefl _, fun _ h => mem_setInsert_of_mem _ _ _ h⟩

theorem touchSinkCat_grows (callee : Nat) (st : AnState) :
    AnGrows st (touchSinkCat callee st) :=
  ⟨⟨rfl, rfl, rfl, rfl, rfl, rfl, fun _ => rfl, fun f => touchSinkCat_table callee st f,
      fun _ => rfl, fun _ => rfl, fun _ _ h => h, fun _ _ h => h, fun _ _ h => h⟩,
    TaintGrows.tgRefl _, fun _ h => h⟩

theorem siteToken_callsite (callee : Nat) (arg : Int) (callsite : Value) (auxType : Int) :
    (siteToken callee arg callsite auxType).callsite ≠ none := by
  simp [siteToken]

theorem recordSink_grows (M : Module) (G : Nat) (C : Value) (F : Nat) (arg : Nat)
    (v : Value) (auxType : Int) (st : AnState) :
    AnGrows st (recordSink M G C F arg v auxType st) := by
  unfold recordSink
  dsimp only
  have h1 : AnGrows st
      ({ st with
        pass := updFlow st.pass G (siteToken F arg C auxType)
          (fun _ => (getTaintAsSingleSet st.taintOfVal v).1)
        taintOfVal := (getTaintAsSingleSet st.taintOfVal v).2 } : AnState) :=
    AnGrows.of_parts st _ _ (updFlow_keeps _ _ _ _ (siteToken_callsite _ _ _ _))
      (getTaint_grows _ _)
  split
  · exact h1.anTrans (noteGvar_grows _ _ _)
  · exact h1

theorem recordSinks_grows (M : Module) (G : Nat) (C : Value) (F : Nat) (rest : List Value)
    (arg : Nat) (st : AnState) : AnGrows st (recordSinks M G C F arg rest st) := by
  induction rest generalizing arg st with
  | nil =>
    unfold recordSinks
    exact AnGrows.anRefl st
  | cons v rest ih =>
    unfold recordSinks
    dsimp only
    split
    · exact touchSinkCat_grows F st
    · split
      · exact (touchSinkCat_grows F st).anTrans (ih _ _)
      · exact (touchSinkCat_grows F st).anTrans ((recordSink_grows _ _ _ _ _ _ _ _).anTrans (ih _ _))

theorem noteUnknownExt_grows (M : Module) (callee : Nat) (st : AnState) :
    AnGrows st (noteUnknownExt M callee st) := by
  unfold noteUnknownExt
  split
  · exact AnGrows.anRefl st
  · split
    · exact AnGrows.anRefl st
    · exact ⟨⟨rfl, rfl, rfl, rfl, rfl, rfl, fun _ => rfl, fun _ => rfl, fun _ => rfl,
        fun _ => rfl, fun _ _ h => h, fun _ _ h => h, fun _ _ h => h⟩,
        TaintGrows.tgRefl _, fun _ h => h⟩

theorem touchSrcCat_grows (callee : Nat) (arg : Int) (st : AnState) :
    AnGrows st (touchSrcCat callee arg st) := by
  refine ⟨⟨rfl, rfl, rfl, rfl, rfl, rfl, fun f => getD_amFind_touch _ _ _ _, fun _ => rfl,
    fun f => ?_, fun _ => rfl, fun _ _ h => h, fun _ _ h => h, fun _ _ h => h⟩,
    TaintGrows.tgRefl _, fun _ h => h⟩
  unfold touchSrcCat
  dsimp only
  split
  · exact getD_amFind_touch _ _ _ _
  · rfl

theorem addSourceAt_grows (M : Module) (caller : Nat) (v : Value) (src : SrcOrSink_t)
    (st : AnState) : AnGrows st (addSourceAt M caller v src st) := by
  unfold addSourceAt
  dsimp only
  have h1 : AnGrows st ({ st with taintOfVal := (addTaint st.taintOfVal v src).2 } : AnState) :=
    ⟨PassKeeps.pkRefl _, addTaint_grows _ _ _, fun _ h => h⟩
  split
  · split
    · exact h1.anTrans (noteGvar_grows _ _ _)
    · exact h1
  · exact h1

theorem injectSource_grows (M : Module) (caller : Nat) (callsite : Value) (callee : Nat)
    (args : List Value) (st : AnState) (arg : Int) :
    AnGrows st (injectSource M caller callsite callee args st arg) := by
  unfold injectSource
  dsimp only
  have h0 := touchSrcCat_grows callee arg st
  split
  · exact h0
  · split
    · exact h0.anTrans ⟨PassKeeps.pkRefl _, addTaint_grows _ _ _, fun _ h => h⟩
    · split
      · exact h0
      · exact h0.anTrans (addSourceAt_grows _ _ _ _ _)

theorem injectSources_grows (M : Module) (caller : Nat) (callsite : Value) (callee : Nat)
    (args : List Value) (st : AnState) :
    AnGrows st (injectSources M caller callsite callee args st) := by
  unfold injectSources
  exact foldl_AnGrows _ (fun s x => injectSource_grows _ _ _ _ _ s x) _ _

theorem takeTaint_grows (dest : Value) (st : AnState) (operand : Value) :
    AnGrows st (takeTaint dest st operand) :=
  ⟨PassKeeps.pkRefl _, (getTaint_grows _ _).tgTrans (addTaintSet_grows _ _ _), fun _ h => h⟩

theorem normalInst_grows (inst : Instruction) (st : AnState) :
    AnGrows st (normalInst inst st) := by
  unfold normalInst
  exact foldl_AnGrows _ (fun s x => takeTaint_grows _ s x) _ _

theorem foldl_addAlias_grows (self : Value) (incoming : List Value) (m : AliasedTaintMap) :
    TaintGrows m (incoming.foldl (fun m v => addAlias m self v) m) := by
  induction incoming generalizing m with
  | nil => exact TaintGrows.tgRefl m
  | cons v incoming ih => exact (addAlias_grows m self v).tgTrans (ih _)

/-- Processing an instruction lets the state of the analysis grow: no token, alias base or
summary entry is lost, and `calcSize()` does not go down. -/
theorem analyzeInst_grows (M : Module) (func : Nat) (st : AnState) (inst : Instruction) :
    AnGrows st (analyzeInst M func st inst) := by
  unfold analyzeInst
  split
  · exact AnGrows.anRefl st
  · exact AnGrows.anRefl st
  · dsimp only
    rw [promoteFilenames_eq]
    split
    · refine AnGrows.anTrans ?_ (injectSources_grows _ _ _ _ _ _)
      refine AnGrows.anTrans ?_ (noteUnknownExt_grows _ _ _)
      refine AnGrows.anTrans ?_ (recordSinks_grows _ _ _ _ _ _ _)
      split
      · exact plugInSummary_grows _ _ _ _ _
      · exact AnGrows.anRefl st
    · exact plugInSummary_grows _ _ _ _ _
  · exact takeTaint_grows _ _ _
  · refine AnGrows.anTrans ?_ (normalInst_grows _ _)
    exact ⟨PassKeeps.pkRefl _, foldl_addAlias_grows _ _ _, fun _ h => h⟩
  · exact normalInst_grows _ _
  · exact normalInst_grows _ _

theorem onePass_grows (M : Module) (F : Nat) (st : AnState) : AnGrows st (onePass M F st) := by
  unfold onePass
  exact foldl_AnGrows _ (fun s x => analyzeInst_grows M F s x) _ _

theorem fixLoop_grows (M : Module) (F : Nat) (fuel : Nat) (st : AnState) :
    AnGrows st (fixLoop M F fuel st) := by
  induction fuel generalizing st with
  | zero => exact AnGrows.anRefl st
  | succ n ih =>
    unfold fixLoop
    dsimp only
    split
    · exact onePass_grows M F st
    · exact (onePass_grows M F st).anTrans (ih _)

/-! ## Well-formedness of the taint map -/

theorem TaintInv.monoTokens {U U2 : SrcOrSink_t → Prop} {V K : Value → Prop} {m : AliasedTaintMap}
    (h : TaintInv U V K m) (hU : ∀ t, U t → U2 t) : TaintInv U2 V K m :=
  ⟨h.base_nodup, h.base_keys, fun e he => ⟨(h.base_sets e he).1,
      fun t ht => hU t ((h.base_sets e he).2 t ht)⟩,
    fun e he t ht => hU t (h.glob_sets e he t ht), h.alias_nodup, h.alias_keys, h.alias_sets⟩

theorem amUpdate_forall {K V : Type} [DecidableEq K] (P : K × V → Prop) (d : V) (f : V → V)
    (m : List (K × V)) (k : K) (hm : ∀ e ∈ m, P e) (hf : ∀ v, P (k, v) → P (k, f v))
    (hd : P (k, f d)) : ∀ e ∈ amUpdate d f m k, P e := by
  intro e he
  rcases mem_amUpdate d f m k e he with h | ⟨v, hv, rfl⟩ | rfl
  · exact hm e h
  · exact hf v (hm _ hv)
  · exact hd

theorem insertTaint_inv {U : SrcOrSink_t → Prop} {V K : Value → Prop} (u : Bool)
    (m : AliasedTaintMap) (loc : Value) (t : SrcOrSink_t) (h : TaintInv U V K m)
    (hloc : V loc) (ht : U t) : TaintInv U V K (insertTaint u m loc t) := by
  unfold insertTaint
  split
  · refine ⟨h.base_nodup, h.base_keys, h.base_sets, ?_, h.alias_nodup, h.alias_keys,
      h.alias_sets⟩
    exact amUpdate_forall (fun e => ∀ x ∈ e.2, U x) [] (fun s => setInsert s t)
      m.globalSrcTaintSet loc h.glob_sets
      (fun v hv x hx => by
        rcases (mem_setInsert_iff v t x).mp hx with hx | rfl
        · exact hv x hx
        · exact ht)
      (fun x hx => by
        rcases (mem_setInsert_iff [] t x).mp hx with hx | rfl
        · simp at hx
        · exact ht)
  · refine ⟨nodup_keys_amUpdate _ _ _ _ h.base_nodup, ?_, ?_, h.glob_sets, h.alias_nodup,
      h.alias_keys, h.alias_sets⟩
    · exact amUpdate_forall (fun e => V e.1) [] (fun s => setInsert s t) m.baseTaintOf loc
        h.base_keys (fun _ _ => hloc) hloc
    · exact amUpdate_forall (fun e => e.2.Nodup ∧ ∀ x ∈ e.2, U x) [] (fun s => setInsert s t)
        m.baseTaintOf loc h.base_sets
        (fun v hv => ⟨nodup_setInsert v t hv.1, fun x hx => by
          rcases (mem_setInsert_iff v t x).mp hx with hx | rfl
          · exact hv.2 x hx
          · exact ht⟩)
        ⟨nodup_setInsert [] t List.nodup_nil, fun x hx => by
          rcases (mem_setInsert_iff [] t x).mp hx with hx | rfl
          · simp at hx
          · exact ht⟩

theorem touchTaint_inv {U : SrcOrSink_t → Prop} {V K : Value → Prop} (u : Bool)
    (m : AliasedTaintMap) (loc : Value) (h : TaintInv U V K m) (hloc : V loc) :
    TaintInv U V K (touchTaint u m loc) := by
  unfold touchTaint
  split
  · refine ⟨h.base_nodup, h.base_keys, h.base_sets, ?_, h.alias_nodup, h.alias_keys,
      h.alias_sets⟩
    exact amUpdate_forall (fun e => ∀ x ∈ e.2, U x) [] (fun s => s) m.globalSrcTaintSet loc
      h.glob_sets (fun v hv => hv) (fun x hx => by simp at hx)
  · refine ⟨nodup_keys_amUpdate _ _ _ _ h.base_nodup, ?_, ?_, h.glob_sets, h.alias_nodup,
      h.alias_keys, h.alias_sets⟩
    · exact amUpdate_forall (fun e => V e.1) [] (fun s => s) m.baseTaintOf loc
        h.base_keys (fun _ _ => hloc) hloc
    · exact amUpdate_forall (fun e => e.2.Nodup ∧ ∀ x ∈ e.2, U x) [] (fun s => s)
        m.baseTaintOf loc h.base_sets
        (fun v hv => hv) ⟨List.nodup_nil, fun x hx => by simp at hx⟩

theorem TaintInv.targets {U : SrcOrSink_t → Prop} {V K : Value → Prop} {m : AliasedTaintMap}
    (h : TaintInv U V K m) (loc : Value) (hloc : V (passThruGep loc)) :
    ∀ b ∈ taintTargets m loc, V b := by
  unfold taintTargets
  cases hal : amFind m.aliasesOf (passThruGep loc) with
  | none =>
    intro b hb
    rw [List.mem_singleton.mp hb]
    exact hloc
  | some al => exact (h.alias_sets _ (mem_of_amFind _ _ _ hal)).2

theorem foldl_insertTaint_inv {U : SrcOrSink_t → Prop} {V K : Value → Prop} (u : Bool)
    (t : SrcOrSink_t) (ht : U t) (l : List Value) (hl : ∀ b ∈ l, V b) (m : AliasedTaintMap)
    (h : TaintInv U V K m) :
    TaintInv U V K (l.foldl (fun acc b => insertTaint u acc b t) m) := by
  induction l generalizing m with
  | nil => exact h
  | cons b l ih =>
    exact ih (fun x hx => hl x (List.mem_cons_of_mem _ hx)) _
      (insertTaint_inv u m b t h (hl b (List.mem_cons_self _ _)) ht)

theorem addTaint_inv {U : SrcOrSink_t → Prop} {V K : Value → Prop} (m : AliasedTaintMap)
    (loc : Value) (t : SrcOrSink_t) (h : TaintInv U V K m) (hloc : V (passThruGep loc))
    (ht : U t) : TaintInv U V K (addTaint m loc t).2 := by
  have htg := h.targets loc hloc
  unfold taintTargets at htg
  unfold addTaint
  dsimp only
  split
  · exact h
  · split
    · exact insertTaint_inv _ _ _ _ h hloc ht
    · rename_i al hal
      rw [hal] at htg
      exact foldl_insertTaint_inv _ t ht al htg m h

theorem addTaintSet_fold_inv {U : SrcOrSink_t → Prop} {V K : Value → Prop} (loc : Value)
    (hloc : V (passThruGep loc)) (srcSet : List SrcOrSink_t) (hS : ∀ t ∈ srcSet, U t)
    (acc : Bool × AliasedTaintMap) (h : TaintInv U V K acc.2) :
    TaintInv U V K
      (srcSet.foldl
        (fun acc src =>
          let r := addTaint acc.2 loc src
          (if r.1 then true else acc.1, r.2))
        acc).2 := by
  induction srcSet generalizing acc with
  | nil => exact h
  | cons s srcSet ih =>
    rw [List.foldl_cons]
    exact ih (fun t ht => hS t (List.mem_cons_of_mem _ ht))
      (if (addTaint acc.2 loc s).1 then true else acc.1, (addTaint acc.2 loc s).2)
      (addTaint_inv acc.2 loc s h hloc (hS s (List.mem_cons_self _ _)))

theorem addTaintSet_inv {U : SrcOrSink_t → Prop} {V K : Value → Prop} (m : AliasedTaintMap)
    (loc : Value) (srcSet : List SrcOrSink_t) (h : TaintInv U V K m)
    (hloc : V (passThruGep (passThruGep loc))) (hS : ∀ t ∈ srcSet, U t) :
    TaintInv U V K (addTaintSet m loc srcSet).2 :=
  addTaintSet_fold_inv (passThruGep loc) hloc srcSet hS (false, m) h

theorem TaintInv.reads {U : SrcOrSink_t → Prop} {V K : Value → Prop} {m : AliasedTaintMap}
    (h : TaintInv U V K m) (g : Bool) (x : Value) : ∀ t ∈ readTaint g m x, U t := by
  intro t ht
  unfold readTaint at ht
  cases hf : amFind (if g = true then m.globalSrcTaintSet else m.baseTaintOf) x with
  | none =>
    rw [hf] at ht
    simp at ht
  | some s =>
    rw [hf] at ht
    have hmem := mem_of_amFind _ _ _ hf
    cases g with
    | true => exact h.glob_sets _ hmem t ht
    | false => exact (h.base_sets _ hmem).2 t ht

theorem getTaint_mem_U {U : SrcOrSink_t → Prop} {V K : Value → Prop} (m : AliasedTaintMap)
    (loc : Value) (h : TaintInv U V K m) : ∀ t ∈ (getTaintAsSingleSet m loc).1, U t := by
  intro t ht
  rw [mem_getTaint] at ht
  obtain ⟨b, _, hb⟩ := ht
  exact h.reads _ _ t hb

theorem getTaint_fold_inv {U : SrcOrSink_t → Prop} {V K : Value → Prop} (g : Bool)
    (al : List Value) (hal : ∀ b ∈ al, V b) (acc : List SrcOrSink_t × AliasedTaintMap)
    (h : TaintInv U V K acc.2) :
    TaintInv U V K (al.foldl
      (fun acc baseLoc =>
        (extendWith acc.1 (readTaint g acc.2 baseLoc), touchTaint g acc.2 baseLoc)) acc).2 := by
  induction al generalizing acc with
  | nil => exact h
  | cons b al ih =>
    rw [List.foldl_cons]
    exact ih (fun x hx => hal x (List.mem_cons_of_mem _ hx))
      (extendWith acc.1 (readTaint g acc.2 b), touchTaint g acc.2 b)
      (touchTaint_inv g acc.2 b h (hal b (List.mem_cons_self _ _)))

theorem getTaint_inv {U : SrcOrSink_t → Prop} {V K : Value → Prop} (m : AliasedTaintMap)
    (loc : Value) (h : TaintInv U V K m) (hloc : V (passThruGep loc)) :
    TaintInv U V K (getTaintAsSingleSet m loc).2 := by
  have htg := h.targets loc hloc
  unfold taintTargets at htg
  unfold getTaintAsSingleSet
  dsimp only
  split
  · exact touchTaint_inv _ _ _ h hloc
  · rename_i al hal
    rw [hal] at htg
    exact getTaint_fold_inv _ al htg ([], m) h

theorem addAlias_inv {U : SrcOrSink_t → Prop} {V K : Value → Prop} (m : AliasedTaintMap)
    (a b : Value) (h : TaintInv U V K m) (ha : K (passThruGep a)) (hb : V (passThruGep b)) :
    TaintInv U V K (addAlias m a b) := by
  unfold addAlias
  refine ⟨h.base_nodup, h.base_keys, h.base_sets, h.glob_sets,
    nodup_keys_amUpdate _ _ _ _ h.alias_nodup, ?_, ?_⟩
  · exact amUpdate_forall (fun e => K e.1) [] (fun s => setInsert s (passThruGep b))
      m.aliasesOf (passThruGep a) h.alias_keys (fun _ _ => ha) ha
  · exact amUpdate_forall (fun e => e.2.Nodup ∧ ∀ x ∈ e.2, V x) []
      (fun s => setInsert s (passThruGep b)) m.aliasesOf (passThruGep a) h.alias_sets
      (fun v hv => ⟨nodup_setInsert v _ hv.1, fun x hx => by
        rcases (mem_setInsert_iff v _ x).mp hx with hx | rfl
        · exact hv.2 x hx
        · exact hb⟩)
      ⟨nodup_setInsert [] _ List.nodup_nil, fun x hx => by
        rcases (mem_setInsert_iff [] _ x).mp hx with hx | rfl
        · simp at hx
        · exact hb⟩

/-! ## The invariant of the fixpoint loop -/

theorem mem_gepChain_self (v : Value) : v ∈ gepChain v := by
  cases v <;> simp [gepChain]

theorem passThruGep_mem_gepChain (v x : Value) (h : x ∈ gepChain v) :
    passThruGep x ∈ gepChain v := by
  induction v with
  | globalVar id =>
    simp only [gepChain, List.mem_singleton] at h
    subst h
    simp [gepChain, passThruGep]
  | other id =>
    simp only [gepChain, List.mem_singleton] at h
    subst h
    simp [gepChain, passThruGep]
  | gep id ptr ih =>
    simp only [gepChain, List.mem_cons] at h
    rcases h with rfl | h
    · simp only [gepChain, passThruGep, List.mem_cons]
      exact Or.inr (mem_gepChain_self ptr)
    · simp only [gepChain, List.mem_cons]
      exact Or.inr (ih h)

theorem valuesOf_closed (fn : IRFunction) (x : Value) (h : x ∈ valuesOf fn) :
    passThruGep x ∈ valuesOf fn := by
  unfold valuesOf at h ⊢
  rw [List.mem_flatMap] at h ⊢
  obtain ⟨v, hv, hx⟩ := h
  exact ⟨v, hv, passThruGep_mem_gepChain v x hx⟩

theorem mem_valuesOf_of_arg (fn : IRFunction) (a : Value) (h : a ∈ fn.args) :
    a ∈ valuesOf fn := by
  unfold valuesOf
  rw [List.mem_flatMap]
  exact ⟨a, List.mem_append_left _ h, mem_gepChain_self a⟩

theorem mem_valuesOf_of_inst (fn : IRFunction) (inst : Instruction) (hi : inst ∈ fn.insts)
    (x : Value) (hx : x ∈ instValues inst) : x ∈ valuesOf fn := by
  unfold valuesOf
  rw [List.mem_flatMap]
  exact ⟨x, List.mem_append_right _ (List.mem_flatMap.mpr ⟨inst, hi, hx⟩), mem_gepChain_self x⟩

theorem self_mem_valuesOf (fn : IRFunction) (inst : Instruction) (hi : inst ∈ fn.insts) :
    inst.self ∈ valuesOf fn :=
  mem_valuesOf_of_inst fn inst hi _ (List.mem_cons_self _ _)

theorem getArgOperand_mem (args : List Value) (ix : Int) (v : Value)
    (h : getArgOperand args ix = some v) : v ∈ args := by
  unfold getArgOperand at h
  split at h
  · exact Option.noConfusion h
  · exact List.get?_mem h

theorem TokenOK.monoScr {M : Module} {p : TaintPass} {F : Nat} {scr scr2 : List (SrcOrSink_t × Nat)}
    (hs : ∀ t a, amFind scr t = some a → amFind scr2 t = some a) (t : SrcOrSink_t)
    (h : TokenOK M p F scr t) : TokenOK M p F scr2 t := by
  rcases h with h | ⟨s, hs1, a, ha, ht⟩
  · exact Or.inl h
  · exact Or.inr ⟨s, hs1, a, hs _ _ ha, ht⟩

/-- The invariant holds for a state whose pass object was reached from the one of `st` by
steps that `PassKeeps` allows and whose taint map is well formed for the new intern table. -/
theorem LoopInv.step {M : Module} {p : TaintPass} {F : Nat} {st : AnState}
    (h : LoopInv M p F st) (q : TaintPass) (m : AliasedTaintMap) (g : List Value)
    (hk : PassKeeps st.pass q)
    (hm : TaintInv (TokenOK M p F q.scrinksInUse) (fun v => v ∈ valuesOf (M.func F))
      (fun v => v ∈ valuesOf (M.func F)) m) :
    LoopInv M p F ⟨q, m, g⟩ :=
  ⟨h.pass.pkTrans hk, hm⟩

theorem LoopInv.taint_at {M : Module} {p : TaintPass} {F : Nat} {st : AnState}
    (h : LoopInv M p F st) (q : TaintPass) (hk : PassKeeps st.pass q) :
    TaintInv (TokenOK M p F q.scrinksInUse) (fun v => v ∈ valuesOf (M.func F))
      (fun v => v ∈ valuesOf (M.func F)) st.taintOfVal :=
  h.taint.monoTokens (fun t ht => TokenOK.monoScr hk.scrinks t ht)

theorem summarySources_congr (p q : TaintPass) (callee : Nat)
    (h : summarySinkPart (summaryOf q callee) = summarySinkPart (summaryOf p callee)) :
    summarySources q callee = summarySources p callee := by
  unfold summarySources
  unfold summarySinkPart summaryOf at h
  rw [h]

theorem srcCat_congr (p q : TaintPass) (h : PassKeeps p q) (callee : Nat) (arg : Int) :
    srcCat q callee arg = srcCat p callee arg := by
  unfold srcCat
  rw [h.retCats, h.srcCats]

theorem tokenOK_summarySource (M : Module) (p : TaintPass) (F : Nat)
    (scr : List (SrcOrSink_t × Nat)) (inst : Instruction) (ic : Bool) (callee : Nat)
    (args : List Value) (hi : inst ∈ (M.func F).insts)
    (hk : inst.kind = .call ic (some callee) args) (t : SrcOrSink_t)
    (ht : t ∈ summarySources p callee) : TokenOK M p F scr t := by
  left
  unfold plainTokens
  refine List.mem_append_right _ (List.mem_flatMap.mpr ⟨inst, hi, ?_⟩)
  unfold callTokens
  rw [hk]
  exact List.mem_append_right _ ht

theorem tokenOK_wrap (M : Module) (p : TaintPass) (F : Nat)
    (scr : List (SrcOrSink_t × Nat)) (inst : Instruction) (ic : Bool) (callee : Nat)
    (args : List Value) (hi : inst ∈ (M.func F).insts)
    (hk : inst.kind = .call ic (some callee) args) (t : SrcOrSink_t)
    (ht : t ∈ summarySources p callee) (a : Nat) (ha : amFind scr t = some a) :
    TokenOK M p F scr (wrapToken callee inst.self t a) := by
  right
  refine ⟨(callee, inst.self, t), List.mem_flatMap.mpr ⟨inst, hi, ?_⟩, a, ha, rfl⟩
  unfold wrapSites
  rw [hk]
  exact List.mem_map.mpr ⟨t, ht, rfl⟩

theorem tokenOK_source (M : Module) (p : TaintPass) (F : Nat)
    (scr : List (SrcOrSink_t × Nat)) (inst : Instruction) (ic : Bool) (callee : Nat)
    (args : List Value) (hi : inst ∈ (M.func F).insts)
    (hk : inst.kind = .call ic (some callee) args) (arg : Int)
    (harg : arg ∈ sourceArgs ((amFind p.funcArgSrcCat callee).getD []).length) :
    TokenOK M p F scr (siteToken callee arg inst.self (srcCat p callee arg)) := by
  left
  unfold plainTokens
  refine List.mem_append_right _ (List.mem_flatMap.mpr ⟨inst, hi, ?_⟩)
  unfold callTokens
  rw [hk]
  exact List.mem_append_left _ (List.mem_append_right _ (List.mem_map.mpr ⟨arg, harg, rfl⟩))

theorem tokenOK_seed (M : Module) (p : TaintPass) (F : Nat)
    (scr : List (SrcOrSink_t × Nat)) (i : Nat) (hi : i < (M.func F).args.length) :
    TokenOK M p F scr (sumToken F (i : Int)) := by
  left
  unfold plainTokens
  exact List.mem_append_left _ (List.mem_append_left _
    (List.mem_map_of_mem (fun i : Nat => sumToken F (i : Int)) (List.mem_range.mpr hi)))

theorem tokenOK_global (M : Module) (p : TaintPass) (F : Nat)
    (scr : List (SrcOrSink_t × Nat)) (e : Value × List SrcOrSink_t)
    (he : e ∈ p.globalSrcTaintSet) (t : SrcOrSink_t) (ht : t ∈ e.2) :
    TokenOK M p F scr t := by
  left
  unfold plainTokens
  exact List.mem_append_left _ (List.mem_append_right _ (List.mem_flatMap.mpr ⟨e, he, ht⟩))

theorem tokenOK_wrapIfWrapper (M : Module) (p : TaintPass) (F : Nat) (q : TaintPass)
    (inst : Instruction) (ic : Bool) (callee : Nat) (args : List Value)
    (hi : inst ∈ (M.func F).insts) (hk : inst.kind = .call ic (some callee) args)
    (t : SrcOrSink_t) (ht : t ∈ summarySources p callee) :
    TokenOK M p F (wrapIfWrapper q callee inst.self t).2.scrinksInUse
      (wrapIfWrapper q callee inst.self t).1 := by
  unfold wrapIfWrapper
  split
  · exact tokenOK_wrap M p F _ inst ic callee args hi hk t ht _ (storeScrink_find q t)
  · exact tokenOK_summarySource M p F _ inst ic callee args hi hk t ht

theorem foldl_keeps_mem {σ α : Type} (P : σ → Prop) (f : σ → α → σ) (l : List α)
    (hf : ∀ s x, x ∈ l → P s → P (f s x)) (s : σ) (h : P s) : P (l.foldl f s) := by
  induction l generalizing s with
  | nil => exact h
  | cons x l ih =>
    exact ih (fun s y hy => hf s y (List.mem_cons_of_mem _ hy)) _
      (hf s x (List.mem_cons_self _ _) h)

theorem plugSource_loopInv (M : Module) (p : TaintPass) (F : Nat) (inst : Instruction)
    (ic : Bool) (callee : Nat) (args : List Value) (hi : inst ∈ (M.func F).insts)
    (hk : inst.kind = .call ic (some callee) args) (sumSink : SrcOrSink_t) (dest : TaintDest)
    (hdestK : ∀ key, dest = .flow key → key.callsite ≠ none)
    (hdestV : ∀ v, dest = .value v → v ∈ valuesOf (M.func F)) (st : AnState)
    (sumSrc : SrcOrSink_t)
    (hsrc : sumSink.callsite = none → isSummaryScrink sumSrc = false →
      sumSrc ∈ summarySources p callee)
    (h : LoopInv M p F st) :
    LoopInv M p F (plugSource F inst.self callee args sumSink dest st sumSrc) := by
  unfold plugSource
  split
  · rename_i hns
    have hns2 : isSummaryScrink sumSrc = false := by simpa using hns
    split
    · exact h
    · rename_i hcs
      have hcs2 : sumSink.callsite = none := not_not.mp hcs
      have hkeep := wrapIfWrapper_keeps st.pass callee inst.self sumSrc
      cases dest with
      | flow key =>
        have hk2 := hkeep.pkTrans (updFlow_keeps _ F key
          (fun s => setInsert s (wrapIfWrapper st.pass callee inst.self sumSrc).1)
          (hdestK key rfl))
        exact h.step _ _ _ hk2 (h.taint_at _ hk2)
      | value v =>
        refine h.step _ _ _ hkeep ?_
        exact addTaint_inv _ _ _ (h.taint_at _ hkeep)
          (valuesOf_closed _ _ (hdestV v rfl))
          (tokenOK_wrapIfWrapper M p F st.pass inst ic callee args hi hk sumSrc
            (hsrc hcs2 hns2))
  · split
    · exact h
    · rename_i actArg harg
      have hact : actArg ∈ valuesOf (M.func F) :=
        mem_valuesOf_of_inst _ inst hi _ (List.mem_cons_of_mem _ (by
          rw [hk]
          exact getArgOperand_mem _ _ _ harg))
      cases dest with
      | flow key =>
        have hk2 := updFlow_keeps st.pass F key
          (fun s => extendWith s (getTaintAsSingleSet st.taintOfVal actArg).1) (hdestK key rfl)
        refine h.step _ _ _ hk2 ?_
        exact getTaint_inv _ _ (h.taint_at _ hk2) (valuesOf_closed _ _ hact)
      | value v =>
        refine h.step _ _ _ (PassKeeps.pkRefl _) ?_
        exact addTaintSet_inv _ _ _ (getTaint_inv _ _ h.taint (valuesOf_closed _ _ hact))
          (valuesOf_closed _ _ (valuesOf_closed _ _ (hdestV v rfl)))
          (getTaint_mem_U _ _ h.taint)

theorem plugEntry_loopInv (M : Module) (p : TaintPass) (F : Nat) (inst : Instruction)
    (ic : Bool) (callee : Nat) (args : List Value) (hi : inst ∈ (M.func F).insts)
    (hk : inst.kind = .call ic (some callee) args) (st : AnState)
    (e : SrcOrSink_t × List SrcOrSink_t)
    (he : e.1.callsite = none → ∀ t ∈ e.2, isSummaryScrink t = false →
      t ∈ summarySources p callee)
    (h : LoopInv M p F st) :
    LoopInv M p F (plugEntry F inst.self callee args st e) := by
  unfold plugEntry
  split
  · rename_i hcs
    split
    · exact h
    · rename_i v hv
      have hvV : v ∈ valuesOf (M.func F) := by
        split at hv
        · cases hv
          exact self_mem_valuesOf _ inst hi
        · exact mem_valuesOf_of_inst _ inst hi _ (List.mem_cons_of_mem _ (by
            rw [hk]
            exact getArgOperand_mem _ _ _ hv))
      exact foldl_keeps_mem (LoopInv M p F) _ e.2
        (fun s x hx hs => plugSource_loopInv M p F inst ic callee args hi hk e.1 _
          (fun _ hd => TaintDest.noConfusion hd)
          (fun w hw => by cases hw; exact hvV) s x (fun _ hx2 => he hcs x hx hx2) hs) _ h
  · rename_i hcs
    have hkey := wrapIfWrapper_callsite st.pass callee inst.self e.1 hcs
    have hk2 := (wrapIfWrapper_keeps st.pass callee inst.self e.1).pkTrans
      (updFlow_keeps _ F _ (fun s => s) hkey)
    dsimp only
    refine foldl_keeps_mem (LoopInv M p F) _ e.2
      (fun s x _ hs => plugSource_loopInv M p F inst ic callee args hi hk e.1 _
        (fun key hd => by cases hd; exact hkey)
        (fun w hw => TaintDest.noConfusion hw) s x (fun hc => absurd hc hcs) hs) _ ?_
    exact h.step _ _ _ hk2 (h.taint_at _ hk2)

theorem mem_summarySources (p : TaintPass) (callee : Nat) (e : SrcOrSink_t × List SrcOrSink_t)
    (he : e ∈ summaryOf p callee) (hcs : e.1.callsite = none) (t : SrcOrSink_t) (ht : t ∈ e.2)
    (hns : isSummaryScrink t = false) : t ∈ summarySources p callee := by
  unfold summarySources
  rw [List.mem_flatMap]
  refine ⟨e, List.mem_filter.mpr ⟨he, by simpa using hcs⟩, List.mem_filter.mpr ⟨ht, ?_⟩⟩
  simp [hns]

theorem plugInSummary_loopInv (M : Module) (p : TaintPass) (F : Nat) (inst : Instruction)
    (ic : Bool) (callee : Nat) (args : List Value) (hi : inst ∈ (M.func F).insts)
    (hk : inst.kind = .call ic (some callee) args) (st : AnState) (h : LoopInv M p F st) :
    LoopInv M p F (plugInSummary F inst.self callee args st) := by
  unfold plugInSummary
  dsimp only
  have hk0 := touchSummary_keeps st.pass callee
  have h0 : LoopInv M p F
      ({ st with pass := { st.pass with
          funcFlowsBySink := amUpdate [] (fun summ => summ) st.pass.funcFlowsBySink callee } } :
        AnState) := h.step _ _ _ hk0 (h.taint_at _ hk0)
  refine foldl_keeps_mem (LoopInv M p F) _ _
    (fun s e he hs => plugEntry_loopInv M p F inst ic callee args hi hk s e
      (fun hcs t ht hns => ?_) hs) _ h0
  have he2 : e ∈ summaryOf st.pass callee := by
    rw [getD_amFind_touch] at he
    exact he
  have hpart := h.pass.summaryPart callee
  have hmem : e ∈ summarySinkPart (summaryOf p callee) := by
    rw [← hpart]
    exact List.mem_filter.mpr ⟨he2, by simpa using hcs⟩
  exact mem_summarySources p callee e (List.mem_filter.mp hmem).1 hcs t ht hns

theorem LoopInv.of_grows_pass {M : Module} {p : TaintPass} {F : Nat} {st st2 : AnState}
    (h : LoopInv M p F st) (hk : PassKeeps st.pass st2.pass)
    (hm : st2.taintOfVal = st.taintOfVal) : LoopInv M p F st2 :=
  ⟨h.pass.pkTrans hk, by rw [hm]; exact h.taint_at _ hk⟩

theorem recordSink_loopInv (M : Module) (p : TaintPass) (F : Nat) (C : Value) (callee : Nat)
    (arg : Nat) (v : Value) (hv : v ∈ valuesOf (M.func F)) (auxType : Int) (st : AnState)
    (h : LoopInv M p F st) : LoopInv M p F (recordSink M F C callee arg v auxType st) := by
  have hk := updFlow_keeps st.pass F (siteToken callee arg C auxType)
    (fun _ => (getTaintAsSingleSet st.taintOfVal v).1) (siteToken_callsite _ _ _ _)
  have h1 : LoopInv M p F
      ({ st with
        pass := updFlow st.pass F (siteToken callee arg C auxType)
          (fun _ => (getTaintAsSingleSet st.taintOfVal v).1)
        taintOfVal := (getTaintAsSingleSet st.taintOfVal v).2 } : AnState) :=
    h.step _ _ _ hk (getTaint_inv _ _ (h.taint_at _ hk) (valuesOf_closed _ _ hv))
  unfold recordSink
  dsimp only
  split
  · exact h1.of_grows_pass (noteGvar_grows _ _ _).pass rfl
  · exact h1

theorem recordSinks_loopInv (M : Module) (p : TaintPass) (F : Nat) (C : Value) (callee : Nat)
    (rest : List Value) (hrest : ∀ v ∈ rest, v ∈ valuesOf (M.func F)) (arg : Nat)
    (st : AnState) (h : LoopInv M p F st) :
    LoopInv M p F (recordSinks M F C callee arg rest st) := by
  induction rest generalizing arg st with
  | nil =>
    unfold recordSinks
    exact h
  | cons v rest ih =>
    have h0 : LoopInv M p F (touchSinkCat callee st) :=
      h.of_grows_pass (touchSinkCat_grows callee st).pass rfl
    have hr : ∀ w ∈ rest, w ∈ valuesOf (M.func F) :=
      fun w hw => hrest w (List.mem_cons_of_mem _ hw)
    unfold recordSinks
    dsimp only
    split
    · exact h0
    · split
      · exact ih hr _ _ h0
      · exact ih hr _ _
          (recordSink_loopInv M p F C callee arg v (hrest v (List.mem_cons_self _ _)) _ _ h0)

theorem noteUnknownExt_loopInv (M : Module) (p : TaintPass) (F : Nat) (callee : Nat)
    (st : AnState) (h : LoopInv M p F st) : LoopInv M p F (noteUnknownExt M callee st) := by
  refine h.of_grows_pass (noteUnknownExt_grows M callee st).pass ?_
  unfold noteUnknownExt
  split
  · rfl
  · split <;> rfl

theorem addSourceAt_loopInv (M : Module) (p : TaintPass) (F : Nat) (v : Value)
    (hv : v ∈ valuesOf (M.func F)) (src : SrcOrSink_t) (st : AnState)
    (hsrc : TokenOK M p F st.pass.scrinksInUse src) (h : LoopInv M p F st) :
    LoopInv M p F (addSourceAt M F v src st) := by
  have h1 : LoopInv M p F ({ st with taintOfVal := (addTaint st.taintOfVal v src).2 } : AnState) :=
    h.step _ _ _ (PassKeeps.pkRefl _) (addTaint_inv _ _ _ h.taint (valuesOf_closed _ _ hv) hsrc)
  unfold addSourceAt
  dsimp only
  split
  · split
    · exact h1.of_grows_pass (noteGvar_grows _ _ _).pass rfl
    · exact h1
  · exact h1

theorem injectSource_loopInv (M : Module) (p : TaintPass) (F : Nat) (inst : Instruction)
    (ic : Bool) (callee : Nat) (args : List Value) (hi : inst ∈ (M.func F).insts)
    (hk : inst.kind = .call ic (some callee) args) (st : AnState) (arg : Int)
    (harg : arg ∈ sourceArgs ((amFind p.funcArgSrcCat callee).getD []).length)
    (h : LoopInv M p F st) :
    LoopInv M p F (injectSource M F inst.self callee args st arg) := by
  have h0 : LoopInv M p F (touchSrcCat callee arg st) :=
    h.of_grows_pass (touchSrcCat_grows callee arg st).pass rfl
  have hsrc : TokenOK M p F (touchSrcCat callee arg st).pass.scrinksInUse
      (siteToken callee arg inst.self (srcCat st.pass callee arg)) := by
    rw [srcCat_congr p st.pass h.pass]
    exact tokenOK_source M p F _ inst ic callee args hi hk arg harg
  unfold injectSource
  dsimp only
  split
  · exact h0
  · split
    · exact h0.step _ _ _ (PassKeeps.pkRefl _)
        (addTaint_inv _ _ _ h0.taint (valuesOf_closed _ _ (self_mem_valuesOf _ inst hi)) hsrc)
    · split
      · exact h0
      · rename_i v hv
        exact addSourceAt_loopInv M p F v
          (mem_valuesOf_of_inst _ inst hi _ (List.mem_cons_of_mem _ (by
            rw [hk]
            exact getArgOperand_mem _ _ _ hv))) _ _ hsrc h0

theorem injectSources_loopInv (M : Module) (p : TaintPass) (F : Nat) (inst : Instruction)
    (ic : Bool) (callee : Nat) (args : List Value) (hi : inst ∈ (M.func F).insts)
    (hk : inst.kind = .call ic (some callee) args) (st : AnState) (h : LoopInv M p F st) :
    LoopInv M p F (injectSources M F inst.self callee args st) := by
  unfold injectSources
  rw [h.pass.srcCats]
  exact foldl_keeps_mem (LoopInv M p F) _ _
    (fun s x hx hs => injectSource_loopInv M p F inst ic callee args hi hk s x hx hs) _ h

theorem takeTaint_loopInv (M : Module) (p : TaintPass) (F : Nat) (dest operand : Value)
    (hd : dest ∈ valuesOf (M.func F)) (ho : operand ∈ valuesOf (M.func F)) (st : AnState)
    (h : LoopInv M p F st) : LoopInv M p F (takeTaint dest st operand) := by
  unfold takeTaint
  exact h.step _ _ _ (PassKeeps.pkRefl _)
    (addTaintSet_inv _ _ _ (getTaint_inv _ _ h.taint (valuesOf_closed _ _ ho))
      (valuesOf_closed _ _ (valuesOf_closed _ _ hd)) (getTaint_mem_U _ _ h.taint))

theorem operands_subset_instValues (inst : Instruction) :
    ∀ x ∈ inst.operands, x ∈ instValues inst := by
  intro x hx
  unfold Instruction.operands at hx
  unfold instValues
  cases hk : inst.kind <;> rw [hk] at hx <;> first
    | exact List.mem_cons_of_mem _ hx
    | simp at hx

theorem normalInst_loopInv (M : Module) (p : TaintPass) (F : Nat) (inst : Instruction)
    (hi : inst ∈ (M.func F).insts) (st : AnState) (h : LoopInv M p F st) :
    LoopInv M p F (normalInst inst st) := by
  unfold normalInst
  exact foldl_keeps_mem (LoopInv M p F) _ _
    (fun s x hx hs => takeTaint_loopInv M p F inst.self x (self_mem_valuesOf _ inst hi)
      (mem_valuesOf_of_inst _ inst hi x (operands_subset_instValues inst x hx)) s hs) _ h

theorem foldl_addAlias_inv {U : SrcOrSink_t → Prop} {V K : Value → Prop} (self : Value)
    (hs : K (passThruGep self)) (incoming : List Value)
    (hin : ∀ v ∈ incoming, V (passThruGep v)) (m : AliasedTaintMap) (h : TaintInv U V K m) :
    TaintInv U V K (incoming.foldl (fun m v => addAlias m self v) m) := by
  induction incoming generalizing m with
  | nil => exact h
  | cons v incoming ih =>
    exact ih (fun w hw => hin w (List.mem_cons_of_mem _ hw)) _
      (addAlias_inv m self v h hs (hin v (List.mem_cons_self _ _)))

/-- Processing an instruction of `F` keeps the invariant of the fixpoint loop. -/
theorem analyzeInst_loopInv (M : Module) (p : TaintPass) (F : Nat) (inst : Instruction)
    (hi : inst ∈ (M.func F).insts) (st : AnState) (h : LoopInv M p F st) :
    LoopInv M p F (analyzeInst M F st inst) := by
  unfold analyzeInst
  split
  · exact h
  · exact h
  · rename_i ic callee args hk
    dsimp only
    rw [promoteFilenames_eq]
    have hargs : ∀ v ∈ args, v ∈ valuesOf (M.func F) := fun v hv =>
      mem_valuesOf_of_inst _ inst hi _ (List.mem_cons_of_mem _ (by rw [hk]; exact hv))
    split
    · refine injectSources_loopInv M p F inst ic callee args hi hk _ ?_
      refine noteUnknownExt_loopInv M p F callee _ ?_
      refine recordSinks_loopInv M p F inst.self callee args hargs 0 _ ?_
      split
      · exact plugInSummary_loopInv M p F inst ic callee args hi hk st h
      · exact h
    · exact plugInSummary_loopInv M p F inst ic callee args hi hk st h
  · rename_i value ptr hk
    exact takeTaint_loopInv M p F ptr value
      (mem_valuesOf_of_inst _ inst hi _ (List.mem_cons_of_mem _ (by rw [hk]; simp)))
      (mem_valuesOf_of_inst _ inst hi _ (List.mem_cons_of_mem _ (by rw [hk]; simp))) st h
  · rename_i incoming hk
    refine normalInst_loopInv M p F inst hi _ ?_
    refine h.step _ _ _ (PassKeeps.pkRefl _) ?_
    exact foldl_addAlias_inv inst.self (valuesOf_closed _ _ (self_mem_valuesOf _ inst hi))
      incoming
      (fun v hv => valuesOf_closed _ _
        (mem_valuesOf_of_inst _ inst hi _ (List.mem_cons_of_mem _ (by rw [hk]; exact hv))))
      _ h.taint
  · exact normalInst_loopInv M p F inst hi st h
  · exact normalInst_loopInv M p F inst hi st h

theorem onePass_loopInv (M : Module) (p : TaintPass) (F : Nat) (st : AnState)
    (h : LoopInv M p F st) : LoopInv M p F (onePass M F st) := by
  unfold onePass
  exact foldl_keeps_mem (LoopInv M p F) _ _
    (fun s x hx hs => analyzeInst_loopInv M p F x hx s hs) _ h

/-! ## Termination of the fixpoint loop of `analyzeFunc` -/

theorem tokenOK_mem_universeList (M : Module) (p : TaintPass) (F : Nat)
    (scr : List (SrcOrSink_t × Nat)) (t : SrcOrSink_t) (h : TokenOK M p F scr t) :
    t ∈ universeList M p F scr := by
  unfold universeList
  rcases h with h | ⟨s, hs, a, ha, ht⟩
  · exact List.mem_append_left _ h
  · refine List.mem_append_right _ (List.mem_filterMap.mpr ⟨s, hs, ?_⟩)
    rw [ha, ht]
    rfl

theorem length_universeList_le (M : Module) (p : TaintPass) (F : Nat)
    (scr : List (SrcOrSink_t × Nat)) : (universeList M p F scr).length ≤ tokenBound M p F := by
  unfold universeList tokenBound
  rw [List.length_append]
  exact Nat.add_le_add_left (List.length_filterMap_le _ _) _

theorem sum_le_length_mul (l : List Nat) (c : Nat) (h : ∀ x ∈ l, x ≤ c) :
    l.sum ≤ l.length * c := by
  induction l with
  | nil => simp
  | cons x l ih =>
    simp only [List.sum_cons, List.length_cons]
    have h1 := h x (List.mem_cons_self _ _)
    have h2 := ih (fun y hy => h y (List.mem_cons_of_mem _ hy))
    rw [Nat.add_mul, Nat.one_mul]
    omega

theorem sum_lengths_le {K T : Type} [DecidableEq K] (m : List (K × List T)) (Vl : List K)
    (c : Nat) (hnd : (m.map Prod.fst).Nodup) (hk : ∀ e ∈ m, e.1 ∈ Vl)
    (hc : ∀ e ∈ m, e.2.length ≤ c) : (m.map (fun e => e.2.length)).sum ≤ Vl.length * c := by
  have h1 : (m.map (fun e => e.2.length)).sum ≤ (m.map (fun e => e.2.length)).length * c :=
    sum_le_length_mul _ c (fun x hx => by
      obtain ⟨e, he, rfl⟩ := List.mem_map.mp hx
      exact hc e he)
  have h2 : (m.map Prod.fst).length ≤ Vl.length :=
    (List.Nodup.subperm hnd (fun k hk2 => by
      obtain ⟨e, he, rfl⟩ := List.mem_map.mp hk2
      exact hk e he)).length_le
  rw [List.length_map] at h1 h2
  exact le_trans h1 (Nat.mul_le_mul_right c h2)

/-- Under the invariant `calcSize()` stays below the bound from which `analyzeFuel` is
computed. -/
theorem calcSize_le_of_loopInv (M : Module) (p : TaintPass) (F : Nat) (st : AnState)
    (h : LoopInv M p F st) :
    calcSize st.taintOfVal
      ≤ (valuesOf (M.func F)).length * (tokenBound M p F + (valuesOf (M.func F)).length) := by
  unfold calcSize
  rw [Nat.mul_add]
  refine Nat.add_le_add ?_ ?_
  · refine sum_lengths_le _ _ _ h.taint.base_nodup h.taint.base_keys (fun e he => ?_)
    have hsub := h.taint.base_sets e he
    exact le_trans
      (List.Nodup.subperm hsub.1
        (fun t ht => tokenOK_mem_universeList M p F _ t (hsub.2 t ht))).length_le
      (length_universeList_le M p F _)
  · refine sum_lengths_le _ _ _ h.taint.alias_nodup h.taint.alias_keys (fun e he => ?_)
    have hsub := h.taint.alias_sets e he
    exact (List.Nodup.subperm hsub.1 hsub.2).length_le

theorem fixLoop_stable (M : Module) (p : TaintPass) (F : Nat) (n : Nat) (st : AnState)
    (h : LoopInv M p F st)
    (hn : (valuesOf (M.func F)).length * (tokenBound M p F + (valuesOf (M.func F)).length) + 1
      ≤ calcSize st.taintOfVal + n) (k : Nat) :
    fixLoop M F (n + k) st = fixLoop M F n st := by
  induction n generalizing st with
  | zero =>
    have := calcSize_le_of_loopInv M p F st h
    omega
  | succ n ih =>
    have e : n + 1 + k = (n + k) + 1 := by omega
    rw [e]
    unfold fixLoop
    dsimp only
    by_cases hc : calcSize st.taintOfVal = calcSize (onePass M F st).taintOfVal
    · rw [if_pos hc, if_pos hc]
    · rw [if_neg hc, if_neg hc]
      have hg := (onePass_grows M F st).taint.size
      exact ih (onePass M F st) (onePass_loopInv M p F st h) (by omega)

theorem seedArgs_inv {U : SrcOrSink_t → Prop} {V K : Value → Prop} (F : Nat)
    (rest : List Value) (ix : Nat) (hV : ∀ a ∈ rest, V (passThruGep a))
    (hU : ∀ j, j < rest.length → U (sumToken F ((ix + j : Nat) : Int))) (m : AliasedTaintMap)
    (h : TaintInv U V K m) : TaintInv U V K (seedArgs F (ix : Int) rest m) := by
  induction rest generalizing ix m with
  | nil => exact h
  | cons a rest ih =>
    unfold seedArgs
    have e : ((ix : Int) + 1) = ((ix + 1 : Nat) : Int) := by push_cast; rfl
    rw [e]
    refine ih (ix + 1) (fun b hb => hV b (List.mem_cons_of_mem _ hb)) (fun j hj => ?_) _
      (addTaint_inv m a _ h (hV a (List.mem_cons_self _ _)) (by
        have := hU 0 (by simp)
        simpa using this))
    have := hU (j + 1) (by simp; omega)
    have e2 : ix + (j + 1) = ix + 1 + j := by omega
    rw [e2] at this
    exact this

/-- The state in which `analyzeFunc` enters its fixpoint loop satisfies the invariant. -/
theorem loopInv_start (M : Module) (p : TaintPass) (F : Nat) :
    LoopInv M p F
      { pass := { p with funcFlowsBySink := amUpdate [] (fun summ => summ) p.funcFlowsBySink F }
        taintOfVal :=
          seedArgs F 0 (M.func F).args
            { globalSrcTaintSet := p.globalSrcTaintSet, baseTaintOf := [], aliasesOf := [] }
        gvarSet := [] } := by
  refine ⟨touchSummary_keeps p F, ?_⟩
  have h := seedArgs_inv (U := TokenOK M p F p.scrinksInUse)
    (V := fun v => v ∈ valuesOf (M.func F)) (K := fun v => v ∈ valuesOf (M.func F)) F
    (M.func F).args 0
    (fun a ha => valuesOf_closed _ _ (mem_valuesOf_of_arg _ a ha))
    (fun j hj => by
      rw [Nat.zero_add]
      exact tokenOK_seed M p F _ j hj)
    { globalSrcTaintSet := p.globalSrcTaintSet, baseTaintOf := [], aliasesOf := [] }
    ⟨List.nodup_nil, fun e he => by simp at he, fun e he => by simp at he,
      fun e he t ht => tokenOK_global M p F _ e he t ht, List.nodup_nil,
      fun e he => by simp at he, fun e he => by simp at he⟩
  exact h

/-- The fixpoint loop of `analyzeFunc` terminates: with the passes `analyzeFuel` grants, the
loop is left through its size test, so that granting more passes changes nothing. -/
theorem fixLoop_terminates (M : Module) (p : TaintPass) (F : Nat) (k : Nat) :
    analyzeBody (analyzeFuel M p F + k) M p F = analyzeBody (analyzeFuel M p F) M p F := by
  unfold analyzeBody
  exact fixLoop_stable M p F _ _ (loopInv_start M p F) (by unfold analyzeFuel; omega) k

/-! ## Return aggregation (claim C16) -/

theorem returnTaint_spec (insts : List Instruction)
    (acc : List SrcOrSink_t × AliasedTaintMap) :
    SameReads acc.2 (returnTaint insts acc).2
      ∧ ∀ t, t ∈ (returnTaint insts acc).1
          ↔ t ∈ acc.1 ∨ ∃ inst ∈ insts, ∃ v, inst.kind = .ret (some v)
              ∧ t ∈ (getTaintAsSingleSet acc.2 v).1 := by
  induction insts generalizing acc with
  | nil =>
    unfold returnTaint
    exact ⟨SameReads.srRefl _, fun t => by simp⟩
  | cons inst insts ih =>
    unfold returnTaint
    split
    · rename_i retVal hk
      have h := ih (extendWith acc.1 (getTaintAsSingleSet acc.2 retVal).1,
        (getTaintAsSingleSet acc.2 retVal).2)
      have hsr := getTaint_sameReads acc.2 retVal
      refine ⟨hsr.srTrans h.1, fun t => ?_⟩
      rw [h.2 t, mem_extendWith_iff]
      constructor
      · rintro ((h1 | h1) | ⟨i, hi, v, hv, ht⟩)
        · exact Or.inl h1
        · exact Or.inr ⟨inst, List.mem_cons_self _ _, retVal, hk, h1⟩
        · refine Or.inr ⟨i, List.mem_cons_of_mem _ hi, v, hv, ?_⟩
          rw [← getTaint_fst_congr hsr]
          exact ht
      · rintro (h1 | ⟨i, hi, v, hv, ht⟩)
        · exact Or.inl (Or.inl h1)
        · rcases List.mem_cons.mp hi with rfl | hi
          · rw [hk] at hv
            cases hv
            exact Or.inl (Or.inr ht)
          · refine Or.inr ⟨i, hi, v, hv, ?_⟩
            rw [getTaint_fst_congr hsr]
            exact ht
    · rename_i hk
      have h := ih acc
      refine ⟨h.1, fun t => ?_⟩
      rw [h.2 t]
      constructor
      · rintro (h1 | ⟨i, hi, v, hv, ht⟩)
        · exact Or.inl h1
        · exact Or.inr ⟨i, List.mem_cons_of_mem _ hi, v, hv, ht⟩
      · rintro (h1 | ⟨i, hi, v, hv, ht⟩)
        · exact Or.inl h1
        · rcases List.mem_cons.mp hi with rfl | hi
          · exact absurd hv (hk v)
          · exact Or.inr ⟨i, hi, v, hv, ht⟩

theorem sumToken_inj (F : Nat) (a b : Int) (h : sumToken F a = sumToken F b) : a = b := by
  have := congrArg SrcOrSink_t.ixArg h
  exact this

theorem argSinks_spec (F : Nat) (rest : List Value) (ix : Nat)
    (acc : TaintPass × AliasedTaintMap) :
    SameReads acc.2 (argSinks F ix rest acc).2
      ∧ (∀ (j : Nat) (a : Value), rest[j]? = some a →
          flowsOf (argSinks F ix rest acc).1 F (sumToken F ((ix + j : Nat) : Int))
            = (getTaintAsSingleSet acc.2 a).1)
      ∧ ∀ (f : Nat) (key : SrcOrSink_t),
          (f = F → ∀ j : Nat, j < rest.length → key ≠ sumToken F ((ix + j : Nat) : Int)) →
          flowsOf (argSinks F ix rest acc).1 f key = flowsOf acc.1 f key := by
  induction rest generalizing ix acc with
  | nil =>
    unfold argSinks
    exact ⟨SameReads.srRefl _, fun j a h => by simp at h, fun _ _ _ => rfl⟩
  | cons a rest ih =>
    unfold argSinks
    dsimp only
    have h := ih (ix + 1)
      (updFlow acc.1 F (sumToken F (ix : Int)) (fun _ => (getTaintAsSingleSet acc.2 a).1),
        (getTaintAsSingleSet acc.2 a).2)
    have hsr := getTaint_sameReads acc.2 a
    have shift : ∀ j : Nat, ix + 1 + j = ix + (j + 1) := fun j => by omega
    refine ⟨hsr.srTrans h.1, fun j b hj => ?_, fun f key hkey => ?_⟩
    · cases j with
      | zero =>
        simp only [List.getElem?_cons_zero, Option.some.injEq] at hj
        subst hj
        rw [Nat.add_zero, h.2.2 F _ (fun _ j hj heq => ?_), flowsOf_updFlow]
        · simp
        · have := sumToken_inj F _ _ heq
          omega
      | succ j =>
        have := h.2.1 j b (by simpa using hj)
        rw [shift, getTaint_fst_congr hsr] at this
        exact this
    · rw [h.2.2 f key (fun hf j hj => by
        rw [shift]
        exact hkey hf (j + 1) (by simp; omega)), flowsOf_updFlow]
      split
      · rename_i hc
        have := hkey hc.1 0 (by simp)
        rw [Nat.add_zero] at this
        exact absurd hc.2 this
      · rfl

theorem analyzeFuncWith_flows (fuel : Nat) (M : Module) (p : TaintPass) (F : Nat) :
    (analyzeFuncWith fuel M p F).funcFlowsBySink
      = (summarize M F (analyzeBody fuel M p F).pass
          (analyzeBody fuel M p F).taintOfVal).1.funcFlowsBySink := by
  unfold analyzeFuncWith
  dsimp only
  split <;> rfl

theorem flowsOf_congr (p q : TaintPass) (h : q.funcFlowsBySink = p.funcFlowsBySink) (f : Nat)
    (key : SrcOrSink_t) : flowsOf q f key = flowsOf p f key := by
  unfold flowsOf
  rw [h]

/-- What `summarize` writes: the union of the taint of the returned values under the
summary sink of the return value, and the taint of each parameter under its summary sink. -/
theorem summarize_spec (M : Module) (F : Nat) (p : TaintPass) (m : AliasedTaintMap) :
    (∀ t, t ∈ flowsOf (summarize M F p m).1 F (sumToken F RETVAL_CODE)
        ↔ ∃ inst ∈ (M.func F).insts, ∃ r, inst.kind = .ret (some r)
            ∧ t ∈ (getTaintAsSingleSet m r).1)
      ∧ ∀ (i : Nat) (a : Value), (M.func F).args[i]? = some a →
          flowsOf (summarize M F p m).1 F (sumToken F (i : Int)) = (getTaintAsSingleSet m a).1 := by
  unfold summarize
  dsimp only
  have hr := returnTaint_spec (M.func F).insts ([], m)
  have ha := argSinks_spec F (M.func F).args 0
    (updFlow p F (sumToken F RETVAL_CODE)
        (fun _ => (returnTaint (M.func F).insts ([], m)).1),
      (returnTaint (M.func F).insts ([], m)).2)
  refine ⟨fun t => ?_, fun i a hi => ?_⟩
  · rw [ha.2.2 F _ (fun _ j _ heq => by
      have := sumToken_inj F _ _ heq
      unfold RETVAL_CODE at this
      omega), flowsOf_updFlow, if_pos ⟨rfl, rfl⟩, hr.2 t]
    simp
  · have := ha.2.1 i a hi
    rw [Nat.zero_add, getTaint_fst_congr hr.1] at this
    exact this

/-- Claim C16: after `analyzeFunc(F)` the summary entry of the summary sink `(F, -1, null)`
holds exactly the tokens of `get_taint(r)` for the returned values `r` of the return
instructions of `F`, read in the final taint map, and for every parameter index `i` the
entry of `(F, i, null)` is `get_taint(param_i)` in the final taint map; the final taint map
is the one in which the fixpoint loop is left through its size test, which happens within
the passes granted. -/
theorem C16_return_aggregation (M : Module) (p : TaintPass) (F : Nat) :
    (∀ t, t ∈ flowsOf (analyzeFunc M p F) F (sumToken F RETVAL_CODE)
        ↔ ∃ inst ∈ (M.func F).insts, ∃ r, inst.kind = .ret (some r)
            ∧ t ∈ (getTaintAsSingleSet
                (analyzeBody (analyzeFuel M p F) M p F).taintOfVal r).1)
      ∧ (∀ (i : Nat) (a : Value), (M.func F).args[i]? = some a →
          flowsOf (analyzeFunc M p F) F (sumToken F (i : Int))
            = (getTaintAsSingleSet (analyzeBody (analyzeFuel M p F) M p F).taintOfVal a).1)
      ∧ ∀ k : Nat,
          analyzeBody (analyzeFuel M p F + k) M p F = analyzeBody (analyzeFuel M p F) M p F := by
  have hs := summarize_spec M F (analyzeBody (analyzeFuel M p F) M p F).pass
    (analyzeBody (analyzeFuel M p F) M p F).taintOfVal
  have hf := analyzeFuncWith_flows (analyzeFuel M p F) M p F
  refine ⟨fun t => ?_, fun i a hi => ?_, fixLoop_terminates M p F⟩
  · rw [← hs.1 t]
    unfold analyzeFunc
    rw [flowsOf_congr _ _ hf]
  · rw [← hs.2 i a hi]
    unfold analyzeFunc
    rw [flowsOf_congr _ _ hf]

/-! ## Scenario S3 on its module -/

/-- Scenario S3 on its module, evaluated: after `analyzeFunc` on `f`, and likewise when
the worklist of the driver has drained, the summary entry of `f` for the concrete sink
(argument 0 of the call `sendout(y)`) contains the concrete source token of the call `s` of
`getsecret` (its return value). -/
theorem s3Module_driver_flow :
    siteToken 0 (-1) (.other 4) 1
        ∈ flowsOf (analyzeFunc s3Module s3Pass 2) 2 (siteToken 1 0 (.other 7) 1)
      ∧ (driverLoop s3Module 5 (startWorkList s3Module s3Pass)).funcWorkList.workList = []
      ∧ siteToken 0 (-1) (.other 4) 1
        ∈ flowsOf (driverLoop s3Module 5 (startWorkList s3Module s3Pass)) 2
            (siteToken 1 0 (.other 7) 1) := by
  decide

/-! ## Alias sets belong to phi instructions; summary entries under `plugInSummary` -/

theorem takeTaint_aliasesOf (dest : Value) (st : AnState) (operand : Value) :
    (takeTaint dest st operand).taintOfVal.aliasesOf = st.taintOfVal.aliasesOf := by
  unfold takeTaint
  exact (addTaintSet_aliasesOf _ _ _).trans (getTaint_aliasesOf _ _)

theorem normalInst_aliasesOf (inst : Instruction) (st : AnState) :
    (normalInst inst st).taintOfVal.aliasesOf = st.taintOfVal.aliasesOf := by
  unfold normalInst
  refine foldl_keeps (fun s => s.taintOfVal.aliasesOf = st.taintOfVal.aliasesOf) _
    (fun s x h => (takeTaint_aliasesOf _ s x).trans h) _ _ ?_
  rfl

theorem recordSink_aliasesOf (M : Module) (G : Nat) (C : Value) (F : Nat) (arg : Nat)
    (v : Value) (auxType : Int) (st : AnState) :
    (recordSink M G C F arg v auxType st).taintOfVal.aliasesOf = st.taintOfVal.aliasesOf := by
  rw [recordSink_taintOfVal]
  exact getTaint_aliasesOf _ _

theorem recordSinks_aliasesOf (M : Module) (G : Nat) (C : Value) (F : Nat) (rest : List Value)
    (arg : Nat) (st : AnState) :
    (recordSinks M G C F arg rest st).taintOfVal.aliasesOf = st.taintOfVal.aliasesOf := by
  induction rest generalizing arg st with
  | nil =>
    unfold recordSinks
    rfl
  | cons v rest ih =>
    unfold recordSinks
    dsimp only
    split
    · rfl
    · split
      · exact ih _ _
      · exact (ih _ _).trans (recordSink_aliasesOf _ _ _ _ _ _ _ _)

theorem noteUnknownExt_taintOfVal (M : Module) (callee : Nat) (st : AnState) :
    (noteUnknownExt M callee st).taintOfVal = st.taintOfVal := by
  unfold noteUnknownExt
  split
  · rfl
  · split <;> rfl

theorem addSourceAt_aliasesOf (M : Module) (caller : Nat) (v : Value) (src : SrcOrSink_t)
    (st : AnState) :
    (addSourceAt M caller v src st).taintOfVal.aliasesOf = st.taintOfVal.aliasesOf := by
  unfold addSourceAt
  dsimp only
  split
  · split <;> exact addTaint_aliasesOf _ _ _
  · exact addTaint_aliasesOf _ _ _

theorem injectSource_aliasesOf (M : Module) (caller : Nat) (callsite : Value) (callee : Nat)
    (args : List Value) (st : AnState) (arg : Int) :
    (injectSource M caller callsite callee args st arg).taintOfVal.aliasesOf
      = st.taintOfVal.aliasesOf := by
  unfold injectSource
  dsimp only
  split
  · rfl
  · split
    · exact addTaint_aliasesOf _ _ _
    · split
      · rfl
      · exact addSourceAt_aliasesOf _ _ _ _ _

theorem injectSources_aliasesOf (M : Module) (caller : Nat) (callsite : Value) (callee : Nat)
    (args : List Value) (st : AnState) :
    (injectSources M caller callsite callee args st).taintOfVal.aliasesOf
      = st.taintOfVal.aliasesOf := by
  unfold injectSources
  refine foldl_keeps (fun s => s.taintOfVal.aliasesOf = st.taintOfVal.aliasesOf) _
    (fun s x h => (injectSource_aliasesOf _ _ _ _ _ s x).trans h) _ _ ?_
  rfl

theorem foldl_addAlias_keys (self : Value) (incoming : List Value) (m : AliasedTaintMap)
    (key : Value) (l : List Value)
    (h : amFind (incoming.foldl (fun m v => addAlias m self v) m).aliasesOf key = some l) :
    key = passThruGep self ∨ ∃ l0, amFind m.aliasesOf key = some l0 := by
  induction incoming generalizing m with
  | nil => exact Or.inr ⟨l, h⟩
  | cons v incoming ih =>
    rw [List.foldl_cons] at h
    rcases ih _ h with h1 | ⟨l0, h1⟩
    · exact Or.inl h1
    · by_cases hk : passThruGep self = key
      · exact Or.inl hk.symm
      · unfold addAlias at h1
        dsimp only at h1
        rw [amFind_amUpdate_other _ _ _ _ _ hk] at h1
        exact Or.inr ⟨l0, h1⟩

/-- Processing an instruction of the function records alias sets for phi instructions
only. -/
theorem analyzeInst_aliasKeys (M : Module) (F : Nat) (inst : Instruction)
    (hi : inst ∈ (M.func F).insts) (st : AnState) (h : AliasKeysOK (M.func F) st.taintOfVal) :
    AliasKeysOK (M.func F) (analyzeInst M F st inst).taintOfVal := by
  have keep : ∀ st2 : AnState, st2.taintOfVal.aliasesOf = st.taintOfVal.aliasesOf →
      AliasKeysOK (M.func F) st2.taintOfVal := by
    intro st2 h2 key l hl
    rw [h2] at hl
    exact h key l hl
  unfold analyzeInst
  split
  · exact h
  · exact h
  · dsimp only
    rw [promoteFilenames_eq]
    split
    · refine keep _ ?_
      rw [injectSources_aliasesOf, noteUnknownExt_taintOfVal, recordSinks_aliasesOf]
      split
      · exact plugInSummary_aliasesOf _ _ _ _ _
      · rfl
    · exact keep _ (plugInSummary_aliasesOf _ _ _ _ _)
  · exact keep _ (takeTaint_aliasesOf _ _ _)
  · rename_i incoming hk
    intro key l hl
    rw [normalInst_aliasesOf] at hl
    rcases foldl_addAlias_keys inst.self incoming st.taintOfVal key l hl with h1 | ⟨l0, h1⟩
    · unfold isPhiKey
      exact List.any_eq_true.mpr ⟨inst, hi, by rw [hk]; simp [h1]⟩
    · exact h key l0 h1
  · exact keep _ (normalInst_aliasesOf _ _)
  · exact keep _ (normalInst_aliasesOf _ _)

theorem FlowsGrow.fgRefl (p : TaintPass) : FlowsGrow p p := fun _ _ _ h => h

theorem FlowsGrow.fgTrans {p q r : TaintPass} (h1 : FlowsGrow p q) (h2 : FlowsGrow q r) :
    FlowsGrow p r := fun f key t h => h2 f key t (h1 f key t h)

theorem updFlow_flowsGrow (p : TaintPass) (f : Nat) (key : SrcOrSink_t)
    (g : List SrcOrSink_t → List SrcOrSink_t) (hg : ∀ s t, t ∈ s → t ∈ g s) :
    FlowsGrow p (updFlow p f key g) := by
  intro f2 key2 t ht
  rw [flowsOf_updFlow]
  split
  · rename_i hc
    rw [hc.1, hc.2] at ht
    exact hg _ t ht
  · exact ht

theorem storeScrink_flows (p : TaintPass) (tok : SrcOrSink_t) :
    (storeScrink p tok).2.funcFlowsBySink = p.funcFlowsBySink := by
  unfold storeScrink
  split <;> rfl

theorem wrapIfWrapper_flows (p : TaintPass) (callee : Nat) (callsite : Value)
    (tok : SrcOrSink_t) :
    (wrapIfWrapper p callee callsite tok).2.funcFlowsBySink = p.funcFlowsBySink := by
  unfold wrapIfWrapper
  split
  · exact storeScrink_flows p tok
  · rfl

theorem FlowsGrow.of_eq {p q : TaintPass} (h : q.funcFlowsBySink = p.funcFlowsBySink) :
    FlowsGrow p q := fun f key t ht => by rw [flowsOf_congr p q h]; exact ht

theorem plugSource_flowsGrow (caller : Nat) (callsite : Value) (callee : Nat)
    (args : List Value) (sumSink : SrcOrSink_t) (dest : TaintDest) (st : AnState)
    (sumSrc : SrcOrSink_t) :
    FlowsGrow st.pass (plugSource caller callsite callee args sumSink dest st sumSrc).pass := by
  unfold plugSource
  split
  · split
    · exact FlowsGrow.fgRefl _
    · cases dest with
      | flow key =>
        exact (FlowsGrow.of_eq (wrapIfWrapper_flows _ _ _ _)).fgTrans
          (updFlow_flowsGrow _ _ _ _ (fun s t ht => mem_setInsert_of_mem _ _ _ ht))
      | value v => exact FlowsGrow.of_eq (wrapIfWrapper_flows _ _ _ _)
  · split
    · exact FlowsGrow.fgRefl _
    · cases dest with
      | flow key =>
        exact updFlow_flowsGrow _ _ _ _
          (fun s t ht => (mem_extendWith_iff _ _ _).mpr (Or.inl ht))
      | value v => exact FlowsGrow.fgRefl _

theorem plugEntry_flowsGrow (caller : Nat) (callsite : Value) (callee : Nat)
    (args : List Value) (st : AnState) (e : SrcOrSink_t × List SrcOrSink_t) :
    FlowsGrow st.pass (plugEntry caller callsite callee args st e).pass := by
  unfold plugEntry
  split
  · split
    · exact FlowsGrow.fgRefl _
    · refine foldl_keeps (fun s => FlowsGrow st.pass s.pass) _
        (fun s x h => h.fgTrans (plugSource_flowsGrow _ _ _ _ _ _ s x)) _ _ ?_
      exact FlowsGrow.fgRefl _
  · dsimp only
    refine foldl_keeps (fun s => FlowsGrow st.pass s.pass) _
      (fun s x h => h.fgTrans (plugSource_flowsGrow _ _ _ _ _ _ s x)) _ _ ?_
    exact (FlowsGrow.of_eq (wrapIfWrapper_flows _ _ _ _)).fgTrans
      (updFlow_flowsGrow _ _ _ _ (fun s t ht => ht))

/-- `plugInSummary` removes no token from any summary entry. -/
theorem plugInSummary_flowsGrow (caller : Nat) (callsite : Value) (callee : Nat)
    (args : List Value) (st : AnState) :
    FlowsGrow st.pass (plugInSummary caller callsite callee args st).pass := by
  unfold plugInSummary
  dsimp only
  refine foldl_keeps (fun s => FlowsGrow st.pass s.pass) _
    (fun s x h => h.fgTrans (plugEntry_flowsGrow _ _ _ _ s x)) _ _ ?_
  intro f key t ht
  unfold flowsOf at ht ⊢
  dsimp only
  rw [getD_amFind_touch]
  exact ht

/-! ## The steps of scenario S3 -/

theorem foldl_addAlias_mem (self : Value) (incoming : List Value) (m : AliasedTaintMap)
    (b : Value) (hb : b ∈ incoming) :
    ∃ l, amFind (incoming.foldl (fun m v => addAlias m self v) m).aliasesOf (passThruGep self)
        = some l ∧ passThruGep b ∈ l := by
  induction incoming generalizing m with
  | nil => simp at hb
  | cons v incoming ih =>
    rw [List.foldl_cons]
    rcases List.mem_cons.mp hb with rfl | hmem
    · have h1 : amFind (addAlias m self b).aliasesOf (passThruGep self)
          = some (setInsert ((amFind m.aliasesOf (passThruGep self)).getD [])
              (passThruGep b)) := by
        unfold addAlias
        dsimp only
        rw [amFind_amUpdate_self]
      obtain ⟨l2, h2, h3⟩ := (foldl_addAlias_grows self incoming (addAlias m self b)).aliases
        _ _ h1
      exact ⟨l2, h2, h3 _ (mem_setInsert_self _ _)⟩
    · exact ih _ hmem

/-- A phi instruction records each incoming value, behind its GEP, as a base of the phi. -/
theorem analyzeInst_phi_alias (M : Module) (F : Nat) (st : AnState) (x : Value)
    (incoming : List Value) (b : Value) (hb : b ∈ incoming) :
    ∃ l, amFind (analyzeInst M F st ⟨x, .phi incoming⟩).taintOfVal.aliasesOf (passThruGep x)
        = some l ∧ passThruGep b ∈ l := by
  unfold analyzeInst
  dsimp only
  rw [normalInst_aliasesOf]
  exact foldl_addAlias_mem x incoming st.taintOfVal b hb

theorem atSinkLoop_grows (M : Module) (G : Nat) (st : AnState) (C : Value) (F : Nat)
    (args : List Value) : AnGrows st (atSinkLoop M G st C F args) := by
  unfold atSinkLoop
  rw [promoteFilenames_eq]
  split
  · exact plugInSummary_grows _ _ _ _ _
  · exact AnGrows.anRefl _

theorem atSinkLoop_aliasesOf (M : Module) (G : Nat) (st : AnState) (C : Value) (F : Nat)
    (args : List Value) :
    (atSinkLoop M G st C F args).taintOfVal.aliasesOf = st.taintOfVal.aliasesOf := by
  unfold atSinkLoop
  rw [promoteFilenames_eq]
  split
  · exact plugInSummary_aliasesOf _ _ _ _ _
  · rfl

theorem atSinkLoop_flowsGrow (M : Module) (G : Nat) (st : AnState) (C : Value) (F : Nat)
    (args : List Value) : FlowsGrow st.pass (atSinkLoop M G st C F args).pass := by
  unfold atSinkLoop
  rw [promoteFilenames_eq]
  split
  · exact plugInSummary_flowsGrow _ _ _ _ _
  · exact FlowsGrow.fgRefl _

theorem taintTargets_of_none (m : AliasedTaintMap) (v : Value)
    (h : amFind m.aliasesOf (passThruGep v) = none) : taintTargets m v = [passThruGep v] := by
  unfold taintTargets
  rw [h]

theorem taintTargets_of_some (m : AliasedTaintMap) (v : Value) (l : List Value)
    (h : amFind m.aliasesOf (passThruGep v) = some l) : taintTargets m v = l := by
  unfold taintTargets
  rw [h]

/-- The first round of the source loop taints the call with the source token of its return
value. -/
theorem injectSources_ret (M : Module) (caller : Nat) (s : Value) (E : Nat)
    (args : List Value) (st : AnState) (hcat : srcCat st.pass E RETVAL_CODE ≠ AUX_TYPE_NULL)
    (hs : passThruGep s = s) (hsg : isGlobalVariable s = false)
    (hna : amFind st.taintOfVal.aliasesOf s = none) :
    siteToken E RETVAL_CODE s (srcCat st.pass E RETVAL_CODE)
      ∈ readTaint false (injectSources M caller s E args st).taintOfVal s := by
  unfold injectSources sourceArgs
  rw [List.range_succ_eq_map, List.map_cons, List.foldl_cons]
  refine (foldl_AnGrows _ (fun st2 x => injectSource_grows M caller s E args st2 x) _ _).taint.reads
    false s _ ?_
  have h0 : ((0 : Nat) : Int) - 1 = RETVAL_CODE := by unfold RETVAL_CODE; rfl
  rw [h0]
  unfold injectSource
  dsimp only
  rw [if_neg hcat, if_pos rfl]
  dsimp only
  rw [mem_readTaint_addTaint]
  refine Or.inr ⟨?_, ?_, ?_, rfl⟩
  · simp [dropsToken, usesGlobalTable, hs, hsg]
  · simp [usesGlobalTable, hs, hsg]
  · rw [taintTargets_of_none _ _ (by rw [hs]; exact hna), hs]
    exact List.mem_singleton_self _

/-- A call to a declared function whose return value is a source taints the call with the
source token. -/
theorem analyzeInst_source_ret (M : Module) (F : Nat) (st : AnState) (s : Value) (ic : Bool)
    (E : Nat) (args : List Value) (hE : (M.func E).isDeclaration = true)
    (hcat : srcCat st.pass E RETVAL_CODE ≠ AUX_TYPE_NULL)
    (hs : passThruGep s = s) (hsg : isGlobalVariable s = false)
    (hna : amFind st.taintOfVal.aliasesOf s = none) :
    siteToken E RETVAL_CODE s (srcCat st.pass E RETVAL_CODE)
      ∈ readTaint false (analyzeInst M F st ⟨s, .call ic (some E) args⟩).taintOfVal s := by
  rw [analyzeInst_declared M F st s ic E args hE]
  have hg : AnGrows st (noteUnknownExt M E (recordSinks M F s E 0 args
      (atSinkLoop M F st s E args))) :=
    ((atSinkLoop_grows M F st s E args).anTrans (recordSinks_grows _ _ _ _ _ _ _)).anTrans
      (noteUnknownExt_grows _ _ _)
  have hc := srcCat_congr _ _ hg.pass E RETVAL_CODE
  rw [← hc]
  refine injectSources_ret M F s E args _ (by rw [hc]; exact hcat) hs hsg ?_
  rw [noteUnknownExt_taintOfVal, recordSinks_aliasesOf, atSinkLoop_aliasesOf]
  exact hna

theorem mem_readTaint_addTaintSet (m : AliasedTaintMap) (v : Value) (S : List SrcOrSink_t)
    (hglob : isGlobalVariable (passThruGep (passThruGep v)) = false) (tok : SrcOrSink_t)
    (htok : tok ∈ S) (b : Value) (hb : b ∈ taintTargets m (passThruGep v)) :
    tok ∈ readTaint false (addTaintSet m v S).2 b :=
  addTaintSet_fold_mem (passThruGep v) hglob S (false, m) tok htok b hb

/-- The statement `addTaintSet(dest, getTaintAsSingleSet(operand))` puts every token of the
operand at every target location of `dest`, when `dest` is no global variable. -/
theorem takeTaint_mem (dest : Value) (st : AnState) (operand : Value) (tok : SrcOrSink_t)
    (htok : tok ∈ (getTaintAsSingleSet st.taintOfVal operand).1)
    (hglob : isGlobalVariable (passThruGep (passThruGep dest)) = false) (b : Value)
    (hb : b ∈ taintTargets st.taintOfVal (passThruGep dest)) :
    tok ∈ readTaint false (takeTaint dest st operand).taintOfVal b := by
  unfold takeTaint
  dsimp only
  refine mem_readTaint_addTaintSet _ dest _ hglob tok htok b ?_
  rw [taintTargets_congr _ _ (getTaint_aliasesOf _ _)]
  exact hb

theorem mem_getTaint_of_read (m : AliasedTaintMap) (v : Value) (tok : SrcOrSink_t)
    (hg : isGlobalVariable (passThruGep v) = false)
    (hna : amFind m.aliasesOf (passThruGep v) = none)
    (h : tok ∈ readTaint false m (passThruGep v)) : tok ∈ (getTaintAsSingleSet m v).1 := by
  rw [mem_getTaint, hg, taintTargets_of_none m v hna]
  exact ⟨_, List.mem_singleton_self _, h⟩

/-- The instruction `store s, x` puts the taint of `s` at every base of `x`. -/
theorem analyzeInst_store_alias (M : Module) (F : Nat) (st : AnState) (w s x b : Value)
    (l : List Value) (tok : SrcOrSink_t) (hx : passThruGep x = x)
    (hxg : isGlobalVariable x = false) (hs : passThruGep s = s)
    (hsg : isGlobalVariable s = false) (hna : amFind st.taintOfVal.aliasesOf s = none)
    (hal : amFind st.taintOfVal.aliasesOf x = some l) (hb : b ∈ l)
    (htok : tok ∈ readTaint false st.taintOfVal s) :
    tok ∈ readTaint false (analyzeInst M F st ⟨w, .store s x⟩).taintOfVal b := by
  unfold analyzeInst
  dsimp only
  refine takeTaint_mem x st s tok ?_ (by rw [hx, hx]; exact hxg) b ?_
  · exact mem_getTaint_of_read _ _ _ (by rw [hs]; exact hsg) (by rw [hs]; exact hna)
      (by rw [hs]; exact htok)
  · rw [taintTargets_of_some _ _ l (by rw [hx, hx]; exact hal)]
    exact hb

/-- The instruction `y = load p` puts the taint of the location `p` on `y`. -/
theorem analyzeInst_load (M : Module) (F : Nat) (st : AnState) (y p1 : Value)
    (tok : SrcOrSink_t) (hy : passThruGep y = y) (hyg : isGlobalVariable y = false)
    (hnay : amFind st.taintOfVal.aliasesOf y = none)
    (hpg : isGlobalVariable (passThruGep p1) = false)
    (hnap : amFind st.taintOfVal.aliasesOf (passThruGep p1) = none)
    (htok : tok ∈ readTaint false st.taintOfVal (passThruGep p1)) :
    tok ∈ readTaint false (analyzeInst M F st ⟨y, .other [p1]⟩).taintOfVal y := by
  unfold analyzeInst normalInst Instruction.operands
  dsimp only
  rw [List.foldl_cons, List.foldl_nil]
  refine takeTaint_mem y st p1 tok (mem_getTaint_of_read _ _ _ hpg hnap htok)
    (by rw [hy, hy]; exact hyg) y ?_
  rw [taintTargets_of_none _ _ (by rw [hy, hy]; exact hnay), hy, hy]
  exact List.mem_singleton_self _

/-! ## The sink entry of scenario S3 is kept -/

theorem normalInst_pass (inst : Instruction) (st : AnState) :
    (normalInst inst st).pass = st.pass := by
  unfold normalInst
  refine foldl_keeps (fun (s : AnState) => s.pass = st.pass) _ (fun s x h => ?_) _ _ rfl
  unfold takeTaint
  exact h

theorem siteToken_eq_iff (c1 c2 : Nat) (a1 a2 : Int) (s1 s2 : Value) (x1 x2 : Int) :
    siteToken c1 a1 s1 x1 = siteToken c2 a2 s2 x2
      ↔ c1 = c2 ∧ a1 = a2 ∧ s1.ident = s2.ident ∧ x1 = x2 := by
  unfold siteToken
  simp

/-- A call to a declared function, seen from the summary entry of one concrete sink: the
entry keeps a token it holds, and the call of that sink itself writes the taint of its
argument into the entry. -/
theorem declaredCall_sink_entry (M : Module) (p : TaintPass) (F : Nat) (st : AnState)
    (C : Value) (ic : Bool) (callee : Nat) (args : List Value) (G : Nat) (a : Nat)
    (k y : Value) (argsK : List Value) (src : SrcOrSink_t)
    (hpk : PassKeeps p st.pass)
    (hsizes : ∀ f, ((amFind p.funcArgSinkCat f).getD []).length ≤ 2 ^ 31)
    (hdecl : (M.func callee).isDeclaration = true) (harg : argsK[a]? = some y)
    (htbl : (amFind p.funcArgSinkCat G).getD [] ≠ [])
    (hd : sinkCat ((amFind p.funcArgSinkCat G).getD []) a ≠ 0)
    (huniq : callee = G → C.ident = k.ident → args = argsK)
    (hyg : isGlobalVariable (passThruGep y) = false)
    (hnay : amFind st.taintOfVal.aliasesOf (passThruGep y) = none)
    (hP4 : src ∈ readTaint false st.taintOfVal (passThruGep y))
    (hP5 : src ∈ flowsOf st.pass F
        (siteToken G (a : Int) k (sinkCat ((amFind p.funcArgSinkCat G).getD []) a))
      ∨ (callee = G ∧ C.ident = k.ident)) :
    src ∈ flowsOf (analyzeInst M F st ⟨C, .call ic (some callee) args⟩).pass F
      (siteToken G (a : Int) k (sinkCat ((amFind p.funcArgSinkCat G).getD []) a)) := by
  have hg := atSinkLoop_grows M F st C callee args
  have htbl2 : (amFind (atSinkLoop M F st C callee args).pass.funcArgSinkCat callee).getD []
      = (amFind p.funcArgSinkCat callee).getD [] := by
    rw [hg.pass.sinkCats, hpk.sinkCats]
  have hspec := recordSinks_spec M F C callee ((amFind p.funcArgSinkCat callee).getD [])
    (hsizes callee) args 0 (atSinkLoop M F st C callee args) htbl2
  have hfl : ∀ key, flowsOf (analyzeInst M F st ⟨C, .call ic (some callee) args⟩).pass F key
      = (amFind (summaryOf (recordSinks M F C callee 0 args
          (atSinkLoop M F st C callee args)).pass F) key).getD [] := by
    intro key
    rw [analyzeInst_declared M F st C ic callee args hdecl]
    unfold flowsOf summaryOf
    rw [injectSources_flows, noteUnknownExt_flows]
  rw [hfl]
  by_cases hm : callee = G ∧ C.ident = k.ident
  · obtain ⟨hc, hid⟩ := hm
    have hargs := huniq hc hid
    subst hc
    subst hargs
    have h1 := hspec.1 a y harg htbl (by rw [Nat.zero_add]; exact hd)
    rw [Nat.zero_add] at h1
    have hk : siteToken callee (a : Int) k (sinkCat ((amFind p.funcArgSinkCat callee).getD []) a)
        = siteToken callee (a : Int) C (sinkCat ((amFind p.funcArgSinkCat callee).getD []) a) :=
      (siteToken_eq_iff _ _ _ _ _ _ _ _).mpr ⟨rfl, rfl, hid.symm, rfl⟩
    rw [hk, h1]
    refine mem_getTaint_of_read _ _ _ hyg ?_ (hg.taint.reads _ _ _ hP4)
    rw [atSinkLoop_aliasesOf]
    exact hnay
  · rw [hspec.2.1 _ (fun j _ _ _ heq => hm
      ⟨((siteToken_eq_iff _ _ _ _ _ _ _ _).mp heq).1.symm,
        ((siteToken_eq_iff _ _ _ _ _ _ _ _).mp heq).2.2.1.symm⟩)]
    rcases hP5 with h5 | h5
    · exact atSinkLoop_flowsGrow M F st C callee args _ _ _ h5
    · exact absurd h5 hm

/-- Processing an instruction of the function keeps the source token in the summary entry of
the concrete sink, and the call of the sink puts it there, as long as the argument `y` of
the sink call carries the token. -/
theorem analyzeInst_sink_entry (M : Module) (p : TaintPass) (F : Nat) (st : AnState)
    (inst : Instruction) (G : Nat) (a : Nat) (k y : Value) (ick : Bool)
    (argsK : List Value) (src : SrcOrSink_t)
    (hpk : PassKeeps p st.pass)
    (hsizes : ∀ f, ((amFind p.funcArgSinkCat f).getD []).length ≤ 2 ^ 31)
    (hG : (M.func G).isDeclaration = true) (harg : argsK[a]? = some y)
    (htbl : (amFind p.funcArgSinkCat G).getD [] ≠ [])
    (hd : sinkCat ((amFind p.funcArgSinkCat G).getD []) a ≠ 0)
    (huniq : inst.self.ident = k.ident → inst = ⟨k, .call ick (some G) argsK⟩)
    (hyg : isGlobalVariable (passThruGep y) = false)
    (hnay : amFind st.taintOfVal.aliasesOf (passThruGep y) = none)
    (hP4 : src ∈ readTaint false st.taintOfVal (passThruGep y))
    (hP5 : src ∈ flowsOf st.pass F
        (siteToken G (a : Int) k (sinkCat ((amFind p.funcArgSinkCat G).getD []) a))
      ∨ inst = ⟨k, .call ick (some G) argsK⟩) :
    src ∈ flowsOf (analyzeInst M F st inst).pass F
      (siteToken G (a : Int) k (sinkCat ((amFind p.funcArgSinkCat G).getD []) a)) := by
  obtain ⟨self, kind⟩ := inst
  have hother : ∀ st2 : AnState, st2.pass = st.pass →
      kind ≠ .call ick (some G) argsK →
      src ∈ flowsOf st2.pass F
        (siteToken G (a : Int) k (sinkCat ((amFind p.funcArgSinkCat G).getD []) a)) := by
    intro st2 h2 hne
    rw [h2]
    rcases hP5 with h5 | h5
    · exact h5
    · exact absurd (Instruction.mk.inj h5).2 hne
  cases kind with
  | cmp => exact hother _ rfl (fun h => InstKind.noConfusion h)
  | store value ptr => exact hother _ rfl (fun h => InstKind.noConfusion h)
  | phi incoming =>
    unfold analyzeInst
    dsimp only
    exact hother _ (normalInst_pass _ _) (fun h => InstKind.noConfusion h)
  | ret value =>
    unfold analyzeInst
    dsimp only
    exact hother _ (normalInst_pass _ _) (fun h => InstKind.noConfusion h)
  | other operands =>
    unfold analyzeInst
    dsimp only
    exact hother _ (normalInst_pass _ _) (fun h => InstKind.noConfusion h)
  | call ic callee args =>
    cases callee with
    | none => exact hother _ rfl (fun h => by cases h)
    | some callee =>
      by_cases hdecl : (M.func callee).isDeclaration = true
      · refine declaredCall_sink_entry M p F st self ic callee args G a k y argsK src hpk hsizes
          hdecl harg htbl hd (fun hc hid => ?_) hyg hnay hP4 ?_
        · have := huniq hid
          injection this with h1 h2
          injection h2 with _ _ h3
        · rcases hP5 with h5 | h5
          · exact Or.inl h5
          · injection h5 with h1 h2
            injection h2 with _ h3 _
            injection h3 with h3
            exact Or.inr ⟨h3, by rw [h1]⟩
      · have hG2 : callee ≠ G := fun h => hdecl (by rw [h]; exact hG)
        have h5 : src ∈ flowsOf st.pass F
            (siteToken G (a : Int) k (sinkCat ((amFind p.funcArgSinkCat G).getD []) a)) := by
          rcases hP5 with h5 | h5
          · exact h5
          · injection h5 with h1 h2
            injection h2 with _ h3 _
            injection h3 with h3
            exact absurd h3 hG2
        unfold analyzeInst
        simp only [hdecl, Bool.false_eq_true, if_false]
        rw [promoteFilenames_eq]
        exact plugInSummary_flowsGrow _ _ _ _ _ _ _ _ h5

/-! ## Scenario S3, for every function of its shape -/

theorem foldl_reach {σ α : Type} (f : σ → α → σ) (B P : σ → Prop) (l : List α) (e : α)
    (he : e ∈ l) (hbase : ∀ s x, x ∈ l → B s → B (f s x)) (hest : ∀ s, B s → P (f s e))
    (hstab : ∀ s x, P s → P (f s x)) (s : σ) (hs : B s) : P (l.foldl f s) := by
  obtain ⟨l1, l2, rfl⟩ := List.append_of_mem he
  rw [List.foldl_append, List.foldl_cons]
  refine foldl_keeps P f hstab l2 _ (hest _ ?_)
  exact foldl_keeps_mem B f l1
    (fun s x hx h => hbase s x (List.mem_append_left _ hx) h) s hs

theorem noAlias_of_keysOK (fn : IRFunction) (m : AliasedTaintMap) (v : Value)
    (h : AliasKeysOK fn m) (hv : isPhiKey fn v = false) : amFind m.aliasesOf v = none := by
  cases hf : amFind m.aliasesOf v with
  | none => rfl
  | some l =>
    have := h v l hf
    rw [hv] at this
    exact absurd this (by simp)

theorem seedArgs_aliasesOf (F : Nat) (rest : List Value) (ix : Int) (m : AliasedTaintMap) :
    (seedArgs F ix rest m).aliasesOf = m.aliasesOf := by
  induction rest generalizing ix m with
  | nil => rfl
  | cons a rest ih =>
    unfold seedArgs
    exact (ih _ _).trans (addTaint_aliasesOf _ _ _)

/-- Processing an instruction of `F` keeps the pass object as `PassKeeps` says and records
alias sets for phi instructions only. -/
theorem analyzeInst_base (M : Module) (p : TaintPass) (F : Nat) (st : AnState)
    (inst : Instruction) (hi : inst ∈ (M.func F).insts)
    (h : PassKeeps p st.pass ∧ AliasKeysOK (M.func F) st.taintOfVal) :
    PassKeeps p (analyzeInst M F st inst).pass
      ∧ AliasKeysOK (M.func F) (analyzeInst M F st inst).taintOfVal :=
  ⟨h.1.pkTrans (analyzeInst_grows M F st inst).pass, analyzeInst_aliasKeys M F inst hi st h.2⟩

theorem summarize_flows_site (M : Module) (F : Nat) (p : TaintPass) (m : AliasedTaintMap)
    (f : Nat) (key : SrcOrSink_t) (hkey : key.callsite ≠ none) :
    flowsOf (summarize M F p m).1 f key = flowsOf p f key := by
  unfold summarize
  dsimp only
  rw [(argSinks_spec F (M.func F).args 0 _).2.2 f key (fun _ j _ heq => by
    rw [heq] at hkey
    exact hkey rfl), flowsOf_updFlow, if_neg (fun hc => by
    rw [hc.2] at hkey
    exact hkey rfl)]

/-- In a function of the shape of scenario S3, once the load `y` carries the source token
and the summary entry of the sink holds it, every further instruction keeps both. -/
theorem aliasScenario_keeps {M : Module} {p : TaintPass} {F : Nat} {x p1 s y k w : Value}
    {incoming : List Value} {E G : Nat} {argsS argsK : List Value} {ics ick : Bool} {a : Nat}
    {L1 D E2 R : List Instruction}
    (h : AliasScenario M p F x p1 s y k w incoming E G argsS argsK ics ick a L1 D E2 R)
    (src : SrcOrSink_t) (st : AnState) (inst : Instruction) (hi : inst ∈ (M.func F).insts)
    (hQ : (PassKeeps p st.pass ∧ AliasKeysOK (M.func F) st.taintOfVal)
      ∧ src ∈ readTaint false st.taintOfVal y
      ∧ src ∈ flowsOf st.pass F
          (siteToken G (a : Int) k (sinkCat ((amFind p.funcArgSinkCat G).getD []) a))) :
    (PassKeeps p (analyzeInst M F st inst).pass
        ∧ AliasKeysOK (M.func F) (analyzeInst M F st inst).taintOfVal)
      ∧ src ∈ readTaint false (analyzeInst M F st inst).taintOfVal y
      ∧ src ∈ flowsOf (analyzeInst M F st inst).pass F
          (siteToken G (a : Int) k (sinkCat ((amFind p.funcArgSinkCat G).getD []) a)) := by
  obtain ⟨hB, h4, h5⟩ := hQ
  refine ⟨analyzeInst_base M p F st inst hi hB,
    (analyzeInst_grows M F st inst).taint.reads _ _ _ h4, ?_⟩
  refine analyzeInst_sink_entry M p F st inst G a k y ick argsK src hB.1 h.tables
    h.sinkDeclared h.sinkArg h.sinkTable h.sinkDeclaredAt (h.unique inst hi) ?_ ?_ ?_
    (Or.inl h5)
  · rw [h.yPlain.1]; exact h.yPlain.2.1
  · rw [h.yPlain.1]; exact noAlias_of_keysOK _ _ _ hB.2 h.yPlain.2.2
  · rw [h.yPlain.1]; exact h4

/-- In a function of the shape of scenario S3, one pass over the instructions brings the
source token of the call `s` onto the load `y` and into the summary entry of the sink. -/
theorem aliasScenario_onePass {M : Module} {p : TaintPass} {F : Nat} {x p1 s y k w : Value}
    {incoming : List Value} {E G : Nat} {argsS argsK : List Value} {ics ick : Bool} {a : Nat}
    {L1 D E2 R : List Instruction}
    (h : AliasScenario M p F x p1 s y k w incoming E G argsS argsK ics ick a L1 D E2 R)
    (st : AnState) (hB : PassKeeps p st.pass ∧ AliasKeysOK (M.func F) st.taintOfVal) :
    (PassKeeps p (onePass M F st).pass ∧ AliasKeysOK (M.func F) (onePass M F st).taintOfVal)
      ∧ siteToken E RETVAL_CODE s (srcCat p E RETVAL_CODE)
          ∈ readTaint false (onePass M F st).taintOfVal y
      ∧ siteToken E RETVAL_CODE s (srcCat p E RETVAL_CODE)
          ∈ flowsOf (onePass M F st).pass F
            (siteToken G (a : Int) k (sinkCat ((amFind p.funcArgSinkCat G).getD []) a)) := by
  have hL1 : ∀ i ∈ L1, i ∈ (M.func F).insts := fun i hi => by
    rw [h.order]; exact List.mem_append_left _ hi
  have hstore : (⟨w, .store s x⟩ : Instruction) ∈ (M.func F).insts := by
    rw [h.order]; simp
  have hD : ∀ i ∈ D, i ∈ (M.func F).insts := fun i hi => by
    rw [h.order]; simp [hi]
  have hload : (⟨y, .other [p1]⟩ : Instruction) ∈ (M.func F).insts := by
    rw [h.order]; simp
  have hE2 : ∀ i ∈ E2, i ∈ (M.func F).insts := fun i hi => by
    rw [h.order]; simp [hi]
  have hsink : (⟨k, .call ick (some G) argsK⟩ : Instruction) ∈ (M.func F).insts := by
    rw [h.order]; simp
  have hR : ∀ i ∈ R, i ∈ (M.func F).insts := fun i hi => by
    rw [h.order]; simp [hi]
  have hbase : ∀ (l : List Instruction), (∀ i ∈ l, i ∈ (M.func F).insts) → ∀ st2 : AnState,
      (PassKeeps p st2.pass ∧ AliasKeysOK (M.func F) st2.taintOfVal) →
      (PassKeeps p (l.foldl (analyzeInst M F) st2).pass
        ∧ AliasKeysOK (M.func F) (l.foldl (analyzeInst M F) st2).taintOfVal) :=
    fun l hl st2 h2 =>
      foldl_keeps_mem
        (fun s : AnState => PassKeeps p s.pass ∧ AliasKeysOK (M.func F) s.taintOfVal)
        (analyzeInst M F) l (fun s i hi hb => analyzeInst_base M p F s i (hl i hi) hb) st2 h2
  have hreads : ∀ (l : List Instruction) (st2 : AnState) (v : Value) (t : SrcOrSink_t),
      t ∈ readTaint false st2.taintOfVal v →
      t ∈ readTaint false (l.foldl (analyzeInst M F) st2).taintOfVal v :=
    fun l st2 v t ht =>
      (foldl_AnGrows _ (fun s i => analyzeInst_grows M F s i) l st2).taint.reads _ _ _ ht
  unfold onePass
  rw [h.order, List.foldl_append, List.foldl_cons, List.foldl_append, List.foldl_cons,
    List.foldl_append, List.foldl_cons]
  -- the instructions before the store
  have hBA := hbase L1 hL1 st hB
  have hP1 : ∃ l, amFind (L1.foldl (analyzeInst M F) st).taintOfVal.aliasesOf x = some l
      ∧ passThruGep p1 ∈ l :=
    foldl_reach (analyzeInst M F)
      (fun s : AnState => PassKeeps p s.pass ∧ AliasKeysOK (M.func F) s.taintOfVal)
      (fun s : AnState => ∃ l, amFind s.taintOfVal.aliasesOf x = some l ∧ passThruGep p1 ∈ l)
      L1 _ h.phiBefore (fun s i hi hb => analyzeInst_base M p F s i (hL1 i hi) hb)
      (fun s _ => by
        have := analyzeInst_phi_alias M F s x incoming p1 h.incomingP
        rw [h.xPlain.1] at this
        exact this)
      (fun s i hs => by
        obtain ⟨l, hl, hb⟩ := hs
        obtain ⟨l2, h2, h3⟩ := (analyzeInst_grows M F s i).taint.aliases _ _ hl
        exact ⟨l2, h2, h3 _ hb⟩)
      st hB
  have hP2 : siteToken E RETVAL_CODE s (srcCat p E RETVAL_CODE)
      ∈ readTaint false (L1.foldl (analyzeInst M F) st).taintOfVal s :=
    foldl_reach (analyzeInst M F)
      (fun s : AnState => PassKeeps p s.pass ∧ AliasKeysOK (M.func F) s.taintOfVal)
      (fun st2 : AnState => siteToken E RETVAL_CODE s (srcCat p E RETVAL_CODE)
        ∈ readTaint false st2.taintOfVal s)
      L1 _ h.sourceBefore (fun s i hi hb => analyzeInst_base M p F s i (hL1 i hi) hb)
      (fun st2 hb => by
        have hc := srcCat_congr p st2.pass hb.1 E RETVAL_CODE
        have := analyzeInst_source_ret M F st2 s ics E argsS h.sourceDeclared
          (by rw [hc]; exact h.sourceCat) h.sPlain.1 h.sPlain.2.1
          (noAlias_of_keysOK _ _ _ hb.2 h.sPlain.2.2)
        rw [hc] at this
        exact this)
      (fun st2 i hs => (analyzeInst_grows M F st2 i).taint.reads _ _ _ hs)
      st hB
  -- the store
  obtain ⟨l, hl, hb⟩ := hP1
  have hP3 := analyzeInst_store_alias M F (L1.foldl (analyzeInst M F) st) w s x
    (passThruGep p1) l _ h.xPlain.1 h.xPlain.2 h.sPlain.1 h.sPlain.2.1
    (noAlias_of_keysOK _ _ _ hBA.2 h.sPlain.2.2) hl hb hP2
  have hBB := analyzeInst_base M p F _ _ hstore hBA
  -- up to the load
  have hBC := hbase D hD _ hBB
  have hP3C := hreads D _ _ _ hP3
  have hP4 := analyzeInst_load M F _ y p1 _ h.yPlain.1 h.yPlain.2.1
    (noAlias_of_keysOK _ _ _ hBC.2 h.yPlain.2.2) h.pLocal.1
    (noAlias_of_keysOK _ _ _ hBC.2 h.pLocal.2) hP3C
  have hBD := analyzeInst_base M p F _ _ hload hBC
  -- up to the call of the sink
  have hBE := hbase E2 hE2 _ hBD
  have hP4E := hreads E2 _ _ _ hP4
  have hP5 := analyzeInst_sink_entry M p F _ ⟨k, .call ick (some G) argsK⟩ G a k y ick argsK
    (siteToken E RETVAL_CODE s (srcCat p E RETVAL_CODE)) hBE.1 h.tables h.sinkDeclared
    h.sinkArg h.sinkTable h.sinkDeclaredAt (fun _ => rfl)
    (by rw [h.yPlain.1]; exact h.yPlain.2.1)
    (by rw [h.yPlain.1]; exact noAlias_of_keysOK _ _ _ hBE.2 h.yPlain.2.2)
    (by rw [h.yPlain.1]; exact hP4E) (Or.inr rfl)
  have hBF := analyzeInst_base M p F _ _ hsink hBE
  have hP4F := (analyzeInst_grows M F _ ⟨k, .call ick (some G) argsK⟩).taint.reads _ _ _ hP4E
  -- the rest of the function
  exact foldl_keeps_mem
    (fun st2 : AnState =>
      (PassKeeps p st2.pass ∧ AliasKeysOK (M.func F) st2.taintOfVal)
        ∧ siteToken E RETVAL_CODE s (srcCat p E RETVAL_CODE) ∈ readTaint false st2.taintOfVal y
        ∧ siteToken E RETVAL_CODE s (srcCat p E RETVAL_CODE)
            ∈ flowsOf st2.pass F
              (siteToken G (a : Int) k (sinkCat ((amFind p.funcArgSinkCat G).getD []) a)))
    (analyzeInst M F) R (fun st2 i hi hq => aliasScenario_keeps h _ st2 i (hR i hi) hq) _
    ⟨hBF, hP4F, hP5⟩

/-- In a function of the shape of scenario S3, the fixpoint loop keeps what one pass has
brought about. -/
theorem aliasScenario_fixLoop {M : Module} {p : TaintPass} {F : Nat} {x p1 s y k w : Value}
    {incoming : List Value} {E G : Nat} {argsS argsK : List Value} {ics ick : Bool} {a : Nat}
    {L1 D E2 R : List Instruction}
    (h : AliasScenario M p F x p1 s y k w incoming E G argsS argsK ics ick a L1 D E2 R)
    (fuel : Nat) (st : AnState)
    (hB : PassKeeps p st.pass ∧ AliasKeysOK (M.func F) st.taintOfVal) :
    siteToken E RETVAL_CODE s (srcCat p E RETVAL_CODE)
      ∈ flowsOf (fixLoop M F (fuel + 1) st).pass F
          (siteToken G (a : Int) k (sinkCat ((amFind p.funcArgSinkCat G).getD []) a)) := by
  induction fuel generalizing st with
  | zero =>
    unfold fixLoop
    dsimp only
    have h1 := aliasScenario_onePass h st hB
    split
    · exact h1.2.2
    · unfold fixLoop
      exact h1.2.2
  | succ n ih =>
    unfold fixLoop
    dsimp only
    have h1 := aliasScenario_onePass h st hB
    split
    · exact h1.2.2
    · exact ih _ h1.1

/-- Scenario S3 in general: in a function of that shape, after `analyzeFunc` the summary
entry of the concrete sink holds the concrete source token of the call `s`. -/
theorem aliasScenario_flow {M : Module} {p : TaintPass} {F : Nat} {x p1 s y k w : Value}
    {incoming : List Value} {E G : Nat} {argsS argsK : List Value} {ics ick : Bool} {a : Nat}
    {L1 D E2 R : List Instruction}
    (h : AliasScenario M p F x p1 s y k w incoming E G argsS argsK ics ick a L1 D E2 R) :
    siteToken E RETVAL_CODE s (srcCat p E RETVAL_CODE)
      ∈ flowsOf (analyzeFunc M p F) F
          (siteToken G (a : Int) k (sinkCat ((amFind p.funcArgSinkCat G).getD []) a)) := by
  unfold analyzeFunc
  rw [flowsOf_congr _ _ (analyzeFuncWith_flows (analyzeFuel M p F) M p F),
    summarize_flows_site _ _ _ _ _ _ (by unfold siteToken; simp)]
  unfold analyzeBody analyzeFuel
  refine aliasScenario_fixLoop h _ _ ⟨touchSummary_keeps p F, ?_⟩
  intro key l hl
  rw [seedArgs_aliasesOf] at hl
  simp [amFind] at hl

/-! ## Scenario S3: alias via phi (claim C12) -/

/-- The function `f` of the module of scenario S3 has the shape of the scenario. -/
theorem s3Module_shape :
    AliasScenario s3Module s3Pass 2 (.other 3) (.other 1) (.other 4) (.other 6) (.other 7)
      (.other 5) [.other 1, .other 2] 0 1 [] [.other 6] true true 0
      [⟨.other 1, .other []⟩, ⟨.other 2, .other []⟩,
        ⟨.other 3, .phi [.other 1, .other 2]⟩, ⟨.other 4, .call true (some 0) []⟩]
      [] [] [⟨.other 8, .ret none⟩] where
  order := rfl
  phiBefore := by decide
  incomingP := by decide
  sourceBefore := by decide
  sourceDeclared := rfl
  sourceCat := by decide
  sinkDeclared := rfl
  sinkArg := rfl
  sinkTable := by decide
  sinkDeclaredAt := by decide
  tables := fun f => by
    unfold s3Pass
    simp only [amFind]
    split_ifs <;> simp
  xPlain := ⟨rfl, rfl⟩
  pLocal := ⟨rfl, by decide⟩
  sPlain := ⟨rfl, rfl, by decide⟩
  yPlain := ⟨rfl, rfl, by decide⟩
  unique := by decide

/-- Claim C12 (scenario S3, alias via phi): let the function `F` have the shape
`AliasScenario` spells out: `x` is a phi with the incoming value `p1`, a local location that
is neither a global variable nor a phi; `s` is a call to an external function whose return
value is a declared source; after both comes `store s, x`, then `y = load p1`, then a call
`k` to an external function that passes `y` as argument `a`, a declared sink. Then after
`analyzeFunc` the summary entry of `F` for the concrete sink `(G, a, k)` contains the
concrete source token `(E, -1, s)` of the call `s`. -/
theorem C12_alias_scenario (M : Module) (p : TaintPass) (F : Nat) (x p1 s y k w : Value)
    (incoming : List Value) (E G : Nat) (argsS argsK : List Value) (ics ick : Bool) (a : Nat)
    (L1 D E2 R : List Instruction)
    (h : AliasScenario M p F x p1 s y k w incoming E G argsS argsK ics ick a L1 D E2 R) :
    siteToken E RETVAL_CODE s (srcCat p E RETVAL_CODE)
      ∈ flowsOf (analyzeFunc M p F) F
          (siteToken G (a : Int) k (sinkCat ((amFind p.funcArgSinkCat G).getD []) a)) :=
  aliasScenario_flow h

/-- Witness for claim C12: the function `f` of the module of scenario S3, in which the
source token of the call of `getsecret` reaches the summary entry of the sink
`sendout(y)`. -/
theorem C12_alias_scenario_witness :
    AliasScenario s3Module s3Pass 2 (.other 3) (.other 1) (.other 4) (.other 6) (.other 7)
        (.other 5) [.other 1, .other 2] 0 1 [] [.other 6] true true 0
        [⟨.other 1, .other []⟩, ⟨.other 2, .other []⟩,
          ⟨.other 3, .phi [.other 1, .other 2]⟩, ⟨.other 4, .call true (some 0) []⟩]
        [] [] [⟨.other 8, .ret none⟩]
      ∧ siteToken 0 (-1) (.other 4) 1
        ∈ flowsOf (analyzeFunc s3Module s3Pass 2) 2 (siteToken 1 0 (.other 7) 1) :=
  ⟨s3Module_shape,
    C12_alias_scenario s3Module s3Pass 2 (.other 3) (.other 1) (.other 4) (.other 6) (.other 7)
      (.other 5) [.other 1, .other 2] 0 1 [] [.other 6] true true 0 _ [] [] _ s3Module_shape⟩

/-! ## The loops of the taint-copier parser run to their end -/

theorem strFindFrom_bound (pat : List Char) (s : List Char) (i r : Nat)
    (h : strFindFrom pat s i = some r) : i ≤ r ∧ r + pat.length ≤ i + s.length := by
  induction s generalizing i with
  | nil =>
    unfold strFindFrom at h
    split at h
    · rename_i hp
      simp only [Option.some.injEq] at h
      subst h
      subst hp
      simp
    · exact absurd h (by simp)
  | cons c s ih =>
    unfold strFindFrom at h
    split at h
    · rename_i hp
      simp only [Option.some.injEq] at h
      subst h
      have := (List.isPrefixOf_iff_prefix.mp hp).length_le
      exact ⟨Nat.le_refl _, by omega⟩
    · have := ih (i + 1) h
      simp only [List.length_cons]
      omega

theorem strFind_bound (s pat : List Char) (pos : Nat) (h : strFind s pat = some pos) :
    pos + pat.length ≤ s.length := by
  have := (strFindFrom_bound pat s 0 pos h).2
  omega

/-- The fuel of `splitFlow` is never used up when it is at least the length of `flow`: more
fuel gives the same result. -/
theorem splitFlow_fuel (fuel : Nat) (flow : List Char) (argv : List (List Char))
    (h : flow.length ≤ fuel) (k : Nat) :
    splitFlow (fuel + k) flow argv = splitFlow fuel flow argv := by
  induction fuel generalizing flow argv with
  | zero =>
    have hnil : flow = [] := List.length_eq_zero.mp (Nat.le_zero.mp h)
    subst hnil
    cases k with
    | zero => rfl
    | succ k =>
      rw [Nat.zero_add]
      unfold splitFlow
      have : strFind [] " , ".toList = none := by decide
      rw [this]
  | succ n ih =>
    rw [Nat.add_right_comm]
    unfold splitFlow
    cases hf : strFind flow " , ".toList with
    | none => rfl
    | some pos =>
      dsimp only
      refine ih _ _ ?_
      have := strFind_bound flow _ pos hf
      have h3 : " , ".toList.length = 3 := by decide
      rw [List.length_drop]
      omega

/-- The fuel of `parseArgList` is never used up when it is at least the length of `args`:
more fuel gives the same result. -/
theorem parseArgList_fuel (fuel : Nat) (args : List Char)
    (acc : List (List Char × List (List Char))) (h : args.length ≤ fuel) (k : Nat) :
    parseArgList (fuel + k) args acc = parseArgList fuel args acc := by
  induction fuel generalizing args acc with
  | zero =>
    have hnil : args = [] := List.length_eq_zero.mp (Nat.le_zero.mp h)
    subst hnil
    cases k with
    | zero => rfl
    | succ k =>
      rw [Nat.zero_add]
      unfold parseArgList
      have : strFind [] " ]".toList = none := by decide
      rw [this]
  | succ n ih =>
    rw [Nat.add_right_comm]
    unfold parseArgList
    cases hf : strFind args " ]".toList with
    | none => rfl
    | some pos =>
      dsimp only
      refine ih _ _ ?_
      have := strFind_bound args _ pos hf
      have h2 : " ]".toList.length = 2 := by decide
      rw [List.length_drop]
      omega

/-! ## The reserved name `return` in a taint-copiers line (claim C21) -/

/-- What `parse_taint_copiers` adds to the summary of the function a line resolves to: the
token of the `i`-th declared argument under the key of every name of its vector. -/
theorem loadCopier_flows (M : Module) (p : TaintPass) (libcfn : List Char) (val : ArgDecls)
    (F : Nat) (hres : resolveCopier M libcfn = some F) (key tok : SrcOrSink_t) :
    tok ∈ flowsOf (loadCopier M p libcfn val) F key
      ↔ tok ∈ flowsOf p F key
        ∨ ∃ (i : Nat) (d : List Char × List (List Char)) (s : List Char),
            val[i]? = some d ∧ s ∈ d.2
              ∧ key = sumToken F (argIndex val s) ∧ tok = sumToken F i := by
  unfold loadCopier
  rw [hres]
  dsimp only
  rw [(copierArgs_spec F val 0 _).2 F key tok]
  simp only [true_and, zero_add, argIndex]
  rfl

/-- A declared name has a last declaration at or after any of its declarations. -/
theorem exists_last_decl (val : ArgDecls) (i : Nat) (d : List Char × List (List Char))
    (hi : val[i]? = some d) :
    ∃ (j : Nat) (e : List Char × List (List Char)), i ≤ j ∧ val[j]? = some e ∧ e.1 = d.1
      ∧ ∀ k e2, val[k]? = some e2 → e2.1 = d.1 → k ≤ j := by
  induction val generalizing i d with
  | nil => simp at hi
  | cons p val ih =>
    by_cases hlater : ∃ (k : Nat) (e2 : List Char × List (List Char)),
        val[k]? = some e2 ∧ e2.1 = d.1
    · obtain ⟨k, e2, hk, he2⟩ := hlater
      obtain ⟨j, e, _, hj, hej, hlast⟩ := ih k e2 hk
      refine ⟨j + 1, e, ?_, by simpa using hj, hej.trans he2, fun m e3 hm he3 => ?_⟩
      · cases i with
        | zero => omega
        | succ i =>
          have := hlast i d (by simpa using hi) (he2.symm)
          omega
      · cases m with
        | zero => omega
        | succ m =>
          have := hlast m e3 (by simpa using hm) (he3.trans he2.symm)
          omega
    · cases i with
      | zero =>
        simp only [List.getElem?_cons_zero, Option.some.injEq] at hi
        subst hi
        refine ⟨0, p, Nat.le_refl _, by simp, rfl, fun m e3 hm he3 => ?_⟩
        cases m with
        | zero => omega
        | succ m => exact absurd ⟨m, e3, by simpa using hm, he3⟩ hlater
      | succ i => exact absurd ⟨i, d, by simpa using hi, rfl⟩ hlater

/-- Counterexample to claim C21 as stated: in the line
`memcpy ( return -> [ ], src -> [ return ] )` the name `return` is declared as the first
argument, so `argidx_map` gives it the index 0, here and inside the bracket list of `src`:
the token of `src` is stored under the key `(memcpy, 0, null)`, and no key with the index -1
is built. -/
theorem C21_declared_return_counterexample :
    parseCopierLine "memcpy ( return -> [ ], src -> [ return ] )".toList
        = .entry "memcpy".toList
            [("return".toList, ["return".toList]), ("src".toList, ["src".toList, "return".toList])]
      ∧ argIndex
          [("return".toList, ["return".toList]), ("src".toList, ["src".toList, "return".toList])]
          "return".toList = 0
      ∧ sumToken 0 1 ∈
          flowsOf
            (loadCopier copierExampleModule TaintPass.fresh "memcpy".toList
              [("return".toList, ["return".toList]),
                ("src".toList, ["src".toList, "return".toList])])
            0 (sumToken 0 0)
      ∧ amFind
          (summaryOf
            (loadCopier copierExampleModule TaintPass.fresh "memcpy".toList
              [("return".toList, ["return".toList]),
                ("src".toList, ["src".toList, "return".toList])])
            0)
          (sumToken 0 RETVAL_CODE) = none := by
  decide

/-- Claim C21 (amended): in a taint-copiers line that does not declare an argument named
`return`, the name `return` has the index -1 wherever it is listed, so that the token of a
declared argument that lists it is stored under the key `(F, -1, null)`; every declared
name has a non-negative index, the position of its declaration in the line (of the last
one, when the name is declared more than once); and a line that declares an argument named
`return` gives that name its position like any other name, so that the index of `return`
is not -1 there and the token of an argument that lists `return` is stored under the key
with that position. -/
theorem C21_return_index (M : Module) (p : TaintPass) (libcfn : List Char) (val : ArgDecls)
    (F : Nat) (hres : resolveCopier M libcfn = some F) :
    ((∀ d ∈ val, d.1 ≠ "return".toList) →
        argIndex val "return".toList = RETVAL_CODE
          ∧ ∀ (i : Nat) (d : List Char × List (List Char)), val[i]? = some d →
              "return".toList ∈ d.2 →
              sumToken F i ∈ flowsOf (loadCopier M p libcfn val) F (sumToken F RETVAL_CODE))
      ∧ (∀ (i : Nat) (d : List Char × List (List Char)), val[i]? = some d →
          ∃ (j : Nat) (e : List Char × List (List Char)), i ≤ j ∧ val[j]? = some e
            ∧ e.1 = d.1 ∧ argIndex val d.1 = (j : Int)
            ∧ ((∀ k e2, val[k]? = some e2 → e2.1 = d.1 → k = i) →
                argIndex val d.1 = (i : Int)))
      ∧ ∀ (i : Nat) (d : List Char × List (List Char)), val[i]? = some d →
          d.1 = "return".toList →
          ∃ j : Nat, i ≤ j ∧ argIndex val "return".toList = (j : Int)
            ∧ argIndex val "return".toList ≠ RETVAL_CODE
            ∧ ∀ (i2 : Nat) (d2 : List Char × List (List Char)), val[i2]? = some d2 →
                "return".toList ∈ d2.2 →
                sumToken F i2 ∈ flowsOf (loadCopier M p libcfn val) F (sumToken F (j : Int)) := by
  have hdecl : ∀ (i : Nat) (d : List Char × List (List Char)), val[i]? = some d →
      ∃ (j : Nat) (e : List Char × List (List Char)), i ≤ j ∧ val[j]? = some e
        ∧ e.1 = d.1 ∧ argIndex val d.1 = (j : Int) := by
    intro i d hi
    obtain ⟨j, e, hij, hj, hej, hlast⟩ := exists_last_decl val i d hi
    have := argIndex_declared val j e hj (fun k e2 hk he2 => hlast k e2 hk (he2.trans hej))
    rw [hej] at this
    exact ⟨j, e, hij, hj, hej, this⟩
  refine ⟨fun hret => ?_, fun i d hi => ?_, fun i d hi hname => ?_⟩
  · have h1 := argIndex_return val hret
    refine ⟨h1, fun i d hi hmem => ?_⟩
    rw [loadCopier_flows M p libcfn val F hres]
    exact Or.inr ⟨i, d, "return".toList, hi, hmem, by rw [h1]; rfl, rfl⟩
  · obtain ⟨j, e, hij, hj, hej, hidx⟩ := hdecl i d hi
    refine ⟨j, e, hij, hj, hej, hidx, fun huniq => ?_⟩
    rw [hidx, huniq j e hj hej]
  · obtain ⟨j, e, hij, _, _, hidx⟩ := hdecl i d hi
    rw [hname] at hidx
    refine ⟨j, hij, hidx, ?_, fun i2 d2 hi2 hmem => ?_⟩
    · rw [hidx]
      unfold RETVAL_CODE
      omega
    · rw [loadCopier_flows M p libcfn val F hres]
      exact Or.inr ⟨i2, d2, "return".toList, hi2, hmem, by rw [hidx], rfl⟩

/-- The line `memcpy ( dst -> [ return ], src -> [ dst ] )`, which does not declare
`return`, and the line `memcpy ( dst -> [ ], return -> [ dst ], src -> [ return ] )`, which
declares it as its second argument. -/
theorem C21_return_index_witness :
    (argIndex [("dst".toList, ["dst".toList, "return".toList]),
        ("src".toList, ["src".toList, "dst".toList])] "return".toList = RETVAL_CODE
      ∧ sumToken 0 0 ∈
          flowsOf
            (loadCopier copierExampleModule TaintPass.fresh "memcpy".toList
              [("dst".toList, ["dst".toList, "return".toList]),
                ("src".toList, ["src".toList, "dst".toList])])
            0 (sumToken 0 RETVAL_CODE))
      ∧ ∃ j : Nat,
          argIndex [("dst".toList, ["dst".toList]),
              ("return".toList, ["return".toList, "dst".toList]),
              ("src".toList, ["src".toList, "return".toList])] "return".toList = (j : Int)
            ∧ 1 ≤ j
            ∧ sumToken 0 2 ∈
                flowsOf
                  (loadCopier copierExampleModule TaintPass.fresh "memcpy".toList
                    [("dst".toList, ["dst".toList]),
                      ("return".toList, ["return".toList, "dst".toList]),
                      ("src".toList, ["src".toList, "return".toList])])
                  0 (sumToken 0 (j : Int)) :=
  have h := C21_return_index copierExampleModule TaintPass.fresh "memcpy".toList
    [("dst".toList, ["dst".toList, "return".toList]),
      ("src".toList, ["src".toList, "dst".toList])] 0 (by decide)
  have h2 := C21_return_index copierExampleModule TaintPass.fresh "memcpy".toList
    [("dst".toList, ["dst".toList]),
      ("return".toList, ["return".toList, "dst".toList]),
      ("src".toList, ["src".toList, "return".toList])] 0 (by decide)
  ⟨⟨(h.1 (by decide)).1,
      (h.1 (by decide)).2 0 ("dst".toList, ["dst".toList, "return".toList]) (by decide)
        (by decide)⟩,
    (h2.2.2 1 ("return".toList, ["return".toList, "dst".toList]) (by decide) rfl).elim
      (fun j hj => ⟨j, hj.2.1, hj.1,
        hj.2.2.2 2 ("src".toList, ["src".toList, "return".toList]) (by decide) (by decide)⟩)⟩

/-! ## A malformed line of the taint-copiers file (claim C24) -/

theorem parseCopierLines_append_malformed (good : List (List Char)) (bad : List Char)
    (rest : List (List Char)) (tbl : List (List Char × ArgDecls))
    (hbad : parseCopierLine bad = .malformed) :
    parseCopierLines (good ++ bad :: rest) tbl = parseCopierLines good tbl := by
  induction good generalizing tbl with
  | nil =>
    rw [List.nil_append]
    unfold parseCopierLines
    rw [hbad]
  | cons l good ih =>
    rw [List.cons_append]
    unfold parseCopierLines
    cases parseCopierLine l with
    | malformed => rfl
    | outOfRange => rfl
    | entry fnname args => exact ih _

/-- Lines that all parse to entries are all read. -/
theorem parseCopierLines_entries (good : List (List Char)) (tbl : List (List Char × ArgDecls))
    (hgood : ∀ l ∈ good, ∃ n a, parseCopierLine l = .entry n a) :
    ∃ t, parseCopierLines good tbl = some t
      ∧ (∀ n, (∀ l ∈ good, ∀ a, parseCopierLine l ≠ .entry n a) → amFind t n = amFind tbl n)
      ∧ (∀ pre l post n a, good = pre ++ l :: post → parseCopierLine l = .entry n a →
          (∀ l2 ∈ post, ∀ a2, parseCopierLine l2 ≠ .entry n a2) → amFind t n = some a)
      ∧ ∀ n a, amFind t n = some a →
          amFind tbl n = some a ∨ ∃ l ∈ good, parseCopierLine l = .entry n a := by
  induction good generalizing tbl with
  | nil =>
    refine ⟨tbl, rfl, fun _ _ => rfl, fun pre l post n a h => ?_, fun n a h => Or.inl h⟩
    exact absurd h (by simp)
  | cons l good ih =>
    obtain ⟨n0, a0, hl⟩ := hgood l (List.mem_cons_self _ _)
    obtain ⟨t, ht, hkeep, hlast, hfrom⟩ :=
      ih (amSet tbl n0 a0) (fun l2 h2 => hgood l2 (List.mem_cons_of_mem _ h2))
    refine ⟨t, ?_, fun n hn => ?_, fun pre l1 post n a hsplit hl1 hpost => ?_,
      fun n a hna => ?_⟩
    · unfold parseCopierLines
      rw [hl]
      exact ht
    · rw [hkeep n (fun l2 h2 => hn l2 (List.mem_cons_of_mem _ h2))]
      refine amFind_amSet_other _ _ _ _ (fun h => ?_)
      subst h
      exact hn l (List.mem_cons_self _ _) a0 hl
    · cases pre with
      | nil =>
        rw [List.nil_append] at hsplit
        injection hsplit with h1 h2
        subst h1
        subst h2
        rw [hl] at hl1
        injection hl1 with h3 h4
        subst h3
        subst h4
        rw [hkeep n0 hpost]
        exact amFind_amSet_self _ _ _
      | cons l0 pre =>
        rw [List.cons_append] at hsplit
        injection hsplit with h1 h2
        exact hlast pre l1 post n a h2 hl1 hpost
    · rcases hfrom n a hna with h1 | ⟨l2, h2, h3⟩
      · by_cases hn : n0 = n
        · subst hn
          rw [amFind_amSet_self] at h1
          injection h1 with h1
          subst h1
          exact Or.inr ⟨l, List.mem_cons_self _ _, hl⟩
        · rw [amFind_amSet_other _ _ _ _ hn] at h1
          exact Or.inl h1
      · exact Or.inr ⟨l2, List.mem_cons_of_mem _ h2, h3⟩

/-- Counterexample to claim C24 as stated: the file has the malformed line `memcpy` (no
blank, no parenthesis) followed by a well-formed line for `strcpy`; the table returned is
empty, so it has no entry for the well-formed line. -/
theorem C24_line_after_malformed_counterexample :
    parseCopierLine "memcpy".toList = .malformed
      ∧ parseCopierLine "strcpy ( dst -> [ ], src -> [ dst ] )".toList
          = .entry "strcpy".toList
              [("dst".toList, ["dst".toList]), ("src".toList, ["src".toList, "dst".toList])]
      ∧ parse_taint_cp_file
          ["memcpy".toList, "strcpy ( dst -> [ ], src -> [ dst ] )".toList] = some [] := by
  decide

/-- Claim C24 (amended): parsing the taint-copiers file stops at the first malformed line
(one lacking a blank, `(` or `)`).  When the lines before it are well formed, the table
returned holds, for every function named on one of them, the argument list of the last such
line, and nothing else; the malformed line and the lines after it, well formed or not, have
no effect. -/
theorem C24_malformed_line_stops (good : List (List Char)) (bad : List Char)
    (rest : List (List Char))
    (hgood : ∀ l ∈ good, ∃ n a, parseCopierLine l = .entry n a)
    (hbad : parseCopierLine bad = .malformed) :
    parse_taint_cp_file (good ++ bad :: rest) = parse_taint_cp_file good
      ∧ ∃ t, parse_taint_cp_file (good ++ bad :: rest) = some t
        ∧ (∀ pre l post n a, good = pre ++ l :: post → parseCopierLine l = .entry n a →
            (∀ l2 ∈ post, ∀ a2, parseCopierLine l2 ≠ .entry n a2) → amFind t n = some a)
        ∧ ∀ n a, amFind t n = some a → ∃ l ∈ good, parseCopierLine l = .entry n a := by
  unfold parse_taint_cp_file
  rw [parseCopierLines_append_malformed good bad rest [] hbad]
  obtain ⟨t, ht, _, hlast, hfrom⟩ := parseCopierLines_entries good [] hgood
  refine ⟨rfl, t, ht, hlast, fun n a hna => ?_⟩
  rcases hfrom n a hna with h1 | h1
  · exact absurd h1 (by simp [amFind])
  · exact h1

/-- Witness for claim C24: a well-formed line for `strcpy`, then the malformed line
`memcpy`, then another well-formed line. -/
theorem C24_malformed_line_stops_witness :
    parse_taint_cp_file
        ["strcpy ( dst -> [ ], src -> [ dst ] )".toList, "memcpy".toList,
          "strncpy ( dst -> [ ], src -> [ dst ] )".toList]
      = parse_taint_cp_file ["strcpy ( dst -> [ ], src -> [ dst ] )".toList] :=
  (C24_malformed_line_stops ["strcpy ( dst -> [ ], src -> [ dst ] )".toList] "memcpy".toList
    ["strncpy ( dst -> [ ], src -> [ dst ] )".toList]
    (fun l hl => by
      rw [List.mem_singleton] at hl
      subst hl
      exact ⟨"strcpy".toList,
        [("dst".toList, ["dst".toList]), ("src".toList, ["src".toList, "dst".toList])],
        by decide⟩)
    (by decide)).1

/-! ## The token `->` of a sources-and-sinks line (claims C22 and C23) -/

theorem applyRetCat_args (func : Nat) (c : List Char) (q : TaintPass) :
    (applyRetCat func c q).funcArgSrcCat = q.funcArgSrcCat
      ∧ (applyRetCat func c q).funcArgSinkCat = q.funcArgSinkCat := by
  unfold applyRetCat
  split <;> exact ⟨rfl, rfl⟩

theorem loadCats_cons_false (M : Module) (func : Nat) (t : List Char)
    (rest : List (List Char)) (ix : Nat) (p : TaintPass) :
    loadCats M func (t :: rest) ix false p
      = if t = "-".toList then loadCats M func rest (ix + 1) false p
        else if t = "->".toList then loadCats M func rest (ix + 1) true p
        else if ix ≥ (M.func func).args.length ∧ (M.func func).isVarArg = false then
          loadCats M func rest (ix + 1) false p
        else
          match applyArgCat func t ix p with
          | none => none
          | some p1 => loadCats M func rest (ix + 1) false p1 := by
  rw [loadCats]

theorem loadCats_cons_true (M : Module) (func : Nat) (t : List Char)
    (rest : List (List Char)) (ix : Nat) (p : TaintPass) :
    loadCats M func (t :: rest) ix true p
      = loadCats M func rest ix false (applyRetCat func t p) := by
  rw [loadCats]

/-- The token `->`, when the loop condition reads it, hands the next token to the return
value and lets the loop go on behind that token. -/
theorem loadCats_append_arrow (M : Module) (func : Nat) (pre : List (List Char))
    (c : List Char) (rest : List (List Char)) (ix : Nat) (p : TaintPass)
    (harrow : "->".toList ∉ pre) :
    loadCats M func (pre ++ "->".toList :: c :: rest) ix false p
      = (loadCats M func pre ix false p).bind
          (fun q => loadCats M func rest (ix + pre.length + 1) false (applyRetCat func c q)) := by
  induction pre generalizing ix p with
  | nil =>
    rw [List.nil_append, loadCats_cons_false, loadCats_cons_true]
    have h1 : ¬ "->".toList = "-".toList := by decide
    rw [if_neg h1, if_pos rfl]
    rfl
  | cons t pre ih =>
    have ht : ¬ t = "->".toList := fun h => harrow (by rw [h]; exact List.mem_cons_self _ _)
    have hpre : "->".toList ∉ pre := fun h => harrow (List.mem_cons_of_mem _ h)
    have hlen : ∀ n : Nat, n + 1 + pre.length + 1 = n + (t :: pre).length + 1 := fun n => by
      simp only [List.length_cons]; omega
    rw [List.cons_append, loadCats_cons_false, loadCats_cons_false M func t pre]
    by_cases h1 : t = "-".toList
    · rw [if_pos h1, if_pos h1, ih (ix + 1) p hpre, hlen]
    · rw [if_neg h1, if_neg h1, if_neg ht, if_neg ht]
      by_cases h2 : ix ≥ (M.func func).args.length ∧ (M.func func).isVarArg = false
      · rw [if_pos h2, if_pos h2, ih (ix + 1) p hpre, hlen]
      · rw [if_neg h2, if_neg h2]
        cases applyArgCat func t ix p with
        | none => rfl
        | some p1 =>
          dsimp only
          rw [ih (ix + 1) p1 hpre, hlen]

theorem loadCats_arrow_last (M : Module) (func : Nat) (pre : List (List Char))
    (c : List Char) (ix : Nat) (p : TaintPass) (harrow : "->".toList ∉ pre) :
    loadCats M func (pre ++ ["->".toList, c]) ix false p
      = (loadCats M func pre ix false p).map (applyRetCat func c) := by
  rw [loadCats_append_arrow M func pre c [] ix p harrow]
  cases loadCats M func pre ix false p with
  | none => rfl
  | some q => rfl

/-- Counterexample to claim C22 as stated: in the line `recv -> Src Sink` the token `Sink`
comes after the token `->`, and it sets the sink category of argument 1 of `recv`. -/
theorem C22_second_token_counterexample :
    words "recv -> Src Sink".toList
        = ["recv".toList, "->".toList, "Src".toList, "Sink".toList]
      ∧ (populate_sources_and_sinks_2 srcSinkExampleModule ["recv -> Src Sink".toList]
            TaintPass.fresh).map (fun q => (q.funcRetCat, q.funcArgSinkCat))
          = some ([(0, 1)], [(0, [0, 1])])
      ∧ (populate_sources_and_sinks_2 srcSinkExampleModule ["recv -> Src".toList]
            TaintPass.fresh).map (fun q => (q.funcRetCat, q.funcArgSinkCat))
          = some ([(0, 1)], [(0, [0, 0])]) := by
  decide

/-- Claim C22 (amended): the category token that directly follows an `->` token is applied
to the return-value slot only.  When the token `->` is read by the loop (no `->` stands
before it) and `c` is the token after it, loading `.. -> c` leaves the source and sink
categories of all arguments as loading the tokens before `->` leaves them; the tokens after
`c` are read as argument categories again, the `->` counting as one argument position. -/
theorem C22_arrow_token (M : Module) (func : Nat) (pre : List (List Char)) (c : List Char)
    (rest : List (List Char)) (ix : Nat) (p : TaintPass) (harrow : "->".toList ∉ pre) :
    (∀ q, loadCats M func pre ix false p = some q →
        ∃ q2, loadCats M func (pre ++ ["->".toList, c]) ix false p = some q2
          ∧ q2.funcArgSrcCat = q.funcArgSrcCat ∧ q2.funcArgSinkCat = q.funcArgSinkCat)
      ∧ loadCats M func (pre ++ "->".toList :: c :: rest) ix false p
        = (loadCats M func (pre ++ ["->".toList, c]) ix false p).bind
            (fun q => loadCats M func rest (ix + pre.length + 1) false q) := by
  refine ⟨fun q hq => ?_, ?_⟩
  · rw [loadCats_arrow_last M func pre c ix p harrow, hq]
    exact ⟨_, rfl, (applyRetCat_args func c q).1, (applyRetCat_args func c q).2⟩
  · rw [loadCats_append_arrow M func pre c rest ix p harrow,
      loadCats_arrow_last M func pre c ix p harrow]
    cases loadCats M func pre ix false p with
    | none => rfl
    | some q => rfl

/-- Witness for claim C22: the tokens `- -> Src` for `recv`. -/
theorem C22_arrow_token_witness :
    ∃ q2, loadCats srcSinkExampleModule 0 (["-".toList] ++ ["->".toList, "Src".toList]) 0 false
        { TaintPass.fresh with funcArgSrcCat := [(0, [0, 0])], funcArgSinkCat := [(0, [0, 0])] }
        = some q2
      ∧ q2.funcArgSrcCat = [(0, [0, 0])] ∧ q2.funcArgSinkCat = [(0, [0, 0])] :=
  (C22_arrow_token srcSinkExampleModule 0 ["-".toList] "Src".toList [] 0
    { TaintPass.fresh with funcArgSrcCat := [(0, [0, 0])], funcArgSinkCat := [(0, [0, 0])] }
    (by decide)).1
    { TaintPass.fresh with funcArgSrcCat := [(0, [0, 0])], funcArgSinkCat := [(0, [0, 0])] }
    (by decide)

/-- Counterexample to claim C23 as stated: the line `recv - - -> SrcAndSink` applies
`SrcAndSink` to the return slot, and afterwards `funcRetCat` holds the source category
main for the return value of `recv`. -/
theorem C23_src_and_sink_counterexample :
    words "recv - - -> SrcAndSink".toList
        = ["recv".toList, "-".toList, "-".toList, "->".toList, "SrcAndSink".toList]
      ∧ (populate_sources_and_sinks_2 srcSinkExampleModule ["recv - - -> SrcAndSink".toList]
            TaintPass.fresh).map (fun q => amFind q.funcRetCat 0)
          = some (some AUX_TYPE_MAIN) := by
  decide

/-- Claim C23 (amended): applied to the return slot, the token `Sink` or `FileSink` is a
diagnostic only: loading `.. -> Sink` gives the same pass object as loading the tokens
before the `->`.  The token `SrcAndSink` or `FileSrcAndSink` is reported as well, but its
source half is kept: afterwards `funcRetCat` holds the category main, or file with the
prefix, for the return value. -/
theorem C23_return_sink (M : Module) (func : Nat) (pre : List (List Char)) (c : List Char)
    (ix : Nat) (p : TaintPass) (harrow : "->".toList ∉ pre) :
    ((c = "Sink".toList ∨ c = "FileSink".toList) →
        loadCats M func (pre ++ ["->".toList, c]) ix false p = loadCats M func pre ix false p)
      ∧ ((c = "SrcAndSink".toList ∨ c = "FileSrcAndSink".toList) →
          ∀ q, loadCats M func pre ix false p = some q →
            ∃ q2, loadCats M func (pre ++ ["->".toList, c]) ix false p = some q2
              ∧ amFind q2.funcRetCat func
                = some (if c = "SrcAndSink".toList then AUX_TYPE_MAIN else AUX_TYPE_FILE)) := by
  rw [loadCats_arrow_last M func pre c ix p harrow]
  refine ⟨fun hc => ?_, fun hc q hq => ?_⟩
  · have : ∀ q, applyRetCat func c q = q := by
      intro q
      rcases hc with rfl | rfl <;> rfl
    cases loadCats M func pre ix false p with
    | none => rfl
    | some q => simp [this]
  · rw [hq]
    refine ⟨_, rfl, ?_⟩
    rcases hc with rfl | rfl
    · exact amFind_amSet_self _ _ _
    · exact amFind_amSet_self _ _ _

/-- Witness for claim C23: the tokens `-> Sink` for `recv`. -/
theorem C23_return_sink_witness :
    loadCats srcSinkExampleModule 0 ([] ++ ["->".toList, "Sink".toList]) 0 false TaintPass.fresh
      = loadCats srcSinkExampleModule 0 [] 0 false TaintPass.fresh :=
  (C23_return_sink srcSinkExampleModule 0 [] "Sink".toList 0 TaintPass.fresh (by decide)).1
    (Or.inl rfl)

/-! ## The call graph of `run` (claim C25) -/

theorem usesFunction_iff (M : Module) (F : Nat) (inst : Instruction) :
    usesFunction M F inst = true
      ↔ ∃ c args, inst.kind = .call true c args
          ∧ (c = some F ∨ ∃ a ∈ args, amFind M.funcAddrs a = some F) := by
  unfold usesFunction
  cases hk : inst.kind with
  | call ic c args =>
    cases ic with
    | true =>
      simp only [InstKind.call.injEq, true_and, Bool.or_eq_true, decide_eq_true_eq,
        List.any_eq_true]
      constructor
      · intro h
        exact ⟨c, args, ⟨rfl, rfl⟩, h⟩
      · rintro ⟨c1, args1, ⟨rfl, rfl⟩, h⟩
        exact h
    | false => simp
  | cmp => simp
  | store v q => simp
  | phi l => simp
  | ret v => simp
  | other l => simp

/-- What `findCallers` returns: the functions of the module that contain a `CallInst` with
`F` as called function or as an argument operand. -/
theorem findCallers_iff (M : Module) (F g : Nat) :
    g ∈ findCallers M F
      ↔ g < M.funcs.length
        ∧ ∃ inst ∈ (M.func g).insts, ∃ c args, inst.kind = .call true c args
            ∧ (c = some F ∨ ∃ a ∈ args, amFind M.funcAddrs a = some F) := by
  unfold findCallers
  rw [List.mem_filter, List.mem_range, List.any_eq_true]
  constructor
  · rintro ⟨h1, inst, hi, hu⟩
    exact ⟨h1, inst, hi, (usesFunction_iff M F inst).mp hu⟩
  · rintro ⟨h1, inst, hi, hu⟩
    exact ⟨h1, inst, hi, (usesFunction_iff M F inst).mpr hu⟩

theorem amFind_touch_of_some {K V : Type} [DecidableEq K] (d : V) (m : List (K × V))
    (k k2 : K) (v : V) (h : amFind m k2 = some v) :
    amFind (amUpdate d (fun c => c) m k) k2 = some v := by
  by_cases hk : k = k2
  · subst hk
    rw [amFind_amUpdate_self, h]
    rfl
  · rw [amFind_amUpdate_other _ _ _ _ _ hk]
    exact h

theorem linkCallers_callers (M : Module) (l : List Nat) (st : SchedState) (F : Nat) :
    amFind (l.foldl (linkCallers M) st).pass.callersOfFunc F
      = if F ∈ l ∧ (M.func F).isDeclaration = false then some (findCallers M F)
        else amFind st.pass.callersOfFunc F := by
  induction l generalizing st with
  | nil => simp
  | cons G l ih =>
    rw [List.foldl_cons, ih]
    by_cases hF : F ∈ l ∧ (M.func F).isDeclaration = false
    · rw [if_pos hF, if_pos ⟨List.mem_cons_of_mem _ hF.1, hF.2⟩]
    · rw [if_neg hF]
      unfold linkCallers
      by_cases hd : (M.func G).isDeclaration = true
      · rw [if_pos hd]
        have : ¬ (F ∈ G :: l ∧ (M.func F).isDeclaration = false) := by
          rintro ⟨h1, h2⟩
          rcases List.mem_cons.mp h1 with rfl | h1
          · rw [hd] at h2
            exact absurd h2 (by simp)
          · exact hF ⟨h1, h2⟩
        rw [if_neg this]
      · rw [if_neg hd]
        dsimp only
        by_cases hG : G = F
        · subst hG
          rw [amFind_amSet_self, if_pos ⟨List.mem_cons_self _ _, by simpa using hd⟩]
        · rw [amFind_amSet_other _ _ _ _ hG]
          have : ¬ (F ∈ G :: l ∧ (M.func F).isDeclaration = false) := by
            rintro ⟨h1, h2⟩
            rcases List.mem_cons.mp h1 with rfl | h1
            · exact hG rfl
            · exact hF ⟨h1, h2⟩
          rw [if_neg this]

theorem scheduleFunc_callers (st : SchedState × Bool) (func F : Nat) (v : List Nat)
    (h : amFind st.1.pass.callersOfFunc F = some v) :
    amFind (scheduleFunc st func).1.pass.callersOfFunc F = some v := by
  unfold scheduleFunc
  split
  · exact h
  · split
    · exact amFind_touch_of_some _ _ _ _ _ h
    · exact h

theorem scheduleRound_callers (st : SchedState) (F : Nat) (v : List Nat)
    (h : amFind st.pass.callersOfFunc F = some v) :
    amFind (scheduleRound st).1.pass.callersOfFunc F = some v := by
  unfold scheduleRound
  exact foldl_keeps (fun (s : SchedState × Bool) => amFind s.1.pass.callersOfFunc F = some v) _
    (fun s x hs => scheduleFunc_callers s x F v hs) _ _ h

theorem scheduleRounds_callers (n : Nat) (st : SchedState) (F : Nat) (v : List Nat)
    (h : amFind st.pass.callersOfFunc F = some v) :
    amFind (scheduleRounds n st).pass.callersOfFunc F = some v := by
  induction n generalizing st with
  | zero => exact h
  | succ n ih =>
    unfold scheduleRounds
    dsimp only
    split
    · exact scheduleRound_callers st F v h
    · exact ih _ (scheduleRound_callers st F v h)

/-- When the worklist loop of `run` starts, `callersOfFunc[F]` is `findCallers(F)` for every
function `F` with a body. -/
theorem startWorkList_callers (M : Module) (p : TaintPass) (F : Nat)
    (hF : F < M.funcs.length) (hd : (M.func F).isDeclaration = false) :
    amFind (startWorkList M p).callersOfFunc F = some (findCallers M F) := by
  unfold startWorkList
  dsimp only
  have h1 := linkCallers_callers M (List.range M.funcs.length)
    { pass := { p with funcWorkList := p.funcWorkList.add none },
      calleesOfFunc := (List.range M.funcs.length).map (fun f => (f, [])) } F
  rw [if_pos ⟨List.mem_range.mpr hF, hd⟩] at h1
  have h2 := scheduleRounds_callers 20 _ F _ h1
  refine foldl_keeps (fun (q : TaintPass) => amFind q.callersOfFunc F = some (findCallers M F)) _
    (fun q x hq => ?_) _ _ h2
  split
  · exact hq
  · exact hq

/-- Counterexample to claim C25 as stated: `main` only passes the address of `handler` to
`signal` and is in `callers_of(handler)`, while `run`, whose `invoke` has `handler` as its
resolved callee, is not. -/
theorem C25_callback_counterexample :
    findCallers callbackModule 0 = [2]
      ∧ amFind (startWorkList callbackModule TaintPass.fresh).callersOfFunc 0 = some [2]
      ∧ (callbackModule.func 2).insts
          = [⟨.other 10, .call true (some 1) [.other 11, .other 50]⟩, ⟨.other 12, .ret none⟩]
      ∧ (callbackModule.func 3).insts
          = [⟨.other 20, .call false (some 0) []⟩, ⟨.other 21, .ret none⟩] :=
  ⟨by decide, by decide, rfl, rfl⟩

/-- Claim C25 (amended): in a module all of whose call sites are call instructions (no
`invoke`), for every function `F` with a body `callers_of(F)`, as `run` computes it with
`findCallers`, is exactly the set of functions that contain a call with `F` as its resolved
callee or as one of its argument operands. -/
theorem C25_callers_of (M : Module) (p : TaintPass) (F : Nat) (hF : F < M.funcs.length)
    (hd : (M.func F).isDeclaration = false)
    (hcalls : ∀ g inst ic c args, inst ∈ (M.func g).insts → inst.kind = .call ic c args →
      ic = true) :
    amFind (startWorkList M p).callersOfFunc F = some (findCallers M F)
      ∧ ∀ g, g ∈ findCallers M F
          ↔ g < M.funcs.length
            ∧ ∃ inst ∈ (M.func g).insts, ∃ ic c args, inst.kind = .call ic c args
                ∧ (c = some F ∨ ∃ a ∈ args, amFind M.funcAddrs a = some F) := by
  refine ⟨startWorkList_callers M p F hF hd, fun g => ?_⟩
  rw [findCallers_iff]
  constructor
  · rintro ⟨h1, inst, hi, c, args, hk, hu⟩
    exact ⟨h1, inst, hi, true, c, args, hk, hu⟩
  · rintro ⟨h1, inst, hi, ic, c, args, hk, hu⟩
    have := hcalls g inst ic c args hi hk
    subst this
    exact ⟨h1, inst, hi, c, args, hk, hu⟩

/-- In `pointerCycleModule`, `setup` only passes the address of `worker` to `signal` and is
in `callers_of(worker)`, while `worker` itself is not. -/
theorem C25_callers_of_witness :
    amFind (startWorkList pointerCycleModule TaintPass.fresh).callersOfFunc 0
        = some (findCallers pointerCycleModule 0)
      ∧ 1 ∈ findCallers pointerCycleModule 0
      ∧ 0 ∉ findCallers pointerCycleModule 0 :=
  have h := C25_callers_of pointerCycleModule TaintPass.fresh 0 (by decide) (by decide)
    (fun g inst ic c args hi hk => by
      have hg : g < 3 ∨ 3 ≤ g := Nat.lt_or_ge g 3
      rcases hg with hg | hg
      · have h3 : g = 0 ∨ g = 1 ∨ g = 2 := by omega
        rcases h3 with rfl | rfl | rfl
        · simp [pointerCycleModule, Module.func] at hi
          rcases hi with rfl | rfl
          · simp at hk
            exact hk.1
          · simp at hk
        · simp [pointerCycleModule, Module.func] at hi
          rcases hi with rfl | rfl
          · simp at hk
            exact hk.1
          · simp at hk
        · simp [pointerCycleModule, Module.func] at hi
      · have : (pointerCycleModule.func g).insts = [] := by
          unfold Module.func
          rw [List.getD_eq_default _ _ (by simpa [pointerCycleModule] using hg)]
          rfl
        rw [this] at hi
        simp at hi)
  ⟨h.1,
    (h.2 1).mpr ⟨by decide, ⟨.other 10, .call true (some 2) [.other 11, .other 50]⟩,
      by decide, true, some 2, [.other 11, .other 50], rfl,
      Or.inr ⟨.other 50, by decide, by decide⟩⟩,
    fun h0 => by
      obtain ⟨_, inst, hi, ic, c, args, hk, hu⟩ := (h.2 0).mp h0
      simp [pointerCycleModule, Module.func] at hi
      rcases hi with rfl | rfl
      · simp at hk
        obtain ⟨_, rfl, rfl⟩ := hk
        rcases hu with hu | ⟨a, ha, _⟩
        · cases hu
        · simp at ha
      · simp at hk⟩

/-! ## Summaries that shrink (claim C27) -/

/-- Claim C27, the code at a failing input: in the module of claim C20 the summary of the
declared taint copier `memcpy` holds the token of `src` under the key of `dst` after the
first pass through the worklist loop; the second pass runs `analyzeFunc` on `memcpy`, and in
the state it leaves the set under that key has lost the token, although the key is still
there. -/
theorem C27_copier_summary_shrinks :
    sumToken 0 1 ∈
        flowsOf (driverLoop copierDriverModule 1
          (startWorkList copierDriverModule copierDriverPass)) 0 (sumToken 0 0)
      ∧ (driverLoop copierDriverModule 1
          (startWorkList copierDriverModule copierDriverPass)).funcWorkList.workList
          = [some 0, some 1, none]
      ∧ (driverStep copierDriverModule
          (driverLoop copierDriverModule 1
            (startWorkList copierDriverModule copierDriverPass))).map
          (fun q => (decide (sumToken 0 1 ∈ flowsOf q 0 (sumToken 0 0)),
            (amFind (summaryOf q 0) (sumToken 0 0)).isSome))
          = some (false, true) := by
  decide

/-! ## Analysing a function twice (claim C28) -/

/-- Claim C28, the code at a failing input: `f` passes the global variable `g` to the sink
`sendout` and then to the source `recv`.  The fourth pass through the worklist loop runs
`analyzeFunc` on `f`: its fixpoint loop makes one pass, in which the source token reaches
the global table after the sink has been recorded, and `calcSize()` has not changed.  The
summary entry of the sink is empty then; a second `analyzeFunc` on `f` right afterwards
puts the source token into it.  The driver itself does not analyse `f` again: its worklist
is empty after the fifth pass. -/
theorem C28_second_run_differs :
    (startWorkList globalLoopModule globalLoopPass).funcWorkList.workList
        = [none, some 0, some 1, some 2]
      ∧ flowsOf (driverLoop globalLoopModule 4 (startWorkList globalLoopModule globalLoopPass))
          2 (siteToken 0 0 (.other 1) 1) = []
      ∧ siteToken 1 0 (.other 2) 1 ∈
          readTaint true
            { globalSrcTaintSet :=
                (driverLoop globalLoopModule 4
                  (startWorkList globalLoopModule globalLoopPass)).globalSrcTaintSet,
              baseTaintOf := [], aliasesOf := [] }
            (.globalVar 5)
      ∧ siteToken 1 0 (.other 2) 1 ∈
          flowsOf
            (analyzeFunc globalLoopModule
              (driverLoop globalLoopModule 4 (startWorkList globalLoopModule globalLoopPass)) 2)
            2 (siteToken 0 0 (.other 1) 1)
      ∧ (driverLoop globalLoopModule 5
          (startWorkList globalLoopModule globalLoopPass)).funcWorkList.workList = []
      ∧ flowsOf (driverLoop globalLoopModule 5 (startWorkList globalLoopModule globalLoopPass))
          2 (siteToken 0 0 (.other 1) 1) = [] := by
  decide

/-! ## The scheduling rounds of `run` -/

theorem getD_amFind_amUpdate {K V : Type} [DecidableEq K] (d : V) (f : V → V)
    (m : List (K × V)) (k k2 : K) :
    (amFind (amUpdate d f m k) k2).getD d
      = if k = k2 then f ((amFind m k2).getD d) else (amFind m k2).getD d := by
  by_cases h : k = k2
  · subst h
    rw [amFind_amUpdate_self, if_pos rfl]
    rfl
  · rw [amFind_amUpdate_other _ _ _ _ _ h, if_neg h]

theorem keys_amUpdate_of_mem {K V : Type} [DecidableEq K] (d : V) (f : V → V)
    (m : List (K × V)) (k : K) (hk : k ∈ m.map Prod.fst) :
    (amUpdate d f m k).map Prod.fst = m.map Prod.fst := by
  rw [keys_amUpdate, if_pos hk]

theorem findCallers_lt (M : Module) (F g : Nat) (h : g ∈ findCallers M F) :
    g < M.funcs.length :=
  ((findCallers_iff M F g).mp h).1

theorem Before.append_right {l : List (Option Nat)} {a b : Option Nat} (h : Before l a b)
    (e : List (Option Nat)) : Before (l ++ e) a b := by
  obtain ⟨l1, l2, hl, ha⟩ := h
  exact ⟨l1, l2 ++ e, by rw [hl]; simp, ha⟩

theorem Before.snoc {l : List (Option Nat)} {a : Option Nat} (h : a ∈ l) (b : Option Nat) :
    Before (l ++ [b]) a b :=
  ⟨l, [], rfl, h⟩

/-- The loop of `run` that enters `F` as a callee of each of its callers. -/
theorem linkFold_spec (F : Nat) (callers : List Nat) (c : List (Nat × List Nat))
    (hk : ∀ x ∈ callers, x ∈ c.map Prod.fst) (hnd : ∀ X, ((amFind c X).getD []).Nodup) :
    (callers.foldl
        (fun c caller => if caller ≠ F then amUpdate [] (fun s => setInsert s F) c caller else c)
        c).map Prod.fst = c.map Prod.fst
      ∧ (∀ X, ((amFind
          (callers.foldl
            (fun c caller =>
              if caller ≠ F then amUpdate [] (fun s => setInsert s F) c caller else c)
            c) X).getD []).Nodup)
      ∧ ∀ X G, G ∈ (amFind
          (callers.foldl
            (fun c caller =>
              if caller ≠ F then amUpdate [] (fun s => setInsert s F) c caller else c)
            c) X).getD []
          ↔ G ∈ (amFind c X).getD [] ∨ (G = F ∧ X ∈ callers ∧ X ≠ F) := by
  induction callers generalizing c with
  | nil => exact ⟨rfl, hnd, fun X G => by simp⟩
  | cons y callers ih =>
    rw [List.foldl_cons]
    by_cases hy : y ≠ F
    · rw [if_pos hy]
      have hkeys : (amUpdate [] (fun s => setInsert s F) c y).map Prod.fst = c.map Prod.fst :=
        keys_amUpdate_of_mem _ _ _ _ (hk y (List.mem_cons_self _ _))
      have h := ih (amUpdate [] (fun s => setInsert s F) c y)
        (fun x hx => by rw [hkeys]; exact hk x (List.mem_cons_of_mem _ hx))
        (fun X => by
          rw [getD_amFind_amUpdate]
          split
          · exact nodup_setInsert _ _ (hnd X)
          · exact hnd X)
      refine ⟨h.1.trans hkeys, h.2.1, fun X G => ?_⟩
      rw [h.2.2 X G, getD_amFind_amUpdate]
      by_cases hyX : y = X
      · rw [if_pos hyX, mem_setInsert_iff, List.mem_cons]
        constructor
        · rintro ((h1 | h1) | ⟨h1, h2, h3⟩)
          · exact Or.inl h1
          · exact Or.inr ⟨h1, Or.inl hyX.symm, by rw [← hyX]; exact hy⟩
          · exact Or.inr ⟨h1, Or.inr h2, h3⟩
        · rintro (h1 | ⟨h1, h2 | h2, h3⟩)
          · exact Or.inl (Or.inl h1)
          · exact Or.inl (Or.inr h1)
          · exact Or.inr ⟨h1, h2, h3⟩
      · rw [if_neg hyX]
        simp only [List.mem_cons]
        constructor
        · rintro (h1 | ⟨h1, h2, h3⟩)
          · exact Or.inl h1
          · exact Or.inr ⟨h1, Or.inr h2, h3⟩
        · rintro (h1 | ⟨h1, h2 | h2, h3⟩)
          · exact Or.inl h1
          · exact absurd h2.symm hyX
          · exact Or.inr ⟨h1, h2, h3⟩
    · rw [if_neg hy]
      have hyF : y = F := by
        by_contra h
        exact hy h
      have h := ih c (fun x hx => hk x (List.mem_cons_of_mem _ hx)) hnd
      refine ⟨h.1, h.2.1, fun X G => ?_⟩
      rw [h.2.2 X G]
      simp only [List.mem_cons]
      constructor
      · rintro (h1 | ⟨h1, h2, h3⟩)
        · exact Or.inl h1
        · exact Or.inr ⟨h1, Or.inr h2, h3⟩
      · rintro (h1 | ⟨h1, h2 | h2, h3⟩)
        · exact Or.inl h1
        · exact absurd (h2.trans hyF) h3
        · exact Or.inr ⟨h1, h2, h3⟩

/-- The second loop of `run`, over a list of functions. -/
theorem linkCallers_spec (M : Module) (l : List Nat) (st : SchedState)
    (hkeys : st.calleesOfFunc.map Prod.fst = List.range M.funcs.length)
    (hnd : ∀ X, ((amFind st.calleesOfFunc X).getD []).Nodup) :
    (l.foldl (linkCallers M) st).pass.funcWorkList = st.pass.funcWorkList
      ∧ (l.foldl (linkCallers M) st).calleesOfFunc.map Prod.fst = List.range M.funcs.length
      ∧ (∀ X, ((amFind (l.foldl (linkCallers M) st).calleesOfFunc X).getD []).Nodup)
      ∧ ∀ X G, G ∈ (amFind (l.foldl (linkCallers M) st).calleesOfFunc X).getD []
          ↔ G ∈ (amFind st.calleesOfFunc X).getD []
            ∨ (G ∈ l ∧ (M.func G).isDeclaration = false ∧ G ≠ X ∧ X ∈ findCallers M G) := by
  induction l generalizing st with
  | nil => exact ⟨rfl, hkeys, hnd, fun X G => by simp⟩
  | cons F l ih =>
    rw [List.foldl_cons]
    by_cases hd : (M.func F).isDeclaration = true
    · have e : linkCallers M st F = st := by
        unfold linkCallers
        rw [if_pos hd]
      rw [e]
      have h := ih st hkeys hnd
      refine ⟨h.1, h.2.1, h.2.2.1, fun X G => ?_⟩
      rw [h.2.2.2 X G]
      simp only [List.mem_cons]
      constructor
      · rintro (h1 | ⟨h1, h2, h3⟩)
        · exact Or.inl h1
        · exact Or.inr ⟨Or.inr h1, h2, h3⟩
      · rintro (h1 | ⟨h1 | h1, h2, h3⟩)
        · exact Or.inl h1
        · rw [h1, hd] at h2
          exact absurd h2 (by simp)
        · exact Or.inr ⟨h1, h2, h3⟩
    · have hlf := linkFold_spec F (findCallers M F) st.calleesOfFunc
        (fun x hx => by
          rw [hkeys]
          exact List.mem_range.mpr (findCallers_lt M F x hx))
        hnd
      have e : linkCallers M st F
          = { pass := { st.pass with callersOfFunc := amSet st.pass.callersOfFunc F (findCallers M F) }
              calleesOfFunc :=
                (findCallers M F).foldl
                  (fun c caller =>
                    if caller ≠ F then amUpdate [] (fun s => setInsert s F) c caller else c)
                  st.calleesOfFunc } := by
        unfold linkCallers
        rw [if_neg hd]
      rw [e]
      have h := ih
        { pass := { st.pass with callersOfFunc := amSet st.pass.callersOfFunc F (findCallers M F) }
          calleesOfFunc :=
            (findCallers M F).foldl
              (fun c caller =>
                if caller ≠ F then amUpdate [] (fun s => setInsert s F) c caller else c)
              st.calleesOfFunc }
        (hlf.1.trans hkeys) hlf.2.1
      refine ⟨h.1, h.2.1, h.2.2.1, fun X G => ?_⟩
      rw [h.2.2.2 X G]
      dsimp only
      rw [hlf.2.2 X G]
      simp only [List.mem_cons]
      have hd2 : (M.func F).isDeclaration = false := by simpa using hd
      constructor
      · rintro ((h1 | ⟨h1, h2, h3⟩) | ⟨h1, h2, h3⟩)
        · exact Or.inl h1
        · exact Or.inr ⟨Or.inl h1, by rw [h1]; exact hd2, by rw [h1]; exact h3.symm,
            by rw [h1]; exact h2⟩
        · exact Or.inr ⟨Or.inr h1, h2, h3⟩
      · rintro (h1 | ⟨h1 | h1, h2, h3, h4⟩)
        · exact Or.inl (Or.inl h1)
        · subst h1
          exact Or.inl (Or.inr ⟨rfl, h4, h3.symm⟩)
        · exact Or.inr ⟨h1, h2, h3, h4⟩

theorem getD_amFind_emptyEntries (l : List Nat) (X : Nat) :
    (amFind (l.map (fun f => (f, ([] : List Nat)))) X).getD [] = [] := by
  induction l with
  | nil => rfl
  | cons f l ih =>
    simp only [List.map_cons, amFind]
    split
    · rfl
    · exact ih

/-- The invariant holds when the scheduling rounds start. -/
theorem schedInv_start (M : Module) (p : TaintPass) (hw : p.funcWorkList = ⟨[], []⟩)
    (hc : p.callersOfFunc = []) :
    SchedInv M
      ((List.range M.funcs.length).foldl (linkCallers M)
        { pass := { p with funcWorkList := p.funcWorkList.add none },
          calleesOfFunc := (List.range M.funcs.length).map (fun f => (f, [])) }) := by
  have hkeys : ((List.range M.funcs.length).map (fun f => (f, ([] : List Nat)))).map Prod.fst
      = List.range M.funcs.length := by
    rw [List.map_map]
    exact List.map_id _
  have hs := linkCallers_spec M (List.range M.funcs.length)
    { pass := { p with funcWorkList := p.funcWorkList.add none },
      calleesOfFunc := (List.range M.funcs.length).map (fun f => (f, [])) }
    hkeys (fun X => by
      dsimp only
      rw [getD_amFind_emptyEntries]
      exact List.nodup_nil)
  have hwl : (p.funcWorkList.add none) = ⟨[none], [none]⟩ := by
    rw [hw]
    rfl
  refine ⟨fun G => ?_, hs.2.1, hs.2.2.1, fun F G => ?_, fun x => ?_, fun F G hF => ?_⟩
  · rw [linkCallers_callers]
    dsimp only
    rw [hc]
    by_cases hG : G < M.funcs.length ∧ (M.func G).isDeclaration = false
    · rw [if_pos hG, if_pos ⟨List.mem_range.mpr hG.1, hG.2⟩]
      rfl
    · rw [if_neg hG, if_neg (fun h => hG ⟨List.mem_range.mp h.1, h.2⟩)]
      rfl
  · rw [hs.2.2.2 F G, hs.1]
    dsimp only
    rw [getD_amFind_emptyEntries, hwl]
    unfold calleeOf
    simp only [List.not_mem_nil, false_or, List.mem_range, List.mem_singleton]
    constructor
    · intro h
      exact ⟨h, fun h2 => Option.noConfusion h2⟩
    · intro h
      exact h.1
  · rw [hs.1]
    dsimp only
    rw [hwl]
  · rw [hs.1] at hF
    dsimp only at hF
    rw [hwl] at hF
    simp at hF

/-- The loop of a scheduling round that removes `func` from the callees of its callers. -/
theorem eraseFold_spec (func : Nat) (callers : List Nat) (c : List (Nat × List Nat))
    (hk : ∀ x ∈ callers, x ∈ c.map Prod.fst) (hnd : ∀ X, ((amFind c X).getD []).Nodup) :
    (callers.foldl (fun c caller => amUpdate [] (fun s => s.erase func) c caller) c).map Prod.fst
        = c.map Prod.fst
      ∧ (∀ X, ((amFind
          (callers.foldl (fun c caller => amUpdate [] (fun s => s.erase func) c caller) c)
          X).getD []).Nodup)
      ∧ ∀ X G, G ∈ (amFind
          (callers.foldl (fun c caller => amUpdate [] (fun s => s.erase func) c caller) c)
          X).getD []
          ↔ G ∈ (amFind c X).getD [] ∧ ¬ (G = func ∧ X ∈ callers) := by
  induction callers generalizing c with
  | nil => exact ⟨rfl, hnd, fun X G => by simp⟩
  | cons y callers ih =>
    rw [List.foldl_cons]
    have hkeys : (amUpdate [] (fun s => s.erase func) c y).map Prod.fst = c.map Prod.fst :=
      keys_amUpdate_of_mem _ _ _ _ (hk y (List.mem_cons_self _ _))
    have h := ih (amUpdate [] (fun s => s.erase func) c y)
      (fun x hx => by rw [hkeys]; exact hk x (List.mem_cons_of_mem _ hx))
      (fun X => by
        rw [getD_amFind_amUpdate]
        split
        · exact (hnd X).erase _
        · exact hnd X)
    refine ⟨h.1.trans hkeys, h.2.1, fun X G => ?_⟩
    rw [h.2.2 X G, getD_amFind_amUpdate, List.mem_cons]
    by_cases hyX : y = X
    · rw [if_pos hyX, (hnd X).mem_erase_iff]
      constructor
      · rintro ⟨⟨h1, h2⟩, _⟩
        exact ⟨h2, fun h4 => h1 h4.1⟩
      · rintro ⟨h1, h2⟩
        exact ⟨⟨fun h3 => h2 ⟨h3, Or.inl hyX.symm⟩, h1⟩, fun h3 => h2 ⟨h3.1, Or.inr h3.2⟩⟩
    · rw [if_neg hyX]
      constructor
      · rintro ⟨h1, h2⟩
        refine ⟨h1, fun h3 => ?_⟩
        rcases h3.2 with h4 | h4
        · exact hyX h4.symm
        · exact h2 ⟨h3.1, h4⟩
      · rintro ⟨h1, h2⟩
        exact ⟨h1, fun h3 => h2 ⟨h3.1, Or.inr h3.2⟩⟩

theorem WorkList.add_new (w : WorkList) (x : Option Nat) (h : x ∉ w.workSet) :
    w.add x = ⟨w.workList ++ [x], setInsert w.workSet x⟩ := by
  unfold WorkList.add
  rw [if_neg h]

/-- The body of a scheduling round keeps the invariant. -/
theorem scheduleFunc_inv (M : Module) (s : SchedState × Bool) (func : Nat)
    (h : SchedInv M s.1) : SchedInv M (scheduleFunc s func).1 := by
  unfold scheduleFunc
  split
  · exact h
  · rename_i hws
    split
    · rename_i hlen
      have hempty : (amFind s.1.calleesOfFunc func).getD [] = [] := List.length_eq_zero.mp hlen
      have hef := eraseFold_spec func ((amFind s.1.pass.callersOfFunc func).getD [])
        s.1.calleesOfFunc
        (fun x hx => by
          rw [h.keys, h.callers] at *
          split at hx
          · exact List.mem_range.mpr (findCallers_lt M func x hx)
          · simp at hx)
        h.nodup
      have hwl := WorkList.add_new s.1.pass.funcWorkList (some func) hws
      have hnew : some func ∉ s.1.pass.funcWorkList.workList := fun hm =>
        hws ((h.workSet _).mpr hm)
      refine ⟨fun G => ?_, hef.1.trans h.keys, hef.2.1, fun F G => ?_, fun x => ?_,
        fun F G hF hFG => ?_⟩
      · dsimp only
        rw [getD_amFind_touch]
        exact h.callers G
      · dsimp only
        rw [hef.2.2 F G, h.callees F G, hwl]
        dsimp only
        rw [List.mem_append, List.mem_singleton]
        constructor
        · rintro ⟨⟨h1, h2⟩, h3⟩
          refine ⟨h1, fun h4 => ?_⟩
          rcases h4 with h4 | h4
          · exact h2 h4
          · have hG : G = func := Option.some.inj h4
            refine h3 ⟨hG, ?_⟩
            rw [h.callers, if_pos ⟨by rw [← hG]; exact h1.1, by rw [← hG]; exact h1.2.1⟩, ← hG]
            exact h1.2.2.2
        · rintro ⟨h1, h2⟩
          exact ⟨⟨h1, fun h4 => h2 (Or.inl h4)⟩, fun h4 => h2 (Or.inr (by rw [h4.1]))⟩
      · dsimp only
        rw [hwl]
        dsimp only
        rw [mem_setInsert_iff, List.mem_append, List.mem_singleton, h.workSet]
      · dsimp only at hF ⊢
        rw [hwl] at hF ⊢
        dsimp only at hF ⊢
        rcases List.mem_append.mp hF with hF | hF
        · exact (h.order F G hF hFG).append_right _
        · have hFf : F = func := Option.some.inj (List.mem_singleton.mp hF)
          subst hFf
          refine Before.snoc ?_ _
          by_contra hG
          have : G ∈ (amFind s.1.calleesOfFunc F).getD [] := (h.callees F G).mpr ⟨hFG, hG⟩
          rw [hempty] at this
          simp at this
    · exact h

theorem scheduleRound_fold_inv (M : Module) (l : List Nat) (s : SchedState × Bool)
    (h : SchedInv M s.1) : SchedInv M (l.foldl scheduleFunc s).1 :=
  foldl_keeps (fun (s : SchedState × Bool) => SchedInv M s.1) scheduleFunc
    (fun s x hs => scheduleFunc_inv M s x hs) l s h

theorem scheduleRound_inv (M : Module) (st : SchedState) (h : SchedInv M st) :
    SchedInv M (scheduleRound st).1 := by
  unfold scheduleRound
  exact scheduleRound_fold_inv M _ (st, true) h

theorem scheduleRounds_inv (M : Module) (n : Nat) (st : SchedState) (h : SchedInv M st) :
    SchedInv M (scheduleRounds n st) := by
  induction n generalizing st with
  | zero => exact h
  | succ n ih =>
    unfold scheduleRounds
    dsimp only
    split
    · exact scheduleRound_inv M st h
    · exact ih _ (scheduleRound_inv M st h)

theorem WorkList.add_workList (w : WorkList) (x : Option Nat) :
    ∃ e, (w.add x).workList = w.workList ++ e := by
  unfold WorkList.add
  split
  · exact ⟨[], by simp⟩
  · exact ⟨[x], rfl⟩

/-- The loop of `run` that appends the remaining functions only adds items at the end of
the worklist. -/
theorem flush_extends (M : Module) (l : List Nat) (q : TaintPass) :
    ∃ e, (l.foldl
        (fun q F =>
          if (M.func F).isDeclaration then q
          else { q with funcWorkList := q.funcWorkList.add (some F) })
        q).funcWorkList.workList = q.funcWorkList.workList ++ e := by
  induction l generalizing q with
  | nil => exact ⟨[], by simp⟩
  | cons F l ih =>
    rw [List.foldl_cons]
    split
    · exact ih q
    · obtain ⟨e1, h1⟩ := ih { q with funcWorkList := q.funcWorkList.add (some F) }
      obtain ⟨e2, h2⟩ := WorkList.add_workList q.funcWorkList (some F)
      refine ⟨e2 ++ e1, ?_⟩
      rw [h1]
      dsimp only
      rw [h2, List.append_assoc]

theorem startWorkList_extends (M : Module) (p : TaintPass) :
    ∃ e, (startWorkList M p).funcWorkList.workList
      = (priorityPass M p).pass.funcWorkList.workList ++ e :=
  flush_extends M (List.range M.funcs.length) (priorityPass M p).pass

theorem priorityPass_inv (M : Module) (p : TaintPass) (hw : p.funcWorkList = ⟨[], []⟩)
    (hc : p.callersOfFunc = []) : SchedInv M (priorityPass M p) :=
  scheduleRounds_inv M 20 _ (schedInv_start M p hw hc)

theorem WorkList.mem_add (w : WorkList) (x y : Option Nat) (h : y ∈ w.workList) :
    y ∈ (w.add x).workList := by
  obtain ⟨e, he⟩ := WorkList.add_workList w x
  rw [he]
  exact List.mem_append_left _ h

theorem scheduleFunc_mono (s : SchedState × Bool) (func : Nat) (x : Option Nat)
    (h : x ∈ s.1.pass.funcWorkList.workList) :
    x ∈ (scheduleFunc s func).1.pass.funcWorkList.workList := by
  unfold scheduleFunc
  split
  · exact h
  · split
    · exact WorkList.mem_add _ _ _ h
    · exact h

/-- A function all of whose callees are on the worklist is on the worklist after its turn in
a scheduling round. -/
theorem scheduleFunc_schedules (M : Module) (s : SchedState × Bool) (func : Nat)
    (h : SchedInv M s.1)
    (hcallees : ∀ G, calleeOf M func G → some G ∈ s.1.pass.funcWorkList.workList) :
    some func ∈ (scheduleFunc s func).1.pass.funcWorkList.workList := by
  unfold scheduleFunc
  split
  · rename_i hws
    exact (h.workSet _).mp hws
  · rename_i hws
    have hempty : (amFind s.1.calleesOfFunc func).getD [] = [] := by
      rw [List.eq_nil_iff_forall_not_mem]
      intro G hG
      have := (h.callees func G).mp hG
      exact this.2 (hcallees G this.1)
    rw [if_pos (by rw [hempty]; rfl)]
    dsimp only
    rw [WorkList.add_new _ _ hws]
    exact List.mem_append_right _ (List.mem_singleton_self _)

/-- A scheduling round puts the functions of the next rank on the worklist. -/
theorem scheduleRound_progress (M : Module) (rank : Nat → Nat)
    (hrank : ∀ F G, calleeOf M F G → rank G < rank F) (st : SchedState) (h : SchedInv M st)
    (k : Nat)
    (hk : ∀ F, F < M.funcs.length → rank F < k → some F ∈ st.pass.funcWorkList.workList)
    (F : Nat) (hF : F < M.funcs.length) (hr : rank F < k + 1) :
    some F ∈ (scheduleRound st).1.pass.funcWorkList.workList := by
  unfold scheduleRound
  rw [h.keys]
  exact foldl_reach scheduleFunc
    (fun (s : SchedState × Bool) => SchedInv M s.1
      ∧ ∀ F2, F2 < M.funcs.length → rank F2 < k → some F2 ∈ s.1.pass.funcWorkList.workList)
    (fun (s : SchedState × Bool) => some F ∈ s.1.pass.funcWorkList.workList)
    (List.range M.funcs.length) F (List.mem_range.mpr hF)
    (fun s x _ hs =>
      ⟨scheduleFunc_inv M s x hs.1, fun F2 h1 h2 => scheduleFunc_mono s x _ (hs.2 F2 h1 h2)⟩)
    (fun s hs => scheduleFunc_schedules M s F hs.1 (fun G hG =>
      hs.2 G hG.1 (by have := hrank F G hG; omega)))
    (fun s x hs => scheduleFunc_mono s x _ hs)
    (st, true) ⟨h, hk⟩

theorem scheduleFunc_stuck (s : SchedState × Bool) (func : Nat)
    (h : (scheduleFunc s func).2 = true) : scheduleFunc s func = s := by
  unfold scheduleFunc at h ⊢
  split
  · rfl
  · split
    · rename_i h1 h2
      rw [if_neg h1, if_pos h2] at h
      exact absurd h (by simp)
    · rfl

theorem scheduleFold_stuck (l : List Nat) (s : SchedState × Bool)
    (h : (l.foldl scheduleFunc s).2 = true) : l.foldl scheduleFunc s = s := by
  induction l generalizing s with
  | nil => rfl
  | cons x l ih =>
    rw [List.foldl_cons] at h ⊢
    have h1 := ih (scheduleFunc s x) h
    rw [h1]
    rw [h1] at h
    exact scheduleFunc_stuck s x h

theorem scheduleRound_stuck (st : SchedState) (h : (scheduleRound st).2 = true) :
    (scheduleRound st).1 = st := by
  unfold scheduleRound at h ⊢
  rw [scheduleFold_stuck _ _ h]

/-- The scheduling rounds put every function of rank below their number on the worklist,
when the rank of a function is above the ranks of its callees. -/
theorem scheduleRounds_rank (M : Module) (rank : Nat → Nat)
    (hrank : ∀ F G, calleeOf M F G → rank G < rank F) (m : Nat) (st : SchedState)
    (h : SchedInv M st) (k : Nat)
    (hk : ∀ F, F < M.funcs.length → rank F < k → some F ∈ st.pass.funcWorkList.workList)
    (F : Nat) (hF : F < M.funcs.length) (hr : rank F < k + m) :
    some F ∈ (scheduleRounds m st).pass.funcWorkList.workList := by
  induction m generalizing st k with
  | zero => exact hk F hF hr
  | succ m ih =>
    unfold scheduleRounds
    dsimp only
    by_cases hs : (scheduleRound st).2 = true
    · rw [if_pos hs, scheduleRound_stuck st hs]
      have hall : ∀ j, ∀ F2, F2 < M.funcs.length → rank F2 < j →
          some F2 ∈ st.pass.funcWorkList.workList := by
        intro j
        induction j with
        | zero => intro F2 _ h2; omega
        | succ j ihj =>
          intro F2 h1 h2
          have := scheduleRound_progress M rank hrank st h j ihj F2 h1 h2
          rw [scheduleRound_stuck st hs] at this
          exact this
      exact hall _ F hF hr
    · rw [if_neg hs]
      exact ih (scheduleRound st).1 (scheduleRound_inv M st h) (k + 1)
        (fun F2 h1 h2 => scheduleRound_progress M rank hrank st h k hk F2 h1 h2)
        (by omega)

/-! ## Leaves-first ordering of the worklist (claim C30) -/

/-- Counterexample to claim C30 as stated: `worker` calls `setup`, and `setup` only passes
the address of `worker` to `signal`, so the calls form a chain of two functions with a
body.  In the call graph of `run` each of the two is a callee of the other, the scheduling
rounds schedule neither, and the worklist holds `worker` before its callee `setup`. -/
theorem C30_pointer_cycle_counterexample :
    (startWorkList pointerCycleModule TaintPass.fresh).funcWorkList.workList
        = [none, some 2, some 0, some 1]
      ∧ (priorityPass pointerCycleModule TaintPass.fresh).pass.funcWorkList.workList
          = [none, some 2]
      ∧ (pointerCycleModule.func 0).insts
          = [⟨.other 1, .call true (some 1) []⟩, ⟨.other 2, .ret none⟩]
      ∧ (pointerCycleModule.func 1).insts
          = [⟨.other 10, .call true (some 2) [.other 11, .other 50]⟩, ⟨.other 12, .ret none⟩] :=
  ⟨by decide, by decide, rfl, rfl⟩

/-- Claim C30 (amended): let a callee of `F` be a function with a body, other than `F`, that
a call instruction of `F` uses as called function or as argument (`calleeOf`, the call graph
`run` builds).  In the worklist built before the worklist loop starts, every function that
the scheduling rounds put there stands behind each of its callees; and when the callees of
every function have a lower rank than the function, with ranks below 20 (no cycle, and no
chain of more than 20 functions), every function stands behind all of its callees. -/
theorem C30_leaves_first (M : Module) (p : TaintPass) (hw : p.funcWorkList = ⟨[], []⟩)
    (hc : p.callersOfFunc = []) :
    (∀ F G, some F ∈ (priorityPass M p).pass.funcWorkList.workList → calleeOf M F G →
        Before (startWorkList M p).funcWorkList.workList (some G) (some F))
      ∧ ∀ rank : Nat → Nat, (∀ F G, calleeOf M F G → rank G < rank F) →
          (∀ F, F < M.funcs.length → rank F < 20) →
          ∀ F G, calleeOf M F G →
            Before (startWorkList M p).funcWorkList.workList (some G) (some F) := by
  have hinv := priorityPass_inv M p hw hc
  obtain ⟨e, he⟩ := startWorkList_extends M p
  have part1 : ∀ F G, some F ∈ (priorityPass M p).pass.funcWorkList.workList →
      calleeOf M F G → Before (startWorkList M p).funcWorkList.workList (some G) (some F) := by
    intro F G hF hFG
    rw [he]
    exact (hinv.order F G hF hFG).append_right e
  refine ⟨part1, fun rank hrank hbound F G hFG => part1 F G ?_ hFG⟩
  have hF : F < M.funcs.length := findCallers_lt M G F hFG.2.2.2
  unfold priorityPass
  exact scheduleRounds_rank M rank hrank 20 _ (schedInv_start M p hw hc) 0
    (fun F2 _ h2 => by omega) F hF (by have := hbound F hF; omega)

/-- Witness for claim C30: in the module where `main` passes the address of `handler` to
`signal`, the worklist holds `handler` before `main`. -/
theorem C30_leaves_first_witness :
    Before (startWorkList callbackModule TaintPass.fresh).funcWorkList.workList
      (some 0) (some 2) :=
  (C30_leaves_first callbackModule TaintPass.fresh rfl rfl).1 2 0 (by decide)
    ⟨by decide, by decide, by decide, by decide⟩

/-! ## The filename heuristic on ASCII input (claim C40) -/

/-- Claim C40: for a string whose bytes all lie in 0 .. 127, `looks_like_filename` returns
true exactly when the length is between 4 and 99 inclusive and every byte is at least 45
(the character `-`): a space (32) is rejected for being below 45 before the test for a space
is reached, and no byte is rejected for being above `~` (126). -/
theorem C40_filename_exact (bs : List Nat) (hascii : ∀ b ∈ bs, b ≤ 127) :
    looks_like_filename (bs.map charOfByte) = true
      ↔ (4 ≤ bs.length ∧ bs.length ≤ 99 ∧ ∀ b ∈ bs, 45 ≤ b) := by
  rw [looks_like_filename_iff, List.length_map]
  have hc : ∀ b ∈ bs, charOfByte b = (b : Int) := by
    intro b hb
    have := hascii b hb
    unfold charOfByte
    rw [if_pos (by omega)]
  constructor
  · rintro ⟨h1, h2, h3⟩
    refine ⟨h1, h2, fun b hb => ?_⟩
    have := h3 (charOfByte b) (List.mem_map_of_mem _ hb)
    rw [hc b hb] at this
    omega
  · rintro ⟨h1, h2, h3⟩
    refine ⟨h1, h2, fun c hcm => ?_⟩
    obtain ⟨b, hb, rfl⟩ := List.mem_map.mp hcm
    rw [hc b hb]
    have := h3 b hb
    omega

/-- The string of the bytes 126, 126, 126, 127, whose last byte lies above `~`, is
accepted. -/
theorem C40_filename_exact_witness :
    looks_like_filename ([126, 126, 126, 127].map charOfByte) = true
      ↔ (4 ≤ [126, 126, 126, 127].length ∧ [126, 126, 126, 127].length ≤ 99
        ∧ ∀ b ∈ [126, 126, 126, 127], 45 ≤ b) :=
  C40_filename_exact [126, 126, 126, 127] (by decide)

/-! ## What reaches the global table (claim C36) -/

theorem addTaintSet_fold_global (loc : Value) (srcs : List SrcOrSink_t)
    (acc : Bool × AliasedTaintMap) (x : Value) (t : SrcOrSink_t)
    (h : t ∈ readTaint true
      (srcs.foldl
        (fun acc src =>
          let r := addTaint acc.2 loc src
          (if r.1 then true else acc.1, r.2))
        acc).2 x) :
    t ∈ readTaint true acc.2 x
      ∨ (t ∈ srcs ∧ t.callsite ≠ none ∧ t.ixArg ≠ RETVAL_CODE) := by
  induction srcs generalizing acc with
  | nil => exact Or.inl h
  | cons s srcs ih =>
    rw [List.foldl_cons] at h
    rcases ih _ h with h1 | ⟨h1, h2, h3⟩
    · dsimp only at h1
      rw [mem_readTaint_addTaint] at h1
      rcases h1 with h1 | ⟨hd, hu, _, rfl⟩
      · exact Or.inl h1
      · refine Or.inr ⟨List.mem_cons_self _ _, ?_, ?_⟩
        · intro hc
          unfold dropsToken at hd
          rw [← hu] at hd
          simp [hc] at hd
        · intro hc
          unfold usesGlobalTable at hu
          simp [hc] at hu
    · exact Or.inr ⟨List.mem_cons_of_mem _ h1, h2, h3⟩

/-- Claim C36: a token that `addTaint` or `addTaintSet` puts into the global table, at any
location, is a token with a call site and an argument number other than `RETVAL_CODE`; and
`addTaint` of a token without call site and with an argument number other than
`RETVAL_CODE` to a location whose pointer behind the GEP is a global variable leaves the
whole map as it was. -/
theorem C36_global_table_sources (m : AliasedTaintMap) (loc : Value) (src : SrcOrSink_t)
    (srcs : List SrcOrSink_t) :
    (∀ x t, t ∈ readTaint true (addTaint m loc src).2 x →
        t ∈ readTaint true m x ∨ (t = src ∧ t.callsite ≠ none ∧ t.ixArg ≠ RETVAL_CODE))
      ∧ (∀ x t, t ∈ readTaint true (addTaintSet m loc srcs).2 x →
        t ∈ readTaint true m x ∨ (t ∈ srcs ∧ t.callsite ≠ none ∧ t.ixArg ≠ RETVAL_CODE))
      ∧ (isGlobalVariable (passThruGep loc) = true → src.callsite = none →
        src.ixArg ≠ RETVAL_CODE → (addTaint m loc src).2 = m) := by
  refine ⟨fun x t h => ?_, fun x t h => ?_, fun hg hc hi => ?_⟩
  · have h2 := addTaintSet_fold_global loc [src] (false, m) x t (by simpa using h)
    rcases h2 with h2 | ⟨h2, h3⟩
    · exact Or.inl h2
    · exact Or.inr ⟨by simpa using h2, h3⟩
  · exact addTaintSet_fold_global (passThruGep loc) srcs (false, m) x t h
  · unfold addTaint
    simp [hg, hc, hi]

/-! ## The size metric and the global table (claim C32) -/

/-- Claim C32, the code at a failing input: `addTaint` of the source token of a call of
`recv` to the global variable `g` of an empty map adds the token to the global table and
leaves `calcSize()` at 0; and one pass of `analyzeInst` over the function `f` of
`globalLoopModule`, which adds that token, leaves `calcSize()` unchanged. -/
theorem C32_global_token_not_counted :
    siteToken 1 0 (.other 2) 1 ∉
        readTaint true { globalSrcTaintSet := [], baseTaintOf := [], aliasesOf := [] }
          (.globalVar 5)
      ∧ siteToken 1 0 (.other 2) 1 ∈
        readTaint true
          (addTaint { globalSrcTaintSet := [], baseTaintOf := [], aliasesOf := [] }
            (.globalVar 5) (siteToken 1 0 (.other 2) 1)).2 (.globalVar 5)
      ∧ calcSize
          (addTaint { globalSrcTaintSet := [], baseTaintOf := [], aliasesOf := [] }
            (.globalVar 5) (siteToken 1 0 (.other 2) 1)).2
        = calcSize { globalSrcTaintSet := [], baseTaintOf := [], aliasesOf := [] }
      ∧ siteToken 1 0 (.other 2) 1 ∈
        readTaint true
          (onePass globalLoopModule 2
            { pass := globalLoopPass,
              taintOfVal := { globalSrcTaintSet := [], baseTaintOf := [], aliasesOf := [] },
              gvarSet := [] }).taintOfVal (.globalVar 5)
      ∧ calcSize
          (onePass globalLoopModule 2
            { pass := globalLoopPass,
              taintOfVal := { globalSrcTaintSet := [], baseTaintOf := [], aliasesOf := [] },
              gvarSet := [] }).taintOfVal
        = calcSize { globalSrcTaintSet := [], baseTaintOf := [], aliasesOf := [] } := by
  decide

/-! ## Index safety of the sources-and-sinks loader (claim C39) -/

/-- Claim C39, the code at a failing input: for the variadic `printf` with one named
parameter the source table has one entry and the sink table two; the line `printf - Src`
writes the source table at index 1, and the line `printf - - Sink` writes the sink table at
index 2, both outside the table, while `printf - Sink` stays inside. -/
theorem C39_variadic_index_past_table :
    populate_sources_and_sinks_2 variadicExampleModule ["printf - Src".toList] TaintPass.fresh
        = none
      ∧ populate_sources_and_sinks_2 variadicExampleModule ["printf - - Sink".toList]
          TaintPass.fresh = none
      ∧ (populate_sources_and_sinks_2 variadicExampleModule ["printf - Sink".toList]
          TaintPass.fresh).map (fun q => (q.funcArgSrcCat, q.funcArgSinkCat))
        = some ([(0, [0])], [(0, [0, 1])]) := by
  decide

/-! ## Phi instructions: what the taint map holds afterwards (claims C31 and C38) -/

theorem mem_readTaint_addTaintSet_fold (loc : Value) (S : List SrcOrSink_t)
    (acc : Bool × AliasedTaintMap) (g : Bool) (x : Value) (y : SrcOrSink_t) :
    y ∈ readTaint g
        (S.foldl
          (fun acc src =>
            let r := addTaint acc.2 loc src
            (if r.1 then true else acc.1, r.2))
          acc).2 x
      ↔ y ∈ readTaint g acc.2 x
        ∨ (y ∈ S ∧ dropsToken loc y = false ∧ g = usesGlobalTable loc y
            ∧ x ∈ taintTargets acc.2 loc) := by
  induction S generalizing acc with
  | nil => simp
  | cons s S ih =>
    rw [List.foldl_cons, ih]
    dsimp only
    rw [mem_readTaint_addTaint, taintTargets_congr _ _ (addTaint_aliasesOf acc.2 loc s)]
    simp only [List.mem_cons]
    constructor
    · rintro ((h | ⟨h1, h2, h3, rfl⟩) | ⟨h1, h2, h3, h4⟩)
      · exact Or.inl h
      · exact Or.inr ⟨Or.inl rfl, h1, h2, h3⟩
      · exact Or.inr ⟨Or.inr h1, h2, h3, h4⟩
    · rintro (h | ⟨rfl | h1, h2, h3, h4⟩)
      · exact Or.inl (Or.inl h)
      · exact Or.inl (Or.inr ⟨h2, h3, h4, rfl⟩)
      · exact Or.inr ⟨h1, h2, h3, h4⟩

/-- What `addTaintSet` does, read back location by location. -/
theorem mem_readTaint_addTaintSet_iff (m : AliasedTaintMap) (v : Value) (S : List SrcOrSink_t)
    (g : Bool) (x : Value) (y : SrcOrSink_t) :
    y ∈ readTaint g (addTaintSet m v S).2 x
      ↔ y ∈ readTaint g m x
        ∨ (y ∈ S ∧ dropsToken (passThruGep v) y = false
            ∧ g = usesGlobalTable (passThruGep v) y ∧ x ∈ taintTargets m (passThruGep v)) :=
  mem_readTaint_addTaintSet_fold (passThruGep v) S (false, m) g x y

/-- What the statement `addTaintSet(dest, getTaintAsSingleSet(operand))` does to the base
table, for a destination that is neither a GEP nor a global variable. -/
theorem mem_readTaint_takeTaint (n : Nat) (st : AnState) (operand : Value) (b : Value)
    (y : SrcOrSink_t) :
    y ∈ readTaint false (takeTaint (.other n) st operand).taintOfVal b
      ↔ y ∈ readTaint false st.taintOfVal b
        ∨ (y ∈ (getTaintAsSingleSet st.taintOfVal operand).1
            ∧ b ∈ taintTargets st.taintOfVal (.other n)) := by
  unfold takeTaint
  dsimp only
  rw [mem_readTaint_addTaintSet_iff, readTaint_getTaint,
    taintTargets_congr _ _ (getTaint_aliasesOf _ _)]
  simp [dropsToken, usesGlobalTable, passThruGep, isGlobalVariable]

/-- The loop of a phi over its operands: every base of the phi ends up with what it held
and with the taint of every operand. -/
theorem phi_fold_bases (n : Nat) (T : List Value) (l : List Value) (st : AnState)
    (hT : amFind st.taintOfVal.aliasesOf (.other n) = some T)
    (hl : ∀ c ∈ l, passThruGep c ∈ T ∧ isGlobalVariable (passThruGep c) = false
      ∧ amFind st.taintOfVal.aliasesOf (passThruGep c) = none)
    (b : Value) (hb : b ∈ T) (t : SrcOrSink_t) :
    t ∈ readTaint false (l.foldl (takeTaint (.other n)) st).taintOfVal b
      ↔ t ∈ readTaint false st.taintOfVal b
        ∨ ∃ c ∈ l, t ∈ readTaint false st.taintOfVal (passThruGep c) := by
  induction l generalizing st with
  | nil => simp
  | cons c l ih =>
    have ha := takeTaint_aliasesOf (.other n) st c
    have hT1 : taintTargets st.taintOfVal (.other n) = T :=
      taintTargets_of_some st.taintOfVal (.other n) T hT
    have hc := hl c (List.mem_cons_self _ _)
    have hgc : ∀ y, y ∈ (getTaintAsSingleSet st.taintOfVal c).1
        ↔ y ∈ readTaint false st.taintOfVal (passThruGep c) := by
      intro y
      rw [mem_getTaint, hc.2.1, taintTargets_of_none _ _ hc.2.2]
      simp
    rw [List.foldl_cons, ih (takeTaint (.other n) st c) (by rw [ha]; exact hT)
      (fun d hd => by
        rw [ha]
        exact hl d (List.mem_cons_of_mem _ hd))]
    simp only [mem_readTaint_takeTaint, hT1, hgc, List.mem_cons, exists_eq_or_imp]
    constructor
    · rintro ((h | ⟨h, -⟩) | ⟨d, hd, h | ⟨h, -⟩⟩)
      · exact Or.inl h
      · exact Or.inr (Or.inl h)
      · exact Or.inr (Or.inr ⟨d, hd, h⟩)
      · exact Or.inr (Or.inl h)
    · rintro (h | h | ⟨d, hd, h⟩)
      · exact Or.inl (Or.inl h)
      · exact Or.inl (Or.inr ⟨h, hb⟩)
      · exact Or.inr ⟨d, hd, Or.inl h⟩

theorem foldl_addAlias_reads (self : Value) (incoming : List Value) (m : AliasedTaintMap)
    (g : Bool) (x : Value) :
    readTaint g (incoming.foldl (fun m v => addAlias m self v) m) x = readTaint g m x := by
  induction incoming generalizing m with
  | nil => rfl
  | cons v incoming ih =>
    rw [List.foldl_cons, ih]
    cases g <;> rfl

theorem foldl_addAlias_other (self : Value) (incoming : List Value) (m : AliasedTaintMap)
    (key : Value) (hk : passThruGep self ≠ key) :
    amFind (incoming.foldl (fun m v => addAlias m self v) m).aliasesOf key
      = amFind m.aliasesOf key := by
  induction incoming generalizing m with
  | nil => rfl
  | cons v incoming ih =>
    rw [List.foldl_cons, ih]
    unfold addAlias
    dsimp only
    rw [amFind_amUpdate_other _ _ _ _ _ hk]

/-- Claim C38: after `analyzeInst` on a phi instruction whose incoming values are locations
that, behind their GEP, are neither global variables nor phis with an alias set nor the phi
itself, `get_taint` of every incoming value is the union of the taint the incoming values
had before. -/
theorem C38_phi_merges_incoming (M : Module) (F : Nat) (st : AnState) (n : Nat)
    (incoming : List Value)
    (hloc : ∀ c ∈ incoming, isGlobalVariable (passThruGep c) = false
      ∧ amFind st.taintOfVal.aliasesOf (passThruGep c) = none
      ∧ passThruGep c ≠ .other n)
    (b : Value) (hb : b ∈ incoming) (t : SrcOrSink_t) :
    t ∈ (getTaintAsSingleSet
          (analyzeInst M F st ⟨.other n, .phi incoming⟩).taintOfVal b).1
      ↔ ∃ c ∈ incoming, t ∈ (getTaintAsSingleSet st.taintOfVal c).1 := by
  have hget : ∀ c ∈ incoming, ∀ y, y ∈ (getTaintAsSingleSet st.taintOfVal c).1
      ↔ y ∈ readTaint false st.taintOfVal (passThruGep c) := by
    intro c hc y
    rw [mem_getTaint, (hloc c hc).1, taintTargets_of_none _ _ (hloc c hc).2.1]
    simp
  obtain ⟨T, hT, -⟩ := foldl_addAlias_mem (.other n) incoming st.taintOfVal b hb
  have hTin : ∀ c ∈ incoming, passThruGep c ∈ T := by
    intro c hc
    obtain ⟨T2, hT2, h2⟩ := foldl_addAlias_mem (.other n) incoming st.taintOfVal c hc
    rw [hT] at hT2
    cases hT2
    exact h2
  have hother : ∀ c ∈ incoming,
      amFind (incoming.foldl (fun m v => addAlias m (.other n) v) st.taintOfVal).aliasesOf
        (passThruGep c) = none := by
    intro c hc
    rw [foldl_addAlias_other (.other n) _ _ _ (fun h => (hloc c hc).2.2 h.symm)]
    exact (hloc c hc).2.1
  have hfold := phi_fold_bases n T incoming
    { st with
      taintOfVal := incoming.foldl (fun m v => addAlias m (.other n) v) st.taintOfVal }
    hT (fun c hc => ⟨hTin c hc, (hloc c hc).1, hother c hc⟩) (passThruGep b) (hTin b hb) t
  simp only [foldl_addAlias_reads] at hfold
  have hfin : (analyzeInst M F st ⟨.other n, .phi incoming⟩)
      = (incoming.foldl (takeTaint (.other n))
          { st with
            taintOfVal :=
              incoming.foldl (fun m v => addAlias m (.other n) v) st.taintOfVal }) := rfl
  rw [hfin, mem_getTaint, (hloc b hb).1, taintTargets_of_none _ _ (by
    have := normalInst_aliasesOf ⟨.other n, .phi incoming⟩
      { st with
        taintOfVal := incoming.foldl (fun m v => addAlias m (.other n) v) st.taintOfVal }
    unfold normalInst Instruction.operands at this
    dsimp only at this
    rw [this]
    exact hother b hb)]
  simp only [List.mem_singleton, exists_eq_left]
  rw [hfold]
  constructor
  · rintro (h | ⟨c, hc, h⟩)
    · exact ⟨b, hb, (hget b hb t).mpr h⟩
    · exact ⟨c, hc, (hget c hc t).mpr h⟩
  · rintro ⟨c, hc, h⟩
    exact Or.inr ⟨c, hc, (hget c hc t).mp h⟩

/-- A phi (value 3) with the incoming values `p` (value 1, tainted with a source of
function 7) and `q` (value 2, not tainted): afterwards the token is read at `q`. -/
theorem C38_phi_merges_incoming_witness :
    siteToken 7 0 (.other 9) 1 ∈ (getTaintAsSingleSet
        (analyzeInst s3Module 2
          { pass := TaintPass.fresh,
            taintOfVal :=
              { globalSrcTaintSet := [],
                baseTaintOf := [(.other 1, [siteToken 7 0 (.other 9) 1])],
                aliasesOf := [] },
            gvarSet := [] }
          ⟨.other 3, .phi [.other 1, .other 2]⟩).taintOfVal (.other 2)).1
      ↔ ∃ c ∈ [Value.other 1, Value.other 2],
          siteToken 7 0 (.other 9) 1 ∈ (getTaintAsSingleSet
            { globalSrcTaintSet := [],
              baseTaintOf := [(.other 1, [siteToken 7 0 (.other 9) 1])],
              aliasesOf := [] } c).1 :=
  C38_phi_merges_incoming s3Module 2 _ 3 [.other 1, .other 2] (by decide) (.other 2)
    (by decide) _

/-- The loop of a phi over its operands: the taint an operand has when the loop starts ends
up at every base of the phi. -/
theorem phi_fold_takes (n : Nat) (T : List Value) (l : List Value) (st : AnState)
    (hT : amFind st.taintOfVal.aliasesOf (.other n) = some T) (v : Value) (hv : v ∈ l)
    (t : SrcOrSink_t) (ht : t ∈ (getTaintAsSingleSet st.taintOfVal v).1)
    (b : Value) (hb : b ∈ T) :
    t ∈ readTaint false (l.foldl (takeTaint (.other n)) st).taintOfVal b := by
  induction l generalizing st with
  | nil => simp at hv
  | cons c l ih =>
    have ha := takeTaint_aliasesOf (.other n) st c
    rw [List.foldl_cons]
    rcases List.mem_cons.mp hv with rfl | hmem
    · refine (foldl_AnGrows _ (fun s x => takeTaint_grows (.other n) s x) l _).taint.reads
        false b t ?_
      rw [mem_readTaint_takeTaint, taintTargets_of_some _ _ T hT]
      exact Or.inr ⟨ht, hb⟩
    · exact ih _ (by rw [ha]; exact hT) hmem
        (mem_getTaint_mono ha (takeTaint_grows (.other n) st c).taint.reads v t ht)

/-- Counterexample to claim C31 as stated: `phi2` (value 2) has the base `x` (value 3),
`phi1` (value 1) has the base `phi2`, and a token is added to `x`.  Then `get_taint(phi2)`
holds the token and `get_taint(phi1)`, which reads the table at `phi2` itself, does not. -/
theorem C31_chain_not_followed_counterexample :
    ¬ (∀ t, t ∈ (getTaintAsSingleSet
          (addTaint
            (addAlias
              (addAlias { globalSrcTaintSet := [], baseTaintOf := [], aliasesOf := [] }
                (.other 2) (.other 3))
              (.other 1) (.other 2))
            (.other 3) (siteToken 7 0 (.other 9) 1)).2 (.other 2)).1 →
        t ∈ (getTaintAsSingleSet
          (addTaint
            (addAlias
              (addAlias { globalSrcTaintSet := [], baseTaintOf := [], aliasesOf := [] }
                (.other 2) (.other 3))
              (.other 1) (.other 2))
            (.other 3) (siteToken 7 0 (.other 9) 1)).2 (.other 1)).1) := by
  intro h
  exact absurd (h (siteToken 7 0 (.other 9) 1) (by decide)) (by decide)

/-- Claim C31 (amended): `get_taint(phi1)` is the union of the table entries at the bases
recorded for `phi1`, so for the base `phi2` it reads the entry of `phi2` itself and not the
entries of the bases of `phi2`; and when `analyzeInst` processes the phi instruction `phi1`
with `phi2` (another value than `phi1`) among its incoming values, every token that
`get_taint(phi2)` holds before is in `get_taint(phi1)` afterwards. -/
theorem C31_phi_of_phi (M : Module) (F : Nat) (st : AnState) (n : Nat)
    (incoming : List Value) (phi2 : Value) (hin : phi2 ∈ incoming)
    (hne : passThruGep phi2 ≠ .other n) :
    (∀ t, t ∈ (getTaintAsSingleSet st.taintOfVal phi2).1 →
        t ∈ (getTaintAsSingleSet
          (analyzeInst M F st ⟨.other n, .phi incoming⟩).taintOfVal (.other n)).1)
      ∧ ∀ (m : AliasedTaintMap) (bases : List Value),
          amFind m.aliasesOf (.other n) = some bases →
          ∀ t, t ∈ (getTaintAsSingleSet m (.other n)).1
            ↔ ∃ b ∈ bases, t ∈ readTaint false m b := by
  refine ⟨fun t ht => ?_, fun m bases hb t => ?_⟩
  · obtain ⟨T, hT, hmem⟩ := foldl_addAlias_mem (.other n) incoming st.taintOfVal phi2 hin
    have ht0 : t ∈ (getTaintAsSingleSet
        (incoming.foldl (fun m v => addAlias m (.other n) v) st.taintOfVal) phi2).1 := by
      rw [mem_getTaint] at ht ⊢
      obtain ⟨b, hb, hr⟩ := ht
      refine ⟨b, ?_, by rw [foldl_addAlias_reads]; exact hr⟩
      unfold taintTargets at hb ⊢
      rw [foldl_addAlias_other (.other n) _ _ _ (fun h => hne h.symm)]
      exact hb
    have hfold := phi_fold_takes n T incoming
      { st with
        taintOfVal := incoming.foldl (fun m v => addAlias m (.other n) v) st.taintOfVal }
      hT phi2 hin t ht0 (passThruGep phi2) hmem
    have hfin : (analyzeInst M F st ⟨.other n, .phi incoming⟩)
        = (incoming.foldl (takeTaint (.other n))
            { st with
              taintOfVal :=
                incoming.foldl (fun m v => addAlias m (.other n) v) st.taintOfVal }) := rfl
    have hal := normalInst_aliasesOf ⟨.other n, .phi incoming⟩
      { st with
        taintOfVal := incoming.foldl (fun m v => addAlias m (.other n) v) st.taintOfVal }
    unfold normalInst Instruction.operands at hal
    dsimp only at hal
    rw [hfin, mem_getTaint, taintTargets_of_some _ _ T (by rw [hal]; exact hT)]
    exact ⟨passThruGep phi2, hmem, hfold⟩
  · rw [mem_getTaint, taintTargets_of_some _ _ bases hb]
    rfl

/-- The phi `phi1` (value 1) with the incoming value `phi2` (value 2), whose base `x`
(value 3) holds a token: after the instruction the token is read through `phi1`. -/
theorem C31_phi_of_phi_witness :
    (∀ t, t ∈ (getTaintAsSingleSet
          { globalSrcTaintSet := [],
            baseTaintOf := [(.other 3, [siteToken 7 0 (.other 9) 1])],
            aliasesOf := [(.other 2, [.other 3])] } (.other 2)).1 →
        t ∈ (getTaintAsSingleSet
          (analyzeInst s3Module 2
            { pass := TaintPass.fresh,
              taintOfVal :=
                { globalSrcTaintSet := [],
                  baseTaintOf := [(.other 3, [siteToken 7 0 (.other 9) 1])],
                  aliasesOf := [(.other 2, [.other 3])] },
              gvarSet := [] }
            ⟨.other 1, .phi [.other 2]⟩).taintOfVal (.other 1)).1)
      ∧ ∀ (m : AliasedTaintMap) (bases : List Value),
          amFind m.aliasesOf (.other 1) = some bases →
          ∀ t, t ∈ (getTaintAsSingleSet m (.other 1)).1
            ↔ ∃ b ∈ bases, t ∈ readTaint false m b :=
  C31_phi_of_phi s3Module 2
    { pass := TaintPass.fresh,
      taintOfVal :=
        { globalSrcTaintSet := [],
          baseTaintOf := [(.other 3, [siteToken 7 0 (.other 9) 1])],
          aliasesOf := [(.other 2, [.other 3])] },
      gvarSet := [] }
    1 [.other 2] (.other 2) (List.mem_singleton_self _) (by decide)

/-! ## The seeds of the parameters (claim C37) -/

theorem onePass_aliasKeys (M : Module) (F : Nat) (st : AnState)
    (h : AliasKeysOK (M.func F) st.taintOfVal) :
    AliasKeysOK (M.func F) (onePass M F st).taintOfVal := by
  unfold onePass
  exact foldl_keeps_mem (fun s : AnState => AliasKeysOK (M.func F) s.taintOfVal)
    (analyzeInst M F) (M.func F).insts
    (fun s i hi hs => analyzeInst_aliasKeys M F i hi s hs) st h

theorem fixLoop_aliasKeys (M : Module) (F : Nat) (fuel : Nat) (st : AnState)
    (h : AliasKeysOK (M.func F) st.taintOfVal) :
    AliasKeysOK (M.func F) (fixLoop M F fuel st).taintOfVal := by
  induction fuel generalizing st with
  | zero => exact h
  | succ n ih =>
    unfold fixLoop
    dsimp only
    split
    · exact onePass_aliasKeys M F st h
    · exact ih _ (onePass_aliasKeys M F st h)

theorem seedArgs_grows (F : Nat) (rest : List Value) (ix : Int) (m : AliasedTaintMap) :
    TaintGrows m (seedArgs F ix rest m) := by
  induction rest generalizing ix m with
  | nil => exact TaintGrows.tgRefl m
  | cons a rest ih =>
    unfold seedArgs
    exact (addTaint_grows m a _).tgTrans (ih _ _)

/-- The seeding loop puts the summary token of a parameter at the parameter, when the
parameter, behind its GEP, is no global variable and has no alias set. -/
theorem seedArgs_seed (F : Nat) (rest : List Value) (ix : Int) (m : AliasedTaintMap)
    (j : Nat) (a : Value) (hj : rest[j]? = some a)
    (hg : isGlobalVariable (passThruGep a) = false)
    (hna : amFind m.aliasesOf (passThruGep a) = none) :
    sumToken F (ix + (j : Int)) ∈ readTaint false (seedArgs F ix rest m) (passThruGep a) := by
  induction rest generalizing ix m j with
  | nil => simp at hj
  | cons b rest ih =>
    unfold seedArgs
    cases j with
    | zero =>
      simp only [List.getElem?_cons_zero, Option.some.injEq] at hj
      subst hj
      refine (seedArgs_grows F rest (ix + 1) _).reads false _ _ ?_
      rw [mem_readTaint_addTaint]
      refine Or.inr ⟨?_, ?_, ?_, by simp⟩
      · simp [dropsToken, usesGlobalTable, hg]
      · simp [usesGlobalTable, hg]
      · rw [taintTargets_of_none _ _ hna]
        exact List.mem_singleton_self _
    | succ j =>
      have := ih (ix + 1) (addTaint m b (sumToken F ix)).2 j (by simpa using hj)
        (by rw [addTaint_aliasesOf]; exact hna)
      have e : ix + 1 + (j : Int) = ix + ((j + 1 : Nat) : Int) := by push_cast; ring
      rw [e] at this
      exact this

/-- Claim C37: after `analyzeFunc(F)` the source set under the summary sink `(F, i, null)`
of the formal parameter number `i` contains the summary token `(F, i, null)`; the parameter
is a value that, behind its GEP, is neither a global variable nor a phi instruction of
`F`, as an `Argument` is. -/
theorem C37_parameter_seeds (M : Module) (p : TaintPass) (F : Nat) (i : Nat) (a : Value)
    (hi : (M.func F).args[i]? = some a)
    (hg : isGlobalVariable (passThruGep a) = false)
    (hphi : isPhiKey (M.func F) (passThruGep a) = false) :
    sumToken F (i : Int) ∈ flowsOf (analyzeFunc M p F) F (sumToken F (i : Int)) := by
  have hs := (summarize_spec M F (analyzeBody (analyzeFuel M p F) M p F).pass
    (analyzeBody (analyzeFuel M p F) M p F).taintOfVal).2 i a hi
  have hf := analyzeFuncWith_flows (analyzeFuel M p F) M p F
  unfold analyzeFunc
  rw [flowsOf_congr _ _ hf, hs]
  have hk0 : AliasKeysOK (M.func F)
      (seedArgs F 0 (M.func F).args
        { globalSrcTaintSet := p.globalSrcTaintSet, baseTaintOf := [], aliasesOf := [] }) := by
    intro key l hl
    rw [seedArgs_aliasesOf] at hl
    simp [amFind] at hl
  have hseed := seedArgs_seed F (M.func F).args 0
    { globalSrcTaintSet := p.globalSrcTaintSet, baseTaintOf := [], aliasesOf := [] } i a hi hg
    (by simp [amFind])
  rw [Int.zero_add] at hseed
  unfold analyzeBody
  refine mem_getTaint_of_read _ a _ hg ?_ ?_
  · exact noAlias_of_keysOK _ _ _ (fixLoop_aliasKeys M F _ _ hk0) hphi
  · exact (fixLoop_grows M F _ _).taint.reads false _ _ hseed

/-- The function `relay` of `wrapLoopModule` and its parameter number 0. -/
theorem C37_parameter_seeds_witness :
    sumToken 1 ((0 : Nat) : Int)
      ∈ flowsOf (analyzeFunc wrapLoopModule wrapLoopPass 1) 1 (sumToken 1 ((0 : Nat) : Int)) :=
  C37_parameter_seeds wrapLoopModule wrapLoopPass 1 0 (.other 1) (by decide) (by decide)
    (by decide)

/-! ## The exploration loop: every edge once, every reachable block (claims C33 and C34) -/

theorem exploreInv_step (F : Function) (jump : Instr) (iSucc : Nat)
    (ps0 : List (Nat × List Edge)) (t : BfsState) (cur : Edge) (rest : List Edge)
    (hq : t.queue = cur :: rest) (h : ExploreInv F jump iSucc ps0 t) :
    ExploreInv F jump iSucc ps0 (bfsStep F jump (jump, iSucc) t cur rest) := by
  have hcur : cur.1.fn = jump.fn ∧ cur.2 < numSuccessors F cur.1.bb :=
    h.valid cur (by simp [hq])
  have hvalid := bfsStep_queueValid F jump (jump, iSucc) t cur rest hq h.valid
  obtain ⟨pre, hhead, hchain, hpre⟩ := h.reach cur (Or.inr (by simp [hq]))
  refine bfsStep_cases F jump (jump, iSucc) t cur rest
    (fun u => QueueValid F jump u → ExploreInv F jump iSucc ps0 u) ?_ ?_ ?_ hvalid
  · -- the edge has been seen before
    intro hseen hv
    refine ⟨hv, h.seenValid, h.seenNodup, ?_, ?_, ?_, h.blocks, h.merges, h.mergeNodup,
      h.counts⟩
    · rcases h.start with h1 | h1
      · exact Or.inl h1
      · rw [hq] at h1
        rcases List.mem_cons.mp h1 with h2 | h2
        · exact Or.inl (h2 ▸ hseen)
        · exact Or.inr h2
    · rintro e (he | he)
      · exact h.reach e (Or.inl he)
      · exact h.reach e (Or.inr (by simp [hq, he]))
    · intro e he hm j hj
      rcases h.closed e he hm j hj with h1 | h1
      · exact Or.inl h1
      · rw [hq] at h1
        rcases List.mem_cons.mp h1 with h2 | h2
        · exact Or.inl (h2 ▸ hseen)
        · exact Or.inr h2
  · -- a merge edge
    intro hns hmg hv
    refine ⟨hv, ?_, List.nodup_cons.mpr ⟨hns, h.seenNodup⟩, ?_, ?_, ?_, ?_, ?_, ?_, h.counts⟩
    · intro e he
      rcases List.mem_cons.mp he with rfl | he
      · exact hcur
      · exact h.seenValid e he
    · rcases h.start with h1 | h1
      · exact Or.inl (List.mem_cons_of_mem _ h1)
      · rw [hq] at h1
        rcases List.mem_cons.mp h1 with h2 | h2
        · exact Or.inl (h2 ▸ List.mem_cons_self _ _)
        · exact Or.inr h2
    · rintro e (he | he)
      · rcases List.mem_cons.mp he with rfl | he
        · exact ⟨pre, hhead, hchain, hpre⟩
        · exact h.reach e (Or.inl he)
      · exact h.reach e (Or.inr (by simp [hq, he]))
    · intro e he hm j hj
      rcases List.mem_cons.mp he with rfl | he
      · rw [hmg] at hm
        exact absurd hm (by simp)
      · rcases h.closed e he hm j hj with h1 | h1
        · exact Or.inl (List.mem_cons_of_mem _ h1)
        · rw [hq] at h1
          rcases List.mem_cons.mp h1 with h2 | h2
          · exact Or.inl (h2 ▸ List.mem_cons_self _ _)
          · exact Or.inr h2
    · intro B
      rw [h.blocks B]
      constructor
      · rintro ⟨e, he, h1, h2⟩
        exact ⟨e, List.mem_cons_of_mem _ he, h1, h2⟩
      · rintro ⟨e, he, h1, h2⟩
        rcases List.mem_cons.mp he with rfl | he
        · rw [hmg] at h1
          exact absurd h1 (by simp)
        · exact ⟨e, he, h1, h2⟩
    · intro e
      show e ∈ t.mergeEdges ++ [cur] ↔ e ∈ cur :: t.alreadySeen ∧ _
      rw [List.mem_append, List.mem_singleton, List.mem_cons, h.merges e]
      constructor
      · rintro (⟨h1, h2⟩ | rfl)
        · exact ⟨Or.inr h1, h2⟩
        · exact ⟨Or.inl rfl, hmg⟩
      · rintro ⟨rfl | h1, h2⟩
        · exact Or.inr rfl
        · exact Or.inl ⟨h1, h2⟩
    · refine List.Nodup.append h.mergeNodup (List.nodup_singleton _) ?_
      intro x hx hx2
      rw [List.mem_singleton] at hx2
      subst hx2
      exact hns ((h.merges x).mp hx).1
  · -- an edge into a block that fails the merge predicates
    intro hns hnm hv
    have hall : ∀ x ∈ pre ++ [cur],
        is_merge_edge F jump ⟨x.1.fn, dest_bb_of_edge F x⟩ = false := by
      intro x hx
      simp only [List.mem_append, List.mem_singleton] at hx
      rcases hx with hx | rfl
      · exact hpre x hx
      · exact hnm
    refine ⟨hv, ?_, List.nodup_cons.mpr ⟨hns, h.seenNodup⟩, ?_, ?_, ?_, ?_, ?_, h.mergeNodup,
      ?_⟩
    · intro e he
      rcases List.mem_cons.mp he with rfl | he
      · exact hcur
      · exact h.seenValid e he
    · rcases h.start with h1 | h1
      · exact Or.inl (List.mem_cons_of_mem _ h1)
      · rw [hq] at h1
        rcases List.mem_cons.mp h1 with h2 | h2
        · exact Or.inl (h2 ▸ List.mem_cons_self _ _)
        · exact Or.inr (List.mem_append_left _ h2)
    · rintro e (he | he)
      · rcases List.mem_cons.mp he with rfl | he
        · exact ⟨pre, hhead, hchain, hpre⟩
        · exact h.reach e (Or.inl he)
      · simp only [List.mem_append, List.mem_map, List.mem_range] at he
        rcases he with he | ⟨j, hj, rfl⟩
        · exact h.reach e (Or.inr (by simp [hq, he]))
        · have hf : EdgeFollows F cur
              ((⟨cur.1.fn, dest_bb_of_edge F cur⟩ : Instr), j) := ⟨rfl, hj⟩
          obtain ⟨h1, h2⟩ := chain_snoc F (jump, iSucc) pre cur _ hhead hchain hf
          exact ⟨pre ++ [cur], h1, h2, hall⟩
    · intro e he hm j hj
      rcases List.mem_cons.mp he with rfl | he
      · exact Or.inr (List.mem_append_right _
          (List.mem_map.mpr ⟨j, List.mem_range.mpr hj, rfl⟩))
      · rcases h.closed e he hm j hj with h1 | h1
        · exact Or.inl (List.mem_cons_of_mem _ h1)
        · rw [hq] at h1
          rcases List.mem_cons.mp h1 with h2 | h2
          · exact Or.inl (h2 ▸ List.mem_cons_self _ _)
          · exact Or.inr (List.mem_append_left _ h2)
    · intro B
      have hB : B ∈ (if dest_bb_of_edge F cur ∈ t.seenBBs then t.seenBBs
          else dest_bb_of_edge F cur :: t.seenBBs)
          ↔ B = dest_bb_of_edge F cur ∨ B ∈ t.seenBBs := by
        split
        · rename_i hin
          constructor
          · exact Or.inr
          · rintro (rfl | h1)
            · exact hin
            · exact h1
        · exact List.mem_cons
      dsimp only
      rw [hB, h.blocks B]
      constructor
      · rintro (rfl | ⟨e, he, h1, h2⟩)
        · exact ⟨cur, List.mem_cons_self _ _, hnm, rfl⟩
        · exact ⟨e, List.mem_cons_of_mem _ he, h1, h2⟩
      · rintro ⟨e, he, h1, h2⟩
        rcases List.mem_cons.mp he with rfl | he
        · exact Or.inl h2.symm
        · exact Or.inr ⟨e, he, h1, h2⟩
    · intro e
      dsimp only
      rw [h.merges e]
      constructor
      · rintro ⟨h1, h2⟩
        exact ⟨List.mem_cons_of_mem _ h1, h2⟩
      · rintro ⟨h1, h2⟩
        rcases List.mem_cons.mp h1 with rfl | h1
        · rw [hnm] at h2
          exact absurd h2 (by simp)
        · exact ⟨h1, h2⟩
    · intro B c
      dsimp only
      by_cases hin : dest_bb_of_edge F cur ∈ t.seenBBs
      · rw [if_pos hin, if_pos hin]
        exact h.counts B c
      · rw [if_neg hin, if_neg hin, getD_amFind_amUpdate]
        by_cases hB : dest_bb_of_edge F cur = B
        · subst hB
          rw [if_pos rfl, List.count_append, h.counts _ c]
          by_cases hc : c = (jump, iSucc)
          · subst hc
            simp [hin]
          · have hc2 : ¬ (jump, iSucc) = c := fun h2 => hc h2.symm
            simp [hc, hc2, List.count_cons, List.count_nil]
        · rw [if_neg hB, h.counts B c]
          have : B ∈ dest_bb_of_edge F cur :: t.seenBBs ↔ B ∈ t.seenBBs := by
            rw [List.mem_cons]
            constructor
            · rintro (h1 | h1)
              · exact absurd h1.symm hB
              · exact h1
            · exact Or.inr
          simp only [this]

/-- The exploration for a conditional edge of the function ends with an empty queue in a
state that satisfies the invariant. -/
theorem exploreInv_final (F : Function) (jump : Instr) (iSucc : Nat)
    (ps : List (Nat × List Edge)) (hi : iSucc < numSuccessors F jump.bb) :
    ExploreInv F jump iSucc ps (exploreFrom F jump iSucc ps)
      ∧ (exploreFrom F jump iSucc ps).queue = [] := by
  refine ⟨?_, exploreFrom_terminates F jump iSucc ps hi⟩
  unfold exploreFrom
  refine bfsLoop_invariant F jump (jump, iSucc) (ExploreInv F jump iSucc ps)
    (fun s cur rest hq hs => exploreInv_step F jump iSucc ps s cur rest hq hs) _ _ ?_
  refine ⟨?_, by simp, List.nodup_nil, Or.inr (List.mem_singleton_self _), ?_, by simp,
    by simp, by simp, List.nodup_nil, by simp⟩
  · intro e he
    simp only [List.mem_singleton] at he
    subst he
    exact ⟨rfl, hi⟩
  · rintro e (he | he)
    · simp at he
    · simp only [List.mem_singleton] at he
      subst he
      exact ⟨[], rfl, List.chain'_singleton _, by simp⟩

theorem chain_in_closed (F : Function) (S : List Edge) (nm : Edge → Prop)
    (hcl : ∀ e ∈ S, nm e → ∀ e2, EdgeFollows F e e2 → e2 ∈ S) :
    ∀ (path : List Edge) (a : Edge), a ∈ S → List.Chain (EdgeFollows F) a path → nm a →
      (∀ e ∈ path, nm e) → ∀ e ∈ path, e ∈ S := by
  intro path
  induction path with
  | nil => intro a _ _ _ _ e he; simp at he
  | cons b l ih =>
    intro a ha hc hna hn e he
    rw [List.chain_cons] at hc
    have hb : b ∈ S := hcl a ha hna b hc.1
    rcases List.mem_cons.mp he with rfl | he
    · exact hb
    · exact ih b hb hc.2 (hn b (List.mem_cons_self _ _))
        (fun x hx => hn x (List.mem_cons_of_mem _ hx)) e he

/-- In the state that satisfies the invariant with an empty queue, every edge of a path
from the conditional edge through blocks that fail the merge predicates has been seen. -/
theorem exploreInv_path (F : Function) (jump : Instr) (iSucc : Nat)
    (ps : List (Nat × List Edge)) (t : BfsState) (h : ExploreInv F jump iSucc ps t)
    (hq : t.queue = []) (B : Nat) (path : List Edge)
    (hp : MergeFreePath F jump iSucc B path) : ∀ e ∈ path, e ∈ t.alreadySeen := by
  obtain ⟨hhead, hchain, _, hnm⟩ := hp
  have hstart : (jump, iSucc) ∈ t.alreadySeen := by
    rcases h.start with h1 | h1
    · exact h1
    · rw [hq] at h1
      simp at h1
  have hcl : ∀ e ∈ t.alreadySeen,
      is_merge_edge F jump ⟨e.1.fn, dest_bb_of_edge F e⟩ = false →
      ∀ e2, EdgeFollows F e e2 → e2 ∈ t.alreadySeen := by
    intro e he hm e2 hf
    have hj : e2.2 < numSuccessors F (dest_bb_of_edge F e) := by
      have := hf.2
      rw [hf.1] at this
      exact this
    have he2 : e2 = ((⟨e.1.fn, dest_bb_of_edge F e⟩ : Instr), e2.2) :=
      Prod.ext hf.1 rfl
    rcases h.closed e he hm e2.2 hj with h1 | h1
    · rw [he2]
      exact h1
    · rw [hq] at h1
      simp at h1
  have hnm2 : ∀ e ∈ path, is_merge_edge F jump ⟨e.1.fn, dest_bb_of_edge F e⟩ = false :=
    fun e he => (is_merge_edge_eq_false_iff F jump _).mpr (hnm e he)
  cases path with
  | nil => simp
  | cons a l =>
    simp only [List.head?_cons, Option.some.injEq] at hhead
    subst hhead
    intro e he
    rcases List.mem_cons.mp he with rfl | he
    · exact hstart
    · exact chain_in_closed F t.alreadySeen
        (fun e => is_merge_edge F jump ⟨e.1.fn, dest_bb_of_edge F e⟩ = false) hcl l _ hstart
        hchain (hnm2 _ (List.mem_cons_self _ _))
        (fun x hx => hnm2 x (List.mem_cons_of_mem _ hx)) e he

/-- The blocks the exploration has marked are the blocks reached from the conditional edge
along a path that enters only blocks failing the merge predicates. -/
theorem explore_blocks_iff (F : Function) (jump : Instr) (iSucc : Nat)
    (ps : List (Nat × List Edge)) (hi : iSucc < numSuccessors F jump.bb) (B : Nat) :
    B ∈ (exploreFrom F jump iSucc ps).seenBBs ↔ ∃ path, MergeFreePath F jump iSucc B path := by
  obtain ⟨h, hq⟩ := exploreInv_final F jump iSucc ps hi
  rw [h.blocks B]
  constructor
  · rintro ⟨e, he, hm, rfl⟩
    obtain ⟨pre, hhead, hchain, hpre⟩ := h.reach e (Or.inl he)
    refine ⟨pre ++ [e], hhead, hchain, ?_, ?_⟩
    · rw [List.getLast?_concat]
      rfl
    · intro x hx
      refine (is_merge_edge_eq_false_iff F jump _).mp ?_
      simp only [List.mem_append, List.mem_singleton] at hx
      rcases hx with hx | rfl
      · exact hpre x hx
      · exact hm
  · rintro ⟨path, hp⟩
    have hall := exploreInv_path F jump iSucc ps _ h hq B path hp
    obtain ⟨_, _, hlast, hnm⟩ := hp
    cases hl : path.getLast? with
    | none =>
      rw [hl] at hlast
      simp at hlast
    | some e =>
      rw [hl] at hlast
      simp only [Option.map_some', Option.some.injEq] at hlast
      have he : e ∈ path := List.mem_of_mem_getLast? hl
      exact ⟨e, hall e he, (is_merge_edge_eq_false_iff F jump _).mpr (hnm e he), hlast⟩

/-- The merge edges found are the conditional edge itself, when it enters a block that
satisfies a merge predicate, and every such edge that leaves a block reached along a path
through blocks failing the merge predicates. -/
theorem explore_merges_complete (F : Function) (jump : Instr) (iSucc : Nat)
    (hi : iSucc < numSuccessors F jump.bb) (e : Edge)
    (hm : is_merge_edge F jump ⟨e.1.fn, dest_bb_of_edge F e⟩ = true)
    (he : e = (jump, iSucc)
      ∨ ∃ B path, MergeFreePath F jump iSucc B path ∧ e.1 = ⟨jump.fn, B⟩
          ∧ e.2 < numSuccessors F B) :
    e ∈ mergeEdgesFrom F jump iSucc := by
  obtain ⟨h, hq⟩ := exploreInv_final F jump iSucc [] hi
  unfold mergeEdgesFrom
  rw [h.merges e]
  refine ⟨?_, hm⟩
  rcases he with rfl | ⟨B, path, hp, h1, h2⟩
  · rcases h.start with h1 | h1
    · exact h1
    · rw [hq] at h1
      simp at h1
  · have hB := (explore_blocks_iff F jump iSucc [] hi B).mpr ⟨path, hp⟩
    obtain ⟨l, hl, hlm, hld⟩ := (h.blocks B).mp hB
    have hfn := (h.seenValid l hl).1
    rcases h.closed l hl hlm e.2 (by rw [hld]; exact h2) with h3 | h3
    · have : e = ((⟨l.1.fn, dest_bb_of_edge F l⟩ : Instr), e.2) := by
        refine Prod.ext ?_ rfl
        rw [h1, hfn, hld]
      rw [this]
      exact h3
    · rw [hq] at h3
      simp at h3

/-- The number of edges the exploration classifies is at most the number of edges of the
function, and no edge is classified or listed as a merge edge twice. -/
theorem explore_bounded (F : Function) (jump : Instr) (iSucc : Nat)
    (ps : List (Nat × List Edge)) (hi : iSucc < numSuccessors F jump.bb) :
    (exploreFrom F jump iSucc ps).alreadySeen.Nodup
      ∧ (exploreFrom F jump iSucc ps).alreadySeen.length ≤ numEdges F
      ∧ (exploreFrom F jump iSucc ps).mergeEdges.Nodup := by
  obtain ⟨h, _⟩ := exploreInv_final F jump iSucc ps hi
  refine ⟨h.seenNodup, ?_, h.mergeNodup⟩
  rw [← length_allEdges F jump.fn]
  exact (List.Nodup.subperm h.seenNodup (fun e he =>
    mem_allEdges F jump.fn e (h.seenValid e he).1 (h.seenValid e he).2)).length_le

theorem inner_count_other (F : Function) (jump : Instr) (B : Nat) (c : Edge) :
    ∀ (k : Nat), k ≤ numSuccessors F jump.bb → (∀ i < k, c ≠ (jump, i)) →
      ∀ ps : List (Nat × List Edge),
        ((amFind ((List.range k).foldl
            (fun acc i => (exploreFrom F jump i acc).bb_to_cond_paths) ps) B).getD []).count c
          = ((amFind ps B).getD []).count c := by
  intro k
  induction k with
  | zero => intro _ _ ps; rfl
  | succ k ih =>
    intro hk hc ps
    rw [List.range_succ, List.foldl_append, List.foldl_cons, List.foldl_nil,
      (exploreInv_final F jump k _ (by omega)).1.counts B c,
      if_neg (fun h => hc k (Nat.lt_succ_self k) h.1), Nat.add_zero]
    exact ih (by omega) (fun i hi => hc i (by omega)) ps

/-- The explorations of the conditional edges of one terminator append the edge
`(jump, i)` once to the entry of every block reached from it along a path through blocks
failing the merge predicates, and to no other entry. -/
theorem inner_count_self (F : Function) (jump : Instr) (B : Nat) (i : Nat) :
    ∀ (k : Nat), k ≤ numSuccessors F jump.bb → i < k →
      ∀ ps : List (Nat × List Edge), ∃ d : Nat,
        ((amFind ((List.range k).foldl
            (fun acc i => (exploreFrom F jump i acc).bb_to_cond_paths) ps) B).getD []).count
              (jump, i)
          = ((amFind ps B).getD []).count (jump, i) + d
        ∧ ((∃ path, MergeFreePath F jump i B path) → d = 1)
        ∧ ((¬ ∃ path, MergeFreePath F jump i B path) → d = 0) := by
  intro k
  induction k with
  | zero => intro _ hi; omega
  | succ k ih =>
    intro hk hi ps
    rw [List.range_succ, List.foldl_append, List.foldl_cons, List.foldl_nil,
      (exploreInv_final F jump k _ (by omega)).1.counts B (jump, i)]
    by_cases hik : i = k
    · subst hik
      rw [inner_count_other F jump B (jump, i) i (by omega) (fun j hj h => by
        have := congrArg Prod.snd h
        dsimp only at this
        omega) ps]
      refine ⟨_, rfl, fun hr => ?_, fun hr => ?_⟩
      · rw [if_pos ⟨rfl, (explore_blocks_iff F jump i _ (by omega) B).mpr hr⟩]
      · rw [if_neg (fun h => hr ((explore_blocks_iff F jump i _ (by omega) B).mp h.2))]
    · obtain ⟨d, h1, h2, h3⟩ := ih (by omega) (by omega) ps
      refine ⟨d, ?_, h2, h3⟩
      rw [if_neg (fun h => hik (congrArg Prod.snd h.1)), Nat.add_zero]
      exact h1

theorem outer_count_other (F : Function) (fn : Nat) (B : Nat) (c : Edge) :
    ∀ (bs : List Nat), (∀ b ∈ bs, c.1 ≠ ⟨fn, b⟩) → ∀ ps : List (Nat × List Edge),
      ((amFind (condPathsOf F fn bs ps) B).getD []).count c
        = ((amFind ps B).getD []).count c := by
  intro bs
  induction bs with
  | nil => intro _ ps; rfl
  | cons b bs ih =>
    intro hc ps
    rw [condPathsOf]
    split
    · rw [ih (fun b2 hb2 => hc b2 (List.mem_cons_of_mem _ hb2))]
      exact inner_count_other F ⟨fn, b⟩ B c _ (le_refl _)
        (fun i _ h => hc b (List.mem_cons_self _ _) (congrArg Prod.fst h)) ps
    · exact ih (fun b2 hb2 => hc b2 (List.mem_cons_of_mem _ hb2)) ps

/-- The first loop of `runOnFunction` leaves the conditional edge `(T, i)` once in the entry
of every block reached from it along a path through blocks failing the merge predicates,
and in no other entry. -/
theorem outer_count_self (F : Function) (fn : Nat) (B : Nat) (b i : Nat)
    (hdeg : 1 < numSuccessors F b) (hi : i < numSuccessors F b) :
    ∀ (bs : List Nat), bs.Nodup → b ∈ bs → ∀ ps : List (Nat × List Edge), ∃ d : Nat,
      ((amFind (condPathsOf F fn bs ps) B).getD []).count ((⟨fn, b⟩ : Instr), i)
          = ((amFind ps B).getD []).count ((⟨fn, b⟩ : Instr), i) + d
        ∧ ((∃ path, MergeFreePath F ⟨fn, b⟩ i B path) → d = 1)
        ∧ ((¬ ∃ path, MergeFreePath F ⟨fn, b⟩ i B path) → d = 0) := by
  intro bs
  induction bs with
  | nil => intro _ hb; simp at hb
  | cons b0 bs ih =>
    intro hnd hb ps
    have hb0 : b0 ∉ bs := (List.nodup_cons.mp hnd).1
    rw [condPathsOf]
    rcases List.mem_cons.mp hb with rfl | hmem
    · rw [if_pos hdeg, outer_count_other F fn B _ bs (fun b2 hb2 h => by
        have : b = b2 := congrArg Instr.bb h
        exact hb0 (this ▸ hb2))]
      exact inner_count_self F ⟨fn, b⟩ B i _ (le_refl _) hi ps
    · have hne : b ≠ b0 := fun h => hb0 (h ▸ hmem)
      split
      · obtain ⟨d, h1, h2, h3⟩ := ih (List.nodup_cons.mp hnd).2 hmem
          ((List.range (numSuccessors F b0)).foldl
            (fun acc i => (exploreFrom F ⟨fn, b0⟩ i acc).bb_to_cond_paths) ps)
        refine ⟨d, ?_, h2, h3⟩
        rw [h1, inner_count_other F ⟨fn, b0⟩ B _ _ (le_refl _) (fun j _ h => by
          have : b = b0 := congrArg Instr.bb (congrArg Prod.fst h)
          exact hne this) ps]
      · exact ih (List.nodup_cons.mp hnd).2 hmem ps

theorem edgeMDOf_inj {p : CondMergePass} (hp : PassInv p) (x y : Edge) (a b : Nat)
    (hx : amFind p.id_of_jump x.1 = some a) (hy : amFind p.id_of_jump y.1 = some b)
    (h : edgeMDOf p x = edgeMDOf p y) : x = y := by
  rw [edgeMDOf_of_id hp hx, edgeMDOf_of_id hp hy] at h
  have h1 : a = b := (Prod.mk.inj h).1
  have h2 : x.2 = y.2 := (Prod.mk.inj h).2
  subst h1
  exact Prod.ext (hp.ids_inj _ _ _ hx hy) h2

theorem count_map_of_inj_on {α β : Type} [BEq α] [LawfulBEq α] [BEq β] [LawfulBEq β]
    (f : α → β) (a : α) (l : List α) (h : ∀ x ∈ l, f x = f a → x = a) :
    (l.map f).count (f a) = l.count a := by
  induction l with
  | nil => rfl
  | cons x l ih =>
    rw [List.map_cons, List.count_cons, List.count_cons,
      ih (fun y hy => h y (List.mem_cons_of_mem _ hy))]
    by_cases hx : x = a
    · subst hx
      simp
    · have : ¬ f x = f a := fun h2 => hx (h x (List.mem_cons_self _ _) h2)
      simp [hx, this]

/-- Claim C33: the exploration of `findMergeEdges` for a conditional edge `(T, i)` ends
with an empty queue within the iterations granted, and granting more changes nothing; the
edges it has classified (`alreadySeen`, which gains one edge per classification) are
distinct and at most as many as the function has edges; the merge edges it has found are
distinct, and so are the tuples of element `i` of the `MergeEdges` list that
`runOnFunction` attaches to `T`. -/
theorem C33_exploration_bounded (p : CondMergePass) (hp : PassInv p) (fn : Nat)
    (F : Function) (b i : Nat) (hdeg : 1 < numSuccessors F b) (hi : i < numSuccessors F b) :
    (∀ paths, (exploreFrom F ⟨fn, b⟩ i paths).queue = []
        ∧ (∀ k, bfsLoop F ⟨fn, b⟩ (⟨fn, b⟩, i) (bfsFuel F + k)
              { alreadySeen := [], seenBBs := [], queue := [(⟨fn, b⟩, i)], mergeEdges := [],
                bb_to_cond_paths := paths }
            = exploreFrom F ⟨fn, b⟩ i paths)
        ∧ (exploreFrom F ⟨fn, b⟩ i paths).alreadySeen.Nodup
        ∧ (exploreFrom F ⟨fn, b⟩ i paths).alreadySeen.length ≤ numEdges F
        ∧ (exploreFrom F ⟨fn, b⟩ i paths).mergeEdges.Nodup)
      ∧ (mergeEdgesFrom F ⟨fn, b⟩ i).Nodup
      ∧ ∃ L, amFind (runOnFunction p fn F).mdMergeEdges ⟨fn, b⟩ = some L
          ∧ (L.getD i []).Nodup := by
  obtain ⟨s1, _, s3, _, _, _⟩ := runOnFunction_spec p hp fn F
  obtain ⟨_, hL, hids⟩ := s3 b hdeg
  refine ⟨fun paths => ?_, (explore_bounded F ⟨fn, b⟩ i [] hi).2.2, _, hL, ?_⟩
  · obtain ⟨h1, h2, h3⟩ := explore_bounded F ⟨fn, b⟩ i paths hi
    refine ⟨exploreFrom_terminates F ⟨fn, b⟩ i paths hi, fun k => ?_, h1, h2, h3⟩
    exact bfsLoop_fuel_add F ⟨fn, b⟩ (⟨fn, b⟩, i) (bfsFuel F) k _
      (exploreFrom_terminates F ⟨fn, b⟩ i paths hi)
  · rw [getD_map_range _ _ _ _ hi]
    refine List.Nodup.map_on (fun x hx y hy h => ?_) (explore_bounded F ⟨fn, b⟩ i [] hi).2.2
    obtain ⟨a, ha⟩ := hids i hi x hx
    obtain ⟨c, hc⟩ := hids i hi y hy
    exact edgeMDOf_inj s1 x y a c ha hc h

/-- The loop of `whileExample` with its back edge: the branch in block 1, successor 0. -/
theorem C33_exploration_bounded_witness :
    (∀ paths, (exploreFrom whileExample ⟨0, 1⟩ 0 paths).queue = []
        ∧ (∀ k, bfsLoop whileExample ⟨0, 1⟩ (⟨0, 1⟩, 0) (bfsFuel whileExample + k)
              { alreadySeen := [], seenBBs := [], queue := [(⟨0, 1⟩, 0)], mergeEdges := [],
                bb_to_cond_paths := paths }
            = exploreFrom whileExample ⟨0, 1⟩ 0 paths)
        ∧ (exploreFrom whileExample ⟨0, 1⟩ 0 paths).alreadySeen.Nodup
        ∧ (exploreFrom whileExample ⟨0, 1⟩ 0 paths).alreadySeen.length ≤ numEdges whileExample
        ∧ (exploreFrom whileExample ⟨0, 1⟩ 0 paths).mergeEdges.Nodup)
      ∧ (mergeEdgesFrom whileExample ⟨0, 1⟩ 0).Nodup
      ∧ ∃ L, amFind (runOnFunction CondMergePass.init 0 whileExample).mdMergeEdges ⟨0, 1⟩
            = some L
          ∧ (L.getD 0 []).Nodup :=
  C33_exploration_bounded CondMergePass.init PassInv_init 0 whileExample 1 0 (by decide)
    (by decide)

theorem bfsLoop_of_queue_nil (F : Function) (jump : Instr) (ce : Edge) (fuel : Nat)
    (s : BfsState) (h : s.queue = []) : bfsLoop F jump ce fuel s = s := by
  cases fuel with
  | zero => rfl
  | succ n =>
    rw [bfsLoop]
    split
    · rfl
    · rename_i cur rest heq
      rw [h] at heq
      simp at heq

/-- When the conditional edge itself enters a block that satisfies a merge predicate, the
exploration stops after classifying it. -/
theorem explore_merge_first (F : Function) (jump : Instr) (iSucc : Nat)
    (ps : List (Nat × List Edge))
    (hm : is_merge_edge F jump ⟨jump.fn, dest_bb_of_edge F (jump, iSucc)⟩ = true) :
    exploreFrom F jump iSucc ps
      = { alreadySeen := [(jump, iSucc)], seenBBs := [], queue := [],
          mergeEdges := [(jump, iSucc)], bb_to_cond_paths := ps } := by
  unfold exploreFrom bfsFuel
  rw [bfsLoop]
  dsimp only
  rw [bfsLoop_of_queue_nil]
  · unfold bfsStep
    dsimp only
    rw [if_neg (by simp), if_pos hm]
    rfl
  · unfold bfsStep
    dsimp only
    rw [if_neg (by simp), if_pos hm]

/-- Claim C34: after `runOnFunction` on a function without `CondPaths` metadata, for a
conditional edge `(T, i)`: the `CondPaths` list of every block reached from `(T, i)` along a
path that enters only blocks failing the three merge predicates holds the tuple of `(T, i)`
exactly once, and no other `CondPaths` list holds it; every edge that is `(T, i)` itself or
leaves such a block, and enters a block satisfying a merge predicate, is among the merge
edges found for `(T, i)` and its tuple is in element `i` of the `MergeEdges` list of `T`;
and when successor `i` itself satisfies a merge predicate, the merge edges found are
`[(T, i)]` and no block is reached. -/
theorem C34_exploration_complete (p : CondMergePass) (hp : PassInv p) (fn : Nat)
    (F : Function) (hfresh : ∀ B, amFind p.mdCondPaths ⟨fn, B⟩ = none)
    (b i : Nat) (hdeg : 1 < numSuccessors F b) (hi : i < numSuccessors F b) :
    (∀ B, (∃ path, MergeFreePath F ⟨fn, b⟩ i B path) →
        ∃ L, amFind (runOnFunction p fn F).mdCondPaths ⟨fn, B⟩ = some L
          ∧ L.count (edgeMDOf (runOnFunction p fn F) (⟨fn, b⟩, i)) = 1)
      ∧ (∀ B, (¬ ∃ path, MergeFreePath F ⟨fn, b⟩ i B path) →
        ∀ L, amFind (runOnFunction p fn F).mdCondPaths ⟨fn, B⟩ = some L →
          edgeMDOf (runOnFunction p fn F) (⟨fn, b⟩, i) ∉ L)
      ∧ (∀ e : Edge, is_merge_edge F ⟨fn, b⟩ ⟨e.1.fn, dest_bb_of_edge F e⟩ = true →
        (e = (⟨fn, b⟩, i)
          ∨ ∃ B path, MergeFreePath F ⟨fn, b⟩ i B path ∧ e.1 = ⟨fn, B⟩
              ∧ e.2 < numSuccessors F B) →
        e ∈ mergeEdgesFrom F ⟨fn, b⟩ i
          ∧ ∃ L, amFind (runOnFunction p fn F).mdMergeEdges ⟨fn, b⟩ = some L
              ∧ edgeMDOf (runOnFunction p fn F) e ∈ L.getD i [])
      ∧ (is_merge_edge F ⟨fn, b⟩ ⟨fn, dest_bb_of_edge F (⟨fn, b⟩, i)⟩ = true →
        mergeEdgesFrom F ⟨fn, b⟩ i = [(⟨fn, b⟩, i)]
          ∧ ∀ B, ¬ ∃ path, MergeFreePath F ⟨fn, b⟩ i B path) := by
  obtain ⟨s1, _, s3, _, s5, s6⟩ := runOnFunction_spec p hp fn F
  obtain ⟨hnd, _⟩ := runBlocks_condPaths F fn (List.range F.succs.length) p
  obtain ⟨⟨idT, hidT⟩, hL, hids⟩ := s3 b hdeg
  have hb : b ∈ List.range F.succs.length :=
    List.mem_range.mpr (numSuccessors_pos_lt F b (by omega))
  have hcount : ∀ B, ∃ d : Nat,
      ((amFind (runBlocks F fn (List.range F.succs.length) (p, [])).2 B).getD []).count
          ((⟨fn, b⟩ : Instr), i) = d
        ∧ ((∃ path, MergeFreePath F ⟨fn, b⟩ i B path) → d = 1)
        ∧ ((¬ ∃ path, MergeFreePath F ⟨fn, b⟩ i B path) → d = 0) := by
    intro B
    obtain ⟨d, h1, h2, h3⟩ := outer_count_self F fn B b i hdeg hi _ (List.nodup_range _) hb []
    refine ⟨d, ?_, h2, h3⟩
    rw [runBlocks_snd, h1]
    simp [amFind]
  have hinj : ∀ (l : List Edge),
      (∀ c ∈ l, ∃ id, amFind (runOnFunction p fn F).id_of_jump c.1 = some id) →
      ∀ x ∈ l, edgeMDOf (runOnFunction p fn F) x
          = edgeMDOf (runOnFunction p fn F) ((⟨fn, b⟩ : Instr), i) →
        x = ((⟨fn, b⟩ : Instr), i) := by
    intro l hl x hx h
    obtain ⟨a, ha⟩ := hl x hx
    exact edgeMDOf_inj s1 x _ a idT ha hidT h
  refine ⟨fun B hr => ?_, fun B hr L hLB => ?_, fun e hm he => ?_, fun hm => ?_⟩
  · obtain ⟨d, h1, h2, _⟩ := hcount B
    rw [h2 hr] at h1
    cases hf : amFind (runBlocks F fn (List.range F.succs.length) (p, [])).2 B with
    | none =>
      rw [hf] at h1
      simp at h1
    | some l =>
      rw [hf] at h1
      have hmem := mem_of_amFind _ _ _ hf
      obtain ⟨h3, h4⟩ := s5 (B, l) hmem
      refine ⟨_, h3, ?_⟩
      show List.count _ (l.map (edgeMDOf (runOnFunction p fn F))) = 1
      rw [count_map_of_inj_on _ _ _ (hinj l h4)]
      exact h1
  · obtain ⟨d, h1, _, h3⟩ := hcount B
    rw [h3 hr] at h1
    by_cases hk : ∃ entry ∈ (runBlocks F fn (List.range F.succs.length) (p, [])).2,
        entry.1 = B
    · obtain ⟨entry, hentry, rfl⟩ := hk
      obtain ⟨h4, h5⟩ := s5 entry hentry
      rw [h4] at hLB
      cases hLB
      intro hin
      obtain ⟨x, hx, hxe⟩ := List.mem_map.mp hin
      have := hinj entry.2 h5 x hx hxe
      subst this
      rw [amFind_of_mem _ entry.1 entry.2 hnd hentry] at h1
      exact absurd (List.count_pos_iff.mpr hx) (by
        simp only [Option.getD_some] at h1
        omega)
    · have hne : ∀ entry ∈ (runBlocks F fn (List.range F.succs.length) (p, [])).2,
          (⟨fn, B⟩ : Instr) ≠ ⟨fn, entry.1⟩ := by
        intro entry hentry h
        exact hk ⟨entry, hentry, (congrArg Instr.bb h).symm⟩
      rw [s6 ⟨fn, B⟩ hne, hfresh B] at hLB
      cases hLB
  · have hmem := explore_merges_complete F ⟨fn, b⟩ i hi e hm he
    refine ⟨hmem, _, hL, ?_⟩
    rw [getD_map_range _ _ _ _ hi]
    exact List.mem_map_of_mem _ hmem
  · constructor
    · unfold mergeEdgesFrom
      rw [explore_merge_first F ⟨fn, b⟩ i [] hm]
    · rintro B ⟨path, hhead, _, _, hnm⟩
      cases path with
      | nil => simp at hhead
      | cons a l =>
        simp only [List.head?_cons, Option.some.injEq] at hhead
        subst hhead
        have := (is_merge_edge_eq_false_iff F ⟨fn, b⟩ _).mpr (hnm _ (List.mem_cons_self _ _))
        rw [hm] at this
        exact absurd this (by simp)

/-- The branch of the diamond in a fresh pass, successor 1. -/
theorem C34_exploration_complete_witness :
    (∀ B, (∃ path, MergeFreePath diamondExample ⟨0, 0⟩ 1 B path) →
        ∃ L, amFind (runOnFunction CondMergePass.init 0 diamondExample).mdCondPaths ⟨0, B⟩
            = some L
          ∧ L.count (edgeMDOf (runOnFunction CondMergePass.init 0 diamondExample)
              (⟨0, 0⟩, 1)) = 1)
      ∧ (∀ B, (¬ ∃ path, MergeFreePath diamondExample ⟨0, 0⟩ 1 B path) →
        ∀ L, amFind (runOnFunction CondMergePass.init 0 diamondExample).mdCondPaths ⟨0, B⟩
            = some L →
          edgeMDOf (runOnFunction CondMergePass.init 0 diamondExample) (⟨0, 0⟩, 1) ∉ L)
      ∧ (∀ e : Edge,
        is_merge_edge diamondExample ⟨0, 0⟩ ⟨e.1.fn, dest_bb_of_edge diamondExample e⟩
            = true →
        (e = (⟨0, 0⟩, 1)
          ∨ ∃ B path, MergeFreePath diamondExample ⟨0, 0⟩ 1 B path ∧ e.1 = ⟨0, B⟩
              ∧ e.2 < numSuccessors diamondExample B) →
        e ∈ mergeEdgesFrom diamondExample ⟨0, 0⟩ 1
          ∧ ∃ L, amFind (runOnFunction CondMergePass.init 0 diamondExample).mdMergeEdges
                ⟨0, 0⟩ = some L
              ∧ edgeMDOf (runOnFunction CondMergePass.init 0 diamondExample) e
                  ∈ L.getD 1 [])
      ∧ (is_merge_edge diamondExample ⟨0, 0⟩
            ⟨0, dest_bb_of_edge diamondExample (⟨0, 0⟩, 1)⟩ = true →
        mergeEdgesFrom diamondExample ⟨0, 0⟩ 1 = [(⟨0, 0⟩, 1)]
          ∧ ∀ B, ¬ ∃ path, MergeFreePath diamondExample ⟨0, 0⟩ 1 B path) :=
  C34_exploration_complete CondMergePass.init PassInv_init 0 diamondExample (fun _ => rfl)
    0 1 (by decide) (by decide)

/-! ## The assertions of `plugInSummary` (claim C35) -/

theorem seedLike_of_callsite (F : Nat) (t : SrcOrSink_t) (h : t.callsite ≠ none) :
    seedLike F t := by
  intro hs
  unfold isSummaryScrink at hs
  simp [h] at hs

theorem seedLike_of_not_summary (F : Nat) (t : SrcOrSink_t) (h : isSummaryScrink t = false) :
    seedLike F t := by
  intro hs
  rw [h] at hs
  exact absurd hs (by simp)

theorem SeedsOnly.soReads {F : Nat} {m : AliasedTaintMap} (h : SeedsOnly F m) (g : Bool)
    (x : Value) (t : SrcOrSink_t) (ht : t ∈ readTaint g m x) : seedLike F t := by
  cases g with
  | false => exact h.base x t ht
  | true => exact seedLike_of_callsite F t (h.global x t ht)

theorem SeedsOnly.of_reads {F : Nat} {m m2 : AliasedTaintMap} (h : SeedsOnly F m)
    (hr : ∀ g x, readTaint g m2 x = readTaint g m x) : SeedsOnly F m2 :=
  ⟨fun x t ht => h.base x t (by rw [← hr]; exact ht),
    fun x t ht => h.global x t (by rw [← hr]; exact ht)⟩

theorem seedsOnly_addTaint (F : Nat) (m : AliasedTaintMap) (loc : Value) (t : SrcOrSink_t)
    (h : SeedsOnly F m) (ht : seedLike F t) : SeedsOnly F (addTaint m loc t).2 := by
  refine ⟨fun x y hy => ?_, fun x y hy => ?_⟩
  · rw [mem_readTaint_addTaint] at hy
    rcases hy with hy | ⟨_, _, _, rfl⟩
    · exact h.base x y hy
    · exact ht
  · rw [mem_readTaint_addTaint] at hy
    rcases hy with hy | ⟨hd, hu, _, rfl⟩
    · exact h.global x y hy
    · intro hc
      unfold dropsToken at hd
      rw [← hu] at hd
      simp [hc] at hd

theorem seedsOnly_addTaintSet (F : Nat) (m : AliasedTaintMap) (loc : Value)
    (S : List SrcOrSink_t) (h : SeedsOnly F m) (hS : ∀ t ∈ S, seedLike F t) :
    SeedsOnly F (addTaintSet m loc S).2 := by
  refine ⟨fun x y hy => ?_, fun x y hy => ?_⟩
  · rw [mem_readTaint_addTaintSet_iff] at hy
    rcases hy with hy | ⟨hy, _⟩
    · exact h.base x y hy
    · exact hS y hy
  · rw [mem_readTaint_addTaintSet_iff] at hy
    rcases hy with hy | ⟨_, hd, hu, _⟩
    · exact h.global x y hy
    · intro hc
      unfold dropsToken at hd
      rw [← hu] at hd
      simp [hc] at hd

theorem seedsOnly_getTaint (F : Nat) (m : AliasedTaintMap) (v : Value) (h : SeedsOnly F m) :
    SeedsOnly F (getTaintAsSingleSet m v).2
      ∧ ∀ t ∈ (getTaintAsSingleSet m v).1, seedLike F t := by
  refine ⟨h.of_reads (fun g x => readTaint_getTaint m v g x), fun t ht => ?_⟩
  rw [mem_getTaint] at ht
  obtain ⟨b, _, hb⟩ := ht
  exact h.soReads _ b t hb

theorem AssertsHold.of_summaries {p q : TaintPass}
    (hq : ∀ F, summaryOf q F = summaryOf p F) (h : AssertsHold p) : AssertsHold q := by
  intro F e he
  rw [hq F] at he
  exact h F e he

theorem AssertsHold.of_flows {p q : TaintPass}
    (hq : q.funcFlowsBySink = p.funcFlowsBySink) (h : AssertsHold p) : AssertsHold q :=
  h.of_summaries (fun F => by unfold summaryOf; rw [hq])

theorem assertsHold_updFlow (p : TaintPass) (F : Nat) (key : SrcOrSink_t)
    (g : List SrcOrSink_t → List SrcOrSink_t) (h : AssertsHold p)
    (hkey : key.callsite = none → key.func = some F)
    (hg : ∀ s, (∀ t ∈ s, seedLike F t) → ∀ t ∈ g s, seedLike F t) :
    AssertsHold (updFlow p F key g) := by
  intro F2 e he
  rw [summaryOf_updFlow] at he
  split at he
  · rename_i hF
    subst hF
    rcases mem_amUpdate _ _ _ _ _ he with h1 | ⟨v, hv, rfl⟩ | rfl
    · exact h F2 e h1
    · exact ⟨hkey, hg v (h F2 _ hv).2⟩
    · exact ⟨hkey, hg [] (by simp)⟩
  · exact h F2 e he

theorem assertsHold_touch (p : TaintPass) (f : Nat) (h : AssertsHold p) :
    AssertsHold
      { p with funcFlowsBySink := amUpdate [] (fun summ => summ) p.funcFlowsBySink f } :=
  h.of_summaries (fun _ => getD_amFind_touch _ _ _ _)

theorem wrapIfWrapper_not_summary (p : TaintPass) (callee : Nat) (callsite : Value)
    (tok : SrcOrSink_t) (h : isSummaryScrink tok = false) :
    isSummaryScrink (wrapIfWrapper p callee callsite tok).1 = false := by
  unfold wrapIfWrapper
  split
  · simp [wrapToken, isSummaryScrink]
  · exact h

theorem mem_setInsert_forall {T : Type} [DecidableEq T] (P : T → Prop) (s : List T) (x : T)
    (hs : ∀ t ∈ s, P t) (hx : P x) : ∀ t ∈ setInsert s x, P t := by
  intro t ht
  rcases (mem_setInsert_iff s x t).mp ht with h | h
  · exact hs t h
  · exact h ▸ hx

theorem mem_extendWith_forall {T : Type} [DecidableEq T] (P : T → Prop) (s d : List T)
    (hs : ∀ t ∈ s, P t) (hd : ∀ t ∈ d, P t) : ∀ t ∈ extendWith s d, P t := by
  intro t ht
  rcases (mem_extendWith_iff d s t).mp ht with h | h
  · exact hs t h
  · exact hd t h

theorem plugSource_assertInv (caller : Nat) (callsite : Value) (callee : Nat)
    (args : List Value) (sumSink : SrcOrSink_t) (dest : TaintDest) (st : AnState)
    (sumSrc : SrcOrSink_t) (h : AssertInv caller st)
    (hdest : ∀ key, dest = .flow key → key.callsite = none → key.func = some caller) :
    AssertInv caller (plugSource caller callsite callee args sumSink dest st sumSrc) := by
  unfold plugSource
  split
  · rename_i hns
    have hns2 : isSummaryScrink sumSrc = false := by simpa using hns
    split
    · exact h
    · have hw := seedLike_of_not_summary caller _
        (wrapIfWrapper_not_summary st.pass callee callsite sumSrc hns2)
      cases dest with
      | flow key =>
        exact ⟨assertsHold_updFlow _ caller key _
          (h.flows.of_flows (wrapIfWrapper_flows _ _ _ _)) (hdest key rfl)
          (fun s hs => mem_setInsert_forall _ s _ hs hw), h.taint⟩
      | value v =>
        exact ⟨h.flows.of_flows (wrapIfWrapper_flows _ _ _ _),
          seedsOnly_addTaint caller _ v _ h.taint hw⟩
  · split
    · exact h
    · rename_i actArg _
      obtain ⟨h1, h2⟩ := seedsOnly_getTaint caller st.taintOfVal actArg h.taint
      cases dest with
      | flow key =>
        exact ⟨assertsHold_updFlow _ caller key _ h.flows (hdest key rfl)
          (fun s hs => mem_extendWith_forall _ s _ hs h2), h1⟩
      | value v => exact ⟨h.flows, seedsOnly_addTaintSet caller _ v _ h1 h2⟩

theorem plugEntry_assertInv (caller : Nat) (callsite : Value) (callee : Nat)
    (args : List Value) (st : AnState) (e : SrcOrSink_t × List SrcOrSink_t)
    (h : AssertInv caller st) : AssertInv caller (plugEntry caller callsite callee args st e) := by
  unfold plugEntry
  split
  · split
    · exact h
    · exact foldl_keeps (AssertInv caller) _
        (fun s x hs => plugSource_assertInv _ _ _ _ _ _ s x hs
          (fun key hk => by cases hk)) _ _ h
  · rename_i hcs
    dsimp only
    have hkey := wrapIfWrapper_callsite st.pass callee callsite e.1 hcs
    refine foldl_keeps (AssertInv caller) _
      (fun s x hs => plugSource_assertInv _ _ _ _ _ _ s x hs
        (fun key hk hc => by
          cases hk
          exact absurd hc hkey)) _ _ ?_
    exact ⟨assertsHold_updFlow _ caller _ _
      (h.flows.of_flows (wrapIfWrapper_flows _ _ _ _)) (fun hc => absurd hc hkey)
      (fun s hs => hs), h.taint⟩

theorem plugInSummary_assertInv (caller : Nat) (callsite : Value) (callee : Nat)
    (args : List Value) (st : AnState) (h : AssertInv caller st) :
    AssertInv caller (plugInSummary caller callsite callee args st) := by
  unfold plugInSummary
  dsimp only
  exact foldl_keeps (AssertInv caller) _
    (fun s x hs => plugEntry_assertInv _ _ _ _ s x hs) _ _
    ⟨assertsHold_touch _ _ h.flows, h.taint⟩

theorem noteGvar_assertInv (F caller : Nat) (gv : Value) (st : AnState)
    (h : AssertInv F st) : AssertInv F (noteGvar caller gv st) :=
  ⟨h.flows.of_flows rfl, h.taint⟩

theorem recordSink_assertInv (M : Module) (caller : Nat) (callsite : Value) (callee : Nat)
    (arg : Nat) (v : Value) (auxType : Int) (st : AnState) (h : AssertInv caller st) :
    AssertInv caller (recordSink M caller callsite callee arg v auxType st) := by
  obtain ⟨h1, h2⟩ := seedsOnly_getTaint caller st.taintOfVal v h.taint
  have h3 : AssertInv caller
      { st with
        pass := updFlow st.pass caller (siteToken callee arg callsite auxType)
          (fun _ => (getTaintAsSingleSet st.taintOfVal v).1)
        taintOfVal := (getTaintAsSingleSet st.taintOfVal v).2 } :=
    ⟨assertsHold_updFlow _ caller _ _ h.flows (fun hc => by simp [siteToken] at hc)
      (fun _ _ => h2), h1⟩
  unfold recordSink
  dsimp only
  split
  · exact noteGvar_assertInv caller caller _ _ h3
  · exact h3

theorem touchSinkCat_assertInv (F callee : Nat) (st : AnState) (h : AssertInv F st) :
    AssertInv F (touchSinkCat callee st) :=
  ⟨h.flows.of_flows rfl, h.taint⟩

theorem recordSinks_assertInv (M : Module) (caller : Nat) (callsite : Value) (callee : Nat)
    (rest : List Value) (arg : Nat) (st : AnState) (h : AssertInv caller st) :
    AssertInv caller (recordSinks M caller callsite callee arg rest st) := by
  induction rest generalizing arg st with
  | nil =>
    unfold recordSinks
    exact h
  | cons v rest ih =>
    unfold recordSinks
    dsimp only
    split
    · exact touchSinkCat_assertInv caller callee st h
    · split
      · exact ih _ _ (touchSinkCat_assertInv caller callee st h)
      · exact ih _ _ (recordSink_assertInv M caller callsite callee arg v _ _
          (touchSinkCat_assertInv caller callee st h))

theorem noteUnknownExt_assertInv (M : Module) (F callee : Nat) (st : AnState)
    (h : AssertInv F st) : AssertInv F (noteUnknownExt M callee st) := by
  unfold noteUnknownExt
  split
  · exact h
  · split
    · exact h
    · exact ⟨h.flows.of_flows rfl, h.taint⟩

theorem touchSrcCat_assertInv (F callee : Nat) (arg : Int) (st : AnState)
    (h : AssertInv F st) : AssertInv F (touchSrcCat callee arg st) :=
  ⟨h.flows.of_flows rfl, h.taint⟩

theorem addSourceAt_assertInv (M : Module) (F caller : Nat) (v : Value) (src : SrcOrSink_t)
    (st : AnState) (h : AssertInv F st) (hs : seedLike F src) :
    AssertInv F (addSourceAt M caller v src st) := by
  have h1 : AssertInv F { st with taintOfVal := (addTaint st.taintOfVal v src).2 } :=
    ⟨h.flows, seedsOnly_addTaint F _ v src h.taint hs⟩
  unfold addSourceAt
  dsimp only
  split
  · split
    · exact noteGvar_assertInv F caller _ _ h1
    · exact h1
  · exact h1

theorem injectSource_assertInv (M : Module) (caller : Nat) (callsite : Value) (callee : Nat)
    (args : List Value) (st : AnState) (arg : Int) (h : AssertInv caller st) :
    AssertInv caller (injectSource M caller callsite callee args st arg) := by
  have h0 := touchSrcCat_assertInv caller callee arg st h
  have hs : ∀ a, seedLike caller (siteToken callee arg callsite a) :=
    fun a => seedLike_of_callsite caller _ (by simp [siteToken])
  unfold injectSource
  dsimp only
  split
  · exact h0
  · split
    · exact ⟨h0.flows, seedsOnly_addTaint caller _ callsite _ h0.taint (hs _)⟩
    · split
      · exact h0
      · exact addSourceAt_assertInv M caller caller _ _ _ h0 (hs _)

theorem injectSources_assertInv (M : Module) (caller : Nat) (callsite : Value) (callee : Nat)
    (args : List Value) (st : AnState) (h : AssertInv caller st) :
    AssertInv caller (injectSources M caller callsite callee args st) := by
  unfold injectSources
  exact foldl_keeps (AssertInv caller) _
    (fun s x hs => injectSource_assertInv M caller _ _ _ s x hs) _ _ h

theorem takeTaint_assertInv (F : Nat) (dest : Value) (st : AnState) (operand : Value)
    (h : AssertInv F st) : AssertInv F (takeTaint dest st operand) := by
  obtain ⟨h1, h2⟩ := seedsOnly_getTaint F st.taintOfVal operand h.taint
  exact ⟨h.flows, seedsOnly_addTaintSet F _ dest _ h1 h2⟩

theorem normalInst_assertInv (F : Nat) (inst : Instruction) (st : AnState)
    (h : AssertInv F st) : AssertInv F (normalInst inst st) := by
  unfold normalInst
  exact foldl_keeps (AssertInv F) _ (fun s x hs => takeTaint_assertInv F _ s x hs) _ _ h

/-- Processing an instruction keeps the invariant: afterwards no `assert` of
`plugInSummary` can fail on any summary, and the taint map of `F` holds no summary tokens
but those of the parameters of `F`. -/
theorem analyzeInst_assertInv (M : Module) (F : Nat) (st : AnState) (inst : Instruction)
    (h : AssertInv F st) : AssertInv F (analyzeInst M F st inst) := by
  unfold analyzeInst
  split
  · exact h
  · exact h
  · dsimp only
    rw [promoteFilenames_eq]
    split
    · refine injectSources_assertInv M F _ _ _ _ (noteUnknownExt_assertInv M F _ _
        (recordSinks_assertInv M F _ _ _ 0 _ ?_))
      split
      · exact plugInSummary_assertInv _ _ _ _ _ h
      · exact h
    · exact plugInSummary_assertInv _ _ _ _ _ h
  · exact takeTaint_assertInv F _ st _ h
  · refine normalInst_assertInv F _ _ ⟨h.flows, h.taint.of_reads (fun g x => ?_)⟩
    exact foldl_addAlias_reads _ _ _ g x
  · exact normalInst_assertInv F _ st h
  · exact normalInst_assertInv F _ st h

theorem onePass_assertInv (M : Module) (F : Nat) (st : AnState) (h : AssertInv F st) :
    AssertInv F (onePass M F st) := by
  unfold onePass
  exact foldl_keeps (AssertInv F) _ (fun s x hs => analyzeInst_assertInv M F s x hs) _ _ h

theorem fixLoop_assertInv (M : Module) (F : Nat) (fuel : Nat) (st : AnState)
    (h : AssertInv F st) : AssertInv F (fixLoop M F fuel st) := by
  induction fuel generalizing st with
  | zero => exact h
  | succ n ih =>
    unfold fixLoop
    dsimp only
    split
    · exact onePass_assertInv M F st h
    · exact ih _ (onePass_assertInv M F st h)

theorem seedArgs_seedsOnly (F : Nat) (rest : List Value) (ix : Int) (hix : 0 ≤ ix)
    (m : AliasedTaintMap) (h : SeedsOnly F m) : SeedsOnly F (seedArgs F ix rest m) := by
  induction rest generalizing ix m with
  | nil => exact h
  | cons a rest ih =>
    unfold seedArgs
    refine ih (ix + 1) (by omega) _ (seedsOnly_addTaint F m a _ h ?_)
    intro _
    refine ⟨rfl, ?_⟩
    show ix ≠ RETVAL_CODE
    unfold RETVAL_CODE
    omega

/-- The state in which `analyzeFunc` enters its fixpoint loop satisfies the invariant. -/
theorem analyzeBody_zero_assertInv (M : Module) (p : TaintPass) (F : Nat)
    (hp : AssertsHold p) (hg : GlobalOK p) : AssertInv F (analyzeBody 0 M p F) := by
  unfold analyzeBody fixLoop
  refine ⟨assertsHold_touch _ _ hp, seedArgs_seedsOnly F _ 0 (le_refl _) _ ⟨?_, ?_⟩⟩
  · intro x t ht
    simp [readTaint, amFind] at ht
  · intro x t ht
    exact hg x t ht

theorem analyzeBody_assertInv (fuel : Nat) (M : Module) (p : TaintPass) (F : Nat)
    (hp : AssertsHold p) (hg : GlobalOK p) : AssertInv F (analyzeBody fuel M p F) := by
  have h0 := analyzeBody_zero_assertInv M p F hp hg
  unfold analyzeBody at h0 ⊢
  exact fixLoop_assertInv M F fuel _ h0

theorem argSinks_assert (F : Nat) (rest : List Value) (ix : Nat)
    (acc : TaintPass × AliasedTaintMap) (h1 : AssertsHold acc.1) (h2 : SeedsOnly F acc.2) :
    AssertsHold (argSinks F ix rest acc).1 ∧ SeedsOnly F (argSinks F ix rest acc).2 := by
  induction rest generalizing ix acc with
  | nil =>
    unfold argSinks
    exact ⟨h1, h2⟩
  | cons a rest ih =>
    unfold argSinks
    dsimp only
    obtain ⟨g1, g2⟩ := seedsOnly_getTaint F acc.2 a h2
    exact ih (ix + 1) _
      (assertsHold_updFlow _ F _ _ h1 (fun _ => rfl) (fun _ _ => g2)) g1

theorem summarize_assert (M : Module) (F : Nat) (p : TaintPass) (m : AliasedTaintMap)
    (h1 : AssertsHold p) (h2 : SeedsOnly F m) :
    AssertsHold (summarize M F p m).1 ∧ SeedsOnly F (summarize M F p m).2 := by
  unfold summarize
  dsimp only
  have hr := returnTaint_spec (M.func F).insts ([], m)
  refine argSinks_assert F _ 0 _ (assertsHold_updFlow _ F _ _ h1 (fun _ => rfl)
    (fun _ _ t ht => ?_)) (h2.of_reads (fun g x => hr.1.2 g x))
  rcases (hr.2 t).mp ht with h3 | ⟨_, _, v, _, h3⟩
  · simp at h3
  · exact (seedsOnly_getTaint F m v h2).2 t h3

theorem requeue_flows (F : Nat) (gvarSet : List Value) (p : TaintPass) :
    (requeue F gvarSet p).funcFlowsBySink = p.funcFlowsBySink
      ∧ (requeue F gvarSet p).globalSrcTaintSet = p.globalSrcTaintSet := ⟨rfl, rfl⟩

/-- A call of `analyzeFunc`, with any number of passes granted to its fixpoint loop, keeps
the summaries such that no `assert` of `plugInSummary` can fail, and the global table free
of tokens without call site. -/
theorem analyzeFuncWith_assert (fuel : Nat) (M : Module) (p : TaintPass) (F : Nat)
    (hp : AssertsHold p) (hg : GlobalOK p) :
    AssertsHold (analyzeFuncWith fuel M p F) ∧ GlobalOK (analyzeFuncWith fuel M p F) := by
  have hb := analyzeBody_assertInv fuel M p F hp hg
  obtain ⟨h1, h2⟩ := summarize_assert M F _ _ hb.flows hb.taint
  have h3 : AssertsHold
      { (summarize M F (analyzeBody fuel M p F).pass (analyzeBody fuel M p F).taintOfVal).1 with
        globalSrcTaintSet :=
          (summarize M F (analyzeBody fuel M p F).pass
            (analyzeBody fuel M p F).taintOfVal).2.globalSrcTaintSet } :=
    h1.of_flows rfl
  have h4 : GlobalOK
      { (summarize M F (analyzeBody fuel M p F).pass (analyzeBody fuel M p F).taintOfVal).1 with
        globalSrcTaintSet :=
          (summarize M F (analyzeBody fuel M p F).pass
            (analyzeBody fuel M p F).taintOfVal).2.globalSrcTaintSet } :=
    fun x t ht => h2.global x t ht
  unfold analyzeFuncWith
  dsimp only
  split
  · exact ⟨h3, h4⟩
  · exact ⟨h3.of_flows (requeue_flows _ _ _).1, fun x t ht => h4 x t ht⟩

theorem driverStep_assert (M : Module) (p q : TaintPass) (h : driverStep M p = some q)
    (hp : AssertsHold p) (hg : GlobalOK p) : AssertsHold q ∧ GlobalOK q := by
  unfold driverStep at h
  split at h
  · cases h
  · rename_i func w _
    cases func with
    | none =>
      simp only [Option.some.injEq] at h
      subst h
      exact ⟨hp.of_flows rfl, fun x t ht => hg x t ht⟩
    | some F =>
      simp only [Option.some.injEq] at h
      subst h
      exact analyzeFuncWith_assert _ M _ F (hp.of_flows rfl) (fun x t ht => hg x t ht)

theorem driverLoop_assert (M : Module) (n : Nat) (p : TaintPass)
    (hp : AssertsHold p) (hg : GlobalOK p) :
    AssertsHold (driverLoop M n p) ∧ GlobalOK (driverLoop M n p) := by
  induction n generalizing p with
  | zero => exact ⟨hp, hg⟩
  | succ n ih =>
    unfold driverLoop
    split
    · exact ⟨hp, hg⟩
    · rename_i q hq
      obtain ⟨h1, h2⟩ := driverStep_assert M p q hq hp hg
      exact ih q h1 h2

/-- The part of `run` before the worklist loop changes the worklist and `callersOfFunc`
only. -/
theorem startWorkList_frame (M : Module) (p : TaintPass) :
    ∃ w c, startWorkList M p = { p with funcWorkList := w, callersOfFunc := c } := by
  have hlink : ∀ (l : List Nat) (st : SchedState),
      (∃ w c, st.pass = { p with funcWorkList := w, callersOfFunc := c }) →
      ∃ w c, (l.foldl (linkCallers M) st).pass
        = { p with funcWorkList := w, callersOfFunc := c } := by
    intro l st h
    refine foldl_keeps (fun (s : SchedState) =>
      ∃ w c, s.pass = { p with funcWorkList := w, callersOfFunc := c }) _ (fun s F hs => ?_)
      l st h
    obtain ⟨w, c, hs⟩ := hs
    unfold linkCallers
    split
    · exact ⟨w, c, hs⟩
    · exact ⟨w, _, by dsimp only; rw [hs]⟩
  have hfunc : ∀ (s : SchedState × Bool) (f : Nat),
      (∃ w c, s.1.pass = { p with funcWorkList := w, callersOfFunc := c }) →
      ∃ w c, (scheduleFunc s f).1.pass = { p with funcWorkList := w, callersOfFunc := c } := by
    intro s f hs
    obtain ⟨w, c, hs⟩ := hs
    unfold scheduleFunc
    split
    · exact ⟨w, c, hs⟩
    · split
      · exact ⟨_, _, by dsimp only; rw [hs]⟩
      · exact ⟨w, c, hs⟩
  have hrounds : ∀ (n : Nat) (st : SchedState),
      (∃ w c, st.pass = { p with funcWorkList := w, callersOfFunc := c }) →
      ∃ w c, (scheduleRounds n st).pass
        = { p with funcWorkList := w, callersOfFunc := c } := by
    intro n
    induction n with
    | zero => intro st h; exact h
    | succ n ih =>
      intro st h
      have hr : ∃ w c, (scheduleRound st).1.pass
          = { p with funcWorkList := w, callersOfFunc := c } := by
        unfold scheduleRound
        exact foldl_keeps (fun (s : SchedState × Bool) =>
          ∃ w c, s.1.pass = { p with funcWorkList := w, callersOfFunc := c }) _
          (fun s f hs => hfunc s f hs) _ _ h
      unfold scheduleRounds
      dsimp only
      split
      · exact hr
      · exact ih _ hr
  unfold startWorkList
  dsimp only
  refine foldl_keeps (fun (q : TaintPass) =>
    ∃ w c, q = { p with funcWorkList := w, callersOfFunc := c }) _ (fun q F hq => ?_) _ _
    (hrounds 20 _ (hlink _ _ ⟨_, p.callersOfFunc, rfl⟩))
  obtain ⟨w, c, hq⟩ := hq
  split
  · exact ⟨w, c, hq⟩
  · exact ⟨_, c, by rw [hq]⟩

theorem copierFlows_assert (F : Nat) (ix : Int) (hix : 0 ≤ ix) (names : List (List Char))
    (acc : List (List Char × Int) × TaintPass) (h : AssertsHold acc.2) :
    AssertsHold (copierFlows F (sumToken F ix) names acc).2 := by
  induction names generalizing acc with
  | nil =>
    unfold copierFlows
    exact h
  | cons nm names ih =>
    unfold copierFlows
    dsimp only
    refine ih _ (assertsHold_updFlow _ F _ _ h (fun _ => rfl)
      (fun s hs => mem_setInsert_forall _ s _ hs ?_))
    intro _
    refine ⟨rfl, ?_⟩
    show ix ≠ RETVAL_CODE
    unfold RETVAL_CODE
    omega

theorem copierArgs_assert (F : Nat) (decls : ArgDecls) (ix : Int) (hix : 0 ≤ ix)
    (acc : List (List Char × Int) × TaintPass) (h : AssertsHold acc.2) :
    AssertsHold (copierArgs F decls ix acc).2 := by
  induction decls generalizing ix acc with
  | nil =>
    unfold copierArgs
    exact h
  | cons d decls ih =>
    unfold copierArgs
    exact ih (ix + 1) (by omega) _ (copierFlows_assert F ix hix d.2 acc h)

/-- Loading the summary of a taint copier keeps the summaries such that no `assert` of
`plugInSummary` can fail. -/
theorem loadCopier_assert (M : Module) (p : TaintPass) (libcfn : List Char) (val : ArgDecls)
    (h : AssertsHold p) : AssertsHold (loadCopier M p libcfn val) := by
  unfold loadCopier
  split
  · exact h
  · exact copierArgs_assert _ val 0 (le_refl _) _ (h.of_flows rfl)

/-- Claim C35: from a pass object on whose summaries no `assert` of `plugInSummary` can
fail and whose global table holds tokens with a call site only, as the freshly constructed
pass object is, the same holds after loading a taint-copier summary, in every state of the
worklist loop of `run`, and in every state that a sequence of `analyzeInst` calls reaches
from the state in which `analyzeFunc` enters its fixpoint loop: every summary sink without
call site in the summary of `F` names `F`, and every summary token in a source set of that
summary names `F` and an argument number other than `RETVAL_CODE`. -/
theorem C35_asserts_hold (M : Module) (p : TaintPass) (hp : AssertsHold p)
    (hg : GlobalOK p) :
    (AssertsHold TaintPass.fresh ∧ GlobalOK TaintPass.fresh)
      ∧ (∀ libcfn val, AssertsHold (loadCopier M p libcfn val)
          ∧ GlobalOK (loadCopier M p libcfn val))
      ∧ ∀ n : Nat, AssertsHold (driverLoop M n (startWorkList M p))
          ∧ ∀ (F : Nat) (l : List Instruction),
              AssertsHold (l.foldl (analyzeInst M F)
                (analyzeBody 0 M (driverLoop M n (startWorkList M p)) F)).pass := by
  refine ⟨⟨?_, ?_⟩, fun libcfn val => ⟨loadCopier_assert M p libcfn val hp, ?_⟩, fun n => ?_⟩
  · intro F e he
    simp [summaryOf, TaintPass.fresh, amFind] at he
  · intro x t ht
    simp [TaintPass.fresh, amFind] at ht
  · have : (loadCopier M p libcfn val).globalSrcTaintSet = p.globalSrcTaintSet := by
      unfold loadCopier
      split
      · rfl
      · refine (?_ : ∀ (decls : ArgDecls) (ix : Int) (acc : List (List Char × Int) × TaintPass),
          (copierArgs _ decls ix acc).2.globalSrcTaintSet = acc.2.globalSrcTaintSet) val 0 _
        intro decls
        induction decls with
        | nil => intro ix acc; rfl
        | cons d decls ih =>
          intro ix acc
          unfold copierArgs
          rw [ih]
          generalize d.2 = names
          induction names generalizing acc with
          | nil => rfl
          | cons nm names ih2 =>
            unfold copierFlows
            dsimp only
            rw [ih2]
            rfl
    intro x t ht
    rw [this] at ht
    exact hg x t ht
  · obtain ⟨w, c, hs⟩ := startWorkList_frame M p
    have h0 : AssertsHold (startWorkList M p) ∧ GlobalOK (startWorkList M p) := by
      rw [hs]
      exact ⟨hp.of_flows rfl, fun x t ht => hg x t ht⟩
    obtain ⟨h1, h2⟩ := driverLoop_assert M n _ h0.1 h0.2
    refine ⟨h1, fun F l => ?_⟩
    exact (foldl_keeps (AssertInv F) _ (fun s x hs => analyzeInst_assertInv M F s x hs) l _
      (analyzeBody_zero_assertInv M _ F h1 h2)).flows

/-- The module of scenario S3 with its loaded pass object. -/
theorem C35_asserts_hold_witness :
    (AssertsHold TaintPass.fresh ∧ GlobalOK TaintPass.fresh)
      ∧ (∀ libcfn val, AssertsHold (loadCopier s3Module s3Pass libcfn val)
          ∧ GlobalOK (loadCopier s3Module s3Pass libcfn val))
      ∧ ∀ n : Nat, AssertsHold (driverLoop s3Module n (startWorkList s3Module s3Pass))
          ∧ ∀ (F : Nat) (l : List Instruction),
              AssertsHold (l.foldl (analyzeInst s3Module F)
                (analyzeBody 0 s3Module
                  (driverLoop s3Module n (startWorkList s3Module s3Pass)) F)).pass :=
  C35_asserts_hold s3Module s3Pass
    (fun F e he => by simp [summaryOf, s3Pass, TaintPass.fresh, amFind] at he)
    (fun x t ht => by simp [s3Pass, TaintPass.fresh, amFind] at ht)

/-! ## What the analysis of a function keeps of the rest of the pass object -/

theorem StepKeeps.skRefl (F : Nat) (p : TaintPass) : StepKeeps F p p :=
  ⟨fun _ _ => rfl, fun _ _ h => h, fun h => h⟩

theorem StepKeeps.skTrans {F : Nat} {p q r : TaintPass} (h1 : StepKeeps F p q)
    (h2 : StepKeeps F q r) : StepKeeps F p r :=
  ⟨fun G hG => (h2.others G hG).trans (h1.others G hG),
    fun gv f h => h2.fnsRef gv f (h1.fnsRef gv f h),
    fun h => h2.scrinkInv (h1.scrinkInv h)⟩

/-- A step that leaves the summaries, the table of global variables and the intern table
as they are. -/
theorem StepKeeps.skOfEq (F : Nat) {p q : TaintPass}
    (h1 : q.funcFlowsBySink = p.funcFlowsBySink)
    (h2 : q.fnsReferencingGvar = p.fnsReferencingGvar)
    (h3 : q.scrinksInUse = p.scrinksInUse) (h4 : q.scrinkHeap = p.scrinkHeap) :
    StepKeeps F p q := by
  refine ⟨fun G _ => ?_, fun gv f h => ?_, fun h t a ha => ?_⟩
  · unfold summaryOf
    rw [h1]
  · rw [h2]
    exact h
  · rw [h3] at ha
    rw [h4]
    exact h t a ha

theorem updFlow_stepKeeps (p : TaintPass) (F : Nat) (key : SrcOrSink_t)
    (g : List SrcOrSink_t → List SrcOrSink_t) : StepKeeps F p (updFlow p F key g) :=
  ⟨fun G hG => by rw [summaryOf_updFlow, if_neg hG], fun _ _ h => h, fun h => h⟩

theorem touchFlows_stepKeeps (F : Nat) (p : TaintPass) (callee : Nat) :
    StepKeeps F p
      { p with funcFlowsBySink := amUpdate [] (fun summ => summ) p.funcFlowsBySink callee } :=
  ⟨fun G _ => by
      unfold summaryOf
      dsimp only
      rw [getD_amFind_touch],
    fun _ _ h => h, fun h => h⟩

theorem storeScrink_stepKeeps (F : Nat) (p : TaintPass) (tok : SrcOrSink_t) :
    StepKeeps F p (storeScrink p tok).2 := by
  refine ⟨fun G _ => ?_, fun gv f h => ?_, fun h => storeScrink_inv p tok h⟩
  · unfold summaryOf
    rw [storeScrink_flows]
  · unfold storeScrink
    split
    · exact h
    · exact h

theorem wrapIfWrapper_stepKeeps (F : Nat) (p : TaintPass) (callee : Nat) (callsite : Value)
    (tok : SrcOrSink_t) : StepKeeps F p (wrapIfWrapper p callee callsite tok).2 := by
  unfold wrapIfWrapper
  split
  · exact storeScrink_stepKeeps F p tok
  · exact StepKeeps.skRefl F p

theorem plugSource_stepKeeps (caller : Nat) (callsite : Value) (callee : Nat)
    (args : List Value) (sumSink : SrcOrSink_t) (dest : TaintDest) (st : AnState)
    (sumSrc : SrcOrSink_t) :
    StepKeeps caller st.pass
      (plugSource caller callsite callee args sumSink dest st sumSrc).pass := by
  unfold plugSource
  split
  · split
    · exact StepKeeps.skRefl _ _
    · cases dest with
      | flow key =>
        exact (wrapIfWrapper_stepKeeps caller _ _ _ _).skTrans (updFlow_stepKeeps _ _ _ _)
      | value v => exact wrapIfWrapper_stepKeeps caller _ _ _ _
  · split
    · exact StepKeeps.skRefl _ _
    · cases dest with
      | flow key => exact updFlow_stepKeeps _ _ _ _
      | value v => exact StepKeeps.skRefl _ _

theorem foldl_stepKeeps {α : Type} (F : Nat) (f : AnState → α → AnState)
    (hf : ∀ st x, StepKeeps F st.pass (f st x).pass) (l : List α) (st : AnState) :
    StepKeeps F st.pass (l.foldl f st).pass := by
  induction l generalizing st with
  | nil => exact StepKeeps.skRefl _ _
  | cons x l ih => exact (hf st x).skTrans (ih _)

theorem plugEntry_stepKeeps (caller : Nat) (callsite : Value) (callee : Nat)
    (args : List Value) (st : AnState) (e : SrcOrSink_t × List SrcOrSink_t) :
    StepKeeps caller st.pass (plugEntry caller callsite callee args st e).pass := by
  unfold plugEntry
  split
  · split
    · exact StepKeeps.skRefl _ _
    · exact foldl_stepKeeps caller _ (fun s x => plugSource_stepKeeps _ _ _ _ _ _ s x) _ _
  · dsimp only
    exact ((wrapIfWrapper_stepKeeps caller _ _ _ _).skTrans (updFlow_stepKeeps _ _ _ _)).skTrans
      (foldl_stepKeeps caller _ (fun s x => plugSource_stepKeeps _ _ _ _ _ _ s x) _
        { st with
          pass :=
            (updFlow (wrapIfWrapper st.pass callee callsite e.1).2 caller
              (wrapIfWrapper st.pass callee callsite e.1).1 (fun s => s)) })

theorem plugInSummary_stepKeeps (caller : Nat) (callsite : Value) (callee : Nat)
    (args : List Value) (st : AnState) :
    StepKeeps caller st.pass (plugInSummary caller callsite callee args st).pass := by
  unfold plugInSummary
  dsimp only
  exact (touchFlows_stepKeeps caller st.pass callee).skTrans
    (foldl_stepKeeps caller _ (fun s x => plugEntry_stepKeeps _ _ _ _ s x) _
      { st with pass := { st.pass with
          funcFlowsBySink := amUpdate [] (fun summ => summ) st.pass.funcFlowsBySink callee } })

theorem noteGvar_stepKeeps (F caller : Nat) (gv : Value) (st : AnState) :
    StepKeeps F st.pass (noteGvar caller gv st).pass := by
  refine ⟨fun _ _ => rfl, fun gv2 f h => ?_, fun h => h⟩
  unfold noteGvar
  dsimp only
  rw [getD_amFind_amUpdate]
  split
  · exact mem_setInsert_of_mem _ _ _ h
  · exact h

theorem recordSink_stepKeeps (M : Module) (caller : Nat) (callsite : Value) (callee : Nat)
    (arg : Nat) (v : Value) (auxType : Int) (st : AnState) :
    StepKeeps caller st.pass (recordSink M caller callsite callee arg v auxType st).pass := by
  unfold recordSink
  dsimp only
  split
  · exact (updFlow_stepKeeps st.pass caller _ _).skTrans
      (noteGvar_stepKeeps caller caller (passThruGep v)
        { st with
          pass := updFlow st.pass caller (siteToken callee arg callsite auxType)
            (fun _ => (getTaintAsSingleSet st.taintOfVal v).1)
          taintOfVal := (getTaintAsSingleSet st.taintOfVal v).2 })
  · exact updFlow_stepKeeps st.pass caller _ _

theorem touchSinkCat_stepKeeps (F callee : Nat) (st : AnState) :
    StepKeeps F st.pass (touchSinkCat callee st).pass :=
  StepKeeps.skOfEq F rfl rfl rfl rfl

theorem recordSinks_stepKeeps (M : Module) (caller : Nat) (callsite : Value) (callee : Nat)
    (rest : List Value) (arg : Nat) (st : AnState) :
    StepKeeps caller st.pass (recordSinks M caller callsite callee arg rest st).pass := by
  induction rest generalizing arg st with
  | nil =>
    unfold recordSinks
    exact StepKeeps.skRefl _ _
  | cons v rest ih =>
    unfold recordSinks
    dsimp only
    split
    · exact touchSinkCat_stepKeeps caller callee st
    · split
      · exact (touchSinkCat_stepKeeps caller callee st).skTrans (ih _ _)
      · exact ((touchSinkCat_stepKeeps caller callee st).skTrans
          (recordSink_stepKeeps M caller callsite callee arg v _ _)).skTrans (ih _ _)

theorem noteUnknownExt_stepKeeps (M : Module) (F callee : Nat) (st : AnState) :
    StepKeeps F st.pass (noteUnknownExt M callee st).pass := by
  unfold noteUnknownExt
  split
  · exact StepKeeps.skRefl _ _
  · split
    · exact StepKeeps.skRefl _ _
    · exact StepKeeps.skOfEq F rfl rfl rfl rfl

theorem touchSrcCat_stepKeeps (F callee : Nat) (arg : Int) (st : AnState) :
    StepKeeps F st.pass (touchSrcCat callee arg st).pass :=
  StepKeeps.skOfEq F rfl rfl rfl rfl

theorem addSourceAt_stepKeeps (M : Module) (F caller : Nat) (v : Value) (src : SrcOrSink_t)
    (st : AnState) : StepKeeps F st.pass (addSourceAt M caller v src st).pass := by
  unfold addSourceAt
  dsimp only
  split
  · split
    · exact noteGvar_stepKeeps F caller (passThruGep v)
        { st with taintOfVal := (addTaint st.taintOfVal v src).2 }
    · exact StepKeeps.skRefl _ _
  · exact StepKeeps.skRefl _ _

theorem injectSource_stepKeeps (M : Module) (caller : Nat) (callsite : Value) (callee : Nat)
    (args : List Value) (st : AnState) (arg : Int) :
    StepKeeps caller st.pass (injectSource M caller callsite callee args st arg).pass := by
  unfold injectSource
  dsimp only
  have h0 := touchSrcCat_stepKeeps caller callee arg st
  split
  · exact h0
  · split
    · exact h0
    · split
      · exact h0
      · exact h0.skTrans (addSourceAt_stepKeeps M caller caller _ _ _)

theorem injectSources_stepKeeps (M : Module) (caller : Nat) (callsite : Value) (callee : Nat)
    (args : List Value) (st : AnState) :
    StepKeeps caller st.pass (injectSources M caller callsite callee args st).pass := by
  unfold injectSources
  exact foldl_stepKeeps caller _ (fun s x => injectSource_stepKeeps M caller _ _ _ s x) _ _

/-- Processing an instruction of `F` keeps the summaries of the other functions, the
functions recorded for the global variables and the well-formedness of the intern table. -/
theorem analyzeInst_stepKeeps (M : Module) (F : Nat) (st : AnState) (inst : Instruction) :
    StepKeeps F st.pass (analyzeInst M F st inst).pass := by
  unfold analyzeInst
  split
  · exact StepKeeps.skRefl _ _
  · exact StepKeeps.skRefl _ _
  · dsimp only
    rw [promoteFilenames_eq]
    split
    · refine ((?_ : StepKeeps F st.pass _).skTrans
        (recordSinks_stepKeeps M F inst.self _ _ 0 _)).skTrans
        ((noteUnknownExt_stepKeeps M F _ _).skTrans
          (injectSources_stepKeeps M F inst.self _ _ _))
      split
      · exact plugInSummary_stepKeeps _ _ _ _ _
      · exact StepKeeps.skRefl _ _
    · exact plugInSummary_stepKeeps _ _ _ _ _
  · exact StepKeeps.skRefl _ _
  · rw [normalInst_pass]
    exact StepKeeps.skRefl _ _
  · rw [normalInst_pass]
    exact StepKeeps.skRefl _ _
  · rw [normalInst_pass]
    exact StepKeeps.skRefl _ _

theorem onePass_stepKeeps (M : Module) (F : Nat) (st : AnState) :
    StepKeeps F st.pass (onePass M F st).pass := by
  unfold onePass
  exact foldl_stepKeeps F _ (fun s x => analyzeInst_stepKeeps M F s x) _ _

theorem fixLoop_stepKeeps (M : Module) (F : Nat) (fuel : Nat) (st : AnState) :
    StepKeeps F st.pass (fixLoop M F fuel st).pass := by
  induction fuel generalizing st with
  | zero => exact StepKeeps.skRefl _ _
  | succ n ih =>
    unfold fixLoop
    dsimp only
    split
    · exact onePass_stepKeeps M F st
    · exact (onePass_stepKeeps M F st).skTrans (ih _)

/-! ## What a call of `analyzeFunc` keeps of the pass object -/

theorem WorkListOK.add {w : WorkList} (h : WorkListOK w) (x : Option Nat) :
    WorkListOK (w.add x) := by
  unfold WorkList.add
  split
  · exact h
  · rename_i hx
    refine ⟨nodup_setInsert _ _ h.1, fun y hy => ?_⟩
    rcases (mem_setInsert_iff _ _ _).mp hy with h1 | h1
    · exact List.mem_append_left _ (h.2 y h1)
    · subst h1
      simp

theorem WorkList.self_mem_add (w : WorkList) (h : WorkListOK w) (x : Option Nat) :
    x ∈ (w.add x).workList := by
  unfold WorkList.add
  split
  · rename_i hx
    exact h.2 x hx
  · simp

theorem WorkListOK.pop {w w2 : WorkList} {item : Option Nat} (h : WorkListOK w)
    (hp : w.pop = some (item, w2)) :
    WorkListOK w2 ∧ w.workList = item :: w2.workList := by
  unfold WorkList.pop at hp
  split at hp
  · cases hp
  · rename_i it rest heq
    simp only [Option.some.injEq, Prod.mk.injEq] at hp
    obtain ⟨h1, h2⟩ := hp
    subst h1 h2
    refine ⟨⟨h.1.erase _, fun y hy => ?_⟩, heq⟩
    have hy2 := (List.Nodup.mem_erase_iff h.1).mp hy
    have := h.2 y hy2.2
    rw [heq] at this
    rcases List.mem_cons.mp this with h3 | h3
    · exact absurd h3 hy2.1
    · exact h3

/-- A loop that only calls `add` keeps the worklist well formed and loses no item. -/
theorem foldl_add_keeps {α : Type} (w0 : WorkList) (f : WorkList → α → WorkList)
    (hf : ∀ w a, f w a = w ∨ ∃ x, f w a = w.add x) (l : List α) (w : WorkList)
    (h : (WorkListOK w0 → WorkListOK w) ∧ ∀ y ∈ w0.workList, y ∈ w.workList) :
    (WorkListOK w0 → WorkListOK (l.foldl f w))
      ∧ ∀ y ∈ w0.workList, y ∈ (l.foldl f w).workList := by
  refine foldl_keeps (fun (w : WorkList) =>
    (WorkListOK w0 → WorkListOK w) ∧ ∀ y ∈ w0.workList, y ∈ w.workList) f
    (fun w a hw => ?_) l w h
  rcases hf w a with h1 | ⟨x, h1⟩
  · rw [h1]
    exact hw
  · rw [h1]
    exact ⟨fun h0 => (hw.1 h0).add x, fun y hy => WorkList.mem_add _ _ _ (hw.2 y hy)⟩

theorem requeue_inner_step (F : Nat) (callers : List Nat) (w : WorkList) (fn : Nat) :
    (if fn ∉ callers ∧ fn ≠ F then w.add (some fn) else w) = w
      ∨ ∃ x, (if fn ∉ callers ∧ fn ≠ F then w.add (some fn) else w) = w.add x := by
  split
  · exact Or.inr ⟨_, rfl⟩
  · exact Or.inl rfl

/-- The worklist of `requeue` is well formed when it was, and holds every item it held. -/
theorem requeue_worklist (F : Nat) (gvarSet : List Value) (p : TaintPass) :
    (WorkListOK p.funcWorkList → WorkListOK (requeue F gvarSet p).funcWorkList)
      ∧ ∀ y ∈ p.funcWorkList.workList, y ∈ (requeue F gvarSet p).funcWorkList.workList := by
  unfold requeue
  dsimp only
  have h1 := foldl_add_keeps p.funcWorkList (fun w (caller : Nat) => w.add (some caller))
    (fun w a => Or.inr ⟨_, rfl⟩) ((amFind p.callersOfFunc F).getD []) p.funcWorkList
    ⟨fun h => h, fun _ h => h⟩
  refine foldl_keeps (fun (w : WorkList) =>
    (WorkListOK p.funcWorkList → WorkListOK w) ∧ ∀ y ∈ p.funcWorkList.workList,
      y ∈ w.workList) _ (fun w gv hw => ?_) gvarSet _ h1
  exact foldl_add_keeps p.funcWorkList _
    (fun w a => requeue_inner_step F _ w a) _ w hw

/-- The function `requeue` puts every caller of `F` on the worklist. -/
theorem requeue_caller (F : Nat) (gvarSet : List Value) (p : TaintPass)
    (hw : WorkListOK p.funcWorkList) (c : Nat) (hc : c ∈ (amFind p.callersOfFunc F).getD []) :
    some c ∈ (requeue F gvarSet p).funcWorkList.workList := by
  have h1 : WorkListOK (((amFind p.callersOfFunc F).getD []).foldl
        (fun w caller => w.add (some caller)) p.funcWorkList)
      ∧ some c ∈ (((amFind p.callersOfFunc F).getD []).foldl
        (fun w caller => w.add (some caller)) p.funcWorkList).workList :=
    foldl_reach (fun (w : WorkList) (caller : Nat) => w.add (some caller))
      WorkListOK (fun w => WorkListOK w ∧ some c ∈ w.workList) _ c hc
      (fun w x _ hx => hx.add _)
      (fun w hx => ⟨hx.add _, WorkList.self_mem_add w hx _⟩)
      (fun w x hx => ⟨hx.1.add _, WorkList.mem_add _ _ _ hx.2⟩) _ hw
  unfold requeue
  dsimp only
  refine (foldl_keeps (fun (w : WorkList) => some c ∈ w.workList) _ (fun w gv hx => ?_)
    gvarSet _ h1.2)
  refine foldl_keeps (fun (w : WorkList) => some c ∈ w.workList) _ (fun w fn hx => ?_) _ _ hx
  split
  · exact WorkList.mem_add _ _ _ hx
  · exact hx

theorem getD_amFind_foldl_touch {K V : Type} [DecidableEq K] (d : V) (l : List K)
    (m : List (K × V)) (k : K) :
    (amFind (l.foldl (fun t gv => amUpdate d (fun s => s) t gv) m) k).getD d
      = (amFind m k).getD d := by
  induction l generalizing m with
  | nil => rfl
  | cons x l ih => rw [List.foldl_cons, ih, getD_amFind_touch]

theorem argSinks_frame (F : Nat) (rest : List Value) (ix : Nat)
    (acc : TaintPass × AliasedTaintMap) :
    (∃ fl, (argSinks F ix rest acc).1 = { acc.1 with funcFlowsBySink := fl })
      ∧ (∀ G, G ≠ F → summaryOf (argSinks F ix rest acc).1 G = summaryOf acc.1 G)
      ∧ ∀ G k, (amFind (summaryOf acc.1 G) k).isSome →
          (amFind (summaryOf (argSinks F ix rest acc).1 G) k).isSome := by
  induction rest generalizing ix acc with
  | nil =>
    unfold argSinks
    exact ⟨⟨_, rfl⟩, fun _ _ => rfl, fun _ _ h => h⟩
  | cons a rest ih =>
    unfold argSinks
    dsimp only
    obtain ⟨⟨fl, h1⟩, h2, h3⟩ := ih (ix + 1)
      (updFlow acc.1 F (sumToken F ix) (fun _ => (getTaintAsSingleSet acc.2 a).1),
        (getTaintAsSingleSet acc.2 a).2)
    refine ⟨⟨fl, by rw [h1]; rfl⟩, fun G hG => ?_, fun G k hk => ?_⟩
    · rw [h2 G hG, summaryOf_updFlow, if_neg hG]
    · refine h3 G k ?_
      rw [summaryOf_updFlow]
      split
      · rename_i hG
        subst hG
        exact isSome_amFind_amUpdate _ _ _ _ _ hk
      · exact hk

/-- The function `summarize` changes the summary of `F` only, and keeps its keys. -/
theorem summarize_frame (M : Module) (F : Nat) (p : TaintPass) (m : AliasedTaintMap) :
    (∃ fl, (summarize M F p m).1 = { p with funcFlowsBySink := fl })
      ∧ (∀ G, G ≠ F → summaryOf (summarize M F p m).1 G = summaryOf p G)
      ∧ (∀ G k, (amFind (summaryOf p G) k).isSome →
          (amFind (summaryOf (summarize M F p m).1 G) k).isSome)
      ∧ (amFind (summaryOf (summarize M F p m).1 F) (sumToken F RETVAL_CODE)).isSome
      ∧ SameReads m (summarize M F p m).2 := by
  unfold summarize
  dsimp only
  obtain ⟨⟨fl, h1⟩, h2, h3⟩ := argSinks_frame F (M.func F).args 0
    (updFlow p F (sumToken F RETVAL_CODE)
        (fun _ => (returnTaint (M.func F).insts ([], m)).1),
      (returnTaint (M.func F).insts ([], m)).2)
  refine ⟨⟨fl, by rw [h1]; rfl⟩, fun G hG => ?_, fun G k hk => ?_, ?_, ?_⟩
  · rw [h2 G hG, summaryOf_updFlow, if_neg hG]
  · refine h3 G k ?_
    rw [summaryOf_updFlow]
    split
    · rename_i hG
      subst hG
      exact isSome_amFind_amUpdate _ _ _ _ _ hk
    · exact hk
  · refine h3 F _ ?_
    rw [summaryOf_updFlow, if_pos rfl, amFind_amUpdate_self]
    rfl
  · exact (returnTaint_spec (M.func F).insts ([], m)).1.srTrans
      (argSinks_spec F (M.func F).args 0 _).1

theorem seedArgs_global (F : Nat) (rest : List Value) (ix : Int) (m : AliasedTaintMap)
    (x : Value) (t : SrcOrSink_t) (h : t ∈ readTaint true m x) :
    t ∈ readTaint true (seedArgs F ix rest m) x := by
  induction rest generalizing ix m with
  | nil => exact h
  | cons a rest ih =>
    unfold seedArgs
    exact ih _ _ ((addTaint_grows m a _).reads true x t h)

theorem requeue_runKeeps (F : Nat) (gvarSet : List Value) (p q : TaintPass)
    (h : RunKeeps F p q) : RunKeeps F p (requeue F gvarSet q) := by
  have hw := requeue_worklist F gvarSet q
  refine ⟨h.wrappers, h.copiers, h.srcCats, h.sinkCats, h.retCats, fun f => ?_,
    fun x hx => hw.2 x (h.workMem x hx), fun h0 => hw.1 (h.workOK h0), h.global, h.entries,
    ⟨h.step.others, fun gv f hf => ?_, h.step.scrinkInv⟩⟩
  · rw [← h.callers f]
    exact getD_amFind_touch _ _ _ _
  · have := h.step.fnsRef gv f hf
    unfold requeue
    dsimp only
    rw [getD_amFind_foldl_touch]
    exact this

/-- The state in which `analyzeFunc` leaves its fixpoint loop, compared with the pass
object it was called with. -/
theorem analyzeBody_frame (fuel : Nat) (M : Module) (p : TaintPass) (F : Nat) :
    PassKeeps p (analyzeBody fuel M p F).pass
      ∧ StepKeeps F p (analyzeBody fuel M p F).pass
      ∧ ∀ x t, t ∈ (amFind p.globalSrcTaintSet x).getD [] →
          t ∈ readTaint true (analyzeBody fuel M p F).taintOfVal x := by
  unfold analyzeBody
  have hg := fixLoop_grows M F fuel
    { pass := { p with funcFlowsBySink := amUpdate [] (fun summ => summ) p.funcFlowsBySink F }
      taintOfVal :=
        seedArgs F 0 (M.func F).args
          { globalSrcTaintSet := p.globalSrcTaintSet, baseTaintOf := [], aliasesOf := [] }
      gvarSet := [] }
  have hs := fixLoop_stepKeeps M F fuel
    { pass := { p with funcFlowsBySink := amUpdate [] (fun summ => summ) p.funcFlowsBySink F }
      taintOfVal :=
        seedArgs F 0 (M.func F).args
          { globalSrcTaintSet := p.globalSrcTaintSet, baseTaintOf := [], aliasesOf := [] }
      gvarSet := [] }
  refine ⟨(touchSummary_keeps p F).pkTrans hg.pass,
    (touchFlows_stepKeeps F p F).skTrans hs, fun x t ht => ?_⟩
  exact hg.taint.reads true x t (seedArgs_global F _ 0 _ x t ht)

/-- A call of `analyzeFunc`, with any number of passes granted to its fixpoint loop, keeps
the pass object as `RunKeeps` says. -/
theorem analyzeFuncWith_runKeeps (fuel : Nat) (M : Module) (p : TaintPass) (F : Nat) :
    RunKeeps F p (analyzeFuncWith fuel M p F) := by
  obtain ⟨hpk, hsk, hgl⟩ := analyzeBody_frame fuel M p F
  obtain ⟨⟨fl, hfl⟩, hso, hse, _, hsr⟩ := summarize_frame M F (analyzeBody fuel M p F).pass
    (analyzeBody fuel M p F).taintOfVal
  have h2 : RunKeeps F p
      { (summarize M F (analyzeBody fuel M p F).pass (analyzeBody fuel M p F).taintOfVal).1 with
        globalSrcTaintSet :=
          (summarize M F (analyzeBody fuel M p F).pass
            (analyzeBody fuel M p F).taintOfVal).2.globalSrcTaintSet } := by
    refine ⟨?_, ?_, ?_, ?_, ?_, ?_, ?_, ?_, ?_, ?_, ⟨?_, ?_, ?_⟩⟩
    · rw [hfl]
      exact hpk.wrappers
    · rw [hfl]
      exact hpk.copiers
    · rw [hfl]
      exact hpk.srcCats
    · rw [hfl]
      exact hpk.sinkCats
    · rw [hfl]
      exact hpk.retCats
    · intro f
      rw [hfl]
      dsimp only
      rw [hpk.callers]
    · intro x hx
      rw [hfl]
      dsimp only
      rw [hpk.worklist]
      exact hx
    · intro h0
      rw [hfl]
      dsimp only
      rw [hpk.worklist]
      exact h0
    · intro x t ht
      have := hgl x t ht
      rw [← hsr.2 true x] at this
      exact this
    · intro k hk
      exact hse F k (hpk.entries F k hk)
    · intro G hG
      exact (hso G hG).trans (hsk.others G hG)
    · intro gv f hf
      have := hsk.fnsRef gv f hf
      rw [hfl]
      exact this
    · intro h0
      have := hsk.scrinkInv h0
      intro t a ha
      rw [hfl] at ha ⊢
      exact this t a ha
  unfold analyzeFuncWith
  dsimp only
  split
  · exact h2
  · exact requeue_runKeeps F _ p _ h2

theorem analyzeFunc_runKeeps (M : Module) (p : TaintPass) (F : Nat) :
    RunKeeps F p (analyzeFunc M p F) :=
  analyzeFuncWith_runKeeps _ M p F

/-! ## A wrapper that calls itself (claim C26) -/

theorem isSome_amFind_iff {K V : Type} [DecidableEq K] (m : List (K × V)) (k : K) :
    (amFind m k).isSome ↔ k ∈ m.map Prod.fst := by
  induction m with
  | nil => simp [amFind]
  | cons e m ih =>
    obtain ⟨k2, v⟩ := e
    unfold amFind
    by_cases h : k2 = k
    · subst h
      simp
    · have h2 : ¬ k = k2 := fun h3 => h h3.symm
      simp only [if_neg h, ih, List.map_cons, List.mem_cons, h2, false_or]

/-- A call to a declared function with a sink argument leaves an entry under the concrete
sink in the summary of the caller. -/
theorem declaredCall_sink_key (M : Module) (F : Nat) (st : AnState) (k : Value) (ick : Bool)
    (G : Nat) (argsK : List Value) (a : Nat) (y : Value) (tbl : List Int)
    (hG : (M.func G).isDeclaration = true) (harg : argsK[a]? = some y)
    (htbl : (amFind st.pass.funcArgSinkCat G).getD [] = tbl)
    (hne : tbl ≠ []) (hsize : tbl.length ≤ 2 ^ 31) (hd : sinkCat tbl a ≠ AUX_TYPE_NULL) :
    (amFind (summaryOf (analyzeInst M F st ⟨k, .call ick (some G) argsK⟩).pass F)
      (siteToken G (a : Int) k (sinkCat tbl a))).isSome := by
  rw [analyzeInst_declared M F st k ick G argsK hG]
  have hg := atSinkLoop_grows M F st k G argsK
  have hspec := recordSinks_spec M F k G tbl hsize argsK 0 (atSinkLoop M F st k G argsK)
    (by rw [hg.pass.sinkCats]; exact htbl)
  have h1 := hspec.1 a y harg hne (by rw [Nat.zero_add]; exact hd)
  rw [Nat.zero_add] at h1
  refine ((noteUnknownExt_grows M G _).anTrans
    (injectSources_grows M F k G argsK _)).pass.entries F _ ?_
  rw [h1]
  rfl

/-- When `plugInSummary` processes a call site of a wrapper, every concrete sink of the
wrapper's summary is interned afterwards, and the caller's summary has an entry under the
token that wraps it. -/
theorem plugInSummary_wrap_key (caller : Nat) (C : Value) (W : Nat) (args : List Value)
    (st : AnState) (k : SrcOrSink_t) (S : List SrcOrSink_t)
    (hw : W ∈ st.pass.wrapperFuncs) (hentry : (k, S) ∈ summaryOf st.pass W)
    (hk : k.callsite ≠ none) (hinv : ScrinkInv st.pass) :
    ∃ a : Nat,
      amFind (plugInSummary caller C W args st).pass.scrinksInUse k = some a
        ∧ (plugInSummary caller C W args st).pass.scrinkHeap[a]? = some k
        ∧ (amFind (summaryOf (plugInSummary caller C W args st).pass caller)
            (wrapToken W C k a)).isSome := by
  unfold plugInSummary
  dsimp only
  have hl : (k, S)
      ∈ (amFind (amUpdate [] (fun summ => summ) st.pass.funcFlowsBySink W) W).getD [] := by
    rw [getD_amFind_touch]
    exact hentry
  obtain ⟨l1, l2, hsplit⟩ := List.append_of_mem hl
  rw [hsplit, List.foldl_append, List.foldl_cons]
  generalize hs1 : List.foldl (plugEntry caller C W args)
    ({ st with pass := { st.pass with
        funcFlowsBySink := amUpdate [] (fun summ => summ) st.pass.funcFlowsBySink W } } : AnState)
    l1 = s1
  have hg1 : AnGrows
      ({ st with pass := { st.pass with
        funcFlowsBySink := amUpdate [] (fun summ => summ) st.pass.funcFlowsBySink W } } : AnState)
      s1 := by
    rw [← hs1]
    exact foldl_AnGrows _ (fun s e => plugEntry_grows _ _ _ _ s e) _ _
  have hinv1 : ScrinkInv s1.pass := by
    rw [← hs1]
    refine foldl_keeps (fun s => ScrinkInv s.pass) _
      (fun s x hs => plugEntry_inv _ _ _ _ s x hs) _ _ ?_
    exact hinv
  have hw1 : W ∈ s1.pass.wrapperFuncs := by
    rw [hg1.pass.wrappers]
    exact hw
  obtain ⟨a, ha1, ha2, ha3⟩ :=
    plugEntry_wrapper_entry caller C W args s1 (k, S) hw1 hk hinv1
  have hg2 : AnGrows (plugEntry caller C W args s1 (k, S))
      (List.foldl (plugEntry caller C W args) (plugEntry caller C W args s1 (k, S)) l2) :=
    foldl_AnGrows _ (fun s e => plugEntry_grows _ _ _ _ s e) _ _
  exact ⟨a, hg2.pass.scrinks _ _ ha1, hg2.pass.heap _ _ ha2, hg2.pass.entries _ _ ha3⟩

theorem fixLoop_from_onePass (M : Module) (F : Nat) (n : Nat) (st : AnState) :
    AnGrows (onePass M F st) (fixLoop M F (n + 1) st) := by
  unfold fixLoop
  dsimp only
  split
  · exact AnGrows.anRefl _
  · exact fixLoop_grows M F n _

/-- What the end of `analyzeFunc` keeps of the state in which the fixpoint loop is left:
the intern table and the keys of every summary. -/
theorem analyzeFuncWith_tail (fuel : Nat) (M : Module) (p : TaintPass) (F : Nat) :
    (analyzeFuncWith fuel M p F).scrinksInUse = (analyzeBody fuel M p F).pass.scrinksInUse
      ∧ (analyzeFuncWith fuel M p F).scrinkHeap = (analyzeBody fuel M p F).pass.scrinkHeap
      ∧ ∀ G key, (amFind (summaryOf (analyzeBody fuel M p F).pass G) key).isSome →
          (amFind (summaryOf (analyzeFuncWith fuel M p F) G) key).isSome := by
  obtain ⟨⟨fl, hfl⟩, _, hse, _, _⟩ := summarize_frame M F (analyzeBody fuel M p F).pass
    (analyzeBody fuel M p F).taintOfVal
  unfold analyzeFuncWith
  dsimp only
  split
  · refine ⟨by rw [hfl], by rw [hfl], fun G key hk => ?_⟩
    exact hse G key hk
  · refine ⟨?_, ?_, fun G key hk => ?_⟩
    · show (summarize M F _ _).1.scrinksInUse = _
      rw [hfl]
    · show (summarize M F _ _).1.scrinkHeap = _
      rw [hfl]
    · exact hse G key hk

/-- After `analyzeFunc` on a wrapper that calls itself, its summary has an entry under the
concrete sink of its body, and for every concrete sink that was a key before, and for the
sink of the body, an entry under the token that the self call wraps around it. -/
theorem selfWrap_keys {M : Module} {W G : Nat} {k c y : Value} {a : Nat}
    {argsK argsC : List Value} {ick : Bool} {tbl : List Int} {L1 L2 L3 : List Instruction}
    (h : WrapperLoop M W G k c y a argsK argsC ick tbl L1 L2 L3) (p : TaintPass)
    (hw : W ∈ p.wrapperFuncs) (htbl : (amFind p.funcArgSinkCat G).getD [] = tbl)
    (hinv : ScrinkInv p) (n : Nat) :
    (amFind (summaryOf (analyzeFuncWith (n + 1) M p W) W)
        (siteToken G (a : Int) k (sinkCat tbl a))).isSome
      ∧ ∀ key : SrcOrSink_t,
          ((amFind (summaryOf p W) key).isSome ∨ key = siteToken G (a : Int) k (sinkCat tbl a)) →
          key.callsite ≠ none →
          ∃ ad : Nat, amFind (analyzeFuncWith (n + 1) M p W).scrinksInUse key = some ad
            ∧ (analyzeFuncWith (n + 1) M p W).scrinkHeap[ad]? = some key
            ∧ (amFind (summaryOf (analyzeFuncWith (n + 1) M p W) W)
                (wrapToken W c key ad)).isSome := by
  obtain ⟨t1, t2, t3⟩ := analyzeFuncWith_tail (n + 1) M p W
  -- the state in which the fixpoint loop is entered
  generalize hst0 : analyzeBody 0 M p W = st0
  have hbody : analyzeBody (n + 1) M p W = fixLoop M W (n + 1) st0 := by
    rw [← hst0]
    rfl
  have hpk0 : PassKeeps p st0.pass := by
    rw [← hst0]
    exact (analyzeBody_frame 0 M p W).1
  have hinv0 : ScrinkInv st0.pass := by
    rw [← hst0]
    exact (analyzeBody_frame 0 M p W).2.1.scrinkInv hinv
  have hgF := fixLoop_from_onePass M W n st0
  rw [hbody] at t1 t2 t3
  -- one pass over the body
  have hone : onePass M W st0
      = L3.foldl (analyzeInst M W)
          (analyzeInst M W
            (L2.foldl (analyzeInst M W)
              (analyzeInst M W (L1.foldl (analyzeInst M W) st0)
                ⟨k, .call ick (some G) argsK⟩))
            ⟨c, .call true (some W) argsC⟩) := by
    unfold onePass
    rw [h.order, List.foldl_append, List.foldl_cons, List.foldl_append, List.foldl_cons]
  generalize hsA : L1.foldl (analyzeInst M W) st0 = sA at hone
  have gA : AnGrows st0 sA := by
    rw [← hsA]
    exact foldl_AnGrows _ (fun s i => analyzeInst_grows M W s i) _ _
  have invA : ScrinkInv sA.pass := by
    rw [← hsA]
    exact foldl_keeps (fun (s : AnState) => ScrinkInv s.pass) _
      (fun s i hs => (analyzeInst_stepKeeps M W s i).scrinkInv hs) _ _ hinv0
  have hkey := declaredCall_sink_key M W sA k ick G argsK a y tbl h.sinkDeclared h.sinkArg
    (by rw [gA.pass.sinkCats, hpk0.sinkCats]; exact htbl) h.sinkTable.1 h.sinkTable.2
    h.sinkDeclaredAt
  have gB := analyzeInst_grows M W sA ⟨k, .call ick (some G) argsK⟩
  have invB := (analyzeInst_stepKeeps M W sA ⟨k, .call ick (some G) argsK⟩).scrinkInv invA
  generalize hsB : analyzeInst M W sA ⟨k, .call ick (some G) argsK⟩ = sB at hone hkey gB invB
  generalize hsC : L2.foldl (analyzeInst M W) sB = sC at hone
  have gC : AnGrows sB sC := by
    rw [← hsC]
    exact foldl_AnGrows _ (fun s i => analyzeInst_grows M W s i) _ _
  have invC : ScrinkInv sC.pass := by
    rw [← hsC]
    exact foldl_keeps (fun (s : AnState) => ScrinkInv s.pass) _
      (fun s i hs => (analyzeInst_stepKeeps M W s i).scrinkInv hs) _ _ invB
  have hwC : W ∈ sC.pass.wrapperFuncs := by
    rw [gC.pass.wrappers, gB.pass.wrappers, gA.pass.wrappers, hpk0.wrappers]
    exact hw
  have hcall : analyzeInst M W sC ⟨c, .call true (some W) argsC⟩
      = plugInSummary W c W argsC sC := by
    unfold analyzeInst
    simp only [h.body, Bool.false_eq_true, if_false]
    rw [promoteFilenames_eq]
  rw [hcall] at hone
  have gE : AnGrows (plugInSummary W c W argsC sC) (onePass M W st0) := by
    rw [hone]
    exact foldl_AnGrows _ (fun s i => analyzeInst_grows M W s i) _ _
  have gDF := gE.anTrans hgF
  have gCF := (plugInSummary_grows W c W argsC sC).anTrans gDF
  refine ⟨t3 W _ (gCF.pass.entries W _ (gC.pass.entries W _ hkey)), fun key hkeyIn hcs => ?_⟩
  have hin : (amFind (summaryOf sC.pass W) key).isSome := by
    rcases hkeyIn with h1 | h1
    · exact gC.pass.entries W _ (gB.pass.entries W _ (gA.pass.entries W _
        (hpk0.entries W _ h1)))
    · rw [h1]
      exact gC.pass.entries W _ hkey
  obtain ⟨S, hS⟩ := Option.isSome_iff_exists.mp hin
  obtain ⟨ad, h1, h2, h3⟩ := plugInSummary_wrap_key W c W argsC sC key S hwC
    (mem_of_amFind _ _ _ hS) hcs invC
  refine ⟨ad, ?_, ?_, t3 W _ (gDF.pass.entries W _ h3)⟩
  · rw [t1]
    exact gDF.pass.scrinks _ _ h1
  · rw [t2]
    exact gDF.pass.heap _ _ h2

/-- Every `analyzeFunc` on a wrapper that calls itself adds a key to its summary: the
wrapping tokens of the concrete sinks are as many as the concrete sinks, all different from
the sink of the body, which is a key as well. -/
theorem selfWrap_new_key {M : Module} {W G : Nat} {k c y : Value} {a : Nat}
    {argsK argsC : List Value} {ick : Bool} {tbl : List Int} {L1 L2 L3 : List Instruction}
    (h : WrapperLoop M W G k c y a argsK argsC ick tbl L1 L2 L3) (p : TaintPass)
    (hw : W ∈ p.wrapperFuncs) (htbl : (amFind p.funcArgSinkCat G).getD [] = tbl)
    (hinv : ScrinkInv p) (n : Nat) :
    ∃ key : SrcOrSink_t,
      (amFind (summaryOf (analyzeFuncWith (n + 1) M p W) W) key).isSome
        ∧ amFind (summaryOf p W) key = none := by
  obtain ⟨hk0, hwrap⟩ := selfWrap_keys h p hw htbl hinv n
  by_contra hcon
  have hold : ∀ key, (amFind (summaryOf (analyzeFuncWith (n + 1) M p W) W) key).isSome →
      (amFind (summaryOf p W) key).isSome := by
    intro key hkey
    by_contra hn
    exact hcon ⟨key, hkey, by
      cases hf : amFind (summaryOf p W) key with
      | none => rfl
      | some v =>
        rw [hf] at hn
        exact absurd rfl hn⟩
  have hmemD : ∀ key, key ∈ (((summaryOf p W).map Prod.fst).toFinset.filter
      (fun key => key.callsite ≠ none))
      ↔ (amFind (summaryOf p W) key).isSome ∧ key.callsite ≠ none := by
    intro key
    rw [Finset.mem_filter, List.mem_toFinset, isSome_amFind_iff]
  have hk0D : siteToken G (a : Int) k (sinkCat tbl a)
      ∈ (((summaryOf p W).map Prod.fst).toFinset.filter (fun key => key.callsite ≠ none)) :=
    (hmemD _).mpr ⟨hold _ hk0, by simp [siteToken]⟩
  have hmaps : ∀ key ∈ (((summaryOf p W).map Prod.fst).toFinset.filter
      (fun key => key.callsite ≠ none)),
      wrapToken W c key ((amFind (analyzeFuncWith (n + 1) M p W).scrinksInUse key).getD 0)
        ∈ (((summaryOf p W).map Prod.fst).toFinset.filter
            (fun key => key.callsite ≠ none)).erase (siteToken G (a : Int) k (sinkCat tbl a)) := by
    intro key hkey
    obtain ⟨h1, h2⟩ := (hmemD key).mp hkey
    obtain ⟨ad, h3, _, h5⟩ := hwrap key (Or.inl h1) h2
    rw [h3]
    refine Finset.mem_erase.mpr ⟨fun heq => ?_, (hmemD _).mpr ⟨hold _ h5, by simp [wrapToken]⟩⟩
    have := congrArg SrcOrSink_t.wrapped heq
    simp [wrapToken, siteToken] at this
  have hinj : Set.InjOn
      (fun key => wrapToken W c key
        ((amFind (analyzeFuncWith (n + 1) M p W).scrinksInUse key).getD 0))
      (((summaryOf p W).map Prod.fst).toFinset.filter
        (fun key => key.callsite ≠ none) : Finset SrcOrSink_t) := by
    intro k1 hk1 k2 hk2 heq
    obtain ⟨h1, h2⟩ := (hmemD k1).mp (Finset.mem_coe.mp hk1)
    obtain ⟨g1, g2⟩ := (hmemD k2).mp (Finset.mem_coe.mp hk2)
    obtain ⟨a1, h3, h4, _⟩ := hwrap k1 (Or.inl h1) h2
    obtain ⟨a2, g3, g4, _⟩ := hwrap k2 (Or.inl g1) g2
    dsimp only at heq
    rw [h3, g3] at heq
    have ha : a1 = a2 := by
      have := congrArg SrcOrSink_t.wrapped heq
      simpa [wrapToken] using this
    subst ha
    rw [h4] at g4
    exact Option.some.inj g4
  have hle := Finset.card_le_card_of_injOn _ hmaps hinj
  have hlt := Finset.card_erase_lt_of_mem hk0D
  omega

theorem summaryEq_of_new_key (old new : Summary) (key : SrcOrSink_t)
    (hnew : (amFind new key).isSome) (hold : amFind old key = none) :
    summaryEq old new = false := by
  obtain ⟨v, hv⟩ := Option.isSome_iff_exists.mp hnew
  have hmem := mem_of_amFind _ _ _ hv
  unfold summaryEq
  rw [Bool.and_eq_false_iff]
  right
  rw [List.all_eq_false]
  exact ⟨(key, v), hmem, by simp [hold]⟩

/-- A call of `analyzeFunc` on a wrapper that calls itself, made with a well-formed
worklist and intern table, ends with the wrapper on the worklist again. -/
theorem selfWrap_requeued {M : Module} {W G : Nat} {k c y : Value} {a : Nat}
    {argsK argsC : List Value} {ick : Bool} {tbl : List Int} {L1 L2 L3 : List Instruction}
    (h : WrapperLoop M W G k c y a argsK argsC ick tbl L1 L2 L3) (p : TaintPass)
    (hw : W ∈ p.wrapperFuncs) (htbl : (amFind p.funcArgSinkCat G).getD [] = tbl)
    (hinv : ScrinkInv p) (hself : W ∈ (amFind p.callersOfFunc W).getD [])
    (hwl : WorkListOK p.funcWorkList) (n : Nat) :
    some W ∈ (analyzeFuncWith (n + 1) M p W).funcWorkList.workList := by
  obtain ⟨key, hk1, hk2⟩ := selfWrap_new_key h p hw htbl hinv n
  obtain ⟨hpk, _, _⟩ := analyzeBody_frame (n + 1) M p W
  obtain ⟨⟨fl, hfl⟩, _, _, _, _⟩ := summarize_frame M W (analyzeBody (n + 1) M p W).pass
    (analyzeBody (n + 1) M p W).taintOfVal
  have hflows := analyzeFuncWith_flows (n + 1) M p W
  have hne : summaryEq ((amFind p.funcFlowsBySink W).getD [])
      ((amFind (summarize M W (analyzeBody (n + 1) M p W).pass
        (analyzeBody (n + 1) M p W).taintOfVal).1.funcFlowsBySink W).getD []) = false := by
    refine summaryEq_of_new_key _ _ key ?_ hk2
    unfold summaryOf at hk1
    rw [hflows] at hk1
    exact hk1
  unfold analyzeFuncWith
  dsimp only
  rw [hne]
  simp only [Bool.false_eq_true, if_false]
  refine requeue_caller W _ _ ?_ W ?_
  · show WorkListOK (summarize M W _ _).1.funcWorkList
    rw [hfl]
    dsimp only
    rw [hpk.worklist]
    exact hwl
  · show W ∈ (amFind (summarize M W _ _).1.callersOfFunc W).getD []
    rw [hfl]
    dsimp only
    rw [hpk.callers]
    exact hself

/-! ## The worklist loop with a wrapper that calls itself -/

theorem analyzeFunc_succ (M : Module) (p : TaintPass) (F : Nat) :
    ∃ n, analyzeFunc M p F = analyzeFuncWith (n + 1) M p F :=
  ⟨_, rfl⟩

/-- One pass through the worklist loop, from a state in which the items of the worklist are
an item `item` followed by the worklist `w2`. -/
theorem driverStep_of_pop (M : Module) (p : TaintPass) (item : Option Nat) (w2 : WorkList) :
    p.funcWorkList.pop = some (item, w2) →
    driverStep M p
      = some (match item with
        | none => { p with funcWorkList := if !w2.empty then w2.add none else w2 }
        | some F => analyzeFunc M { p with funcWorkList := w2 } F) := by
  intro hp
  unfold driverStep
  rw [hp]
  cases item <;> rfl

theorem WorkList.pop_of_mem (w : WorkList) (x : Option Nat) (h : x ∈ w.workList) :
    ∃ item w2, w.pop = some (item, w2) := by
  unfold WorkList.pop
  cases hl : w.workList with
  | nil =>
    rw [hl] at h
    simp at h
  | cons it rest => exact ⟨_, _, rfl⟩

/-- While a wrapper that calls itself waits on the worklist, the worklist loop makes another
pass, after which the wrapper waits on the worklist again. -/
theorem driverStep_pending {M : Module} {W G : Nat} {k c y : Value} {a : Nat}
    {argsK argsC : List Value} {ick : Bool} {tbl : List Int} {L1 L2 L3 : List Instruction}
    (h : WrapperLoop M W G k c y a argsK argsC ick tbl L1 L2 L3) (p : TaintPass)
    (hp : WrapperPending W G tbl p) :
    ∃ q, driverStep M p = some q ∧ WrapperPending W G tbl q := by
  obtain ⟨item, w2, hpop⟩ := WorkList.pop_of_mem _ _ hp.pending
  obtain ⟨hok2, hlist⟩ := WorkListOK.pop ⟨hp.setNodup, hp.setList⟩ hpop
  rw [driverStep_of_pop M p item w2 hpop]
  refine ⟨_, rfl, ?_⟩
  have hpend := hp.pending
  rw [hlist] at hpend
  cases item with
  | none =>
    have hW2 : some W ∈ w2.workList := by
      rcases List.mem_cons.mp hpend with h1 | h1
      · cases h1
      · exact h1
    dsimp only
    split
    · exact ⟨hp.wrapper, hp.table, hp.selfCaller, hp.scrinks, (hok2.add none).1,
        (hok2.add none).2, WorkList.mem_add _ _ _ hW2⟩
    · exact ⟨hp.wrapper, hp.table, hp.selfCaller, hp.scrinks, hok2.1, hok2.2, hW2⟩
  | some F =>
    dsimp only
    have hrk := analyzeFunc_runKeeps M { p with funcWorkList := w2 } F
    have hok := hrk.workOK hok2
    refine ⟨by rw [hrk.wrappers]; exact hp.wrapper, by rw [hrk.sinkCats]; exact hp.table,
      by rw [hrk.callers]; exact hp.selfCaller, hrk.step.scrinkInv hp.scrinks, hok.1, hok.2,
      ?_⟩
    by_cases hF : F = W
    · subst hF
      obtain ⟨n, hn⟩ := analyzeFunc_succ M { p with funcWorkList := w2 } F
      rw [hn]
      exact selfWrap_requeued h { p with funcWorkList := w2 } hp.wrapper hp.table hp.scrinks
        hp.selfCaller hok2 n
    · refine hrk.workMem _ ?_
      rcases List.mem_cons.mp hpend with h1 | h1
      · exact absurd (Option.some.inj h1).symm hF
      · exact h1

/-- The part of `run` before the worklist loop leaves a well-formed worklist that holds
every function with a body. -/
theorem startWorkList_workOK (M : Module) (p : TaintPass) (hw : WorkListOK p.funcWorkList) :
    WorkListOK (startWorkList M p).funcWorkList
      ∧ ∀ F, F < M.funcs.length → (M.func F).isDeclaration = false →
          some F ∈ (startWorkList M p).funcWorkList.workList := by
  have hlink : ∀ (l : List Nat) (st : SchedState), WorkListOK st.pass.funcWorkList →
      WorkListOK (l.foldl (linkCallers M) st).pass.funcWorkList := by
    intro l st hst
    refine foldl_keeps (fun (s : SchedState) => WorkListOK s.pass.funcWorkList) _
      (fun s F hs => ?_) l st hst
    unfold linkCallers
    split
    · exact hs
    · exact hs
  have hfunc : ∀ (s : SchedState × Bool) (f : Nat), WorkListOK s.1.pass.funcWorkList →
      WorkListOK (scheduleFunc s f).1.pass.funcWorkList := by
    intro s f hs
    unfold scheduleFunc
    split
    · exact hs
    · split
      · exact hs.add _
      · exact hs
  have hrounds : ∀ (n : Nat) (st : SchedState), WorkListOK st.pass.funcWorkList →
      WorkListOK (scheduleRounds n st).pass.funcWorkList := by
    intro n
    induction n with
    | zero => intro st hst; exact hst
    | succ n ih =>
      intro st hst
      have hr : WorkListOK (scheduleRound st).1.pass.funcWorkList := by
        unfold scheduleRound
        exact foldl_keeps (fun (s : SchedState × Bool) => WorkListOK s.1.pass.funcWorkList) _
          (fun s f hs => hfunc s f hs) _ _ hst
      unfold scheduleRounds
      dsimp only
      split
      · exact hr
      · exact ih _ hr
  have h2 : WorkListOK (scheduleRounds 20
      ((List.range M.funcs.length).foldl (linkCallers M)
        { pass := { p with funcWorkList := p.funcWorkList.add none },
          calleesOfFunc := (List.range M.funcs.length).map (fun f => (f, [])) })).pass.funcWorkList :=
    hrounds 20 _ (hlink _ _ (hw.add none))
  unfold startWorkList
  dsimp only
  constructor
  · refine foldl_keeps (fun (q : TaintPass) => WorkListOK q.funcWorkList) _
      (fun q F hq => ?_) _ _ h2
    split
    · exact hq
    · exact hq.add _
  · intro F hF hd
    exact (foldl_reach
      (fun (q : TaintPass) (F : Nat) =>
        if (M.func F).isDeclaration then q
        else { q with funcWorkList := q.funcWorkList.add (some F) })
      (fun q => WorkListOK q.funcWorkList)
      (fun q => WorkListOK q.funcWorkList ∧ some F ∈ q.funcWorkList.workList)
      (List.range M.funcs.length) F (List.mem_range.mpr hF)
      (fun q x _ hq => by
        dsimp only
        split
        · exact hq
        · exact hq.add _)
      (fun q hq => by
        dsimp only
        rw [hd]
        simp only [Bool.false_eq_true, if_false]
        exact ⟨hq.add _, WorkList.self_mem_add _ hq _⟩)
      (fun q x hq => by
        dsimp only
        split
        · exact hq
        · exact ⟨hq.1.add _, WorkList.mem_add _ _ _ hq.2⟩) _ h2).2

/-- In a module with a wrapper that calls itself after passing a value to a sink, the
worklist loop of `run` never finds its worklist empty: after any number of passes the
wrapper is waiting on the worklist and another pass is made. -/
theorem selfWrapper_driver_runs {M : Module} {W G : Nat} {k c y : Value} {a : Nat}
    {argsK argsC : List Value} {ick : Bool} {tbl : List Int} {L1 L2 L3 : List Instruction}
    (h : WrapperLoop M W G k c y a argsK argsC ick tbl L1 L2 L3) (p : TaintPass)
    (hw : W ∈ p.wrapperFuncs) (htbl : (amFind p.funcArgSinkCat G).getD [] = tbl)
    (hinv : ScrinkInv p) (hwl : WorkListOK p.funcWorkList) (n : Nat) :
    WrapperPending W G tbl (driverLoop M n (startWorkList M p))
      ∧ (driverStep M (driverLoop M n (startWorkList M p))).isSome := by
  have hstart : WrapperPending W G tbl (startWorkList M p) := by
    obtain ⟨w, cs, hs⟩ := startWorkList_frame M p
    obtain ⟨h1, h2⟩ := startWorkList_workOK M p hwl
    refine ⟨by rw [hs]; exact hw, by rw [hs]; exact htbl, ?_, by rw [hs]; exact hinv,
      h1.1, h1.2, h2 W h.inModule h.body⟩
    rw [startWorkList_callers M p W h.inModule h.body]
    unfold findCallers
    refine List.mem_filter.mpr ⟨List.mem_range.mpr h.inModule, ?_⟩
    rw [List.any_eq_true]
    refine ⟨⟨c, .call true (some W) argsC⟩, by rw [h.order]; simp, ?_⟩
    simp [usesFunction]
  have hall : ∀ (n : Nat) (q : TaintPass), WrapperPending W G tbl q →
      WrapperPending W G tbl (driverLoop M n q) := by
    intro n
    induction n with
    | zero => intro q hq; exact hq
    | succ n ih =>
      intro q hq
      obtain ⟨q2, h1, h2⟩ := driverStep_pending h q hq
      unfold driverLoop
      rw [h1]
      exact ih q2 h2
  have hn := hall n _ hstart
  obtain ⟨q2, h1, _⟩ := driverStep_pending h _ hn
  exact ⟨hn, by rw [h1]; rfl⟩

/-- Claim C26, the code at a failing input: in `wrapLoopModule` the wrapper `relay` passes
its parameter to the sink `sendout` and then calls itself; with `wrapLoopPass` loaded, the
worklist loop of `run` makes another pass after every number of passes, `relay` being on
the worklist each time, and the first analyses of `relay` leave its summary with 4 and then
5 keys. -/
theorem C26_self_wrapper_never_stops :
    (∀ n : Nat,
        (driverStep wrapLoopModule
          (driverLoop wrapLoopModule n (startWorkList wrapLoopModule wrapLoopPass))).isSome
        ∧ some 1 ∈ (driverLoop wrapLoopModule n
            (startWorkList wrapLoopModule wrapLoopPass)).funcWorkList.workList)
      ∧ (summaryOf (driverLoop wrapLoopModule 3
          (startWorkList wrapLoopModule wrapLoopPass)) 1).length = 4
      ∧ (summaryOf (driverLoop wrapLoopModule 5
          (startWorkList wrapLoopModule wrapLoopPass)) 1).length = 5 := by
  have h : WrapperLoop wrapLoopModule 1 0 (.other 10) (.other 11) (.other 1) 0 [.other 1]
      [.other 1] true [1] [] [] [⟨.other 12, .ret none⟩] :=
    ⟨by decide, by decide, by decide, by decide, by decide, ⟨by decide, by norm_num⟩,
      by decide⟩
  refine ⟨fun n => ?_, by decide, by decide⟩
  have := selfWrapper_driver_runs h wrapLoopPass (by decide) (by decide)
    (fun t a ha => by simp [wrapLoopPass, TaintPass.fresh, amFind] at ha)
    ⟨by decide, by decide⟩ n
  exact ⟨this.2, this.1.pending⟩

/-! ## Taint through a global variable, from one function to another -/

end DMC
